import Mathlib

/-!
Fused: the in-memory backend store (memfs.go), its ordered entry map (listmap.go)
and the protocol adapter (fuseerror.go, fs.go, fusenode.go, fusehandle.go)

A shallow embedding of the Go sources.

Representation choices, fixed once for the whole development:

* A pointer to an inode is the key under which the inode table holds it: the
  table `map[uint64]*MemInode` becomes a function from keys to inode values,
  each key owning its own object.  A mutation through a pointer is written back
  under that key.
* `time.Now()` is an input: every backend call receives the instant `now` that
  its clock reads return.
* In the functions that compute results and stores one goroutine runs.
  Locking an inode mutex that the running call already holds never returns
  (`Res.deadlock`); a nil dereference or a slice access out of range is
  `Res.panic`.
* The mutex calls of a backend call are a program of `LockEvent`s read off the
  same source lines; goroutines that run such programs are interleaved by
  `runSchedule`.
* `nlink` and `count` are `uint32`: increments and decrements wrap modulo
  `4294967296` (2 to the power 32).  The allocator `inoNextFree` is a `uint64`
  that only grows by one per created inode; it is a natural number here (it
  cannot wrap in fewer than 2 to the power 64 creations).
-/

namespace Fused

set_option linter.unusedSectionVars false

/-! ## Error numbers -/

/-- Error codes of `syscall.Errno` that the backend and the adapter use. -/
inductive Errno where
  | ENOENT | EEXIST | EINVAL | EPERM | EISDIR | ENOTDIR | ENOTEMPTY
  | ENOSYS | EACCES | EBADF | EIO
  deriving DecidableEq, Repr

/-! ## File modes (Go package `os`) -/

/-- Go `os.FileMode`, a `uint32` bit set. -/
abbrev FileMode := Nat

/-- Go `os.ModeDir`: bit 31. -/
def ModeDir : FileMode := 0x80000000

/-- Go `os.ModeType`:
`ModeDir | ModeSymlink | ModeNamedPipe | ModeSocket | ModeDevice | ModeCharDevice | ModeIrregular`. -/
def ModeType : FileMode :=
  0x80000000 ||| 0x8000000 ||| 0x2000000 ||| 0x1000000 ||| 0x4000000 ||| 0x200000 |||
    0x80000

/-- The test `mode&os.ModeDir != 0`, also the body of `FileMode.IsDir`. -/
def IsDir (mode : FileMode) : Bool := mode &&& ModeDir != 0

/-- Source: `modeType` in memfs.go. -/
def modeType (mode : FileMode) : FileMode := mode &&& ModeType

/-- Instants returned by `time.Now()`. -/
abbrev Time := Nat

/-- Increment of a `uint32`. -/
def inc32 (n : Nat) : Nat := (n + 1) % 4294967296

/-- Decrement of a `uint32`: `0 - 1` wraps to `4294967295`. -/
def dec32 (n : Nat) : Nat :=
  if n % 4294967296 = 0 then 4294967295 else n % 4294967296 - 1

/-! ## Ordered entry map (listmap.go) -/

/-- The `ListMap` of listmap.go: the Go map `entries` (the stored `val` of each
`listMapValue`) and the linked list `keys`.  The `element` pointer kept in a
`listMapValue` designates the occurrence of the key in `keys`. -/
structure ListMap (K V : Type) where
  entries : K → Option V
  keys : List K

namespace ListMap

variable {K V : Type} [DecidableEq K]

/-- Source: `NewListMap` / `Init` on a new map. -/
def NewListMap : ListMap K V := { entries := fun _ => none, keys := [] }

/-- Assignment `m[k] = v` / `delete(m, k)` on the Go map. -/
def setEntry (m : K → Option V) (k : K) (v : Option V) : K → Option V :=
  fun j => if j = k then v else m j

/-- Source: `(*ListMap).Put`. -/
def Put (t : ListMap K V) (key : K) (value : V) : ListMap K V :=
  if (t.entries key).isSome then
    { entries := setEntry t.entries key (some value), keys := t.keys }
  else
    { entries := setEntry t.entries key (some value), keys := t.keys ++ [key] }

/-- Source: `(*ListMap).Delete`. -/
def Delete (t : ListMap K V) (key : K) : ListMap K V :=
  if (t.entries key).isSome then
    { entries := setEntry t.entries key none, keys := t.keys.erase key }
  else t

/-- Source: `(*ListMap).Get`; `none` is the nil result. -/
def Get (t : ListMap K V) (key : K) : Option V := t.entries key

/-- Source: `(*ListMap).Contains`. -/
def Contains (t : ListMap K V) (key : K) : Bool := (t.entries key).isSome

/-- Source: `(*ListMap).Len`. -/
def Len (t : ListMap K V) : Nat := t.keys.length

/-- Source: `(*ListMap).Keys`. -/
def Keys (t : ListMap K V) : List K := t.keys

/-- Source: `(*ListMap).Values`; a key without entry yields the nil value `none`. -/
def Values (t : ListMap K V) : List (Option V) := t.keys.map t.entries

/-- The key list and the entry map are in step. -/
structure WF (t : ListMap K V) : Prop where
  nodup : t.keys.Nodup
  mem_iff : ∀ k, k ∈ t.keys ↔ (t.entries k).isSome = true

end ListMap

/-! ## Directory entries, inodes, the store -/

/-- Source: `Dirent` (fields used by memfs.go); `Typ` is the Go field `Type`. -/
structure Dirent where
  Ino : Nat
  Name : String
  Typ : FileMode
  deriving DecidableEq, Repr

/-- Source: `MemInode` in memfs.go (the back pointer `fs` and the mutex are
carried by the functions below). -/
structure MemInode where
  ino : Nat
  nlink : Nat
  count : Nat
  mode : FileMode
  atime : Time
  mtime : Time
  ctime : Time
  crtime : Time
  dirents : ListMap String Dirent
  data : List Nat

/-- Source: `MemFS` in memfs.go. -/
structure MemFS where
  inoNextFree : Nat
  itable : Nat → Option MemInode

/-- Source: the `Stat` record built by `(*MemInode).Stat`. -/
structure Stat where
  Ino : Nat
  Mode : FileMode
  Nlink : Nat
  UID : Nat
  GID : Nat
  Size : Nat
  BlockSize : Nat
  Blocks : Nat
  Atime : Time
  Mtime : Time
  Ctime : Time
  Crtime : Time
  deriving DecidableEq, Repr

/-- Outcome of a backend call: it returns (a value or an error, and the store
it leaves), or it panics, or it blocks forever on a mutex it already holds. -/
inductive Res (α : Type) where
  | ret (val : Except Errno α) (fs : MemFS)
  | panic
  | deadlock

namespace MemFS

/-- Source: `(*MemFS).LoadInode`. -/
def LoadInode (fs : MemFS) (ino : Nat) : Option MemInode := fs.itable ino

/-- Source: `(*MemFS).RemoveInode`. -/
def RemoveInode (fs : MemFS) (ino : Nat) : MemFS :=
  { fs with itable := fun j => if j = ino then none else fs.itable j }

/-- Source: `(*MemFS).StoreInode`; also the write-back of an inode mutated
through the pointer held under `ino`. -/
def StoreInode (fs : MemFS) (ino : Nat) (inode : MemInode) : MemFS :=
  { fs with itable := fun j => if j = ino then some inode else fs.itable j }

/-- Source: `(*MemFS).GenerateIno`. -/
def GenerateIno (fs : MemFS) : Nat × MemFS :=
  (fs.inoNextFree, { fs with inoNextFree := fs.inoNextFree + 1 })

end MemFS

namespace MemInode

/-- Source: `(*MemInode).Lock`: taking the mutex stamps `atime`. -/
def Lock (inode : MemInode) (now : Time) : MemInode := { inode with atime := now }

/-- Source: `(*MemInode).Reference`. -/
def Reference (inode : MemInode) : MemInode := { inode with count := inc32 inode.count }

/-- Source: `(*MemInode).Stat`. -/
def Stat (inode : MemInode) : Fused.Stat :=
  { Ino := inode.ino, Mode := inode.mode, Nlink := inode.nlink, UID := 0, GID := 0,
    Size := inode.data.length, BlockSize := 512,
    Blocks := (inode.data.length + 511) / 512,
    Atime := inode.atime, Mtime := inode.mtime, Ctime := inode.ctime,
    Crtime := inode.crtime }

/-- Source: `(*MemInode).AddDirent`.  Returns the result, the store (whose
allocator moves when `ino` is `0`) and the mutated receiver. -/
def AddDirent (fs : MemFS) (inode : MemInode) (ino : Nat) (name : String)
    (t : FileMode) (now : Time) : Except Errno Nat × MemFS × MemInode :=
  match inode.dirents.Get name with
  | some _ => (.error .EEXIST, fs, inode)
  | none =>
    let p := if ino = 0 then fs.GenerateIno else (ino, fs)
    (.ok p.1, p.2,
      { inode with
        dirents := inode.dirents.Put name { Ino := p.1, Name := name, Typ := t },
        mtime := now, ctime := now })

/-- Source: `(*MemInode).GetDirent`. -/
def GetDirent (inode : MemInode) (name : String) : Except Errno Dirent :=
  match inode.dirents.Get name with
  | none => .error .ENOENT
  | some d => .ok d

/-- Source: `(*MemInode).RemoveDirent`. -/
def RemoveDirent (inode : MemInode) (name : String) (now : Time) :
    Except Errno Nat × MemInode :=
  match inode.dirents.Get name with
  | none => (.error .ENOENT, inode)
  | some d =>
    (.ok d.Ino, { inode with dirents := inode.dirents.Delete name, mtime := now, ctime := now })

end MemInode

/-- Source: the struct literal at the head of `NewMemInode`. -/
def MemInode.init (ino : Nat) (mode : FileMode) (now : Time) : MemInode :=
  { ino := ino, nlink := 1, count := 0, mode := mode,
    atime := now, mtime := now, ctime := now, crtime := now,
    dirents := ListMap.NewListMap, data := [] }

/-- Source: `NewMemInode`.  Returns the store (its allocator moves only if an
entry is added with inode number `0`), the new inode and the parent as the
constructor leaves it. -/
def NewMemInode (fs : MemFS) (parent : Option MemInode) (ino : Nat) (mode : FileMode)
    (now : Time) : MemFS × MemInode × Option MemInode :=
  let inode := MemInode.init ino mode now
  if IsDir mode then
    let r1 := inode.AddDirent fs ino "." (modeType mode) now
    let inode1 := { r1.2.2 with nlink := inc32 r1.2.2.nlink }
    match parent with
    | some p =>
      let r2 := inode1.AddDirent r1.2.1 p.ino ".." (modeType p.mode) now
      (r2.2.1, r2.2.2, some { p with nlink := inc32 p.nlink })
    | none =>
      let r2 := inode1.AddDirent r1.2.1 ino ".." (modeType mode) now
      (r2.2.1, r2.2.2, none)
  else (fs, inode, parent)

/-- Source: `NewMemFS`. -/
def NewMemFS (now : Time) : MemFS :=
  let fs : MemFS := { inoNextFree := 2, itable := fun _ => none }
  let mode : FileMode := ModeDir ||| 0o777
  let r := NewMemInode fs none 1 mode now
  r.1.StoreInode 1 r.2.1

namespace MemFS

/-- Write through the pointer held under `key`: visible only while the table
still holds that object. -/
def writeBack (fs : MemFS) (key : Nat) (inode : MemInode) : MemFS :=
  if (fs.itable key).isSome then fs.StoreInode key inode else fs

end MemFS

/-- Go slice expression `s[lo:hi]` on a slice whose capacity is not exceeded;
`none` is the run-time panic for bounds out of range. -/
def slice (s : List Nat) (lo hi : Int) : Option (List Nat) :=
  if 0 ≤ lo ∧ lo ≤ hi ∧ hi ≤ (s.length : Int) then
    some ((s.drop lo.toNat).take (hi - lo).toNat)
  else none

/-- The loop of `PadRight`: one iteration per unit of fuel. -/
def PadRightLoop : Nat → List Nat → Nat → Int → Option (List Nat)
  | 0, _, _, _ => none
  | fuel + 1, src, pad, lengh =>
    let src1 := src ++ [pad]
    if ((src1.length : Nat) : Int) > lengh then slice src1 0 lengh
    else PadRightLoop fuel src1 pad lengh

/-- Source: `PadRight` in memfs.go.  The loop runs `max (lengh - len src) 0 + 1`
times at most, which is the fuel given; `none` is the panic of `src[0:lengh]`
for a negative `lengh`. -/
def PadRight (src : List Nat) (pad : Nat) (lengh : Int) : Option (List Nat) :=
  PadRightLoop ((lengh - (src.length : Int)).toNat + 1) src pad lengh

/-- The attribute bag `map[string]interface{}` of `Setattr`: one optional
field per key the code looks up. -/
structure Attrs where
  mode : Option FileMode
  gid : Option Nat
  uid : Option Nat
  atime : Option Time
  mtime : Option Time
  size : Option Nat

/-- Go conversion `int(sz)` of a `uint64` on a 64-bit platform. -/
def toInt (sz : Nat) : Int :=
  if sz % 18446744073709551616 < 9223372036854775808 then ((sz % 18446744073709551616 : Nat) : Int)
  else ((sz % 18446744073709551616 : Nat) : Int) - 18446744073709551616

namespace MemInode

/-- Source: lines 519-524 of `(*MemInode).doRemove`: the link count goes down
by one unless it is `0` already. -/
def dropLink (child : MemInode) (now : Time) : MemInode :=
  if child.nlink = 0 then child
  else { child with nlink := dec32 child.nlink, ctime := now }

/-- Source: `(*MemInode).doRemove`.  `self` and `ck` are the pointers to the
receiver and to `child` (two different objects).  Returns the store and the
mutated receiver. -/
def doRemove (fs : MemFS) (self : Nat) (inode : MemInode) (ck : Nat) (child : MemInode)
    (name : String) (now : Time) : MemFS × MemInode :=
  let inode1 := (inode.RemoveDirent name now).2
  let child1 := child.dropLink now
  let fs1 := (fs.StoreInode self inode1).StoreInode ck child1
  if child1.nlink = 0 ∧ child1.count = 0 then (fs1.RemoveInode child1.ino, inode1)
  else (fs1, inode1)

/-- Source: `(*MemInode).Rmdir`.  `self` is the pointer to the receiver, `held`
the inodes whose mutex the running call holds.  On success the value returned
is the mutated receiver. -/
def Rmdir (fs : MemFS) (held : List Nat) (self : Nat) (inode : MemInode)
    (name : String) (now : Time) : Res MemInode :=
  match inode.dirents.Get name with
  | none => .ret (.error .ENOENT) fs
  | some dirent =>
    if IsDir dirent.Typ = false then .ret (.error .ENOTDIR) fs
    else
      match fs.LoadInode dirent.Ino with
      | none => .panic
      | some child0 =>
        if dirent.Ino ∈ held then .deadlock
        else
          let child := child0.Lock now
          if IsDir child.mode = true ∧ child.dirents.Len > 2 then
            .ret (.error .ENOTEMPTY) (fs.StoreInode dirent.Ino child)
          else
            let child1 := { child with dirents := child.dirents.Delete ".." }
            let inode1 := { inode with nlink := dec32 inode.nlink }
            let child2 :=
              { child1 with dirents := child1.dirents.Delete ".", nlink := dec32 child1.nlink }
            let r := doRemove fs self inode1 dirent.Ino child2 name now
            .ret (.ok r.2) r.1

/-- Source: `(*MemInode).Unlink`; conventions as for `Rmdir`. -/
def Unlink (fs : MemFS) (held : List Nat) (self : Nat) (inode : MemInode)
    (name : String) (now : Time) : Res MemInode :=
  match inode.dirents.Get name with
  | none => .ret (.error .ENOENT) fs
  | some dirent =>
    match fs.LoadInode dirent.Ino with
    | none => .panic
    | some child0 =>
      if dirent.Ino ∈ held then .deadlock
      else
        let r := doRemove fs self inode dirent.Ino (child0.Lock now) name now
        .ret (.ok r.2) r.1

/-- Source: lines 590-592 of `(*MemInode).Release`: the handle count goes down
by one unless it is `0` already. -/
def dropHandle (inode : MemInode) : MemInode :=
  if inode.count > 0 then { inode with count := dec32 inode.count } else inode

/-- Source: `(*MemInode).Release`; `self` is the pointer to the receiver. -/
def Release (fs : MemFS) (self : Nat) (inode : MemInode) : MemFS :=
  let inode1 := inode.dropHandle
  let fs1 := fs.StoreInode self inode1
  if inode1.nlink = 0 ∧ inode1.count = 0 then fs1.RemoveInode inode1.ino else fs1

/-- Source: `(*MemInode).Read`; `none` is the panic of a slice out of range. -/
def Read (inode : MemInode) (offset n : Int) : Option (List Nat) :=
  if n ≤ 0 ∨ n ≥ (inode.data.length : Int) - offset then
    slice inode.data offset inode.data.length
  else slice inode.data offset (offset + n)

/-- Source: `(*MemInode).Write`; `none` is the panic inside `PadRight`. -/
def Write (inode : MemInode) (offset : Int) (data : List Nat) : Option (Nat × MemInode) :=
  match PadRight inode.data 0 offset with
  | none => none
  | some buff0 =>
    let buff := buff0 ++ data
    let inode1 :=
      if buff.length > inode.data.length then { inode with data := buff }
      else { inode with data := buff ++ inode.data.drop buff.length }
    let inode2 :=
      if data.length > 0 then { inode1 with mtime := inode1.atime, ctime := inode1.atime }
      else inode1
    some (data.length, inode2)

/-- Source: `(*MemInode).Setattr`.  `none` is the panic inside `PadRight`; an
error is returned together with the receiver as the call has left it. -/
def Setattr (inode : MemInode) (attrs : Attrs) (now : Time) :
    Option (Except Errno Fused.Stat × MemInode) :=
  let inode1 :=
    match attrs.mode with
    | some m => { inode with mode := m, ctime := now }
    | none => inode
  if attrs.gid.isSome then some (.error .ENOSYS, inode1)
  else if attrs.uid.isSome then some (.error .ENOSYS, inode1)
  else
    let inode2 :=
      match attrs.atime with
      | some a => { inode1 with atime := a, ctime := now }
      | none => inode1
    let inode3 :=
      match attrs.mtime with
      | some m => { inode2 with mtime := m, ctime := now }
      | none => inode2
    match attrs.size with
    | some sz =>
      if IsDir inode3.mode = true then some (.error .EISDIR, inode3)
      else
        match PadRight inode3.data 0 (toInt sz) with
        | none => none
        | some d =>
          let inode4 := { inode3 with data := d, mtime := now, ctime := now }
          some (.ok inode4.Stat, inode4)
    | none => some (.ok inode3.Stat, inode3)

/-- Dereference of the values handed out by `Values()`; `none` is the panic of
the type assertion on a nil value. -/
def derefAll : List (Option Dirent) → Option (List Dirent)
  | [] => some []
  | none :: _ => none
  | some d :: rest =>
    match derefAll rest with
    | none => none
    | some ds => some (d :: ds)

/-- Source: `(*MemInode).Readdir`: the first `n` entries, all of them when
`n ≤ 0`. -/
def Readdir (inode : MemInode) (n : Int) : Option (List Dirent) :=
  let m : Nat := if n ≤ 0 then inode.dirents.Len else n.toNat
  derefAll (inode.dirents.Values.take m)

end MemInode

namespace MemFS

/-- Source: `(*MemFS).Stat`.  `held` lists the inodes locked by the caller
(empty for a call from outside). -/
def Stat (fs : MemFS) (held : List Nat) (ino : Nat) (now : Time) : Res Fused.Stat :=
  match fs.LoadInode ino with
  | none => .ret (.error .ENOENT) fs
  | some inode0 =>
    if ino ∈ held then .deadlock
    else
      let inode := inode0.Lock now
      .ret (.ok inode.Stat) (fs.StoreInode ino inode)

/-- Source: `(*MemFS).Open`. -/
def Open (fs : MemFS) (ino : Nat) (_flags : Int) (now : Time) : Res Unit :=
  match fs.LoadInode ino with
  | none => .ret (.error .ENOENT) fs
  | some inode0 => .ret (.ok ()) (fs.StoreInode ino (inode0.Lock now).Reference)

/-- Source: the common body of `(*MemFS).Create` and `(*MemFS).Mkdir`, which
differ only in the `childInode.Reference()` of `Create`. -/
def createInode (fs : MemFS) (ino : Nat) (name : String) (mode : FileMode) (now : Time)
    (reference : Bool) : Res Fused.Stat :=
  match fs.LoadInode ino with
  | none => .ret (.error .ENOENT) fs
  | some inode0 =>
    let inode := inode0.Lock now
    match inode.AddDirent fs 0 name (modeType mode) now with
    | (.error e, fs1, inode1) => .ret (.error e) (fs1.StoreInode ino inode1)
    | (.ok childIno, fs1, inode1) =>
      let r := NewMemInode fs1 (some inode1) childIno mode now
      let childInode := if reference then r.2.1.Reference else r.2.1
      let fs2 := r.1.StoreInode ino (r.2.2.getD inode1)
      .ret (.ok childInode.Stat) (fs2.StoreInode childIno childInode)

/-- Source: `(*MemFS).Create`. -/
def Create (fs : MemFS) (ino : Nat) (name : String) (_flags : Int) (mode : FileMode)
    (now : Time) : Res Fused.Stat :=
  createInode fs ino name mode now true

/-- Source: `(*MemFS).Mkdir`. -/
def Mkdir (fs : MemFS) (ino : Nat) (name : String) (mode : FileMode) (now : Time) :
    Res Fused.Stat :=
  createInode fs ino name mode now false

/-- Drop the receiver returned by an inode method. -/
def void : Res MemInode → Res Unit
  | .ret (.ok _) fs => .ret (.ok ()) fs
  | .ret (.error e) fs => .ret (.error e) fs
  | .panic => .panic
  | .deadlock => .deadlock

/-- Source: `(*MemFS).Rmdir`. -/
def Rmdir (fs : MemFS) (ino : Nat) (name : String) (now : Time) : Res Unit :=
  match fs.LoadInode ino with
  | none => .ret (.error .ENOENT) fs
  | some inode0 =>
    let inode := inode0.Lock now
    void (inode.Rmdir (fs.StoreInode ino inode) [ino] ino name now)

/-- Source: `(*MemFS).Unlink`. -/
def Unlink (fs : MemFS) (ino : Nat) (name : String) (now : Time) : Res Unit :=
  match fs.LoadInode ino with
  | none => .ret (.error .ENOENT) fs
  | some inode0 =>
    let inode := inode0.Lock now
    void (inode.Unlink (fs.StoreInode ino inode) [ino] ino name now)

/-- Source: lines 214-218 of `(*MemFS).Rename`: add the entry to the
destination, remove the source entry (both results ignored).  `d` and `s` are
the destination and source parents as the call has left them so far; they are
one object when `sIno = dIno`. -/
def renameMove (fs : MemFS) (sIno : Nat) (sName : String) (dIno : Nat) (dName : String)
    (sDirent : Dirent) (d s : MemInode) (now : Time) : MemFS :=
  let r := d.AddDirent fs sDirent.Ino dName sDirent.Typ now
  let fs1 := r.2.1.writeBack dIno r.2.2
  let s1 := if sIno = dIno then r.2.2 else s
  fs1.writeBack sIno (s1.RemoveDirent sName now).2

/-- Source: `(*MemFS).Rename`. -/
def Rename (fs : MemFS) (sIno : Nat) (sName : String) (dIno : Nat) (dName : String)
    (now : Time) : Res Unit :=
  match fs.LoadInode sIno with
  | none => .ret (.error .ENOENT) fs
  | some s0 =>
    match fs.LoadInode dIno with
    | none => .ret (.error .ENOENT) fs
    | some d0 =>
      let sInode := s0.Lock now
      let dInode := if sIno = dIno then sInode else d0.Lock now
      let fs0 := (fs.StoreInode sIno sInode).StoreInode dIno dInode
      match sInode.GetDirent sName with
      | .error e => .ret (.error e) fs0
      | .ok sDirent =>
        match dInode.GetDirent dName with
        | .error e =>
          if e ≠ .ENOENT then .ret (.error e) fs0
          else .ret (.ok ()) (renameMove fs0 sIno sName dIno dName sDirent dInode sInode now)
        | .ok dDirent =>
          if sDirent.Ino = dDirent.Ino then .ret (.ok ()) fs0
          else if IsDir sDirent.Typ = false ∧ IsDir dDirent.Typ = true then
            .ret (.error .EISDIR) fs0
          else if IsDir sDirent.Typ = true ∧ IsDir dDirent.Typ = false then
            .ret (.error .ENOTDIR) fs0
          else
            let r :=
              if IsDir dDirent.Typ = true then dInode.Rmdir fs0 [sIno, dIno] dIno dName now
              else dInode.Unlink fs0 [sIno, dIno] dIno dName now
            match r with
            | .ret (.error e) fs1 => .ret (.error e) fs1
            | .ret (.ok d1) fs1 =>
              .ret (.ok ())
                (renameMove fs1 sIno sName dIno dName sDirent d1
                  (if sIno = dIno then d1 else sInode) now)
            | .panic => .panic
            | .deadlock => .deadlock

/-- Source: `(*MemFS).Lookup` with `(*MemInode).Lookup`. -/
def Lookup (fs : MemFS) (ino : Nat) (name : String) (now : Time) : Res Fused.Stat :=
  match fs.LoadInode ino with
  | none => .ret (.error .ENOENT) fs
  | some inode0 =>
    let inode := inode0.Lock now
    let fs0 := fs.StoreInode ino inode
    match inode.dirents.Get name with
    | none => .ret (.error .ENOENT) fs0
    | some dirent => fs0.Stat [ino] dirent.Ino now

/-- Source: `(*MemFS).Read`. -/
def Read (fs : MemFS) (ino : Nat) (offset : Int) (n : Int) (now : Time) :
    Res (List Nat) :=
  match fs.LoadInode ino with
  | none => .ret (.error .ENOENT) fs
  | some inode0 =>
    let inode := inode0.Lock now
    match inode.Read offset n with
    | none => .panic
    | some b => .ret (.ok b) (fs.StoreInode ino inode)

/-- Source: `(*MemFS).Write`. -/
def Write (fs : MemFS) (ino : Nat) (offset : Int) (data : List Nat) (now : Time) :
    Res Nat :=
  match fs.LoadInode ino with
  | none => .ret (.error .ENOENT) fs
  | some inode0 =>
    match (inode0.Lock now).Write offset data with
    | none => .panic
    | some r => .ret (.ok r.1) (fs.StoreInode ino r.2)

/-- Source: `(*MemFS).Release`. -/
def Release (fs : MemFS) (ino : Nat) (_flags : Int) (now : Time) : Res Unit :=
  match fs.LoadInode ino with
  | none => .ret (.error .ENOENT) fs
  | some inode0 =>
    let inode := inode0.Lock now
    .ret (.ok ()) (inode.Release (fs.StoreInode ino inode) ino)

/-- Source: `(*MemFS).Setattr`. -/
def Setattr (fs : MemFS) (ino : Nat) (attrs : Attrs) (now : Time) : Res Fused.Stat :=
  match fs.LoadInode ino with
  | none => .ret (.error .ENOENT) fs
  | some inode0 =>
    match (inode0.Lock now).Setattr attrs now with
    | none => .panic
    | some r => .ret r.1 (fs.StoreInode ino r.2)

/-- Source: `(*MemFS).Readdir`; the marker returned is always empty. -/
def Readdir (fs : MemFS) (ino : Nat) (marker : String) (n : Int) (now : Time) :
    Res (List Dirent) :=
  match fs.LoadInode ino with
  | none => .ret (.error .ENOENT) fs
  | some inode0 =>
    if marker.length > 0 ∨ n > 0 then .ret (.error .ENOSYS) fs
    else
      let inode := inode0.Lock now
      match inode.Readdir (-1) with
      | none => .panic
      | some ds => .ret (.ok ds) (fs.StoreInode ino inode)

end MemFS

/-! ## Vocabulary of the specifications -/

/-- The store left by a call that returned without error. -/
def Res.okStore {α : Type} : Res α → Option MemFS
  | .ret (.ok _) fs => some fs
  | _ => none

/-- The entry stored under `k` is a subdirectory entry: `k` is neither `.` nor
`..` and the entry has a directory type. -/
def subdirEntry (t : ListMap String Dirent) (k : String) : Bool :=
  k != "." && k != ".." &&
    (match t.entries k with
     | some e => IsDir e.Typ
     | none => false)

/-- Number of entries of an inode other than `.` and `..` whose type is
directory. -/
def numSubdirs (inode : MemInode) : Nat :=
  inode.dirents.keys.countP (subdirEntry inode.dirents)

/-- Representation invariant of a directory map: list and map in step, each
entry stored under its own name, inode numbers allocated ones. -/
structure DirentsOK (next : Nat) (t : ListMap String Dirent) : Prop where
  wf : t.WF
  entry : ∀ k e, t.entries k = some e → e.Name = k ∧ 0 < e.Ino ∧ e.Ino < next

/-- Representation invariant of the inode held under key `i`, `next` being the
allocator. -/
structure InodeOK (next i : Nat) (inode : MemInode) : Prop where
  ino_eq : inode.ino = i
  pos : 0 < i
  lt_next : i < next
  nlink_lt : inode.nlink < 4294967296
  count_lt : inode.count < 4294967296
  dirents : DirentsOK next inode.dirents

/-- Representation invariant of the store: what `NewMemFS` establishes and
every backend call keeps. -/
structure Valid (fs : MemFS) : Prop where
  next_pos : 0 < fs.inoNextFree
  inode : ∀ i x, fs.itable i = some x → InodeOK fs.inoNextFree i x

/-- Two inodes agree on everything but their timestamps. -/
def MemInode.sameButTimes (a b : MemInode) : Prop :=
  a.ino = b.ino ∧ a.nlink = b.nlink ∧ a.count = b.count ∧ a.mode = b.mode ∧
    a.dirents = b.dirents ∧ a.data = b.data

/-- Two stores agree on everything but the timestamps of their inodes: same
allocator, same keys in the table, and under each key inodes with the same
number, link and handle counts, mode, entries and data. -/
def MemFS.sameButTimes (a b : MemFS) : Prop :=
  a.inoNextFree = b.inoNextFree ∧
    ∀ i, match a.itable i, b.itable i with
      | none, none => True
      | some x, some y => x.sameButTimes y
      | _, _ => False

/-- The receiver as a successful `AddDirent` leaves it. -/
def MemInode.withEntry (x : MemInode) (name : String) (ino : Nat) (t : FileMode)
    (now : Time) : MemInode :=
  { x with
    dirents := x.dirents.Put name { Ino := ino, Name := name, Typ := t },
    mtime := now, ctime := now }

/-- The receiver as a successful `RemoveDirent` leaves it. -/
def MemInode.withoutEntry (x : MemInode) (name : String) (now : Time) : MemInode :=
  { x with dirents := x.dirents.Delete name, mtime := now, ctime := now }

/-- An inode with its link count replaced. -/
def MemInode.setNlink (x : MemInode) (n : Nat) : MemInode := { x with nlink := n }

/-- The directory map that `NewMemInode` builds for a new directory `ino`
whose parent has number `pino` and mode `pmode`: `.` then `..`. -/
def newDirents (ino : Nat) (mode : FileMode) (pino : Nat) (pmode : FileMode) :
    ListMap String Dirent :=
  (ListMap.NewListMap.Put "." { Ino := ino, Name := ".", Typ := modeType mode }).Put ".."
    { Ino := pino, Name := "..", Typ := modeType pmode }

/-- The directory inode that `NewMemInode` returns. -/
def newDir (ino : Nat) (mode : FileMode) (pino : Nat) (pmode : FileMode) (now : Time) :
    MemInode :=
  { MemInode.init ino mode now with nlink := 2, dirents := newDirents ino mode pino pmode }

/-- The store with its allocator advanced by one. -/
def MemFS.bump (fs : MemFS) : MemFS := { fs with inoNextFree := fs.inoNextFree + 1 }

/-- The child of `Create` (referenced) or `Mkdir` (not referenced). -/
def refIf (reference : Bool) (x : MemInode) : MemInode :=
  if reference then x.Reference else x

/-- A call of the backend contract with its arguments. -/
inductive Call where
  | Create (ino : Nat) (name : String) (flags : Int) (mode : FileMode)
  | Mkdir (ino : Nat) (name : String) (mode : FileMode)
  | Open (ino : Nat) (flags : Int)
  | Release (ino : Nat) (flags : Int)
  | Unlink (ino : Nat) (name : String)
  | Rmdir (ino : Nat) (name : String)
  | Rename (sIno : Nat) (sName : String) (dIno : Nat) (dName : String)
  | Setattr (ino : Nat) (attrs : Attrs)
  | Read (ino : Nat) (offset n : Int)
  | Write (ino : Nat) (offset : Int) (data : List Nat)
  | Stat (ino : Nat)
  | Lookup (ino : Nat) (name : String)
  | Readdir (ino : Nat) (marker : String) (n : Int)

/-- What a caller sees of a call that returned: its error, if any, and the
store; `none` when the call panicked or blocked. -/
def Res.outcome {α : Type} : Res α → Option (Option Errno × MemFS)
  | .ret (.ok _) fs => some (none, fs)
  | .ret (.error e) fs => some (some e, fs)
  | .panic => none
  | .deadlock => none

/-- Run one call at instant `now`. -/
def Call.exec (c : Call) (fs : MemFS) (now : Time) : Option (Option Errno × MemFS) :=
  match c with
  | .Create ino name flags mode => (fs.Create ino name flags mode now).outcome
  | .Mkdir ino name mode => (fs.Mkdir ino name mode now).outcome
  | .Open ino flags => (fs.Open ino flags now).outcome
  | .Release ino flags => (fs.Release ino flags now).outcome
  | .Unlink ino name => (fs.Unlink ino name now).outcome
  | .Rmdir ino name => (fs.Rmdir ino name now).outcome
  | .Rename sIno sName dIno dName => (fs.Rename sIno sName dIno dName now).outcome
  | .Setattr ino attrs => (fs.Setattr ino attrs now).outcome
  | .Read ino offset n => (fs.Read ino offset n now).outcome
  | .Write ino offset data => (fs.Write ino offset data now).outcome
  | .Stat ino => (fs.Stat [] ino now).outcome
  | .Lookup ino name => (fs.Lookup ino name now).outcome
  | .Readdir ino marker n => (fs.Readdir ino marker n now).outcome

/-- Run calls one after the other, the k-th at instant `t + k`; the errors
returned, in order, and the final store; `none` when a call does not return. -/
def runCalls : List Call → MemFS → Time → Option (List (Option Errno) × MemFS)
  | [], fs, _ => some ([], fs)
  | c :: cs, fs, t =>
    match c.exec fs t with
    | none => none
    | some (e, fs1) =>
      match runCalls cs fs1 (t + 1) with
      | none => none
      | some (es, fs2) => some (e :: es, fs2)

/-- A directory mode, `os.ModeDir | 0755`. -/
def dirMode : FileMode := ModeDir ||| 0o755

/-- A regular-file mode, `0644`. -/
def fileMode : FileMode := 0o644

/-- The `..` entry of the inode held under `i`: the inode number it refers to. -/
def parentOf (fs : MemFS) (i : Nat) : Option Nat :=
  match fs.itable i with
  | none => none
  | some x => (x.dirents.Get "..").map Dirent.Ino

/-- Link count, handle count and number of subdirectory entries of the inode
held under `i`. -/
def linkInfo (fs : MemFS) (i : Nat) : Option (Nat × Nat × Nat) :=
  (fs.itable i).map fun x => (x.nlink, x.count, numSubdirs x)

/-- The child of a successful `Rmdir` as the call leaves it: locked, `..` and
`.` deleted, one link dropped for `.` and one by `doRemove`. -/
def MemInode.rmdirChild (c : MemInode) (now : Time) : MemInode :=
  MemInode.dropLink
    { c.Lock now with
      dirents := ((c.Lock now).dirents.Delete "..").Delete ".",
      nlink := dec32 (c.Lock now).nlink } now

/-- The parent of a successful `Rmdir` as the call leaves it. -/
def MemInode.rmdirParent (x : MemInode) (name : String) (now : Time) : MemInode :=
  ((x.Lock now).setNlink (dec32 x.nlink)).withoutEntry name now

/-- The table after the removal step: parent and child written back, the child
dropped when it has neither link nor handle left. -/
def MemFS.afterRemove (fs : MemFS) (ino : Nat) (parent : MemInode) (ck : Nat)
    (child : MemInode) : MemFS :=
  if child.nlink = 0 ∧ child.count = 0 then
    ((fs.StoreInode ino parent).StoreInode ck child).RemoveInode child.ino
  else (fs.StoreInode ino parent).StoreInode ck child

/-- What the directory structure requires of a directory inode: no open
handle, entries `.` and `..`, and a link count of 2 plus one per subdirectory
entry (in `uint32` arithmetic). -/
structure DirOK (x : MemInode) : Prop where
  count_zero : x.count = 0
  dot : (x.dirents.entries ".").isSome = true
  dotdot : (x.dirents.entries "..").isSome = true
  nlink_eq : x.nlink = (2 + numSubdirs x) % 4294967296

/-- Invariant of the stores built by Mkdir, Create, Rmdir and Unlink alone. -/
structure TreeInv (fs : MemFS) : Prop where
  valid : Valid fs
  dir : ∀ i x, fs.itable i = some x → IsDir x.mode = true → DirOK x
  file : ∀ i x k e, fs.itable i = some x → k ≠ "." → k ≠ ".." →
    x.dirents.entries k = some e → IsDir e.Typ = false →
    ∀ c, fs.itable e.Ino = some c → IsDir c.mode = false

/-- Stores reachable from a fresh store by Mkdir with a directory mode, Create
with a non-directory mode, and Rmdir and Unlink of names other than `.` and
`..`, Unlink being applied to entries of non-directory type only.  A call that
returns an error is a step as well. -/
inductive TreeReachable : MemFS → Prop where
  | fresh (now : Time) : TreeReachable (NewMemFS now)
  | mkdir {fs fs1 : MemFS} (ino : Nat) (name : String) (mode : FileMode) (now : Time)
      (v : Except Errno Fused.Stat) :
      TreeReachable fs → IsDir mode = true → fs.Mkdir ino name mode now = .ret v fs1 →
      TreeReachable fs1
  | create {fs fs1 : MemFS} (ino : Nat) (name : String) (flags : Int) (mode : FileMode)
      (now : Time) (v : Except Errno Fused.Stat) :
      TreeReachable fs → IsDir mode = false →
      fs.Create ino name flags mode now = .ret v fs1 → TreeReachable fs1
  | rmdir {fs fs1 : MemFS} (ino : Nat) (name : String) (now : Time) (v : Except Errno Unit) :
      TreeReachable fs → name ≠ "." → name ≠ ".." →
      fs.Rmdir ino name now = .ret v fs1 → TreeReachable fs1
  | unlink {fs fs1 : MemFS} (ino : Nat) (name : String) (now : Time) (v : Except Errno Unit) :
      TreeReachable fs → name ≠ "." → name ≠ ".." →
      (∀ x e, fs.itable ino = some x → x.dirents.entries name = some e →
        IsDir e.Typ = false) →
      fs.Unlink ino name now = .ret v fs1 → TreeReachable fs1

/-- The store left by a call (the empty store when the call did not return). -/
def Res.store {α : Type} : Res α → MemFS
  | .ret _ fs => fs
  | _ => { inoNextFree := 0, itable := fun _ => none }

/-- The result of a call (`EIO` when the call did not return). -/
def Res.value {α : Type} : Res α → Except Errno α
  | .ret v _ => v
  | _ => Except.error Errno.EIO

/-- The call returned. -/
def Res.returned {α : Type} : Res α → Bool
  | .ret _ _ => true
  | _ => false

/-- The inode held under `i` (a blank inode when there is none). -/
def MemFS.inodeAt (fs : MemFS) (i : Nat) : MemInode :=
  match fs.itable i with
  | some x => x
  | none => MemInode.init 0 0 0

/-- Example store: a fresh store after mkdir a. -/
def exTreeA : MemFS := ((NewMemFS 0).Mkdir 1 "a" dirMode 1).store

/-- Example store: `exTreeA` after mkdir a/x. -/
def exTreeAX : MemFS := (exTreeA.Mkdir 2 "x" dirMode 2).store

/-- Example store: `exTreeAX` after creat a/f. -/
def exTreeAXF : MemFS := (exTreeAX.Create 2 "f" 0 fileMode 3).store

/-- The file content after a write of `w` at offset `o ≥ 0`, as the code
computes it: the old content cut or zero-padded to `o`, then `w`, then the old
bytes, if any, behind the written range. -/
def writtenData (d : List Nat) (o : Nat) (w : List Nat) : List Nat :=
  let buff := (d ++ List.replicate (o - d.length) 0).take o ++ w
  if buff.length > d.length then buff else buff ++ d.drop buff.length

/-- The receiver as `Write` at offset `o ≥ 0` leaves it. -/
def MemInode.written (x : MemInode) (o : Nat) (w : List Nat) : MemInode :=
  if w.length > 0 then
    { x with data := writtenData x.data o w, mtime := x.atime, ctime := x.atime }
  else { x with data := writtenData x.data o w }

/-- The bytes that `Read` returns for an offset within the file. -/
def readBytes (d : List Nat) (o : Nat) (n : Int) : List Nat :=
  if n ≤ 0 ∨ n ≥ (d.length : Int) - (o : Int) then d.drop o else (d.drop o).take n.toNat

/-- The store after a Rename onto a free name: the entry `e` of `xs` (held
under `s`) under `sName` moves to `xd` (held under `d`) under `dName`. -/
def MemFS.afterMove (fs : MemFS) (s : Nat) (sName : String) (d : Nat) (dName : String)
    (e : Dirent) (xs xd : MemInode) (now : Time) : MemFS :=
  if s = d then
    fs.StoreInode s (((xs.Lock now).withEntry dName e.Ino e.Typ now).withoutEntry sName now)
  else
    (fs.StoreInode d ((xd.Lock now).withEntry dName e.Ino e.Typ now)).StoreInode s
      ((xs.Lock now).withoutEntry sName now)

/-- The directory after `Rename(P, X, P, Y)` has replaced entry Y by the
entry `e` formerly under X. -/
def MemInode.replaced (x : MemInode) (X Y : String) (e : Dirent) (now : Time) : MemInode :=
  ((((x.Lock now).withoutEntry Y now).withEntry Y e.Ino e.Typ now).withoutEntry X now)

/-- The store that a list of calls leaves when run on a fresh store from
instant 1 on (the fresh store itself if a call does not return). -/
def storeAfter (cs : List Call) : MemFS :=
  match runCalls cs (NewMemFS 0) 1 with
  | some r => r.2
  | none => NewMemFS 0

/-- Example store: files a (inode 2, content 65) and b (inode 3, content 66) in
the root, both closed. -/
def exFilesAB : MemFS :=
  storeAfter [.Create 1 "a" 0 fileMode, .Write 2 0 [65], .Release 2 0,
    .Create 1 "b" 0 fileMode, .Write 3 0 [66], .Release 3 0]

/-- Names reported by Readdir for directory `i`, in order. -/
def readdirNames (fs : MemFS) (i : Nat) (t : Time) : Option (List String) :=
  match fs.Readdir i "" 0 t with
  | .ret (.ok ds) _ => some (ds.map Dirent.Name)
  | _ => none

/-- Two inodes agree on everything but the access time. -/
def MemInode.sameButAtime (a b : MemInode) : Prop :=
  a.sameButTimes b ∧ a.mtime = b.mtime ∧ a.ctime = b.ctime ∧ a.crtime = b.crtime

/-- Two stores agree on everything but the access times of their inodes: same
allocator, same keys in the table, and under each key inodes that differ at
most in `atime`. -/
def MemFS.sameButAtime (a b : MemFS) : Prop :=
  a.inoNextFree = b.inoNextFree ∧
    ∀ i, match a.itable i, b.itable i with
      | none, none => True
      | some x, some y => x.sameButAtime y
      | _, _ => False

/-- Access time of the inode held under `i`. -/
def MemFS.atimeAt (fs : MemFS) (i : Nat) : Option Time :=
  (fs.itable i).map MemInode.atime

/-- The inode number that a call hands out: the number in the stat that a
successful Create or Mkdir returns. -/
def Call.newIno (c : Call) (fs : MemFS) (now : Time) : Option Nat :=
  match c with
  | .Create ino name flags mode =>
    match fs.Create ino name flags mode now with
    | .ret (.ok st) _ => some st.Ino
    | _ => none
  | .Mkdir ino name mode =>
    match fs.Mkdir ino name mode now with
    | .ret (.ok st) _ => some st.Ino
    | _ => none
  | _ => none

/-- The inode numbers handed out along a run of calls (the k-th call at
instant `t + k`), in order, each with the flag telling whether the number was
a key of the inode table when its call began; the run ends at a call that does
not return. -/
def handedOut : List Call → MemFS → Time → List (Nat × Bool)
  | [], _, _ => []
  | c :: cs, fs, t =>
    match c.exec fs t with
    | none => []
    | some (_, fs1) =>
      match c.newIno fs t with
      | some i => (i, (fs.itable i).isSome) :: handedOut cs fs1 (t + 1)
      | none => handedOut cs fs1 (t + 1)

/-- Consecutive chunk writes to inode `ino`: the first chunk at offset `off`,
each further chunk right behind the one before. -/
def chunkWrites (ino : Nat) : Nat → List (List Nat) → List Call
  | _, [] => []
  | off, c :: cs => .Write ino (off : Int) c :: chunkWrites ino (off + c.length) cs

/-- The attribute set that holds the size alone. -/
def sizeOnly (s : Nat) : Attrs :=
  { mode := none, gid := none, uid := none, atime := none, mtime := none, size := some s }

/-- The receiver as a successful change of size to `s` leaves it: the content
cut or zero-padded to `s` bytes. -/
def MemInode.resized (x : MemInode) (s : Nat) (now : Time) : MemInode :=
  { x with data := (x.data ++ List.replicate (s - x.data.length) 0).take s,
           mtime := now, ctime := now }

/-- The store `fs`, with directory `x` under `P`, as it stands while the
directories named `L` that were made in `P` after the store `fs0` (where `P`
held `x0`) are still there: `x` lists the old names and then `L`, counts one
link more per name of `L`, and each name of `L` refers to an empty directory
with a number allocated after `fs0`; nothing else differs from `fs0`. -/
structure Pending (fs0 : MemFS) (P : Nat) (x0 : MemInode) (L : List String) (fs : MemFS)
    (x : MemInode) : Prop where
  valid : Valid fs
  next_le : fs0.inoNextFree ≤ fs.inoNextFree
  nodup : L.Nodup
  absent : ∀ n, n ∈ L → x0.dirents.entries n = none
  tbl : fs.itable P = some x
  keys : x.dirents.keys = x0.dirents.keys ++ L
  frame : ∀ k, k ∉ L → x.dirents.entries k = x0.dirents.entries k
  nlink : x.nlink = (x0.nlink + L.length) % 4294967296
  rest : x.ino = x0.ino ∧ x.count = x0.count ∧ x.mode = x0.mode ∧ x.data = x0.data
  child : ∀ n, n ∈ L → ∃ e c, x.dirents.entries n = some e ∧ IsDir e.Typ = true ∧
    fs0.inoNextFree ≤ e.Ino ∧ fs.itable e.Ino = some c ∧ c.dirents.Len ≤ 2 ∧
    c.nlink = 2 ∧ c.count = 0
  distinct : ∀ n m e1 e2, n ∈ L → m ∈ L → x.dirents.entries n = some e1 →
    x.dirents.entries m = some e2 → e1.Ino = e2.Ino → n = m
  others : ∀ j, j ≠ P → (∀ n e, n ∈ L → x.dirents.entries n = some e → e.Ino ≠ j) →
    fs.itable j = fs0.itable j

/-- The receiver after `Setattr` has applied the mode attribute, if given
(lines 433-437). -/
def MemInode.withMode (x : MemInode) (attrs : Attrs) (now : Time) : MemInode :=
  match attrs.mode with
  | some m => { x with mode := m, ctime := now }
  | none => x

/-- The receiver after `Setattr` has applied the mode, atime and mtime
attributes that are given (lines 433-456, the returns apart). -/
def MemInode.applied (x : MemInode) (attrs : Attrs) (now : Time) : MemInode :=
  let inode1 := x.withMode attrs now
  let inode2 :=
    match attrs.atime with
    | some a => { inode1 with atime := a, ctime := now }
    | none => inode1
  match attrs.mtime with
  | some m => { inode2 with mtime := m, ctime := now }
  | none => inode2

/-- Numeric value of an error number (package `syscall` on Linux). -/
def Errno.code : Errno → Nat
  | Errno.EPERM => 1
  | Errno.ENOENT => 2
  | Errno.EIO => 5
  | Errno.EBADF => 9
  | Errno.EACCES => 13
  | Errno.EEXIST => 17
  | Errno.ENOTDIR => 20
  | Errno.EISDIR => 21
  | Errno.EINVAL => 22
  | Errno.ENOSYS => 38
  | Errno.ENOTEMPTY => 39

/-- The three wrapper types of package `os` that `underlyingError` opens. -/
inductive WrapKind where
  | PathError | LinkError | SyscallError
  deriving DecidableEq, Repr

/-- Non-nil values of the Go interface `error`, as far as `FuseError` tells
them apart: a protocol errno `fuse.Errno`, a raw `syscall.Errno`, the five
values `os.ErrClosed`, ..., a non-nil pointer to a wrapper with its field `Err`
(`wrappedNil` when that field is nil), a nil pointer of a wrapper type held in
the interface (`nilPointer`), or any other error. -/
inductive GoError where
  | fuseErrno (code : Nat)
  | sysErrno (code : Nat)
  | ErrClosed
  | ErrExist
  | ErrInvalid
  | ErrNotExist
  | ErrPermission
  | wrapped (kind : WrapKind) (err : GoError)
  | wrappedNil (kind : WrapKind)
  | nilPointer (kind : WrapKind)
  | other (id : Nat)
  deriving DecidableEq, Repr

/-- Outcome of a function of fuseerror.go: the value it returns, or a run-time
panic. -/
inductive MayPanic (α : Type) where
  | ret (val : α)
  | panic
  deriving DecidableEq, Repr

/-- Source: `underlyingError` in fuseerror.go; `none` is the nil error.  The
field access `err.Err` on a nil pointer is a nil dereference. -/
def underlyingError : GoError → MayPanic (Option GoError)
  | .wrapped _ err => .ret (some err)
  | .wrappedNil _ => .ret none
  | .nilPointer _ => .panic
  | err => .ret (some err)

/-- Source: `convertUnderlyingError` in fuseerror.go. -/
def convertUnderlyingError (err : GoError) : MayPanic (Bool × Option GoError) :=
  match underlyingError err with
  | .panic => .panic
  | .ret (some .ErrClosed) => .ret (true, some (.fuseErrno (Errno.code Errno.EBADF)))
  | .ret (some .ErrExist) => .ret (true, some (.fuseErrno (Errno.code Errno.EEXIST)))
  | .ret (some .ErrInvalid) => .ret (true, some (.fuseErrno (Errno.code Errno.EINVAL)))
  | .ret (some .ErrNotExist) => .ret (true, some (.fuseErrno (Errno.code Errno.ENOENT)))
  | .ret (some .ErrPermission) => .ret (true, some (.fuseErrno (Errno.code Errno.EPERM)))
  | .ret u => .ret (false, u)

/-- Source: `FuseError` in fuseerror.go; `none` is the nil error. -/
def FuseError : Option GoError → MayPanic (Option GoError)
  | none => .ret none
  | some err =>
    match err with
    | .fuseErrno e => .ret (some (.fuseErrno e))
    | _ =>
      match convertUnderlyingError err with
      | .panic => .panic
      | .ret r =>
        if r.1 then .ret r.2
        else
          match err with
          | .sysErrno e => .ret (some (.fuseErrno e))
          | _ => .ret (some (.fuseErrno (Errno.code Errno.EIO)))

/-- An error of the backend as a Go error value: backends return `syscall.Errno`. -/
def Errno.toGo (e : Errno) : GoError := .sysErrno e.code

/-- Source: `FuseNode` in fusenode.go (the back pointer `fs` is carried by the
functions below); `attr` is the cached stat, `none` when nil. -/
structure FuseNode where
  ino : Nat
  attr : Option Stat

/-- Source: `FS` in fs.go.  `nodeMap` maps an inode number to a pointer;
`nodes` is the heap of the `FuseNode` objects allocated so far and `nextNode`
the address of the next allocation. -/
structure FS where
  Back : MemFS
  nodeMap : Nat → Option Nat
  nodes : Nat → Option FuseNode
  nextNode : Nat

/-- Outcome of a handler of the adapter: it returns an error (`none` for nil)
and a value, leaving the adapter in a state, or it panics, or it blocks. -/
inductive Reply (α : Type) where
  | ret (err : Option GoError) (val : α) (s : FS)
  | panic
  | deadlock

/-- A handler that ends with `return FuseError(err)`: the reply carries the
error that `FuseError` returns; the handler panics when `FuseError` does. -/
def Reply.ofError {α : Type} (r : MayPanic (Option GoError)) (val : α) (s : FS) : Reply α :=
  match r with
  | .ret e => .ret e val s
  | .panic => .panic

/-- Source: `(*FuseNode).Update`, on the node at address `p`. -/
def FS.Update (s : FS) (p : Nat) (stat : Option Stat) : FS :=
  match s.nodes p with
  | some fn => { s with nodes := fun q => if q = p then some { fn with attr := stat } else s.nodes q }
  | none => s

/-- Source: `(*FS).LoadNode`; returns the pointer and the state.  A new node is
allocated by `NewFuseNode` at address `nextNode`. -/
def FS.LoadNode (s : FS) (ino : Nat) (stat : Option Stat) : Nat × FS :=
  match s.nodeMap ino with
  | some p => (p, s.Update p stat)
  | none =>
    let p := s.nextNode
    let s1 : FS :=
      { s with
        nodes := fun q => if q = p then some { ino := ino, attr := stat } else s.nodes q,
        nextNode := p + 1,
        nodeMap := fun i => if i = ino then some p else s.nodeMap i }
    (p, s1.Update p stat)

/-- Source: `(*FS).RemoveNode`. -/
def FS.RemoveNode (s : FS) (ino : Nat) : FS :=
  { s with nodeMap := fun i => if i = ino then none else s.nodeMap i }

/-- Source: `(*FS).Root`. -/
def FS.Root (s : FS) : Nat × FS := s.LoadNode 1 none

/-- Source: `FuseHandle` in fusehandle.go. -/
structure FuseHandle where
  ino : Nat
  flags : Int
  pid : Nat
  deriving DecidableEq, Repr

/-- Access mode `O_RDONLY` (package `syscall`). -/
def O_RDONLY : Int := 0

/-- Access mode `O_WRONLY` (package `syscall`). -/
def O_WRONLY : Int := 1

/-- Access mode `O_RDWR` (package `syscall`). -/
def O_RDWR : Int := 2

/-- Flag `O_CREAT` (package `syscall` on Linux). -/
def O_CREAT : Int := 64

/-- Flag `O_TRUNC` (package `syscall` on Linux). -/
def O_TRUNC : Int := 512

/-- Source: `NewFuseHandle`.  The mask `O_RDONLY | O_WRONLY | O_RDWR` is 3, and
`flags & 3` is the remainder of `flags` by 4. -/
def NewFuseHandle (ino : Nat) (flags : Int) (pid : Nat) : FuseHandle :=
  { ino := ino, flags := flags % 4, pid := pid }

/-- Fields of `fuse.WriteRequest` that `(*FuseHandle).Write` reads. -/
structure WriteRequest where
  Pid : Nat
  Offset : Int
  Data : List Nat

/-- Fields of `fuse.ReadRequest` that `(*FuseHandle).Read` reads. -/
structure ReadRequest where
  Offset : Int
  Size : Int

/-- Source: `(*FuseHandle).Write`; the value is `resp.Size`, given as `size0`
before the call. -/
def FuseHandle.Write (fh : FuseHandle) (s : FS) (req : WriteRequest) (size0 : Nat)
    (now : Time) : Reply Nat :=
  if req.Pid ≠ fh.pid then Reply.ofError (FuseError (some Errno.EACCES.toGo)) size0 s
  else
    match s.Back.Write fh.ino req.Offset req.Data now with
    | .ret (.error e) back =>
      Reply.ofError (FuseError (some e.toGo)) size0 { s with Back := back }
    | .ret (.ok n) back => .ret none n { s with Back := back }
    | .panic => .panic
    | .deadlock => .deadlock

/-- Source: `(*FuseHandle).Read`; the value is `resp.Data`, given as `data0`
before the call.  The backend returns no `io.EOF`. -/
def FuseHandle.Read (fh : FuseHandle) (s : FS) (req : ReadRequest) (data0 : List Nat)
    (now : Time) : Reply (List Nat) :=
  match s.Back.Read fh.ino req.Offset req.Size now with
  | .ret (.error e) back =>
    Reply.ofError (FuseError (some e.toGo)) data0 { s with Back := back }
  | .ret (.ok b) back => .ret none b { s with Back := back }
  | .panic => .panic
  | .deadlock => .deadlock

/-- Source: `(*FuseHandle).ReadAll`; the value is the byte slice returned (empty
for nil). -/
def FuseHandle.ReadAll (fh : FuseHandle) (s : FS) (now : Time) : Reply (List Nat) :=
  match s.Back.Read fh.ino 0 (-1) now with
  | .ret (.error e) back =>
    Reply.ofError (FuseError (some e.toGo)) [] { s with Back := back }
  | .ret (.ok b) back => .ret none b { s with Back := back }
  | .panic => .panic
  | .deadlock => .deadlock

/-- Fields of `fuse.OpenRequest` that `(*FuseNode).Open` reads; `Flags` is
`int(req.Flags)`, `Pid` is `req.Header.Pid`. -/
structure OpenRequest where
  Flags : Int
  Pid : Nat

/-- Fields of `fuse.CreateRequest` that `(*FuseNode).Create` reads. -/
structure CreateRequest where
  Name : String
  Flags : Int
  Mode : FileMode
  Pid : Nat

/-- Source: `(*FuseNode).Open` on the node at address `p`; `none` is the nil
handle. -/
def FuseNode.Open (s : FS) (p : Nat) (req : OpenRequest) (now : Time) :
    Reply (Option FuseHandle) :=
  match s.nodes p with
  | none => .panic
  | some fn =>
    match s.Back.Open fn.ino req.Flags now with
    | .ret (.error e) back =>
      Reply.ofError (FuseError (some e.toGo)) none { s with Back := back }
    | .ret (.ok _) back =>
      .ret none (some (NewFuseHandle fn.ino req.Flags req.Pid)) { s with Back := back }
    | .panic => .panic
    | .deadlock => .deadlock

/-- Source: `(*FuseNode).Create` on the node at address `p`; the value is the
node pointer and the handle returned (`none` for nil, nil). -/
def FuseNode.Create (s : FS) (p : Nat) (req : CreateRequest) (now : Time) :
    Reply (Option (Nat × FuseHandle)) :=
  match s.nodes p with
  | none => .panic
  | some fn =>
    match s.Back.Create fn.ino req.Name req.Flags req.Mode now with
    | .ret (.error e) back =>
      Reply.ofError (FuseError (some e.toGo)) none { s with Back := back }
    | .ret (.ok stat) back =>
      let r := FS.LoadNode { s with Back := back } stat.Ino (some stat)
      .ret none (some (r.1, NewFuseHandle stat.Ino req.Flags req.Pid)) r.2
    | .panic => .panic
    | .deadlock => .deadlock

/-- Bit `fuse.SetattrMode` of `SetattrRequest.Valid` (package bazil.org/fuse). -/
def SetattrMode : Nat := 1

/-- Bit `fuse.SetattrUid`. -/
def SetattrUid : Nat := 2

/-- Bit `fuse.SetattrGid`. -/
def SetattrGid : Nat := 4

/-- Bit `fuse.SetattrSize`. -/
def SetattrSize : Nat := 8

/-- Bit `fuse.SetattrAtime`. -/
def SetattrAtime : Nat := 16

/-- Bit `fuse.SetattrMtime`. -/
def SetattrMtime : Nat := 32

/-- Fields of `fuse.SetattrRequest` that `(*FuseNode).Setattr` reads. -/
structure SetattrRequest where
  Valid : Nat
  Mode : FileMode
  Gid : Nat
  Uid : Nat
  Size : Nat
  Atime : Time
  Mtime : Time

/-- The map `attrs` that `(*FuseNode).Setattr` builds from the request (lines
149-176). -/
def SetattrRequest.attrs (req : SetattrRequest) : Attrs :=
  { mode := if req.Valid &&& SetattrMode ≠ 0 then some req.Mode else none,
    gid := if req.Valid &&& SetattrGid ≠ 0 then some req.Gid else none,
    uid := if req.Valid &&& SetattrUid ≠ 0 then some req.Uid else none,
    size := if req.Valid &&& SetattrSize ≠ 0 then some req.Size else none,
    atime := if req.Valid &&& SetattrAtime ≠ 0 then some req.Atime else none,
    mtime := if req.Valid &&& SetattrMtime ≠ 0 then some req.Mtime else none }

/-- Go `len(attrs)`: the number of keys present. -/
def Attrs.len (a : Attrs) : Nat :=
  (if a.mode.isSome then 1 else 0) + (if a.gid.isSome then 1 else 0) +
    (if a.uid.isSome then 1 else 0) + (if a.size.isSome then 1 else 0) +
    (if a.atime.isSome then 1 else 0) + (if a.mtime.isSome then 1 else 0)

/-- Source: `(*FuseNode).Setattr` on the node at address `p`. -/
def FuseNode.Setattr (s : FS) (p : Nat) (req : SetattrRequest) (now : Time) : Reply Unit :=
  match s.nodes p with
  | none => .panic
  | some fn =>
    let attrs := req.attrs
    if attrs.len = 0 then Reply.ofError (FuseError (some Errno.EINVAL.toGo)) () s
    else
      match s.Back.Setattr fn.ino attrs now with
      | .ret (.error e) back =>
        Reply.ofError (FuseError (some e.toGo)) () { s with Back := back }
      | .ret (.ok stat) back => .ret none () (FS.Update { s with Back := back } p (some stat))
      | .panic => .panic
      | .deadlock => .deadlock

/-- The attribute set without any key. -/
def noAttrs : Attrs :=
  { mode := none, gid := none, uid := none, atime := none, mtime := none, size := none }

/-- Every pointer of the node map is the address of an allocated node with the
inode number it is filed under. -/
def FS.Coherent (s : FS) : Prop :=
  ∀ i p, s.nodeMap i = some p → p < s.nextNode ∧ ∃ fn, s.nodes p = some fn ∧ fn.ino = i

/-- An adapter over the backend `back` with an empty node map (`nodeMap` nil). -/
def FS.init (back : MemFS) : FS :=
  { Back := back, nodeMap := fun _ => none, nodes := fun _ => none, nextNode := 0 }

/-- The entries of an inode in the order of its key list: what `Readdir`
reads. -/
def MemInode.listing (x : MemInode) : List Dirent :=
  x.dirents.keys.filterMap x.dirents.entries

/-- A creation in a directory: a name, a mode, and whether it is made by
`Create` (with flags 0) or by `Mkdir`. -/
structure Creation where
  name : String
  mode : FileMode
  viaCreate : Bool

/-- The backend call of a creation in directory `D`. -/
def Creation.call (D : Nat) (c : Creation) : Call :=
  if c.viaCreate then .Create D c.name 0 c.mode else .Mkdir D c.name c.mode

/-- The entries that a run of creations appends when the allocator stands at
`next`: one per creation, numbered from `next` on. -/
def createdEntries : Nat → List Creation → List Dirent
  | _, [] => []
  | next, c :: cs =>
    { Ino := next, Name := c.name, Typ := modeType c.mode } :: createdEntries (next + 1) cs

/-- The five values of package `os` that `convertUnderlyingError` knows, with
the error number each is mapped to. -/
def sentinelCode : GoError → Option Errno
  | .ErrClosed => some Errno.EBADF
  | .ErrExist => some Errno.EEXIST
  | .ErrInvalid => some Errno.EINVAL
  | .ErrNotExist => some Errno.ENOENT
  | .ErrPermission => some Errno.EPERM
  | _ => none

/-- The error is a protocol errno (`fuse.Errno`). -/
def GoError.isFuseErrno : GoError → Bool
  | .fuseErrno _ => true
  | _ => false

/-- The error is a raw `syscall.Errno`. -/
def GoError.isSysErrno : GoError → Bool
  | .sysErrno _ => true
  | _ => false

/-- What the caller of a handler sees when it returns: the error, the value
and the adapter state; `none` when the handler panicked or blocked. -/
def Reply.outcome {α : Type} : Reply α → Option (Option GoError × α × FS)
  | .ret err val s => some (err, val, s)
  | .panic => none
  | .deadlock => none

/-- An operation on the node cache. -/
inductive CacheOp where
  | load (ino : Nat) (stat : Option Stat)
  | remove (ino : Nat)

/-- Run one operation on the node cache. -/
def CacheOp.run (op : CacheOp) (s : FS) : FS :=
  match op with
  | .load ino stat => (s.LoadNode ino stat).2
  | .remove ino => s.RemoveNode ino

/-- Run operations on the node cache one after the other. -/
def runCache : List CacheOp → FS → FS
  | [], s => s
  | op :: ops, s => runCache ops (op.run s)

/-- The operation is `RemoveNode(i)`. -/
def CacheOp.removes (op : CacheOp) (i : Nat) : Bool :=
  match op with
  | .load _ _ => false
  | .remove ino => ino == i

/-- The cached stat of the node filed under inode number `i`. -/
def FS.cachedStat (s : FS) (i : Nat) : Option Stat :=
  match s.nodeMap i with
  | some p =>
    match s.nodes p with
    | some fn => fn.attr
    | none => none
  | none => none

/-- The bytes of "hello, world". -/
def helloWorld : List Nat := [104, 101, 108, 108, 111, 44, 32, 119, 111, 114, 108, 100]

/-- Scenario 2 of the specification run on the handlers: on an adapter over a
fresh store, process 7 creates f in the root with `O_CREAT|O_WRONLY|O_TRUNC`
(577), writes "hello, world" through the handle, and reads 16 bytes at offset 0
through the same handle; the error and the data of the read reply. -/
def exWriteOnlyRead : Option (Option GoError × List Nat) :=
  match FuseNode.Create (FS.init (NewMemFS 0)).Root.2 0
      { Name := "f", Flags := 577, Mode := fileMode, Pid := 7 } 1 with
  | .ret none (some (_, h)) s1 =>
    match h.Write s1 { Pid := 7, Offset := 0, Data := helloWorld } 0 2 with
    | .ret none _ s2 =>
      match h.Read s2 { Offset := 0, Size := 16 } [] 3 with
      | .ret err data _ => some (err, data)
      | _ => none
    | _ => none
  | _ => none

/-- Source: `(*ListMap).Init`: a new entry map, the key list emptied. -/
def ListMap.Init {K V : Type} (_t : ListMap K V) : ListMap K V :=
  { entries := fun _ => none, keys := [] }

/-- Source: `(*ListMap).Empty`. -/
def ListMap.Empty {K V : Type} (t : ListMap K V) : Bool := decide (t.keys.length = 0)

/-- Source: `(*ListMap).NotEmpty`. -/
def ListMap.NotEmpty {K V : Type} (t : ListMap K V) : Bool := decide (t.keys.length > 0)

/-- Source: `(*ListMap).Head`; `none` is the nil result. -/
def ListMap.Head {K V : Type} (t : ListMap K V) : Option V :=
  if t.NotEmpty then
    match t.keys.head? with
    | some key => t.entries key
    | none => none
  else none

/-- Source: `(*ListMap).Tail`; `none` is the nil result. -/
def ListMap.Tail {K V : Type} (t : ListMap K V) : Option V :=
  if t.NotEmpty then
    match t.keys.getLast? with
    | some key => t.entries key
    | none => none
  else none

/-- Source: `(*ListMap).Pop`: the value returned (`none` for nil) and the map
as the call leaves it. -/
def ListMap.Pop {K V : Type} [DecidableEq K] (t : ListMap K V) : Option V × ListMap K V :=
  if t.NotEmpty then
    match t.keys.getLast? with
    | some key =>
      (t.entries key,
        { entries := ListMap.setEntry t.entries key none, keys := t.keys.dropLast })
    | none => (none, t)
  else (none, t)

/-- Source: `(*ListMap).Pull`: the value returned (`none` for nil) and the map
as the call leaves it. -/
def ListMap.Pull {K V : Type} [DecidableEq K] (t : ListMap K V) : Option V × ListMap K V :=
  if t.NotEmpty then
    match t.keys with
    | key :: rest =>
      (t.entries key, { entries := ListMap.setEntry t.entries key none, keys := rest })
    | [] => (none, t)
  else (none, t)

/-- A call that changes a `ListMap`. -/
inductive ListMapOp (K V : Type) where
  | Put (key : K) (value : V)
  | Delete (key : K)
  | Pop
  | Pull
  | Init

/-- The map after one call. -/
def ListMapOp.run {K V : Type} [DecidableEq K] : ListMapOp K V → ListMap K V → ListMap K V
  | .Put key value, t => t.Put key value
  | .Delete key, t => t.Delete key
  | .Pop, t => t.Pop.2
  | .Pull, t => t.Pull.2
  | .Init, t => t.Init

/-- The map obtained from `NewListMap` by the calls `ops`, in order. -/
def ListMap.after {K V : Type} [DecidableEq K] (ops : List (ListMapOp K V)) : ListMap K V :=
  ops.foldl (fun t op => op.run t) ListMap.NewListMap

/-- The mode of inode `i` in the store, if any. -/
def MemFS.modeAt (fs : MemFS) (i : Nat) : Option FileMode := (fs.itable i).map MemInode.mode

/-- A call on the mutex of an inode: `inode.mu.Lock()` inside
`(*MemInode).Lock`, `inode.mu.Unlock()` inside `(*MemInode).Unlock`.  The mutex
of the store (`fs.mu`) is left out: it is held inside `LoadInode`,
`StoreInode`, `RemoveInode` and `GenerateIno` only, which lock nothing else. -/
inductive LockEvent where
  | acquire (ino : Nat)
  | release (ino : Nat)
  deriving DecidableEq, Repr

/-- Mutex calls of an operation that locks inode `ino` alone, when the inode
is in the table (`LoadInode`, `inode.Lock()`, `defer inode.Unlock()`). -/
def MemFS.oneLock (fs : MemFS) (ino : Nat) : List LockEvent :=
  match fs.LoadInode ino with
  | none => []
  | some _ => [.acquire ino, .release ino]

/-- Mutex calls of `(*MemFS).Stat`, in program order. -/
def MemFS.StatLocks (fs : MemFS) (ino : Nat) : List LockEvent := fs.oneLock ino

/-- Mutex calls of `(*MemInode).Lookup`: those of the `inode.fs.Stat` it
calls. -/
def MemInode.LookupLocks (fs : MemFS) (inode : MemInode) (name : String) : List LockEvent :=
  match inode.dirents.Get name with
  | none => []
  | some dirent => fs.StatLocks dirent.Ino

/-- Mutex calls of `(*MemInode).Rmdir`: `child.Lock()`, `defer child.Unlock()`;
none when the call returns before, or panics on a nil `child`. -/
def MemInode.RmdirLocks (fs : MemFS) (inode : MemInode) (name : String) : List LockEvent :=
  match inode.dirents.Get name with
  | none => []
  | some dirent =>
    if IsDir dirent.Typ = false then []
    else
      match fs.LoadInode dirent.Ino with
      | none => []
      | some _ => [.acquire dirent.Ino, .release dirent.Ino]

/-- Mutex calls of `(*MemInode).Unlink`. -/
def MemInode.UnlinkLocks (fs : MemFS) (inode : MemInode) (name : String) : List LockEvent :=
  match inode.dirents.Get name with
  | none => []
  | some dirent =>
    match fs.LoadInode dirent.Ino with
    | none => []
    | some _ => [.acquire dirent.Ino, .release dirent.Ino]

/-- Mutex calls of an operation that locks inode `ino` and runs `inner` under
the lock. -/
def MemFS.underLock (fs : MemFS) (ino : Nat) (inner : MemInode → List LockEvent) :
    List LockEvent :=
  match fs.LoadInode ino with
  | none => []
  | some inode => [.acquire ino] ++ inner inode ++ [.release ino]

/-- Mutex calls of `(*MemFS).Lookup`. -/
def MemFS.LookupLocks (fs : MemFS) (ino : Nat) (name : String) : List LockEvent :=
  fs.underLock ino (fun inode => inode.LookupLocks fs name)

/-- Mutex calls of `(*MemFS).Rmdir`. -/
def MemFS.RmdirLocks (fs : MemFS) (ino : Nat) (name : String) : List LockEvent :=
  fs.underLock ino (fun inode => inode.RmdirLocks fs name)

/-- Mutex calls of `(*MemFS).Unlink`. -/
def MemFS.UnlinkLocks (fs : MemFS) (ino : Nat) (name : String) : List LockEvent :=
  fs.underLock ino (fun inode => inode.UnlinkLocks fs name)

/-- Mutex calls of `(*MemFS).Readdir`: none when it returns ENOSYS before it
locks. -/
def MemFS.ReaddirLocks (fs : MemFS) (ino : Nat) (marker : String) (n : Int) :
    List LockEvent :=
  match fs.LoadInode ino with
  | none => []
  | some _ => if marker.length > 0 ∨ n > 0 then [] else [.acquire ino, .release ino]

/-- Lines 162-175 of `(*MemFS).Rename`: the locks of the two parents around
the mutex calls `inner` of the rest of the body; the deferred unlocks run last,
the last deferred first. -/
def renameProgram (sIno dIno : Nat) (inner : List LockEvent) : List LockEvent :=
  if sIno = dIno then [.acquire sIno] ++ inner ++ [.release sIno]
  else if sIno < dIno then
    [.acquire sIno, .acquire dIno] ++ inner ++ [.release dIno, .release sIno]
  else [.acquire dIno, .acquire sIno] ++ inner ++ [.release sIno, .release dIno]

/-- Mutex calls of the body of `(*MemFS).Rename` under the locks of the
parents: those of the `dInode.Rmdir` or `dInode.Unlink` that removes an
existing destination entry. -/
def MemFS.RenameInner (fs : MemFS) (sInode : MemInode) (sName : String) (dInode : MemInode)
    (dName : String) : List LockEvent :=
  match sInode.GetDirent sName with
  | .error _ => []
  | .ok sDirent =>
    match dInode.GetDirent dName with
    | .error _ => []
    | .ok dDirent =>
      if sDirent.Ino = dDirent.Ino then []
      else if IsDir sDirent.Typ = false ∧ IsDir dDirent.Typ = true then []
      else if IsDir sDirent.Typ = true ∧ IsDir dDirent.Typ = false then []
      else if IsDir dDirent.Typ = true then dInode.RmdirLocks fs dName
      else dInode.UnlinkLocks fs dName

/-- Mutex calls of `(*MemFS).Rename`, in program order. -/
def MemFS.RenameLocks (fs : MemFS) (sIno : Nat) (sName : String) (dIno : Nat)
    (dName : String) : List LockEvent :=
  match fs.LoadInode sIno with
  | none => []
  | some sInode =>
    match fs.LoadInode dIno with
    | none => []
    | some dInode => renameProgram sIno dIno (fs.RenameInner sInode sName dInode dName)

/-- Mutex calls of a call of the backend contract on store `fs`, in program
order. -/
def Call.locks (c : Call) (fs : MemFS) : List LockEvent :=
  match c with
  | .Create ino _ _ _ => fs.oneLock ino
  | .Mkdir ino _ _ => fs.oneLock ino
  | .Open ino _ => fs.oneLock ino
  | .Release ino _ => fs.oneLock ino
  | .Unlink ino name => fs.UnlinkLocks ino name
  | .Rmdir ino name => fs.RmdirLocks ino name
  | .Rename sIno sName dIno dName => fs.RenameLocks sIno sName dIno dName
  | .Setattr ino _ => fs.oneLock ino
  | .Read ino _ _ => fs.oneLock ino
  | .Write ino _ _ => fs.oneLock ino
  | .Stat ino => fs.StatLocks ino
  | .Lookup ino name => fs.LookupLocks ino name
  | .Readdir ino marker n => fs.ReaddirLocks ino marker n

/-- One mutex call of a goroutine that holds the mutexes `held`: `Lock` on a
mutex it holds blocks for ever (`none`); `Unlock` gives the mutex up. -/
def LockEvent.apply (held : List Nat) : LockEvent → Option (List Nat)
  | .acquire i => if i ∈ held then none else some (i :: held)
  | .release i => some (held.erase i)

/-- The mutexes held after each mutex call of a program that runs alone,
starting with `held`; the run ends at a `Lock` that blocks. -/
def heldSets : List LockEvent → List Nat → List (List Nat)
  | [], _ => []
  | e :: es, held =>
    match e.apply held with
    | none => []
    | some h => h :: heldSets es h

/-- The greatest number of mutexes the program holds at a time when it runs
alone, starting with none. -/
def maxHeld (p : List LockEvent) : Nat :=
  ((heldSets p []).map List.length).foldr max 0

/-- Whether the program, run alone starting with `held`, calls `Lock` on a
mutex it holds. -/
def selfBlocks : List LockEvent → List Nat → Bool
  | [], _ => false
  | e :: es, held =>
    match e.apply held with
    | none => true
    | some h => selfBlocks es h

/-- Whether the call is a Rename. -/
def Call.isRename : Call → Bool
  | .Rename _ _ _ _ => true
  | _ => false

/-- A call that goes on to an entry of the directory it has locked: Lookup,
Rmdir, Unlink. -/
def Call.visitsEntry : Call → Bool
  | .Lookup _ _ => true
  | .Rmdir _ _ => true
  | .Unlink _ _ => true
  | _ => false

/-- Example store: directories a (inode 2) and b (inode 3) in the root, file f
(inode 4) in a, file g (inode 5) in b. -/
def exDirsAB : MemFS :=
  storeAfter [.Mkdir 1 "a" dirMode, .Mkdir 1 "b" dirMode, .Create 2 "f" 0 fileMode,
    .Create 3 "g" 0 fileMode]

/-- A goroutine in the middle of a call: the inode mutexes it holds and the
mutex calls it has still to make. -/
structure Thread where
  held : List Nat
  rest : List LockEvent
  deriving DecidableEq, Repr

/-- A goroutine about to run the mutex calls `p`, holding no mutex. -/
def Thread.start (p : List LockEvent) : Thread := { held := [], rest := p }

/-- Whether some goroutine holds the mutex of inode `i`. -/
def lockedBy (ts : List Thread) (i : Nat) : Bool := ts.any (fun t => decide (i ∈ t.held))

/-- Goroutine `k` makes its next mutex call: `Lock` goes through when no
goroutine holds the mutex, `Unlock` always; `none` when the goroutine has to
wait or has finished. -/
def stepThread (ts : List Thread) (k : Nat) : Option (List Thread) :=
  match ts[k]? with
  | none => none
  | some t =>
    match t.rest with
    | [] => none
    | .acquire i :: r =>
      if lockedBy ts i then none else some (ts.set k { held := i :: t.held, rest := r })
    | .release i :: r => some (ts.set k { held := t.held.erase i, rest := r })

/-- The goroutines after a schedule: each element names the goroutine that is
given the processor next; one that cannot make its call is passed over. -/
def runSchedule : List Nat → List Thread → List Thread
  | [], ts => ts
  | k :: ks, ts =>
    match stepThread ts k with
    | none => runSchedule ks ts
    | some ts1 => runSchedule ks ts1

/-- Every goroutine has made all its mutex calls. -/
def allDone (ts : List Thread) : Bool := ts.all (fun t => t.rest.isEmpty)

/-- The goroutine after its next mutex call when it runs alone. -/
def Thread.advance (t : Thread) : Option Thread :=
  match t.rest with
  | [] => none
  | e :: r => (e.apply t.held).map (fun h => { held := h, rest := r })

/-- The states a goroutine goes through when it runs the mutex calls `p`
alone, starting with the mutexes `held`. -/
def trail : List Nat → List LockEvent → List Thread
  | held, [] => [{ held := held, rest := [] }]
  | held, e :: r =>
    { held := held, rest := e :: r } ::
      (match e.apply held with
       | none => []
       | some h => trail h r)

/-- The mutex a waiting goroutine asks for (0 when its next call is no `Lock`). -/
def Thread.wanted (t : Thread) : Nat :=
  match t.rest with
  | .acquire i :: _ => i
  | _ => 0

/-- The mutex calls that the body of Rename makes under the locks of the
parents: none, or Lock and Unlock of the inode of the entry it replaces. -/
def childLocks : Option Nat → List LockEvent
  | none => []
  | some c => [.acquire c, .release c]

/-- No inode mutex is held by two goroutines. -/
def exclusive (ts : List Thread) : Prop :=
  ∀ (k1 k2 : Nat) (t1 t2 : Thread) (i : Nat), ts[k1]? = some t1 → ts[k2]? = some t2 →
    i ∈ t1.held → i ∈ t2.held → k1 = k2

/-- Example store: directories a (inode 2) and b (inode 4) in the root,
directory y (inode 3) in a, directories x (inode 5) and w (inode 6) in b. -/
def exLockCycle : MemFS :=
  storeAfter [.Mkdir 1 "a" dirMode, .Mkdir 2 "y" dirMode, .Mkdir 1 "b" dirMode,
    .Mkdir 4 "x" dirMode, .Mkdir 4 "w" dirMode]

/-- Two goroutines on `exLockCycle`: one runs Rename of x in b onto y in a,
the other Rename of w in b to w in y. -/
def exLockCycleThreads : List Thread :=
  [Thread.start ((Call.Rename 4 "x" 2 "y").locks exLockCycle),
   Thread.start ((Call.Rename 4 "w" 3 "w").locks exLockCycle)]

/-! ## Basic facts on modes and on the ordered entry map -/

theorem IsDir_modeType (m : FileMode) : IsDir (modeType m) = IsDir m := by
  unfold IsDir modeType
  have h : ModeType &&& ModeDir = ModeDir := by decide
  rw [Nat.land_assoc, h]

namespace ListMap
variable {K V : Type} [DecidableEq K]

@[simp] theorem setEntry_same (m : K → Option V) (k : K) (v : Option V) :
    setEntry m k v k = v := by simp [setEntry]

theorem setEntry_ne (m : K → Option V) {k j : K} (v : Option V) (h : j ≠ k) :
    setEntry m k v j = m j := by simp [setEntry, h]

theorem Put_entries (t : ListMap K V) (k : K) (v : V) :
    (t.Put k v).entries = setEntry t.entries k (some v) := by
  unfold Put; split <;> rfl

theorem Put_keys_of_none (t : ListMap K V) (k : K) (v : V) (h : t.entries k = none) :
    (t.Put k v).keys = t.keys ++ [k] := by
  unfold Put; simp [h]

theorem Put_keys_of_some (t : ListMap K V) (k : K) (v : V) (h : (t.entries k).isSome = true) :
    (t.Put k v).keys = t.keys := by
  unfold Put; simp [h]

theorem Delete_entries (t : ListMap K V) (k : K) :
    (t.Delete k).entries = setEntry t.entries k none := by
  unfold Delete; split
  · rfl
  · rename_i h
    funext j
    by_cases hj : j = k
    · subst hj; simp at h; simp [h]
    · simp [setEntry, hj]

theorem Delete_keys_of_some (t : ListMap K V) (k : K) (h : (t.entries k).isSome = true) :
    (t.Delete k).keys = t.keys.erase k := by
  unfold Delete; simp [h]

theorem Delete_of_none (t : ListMap K V) (k : K) (h : t.entries k = none) :
    t.Delete k = t := by
  unfold Delete; simp [h]

theorem WF_NewListMap : (NewListMap : ListMap K V).WF :=
  ⟨List.nodup_nil, fun k => by simp [NewListMap]⟩

theorem WF.afterPut {t : ListMap K V} (h : t.WF) (k : K) (v : V) : (t.Put k v).WF := by
  by_cases hk : (t.entries k).isSome = true
  · refine ⟨by rw [Put_keys_of_some t k v hk]; exact h.nodup, fun j => ?_⟩
    rw [Put_keys_of_some t k v hk, Put_entries]
    by_cases hj : j = k
    · subst hj; simp [(h.mem_iff j).2 hk]
    · rw [setEntry_ne _ _ hj]; exact h.mem_iff j
  · have hn : t.entries k = none := by simpa using hk
    have hnot : k ∉ t.keys := fun hm => hk ((h.mem_iff k).1 hm)
    refine ⟨?_, fun j => ?_⟩
    · rw [Put_keys_of_none t k v hn]
      exact List.Nodup.append h.nodup (List.nodup_singleton k) (by simpa using hnot)
    · rw [Put_keys_of_none t k v hn, Put_entries]
      by_cases hj : j = k
      · subst hj; simp
      · rw [setEntry_ne _ _ hj]; simp [hj, h.mem_iff j]

theorem WF.afterDelete {t : ListMap K V} (h : t.WF) (k : K) : (t.Delete k).WF := by
  by_cases hk : (t.entries k).isSome = true
  · refine ⟨by rw [Delete_keys_of_some t k hk]; exact h.nodup.erase k, fun j => ?_⟩
    rw [Delete_keys_of_some t k hk, Delete_entries]
    by_cases hj : j = k
    · subst hj; simp [h.nodup.mem_erase_iff]
    · rw [setEntry_ne _ _ hj, List.mem_erase_of_ne hj]; exact h.mem_iff j
  · have hn : t.entries k = none := by simpa using hk
    rw [Delete_of_none t k hn]; exact h

end ListMap

/-! ## The representation invariant is kept by every backend call -/

theorem inc32_lt (n : Nat) : inc32 n < 4294967296 := Nat.mod_lt _ (by decide)

theorem dec32_lt (n : Nat) : dec32 n < 4294967296 := by
  unfold dec32; split <;> omega

theorem dec32_eq (n : Nat) : dec32 n = (n + 4294967296 - 1) % 4294967296 := by
  unfold dec32; split <;> omega

@[simp] theorem MemFS.StoreInode_itable (fs : MemFS) (i : Nat) (x : MemInode) (j : Nat) :
    (fs.StoreInode i x).itable j = if j = i then some x else fs.itable j := rfl

@[simp] theorem MemFS.StoreInode_next (fs : MemFS) (i : Nat) (x : MemInode) :
    (fs.StoreInode i x).inoNextFree = fs.inoNextFree := rfl

@[simp] theorem MemFS.RemoveInode_itable (fs : MemFS) (i j : Nat) :
    (fs.RemoveInode i).itable j = if j = i then none else fs.itable j := rfl

@[simp] theorem MemFS.RemoveInode_next (fs : MemFS) (i : Nat) :
    (fs.RemoveInode i).inoNextFree = fs.inoNextFree := rfl

theorem DirentsOK.mono_next {n m : Nat} {t : ListMap String Dirent} (h : DirentsOK n t)
    (hnm : n ≤ m) : DirentsOK m t :=
  ⟨h.wf, fun k e he => ⟨(h.entry k e he).1, (h.entry k e he).2.1,
    Nat.lt_of_lt_of_le (h.entry k e he).2.2 hnm⟩⟩

theorem DirentsOK.new (n : Nat) : DirentsOK n ListMap.NewListMap :=
  ⟨ListMap.WF_NewListMap, fun k e he => by simp [ListMap.NewListMap] at he⟩

theorem DirentsOK.withPut {n : Nat} {t : ListMap String Dirent} (h : DirentsOK n t)
    (k : String) (ino : Nat) (ty : FileMode) (h0 : 0 < ino) (hlt : ino < n) :
    DirentsOK n (t.Put k { Ino := ino, Name := k, Typ := ty }) := by
  refine ⟨h.wf.afterPut k _, fun j e he => ?_⟩
  rw [ListMap.Put_entries] at he
  by_cases hj : j = k
  · subst hj
    simp at he
    subst he
    exact ⟨rfl, h0, hlt⟩
  · rw [ListMap.setEntry_ne _ _ hj] at he
    exact h.entry j e he

theorem DirentsOK.withDelete {n : Nat} {t : ListMap String Dirent} (h : DirentsOK n t)
    (k : String) : DirentsOK n (t.Delete k) := by
  refine ⟨h.wf.afterDelete k, fun j e he => ?_⟩
  rw [ListMap.Delete_entries] at he
  by_cases hj : j = k
  · subst hj; simp at he
  · rw [ListMap.setEntry_ne _ _ hj] at he
    exact h.entry j e he

theorem InodeOK.mono {n m i : Nat} {x : MemInode} (h : InodeOK n i x) (hnm : n ≤ m) :
    InodeOK m i x :=
  ⟨h.ino_eq, h.pos, Nat.lt_of_lt_of_le h.lt_next hnm, h.nlink_lt, h.count_lt,
    h.dirents.mono_next hnm⟩

theorem Valid.store {fs : MemFS} (h : Valid fs) {i : Nat} {x : MemInode}
    (hx : InodeOK fs.inoNextFree i x) : Valid (fs.StoreInode i x) := by
  refine ⟨h.next_pos, fun j y hy => ?_⟩
  simp only [MemFS.StoreInode_itable] at hy
  split at hy
  · rename_i hji
    subst hji
    cases hy
    exact hx
  · exact h.inode j y hy

theorem Valid.remove {fs : MemFS} (h : Valid fs) (i : Nat) : Valid (fs.RemoveInode i) := by
  refine ⟨h.next_pos, fun j y hy => ?_⟩
  simp only [MemFS.RemoveInode_itable] at hy
  split at hy
  · cases hy
  · exact h.inode j y hy

theorem Valid.writeBack {fs : MemFS} (h : Valid fs) {i : Nat} {x : MemInode}
    (hx : InodeOK fs.inoNextFree i x) : Valid (fs.writeBack i x) := by
  unfold MemFS.writeBack
  split
  · exact h.store hx
  · exact h

theorem InodeOK.Lock {n i : Nat} {x : MemInode} (h : InodeOK n i x) (now : Time) :
    InodeOK n i (x.Lock now) :=
  ⟨h.ino_eq, h.pos, h.lt_next, h.nlink_lt, h.count_lt, h.dirents⟩

theorem InodeOK.Reference {n i : Nat} {x : MemInode} (h : InodeOK n i x) :
    InodeOK n i x.Reference :=
  ⟨h.ino_eq, h.pos, h.lt_next, h.nlink_lt, inc32_lt _, h.dirents⟩

theorem valid_Stat {fs fs1 : MemFS} (h : Valid fs) {held : List Nat} {ino : Nat} {now : Time}
    {v : Except Errno Stat} (hr : fs.Stat held ino now = .ret v fs1) : Valid fs1 := by
  unfold MemFS.Stat MemFS.LoadInode at hr
  split at hr
  · cases hr; exact h
  · rename_i x hx
    split at hr
    · cases hr
    · cases hr
      exact h.store ((h.inode ino x hx).Lock now)

theorem valid_Open {fs fs1 : MemFS} (h : Valid fs) {ino : Nat} {flags : Int} {now : Time}
    {v : Except Errno Unit} (hr : fs.Open ino flags now = .ret v fs1) : Valid fs1 := by
  unfold MemFS.Open MemFS.LoadInode at hr
  split at hr
  · cases hr; exact h
  · rename_i x hx
    cases hr
    exact h.store ((h.inode ino x hx).Lock now).Reference

theorem MemInode.AddDirent_of_some (fs : MemFS) (x : MemInode) (ino : Nat) (name : String)
    (t : FileMode) (now : Time) (e : Dirent) (h : x.dirents.entries name = some e) :
    x.AddDirent fs ino name t now = (.error .EEXIST, fs, x) := by
  simp [MemInode.AddDirent, ListMap.Get, h]

theorem MemInode.AddDirent_of_none (fs : MemFS) (x : MemInode) (ino : Nat) (name : String)
    (t : FileMode) (now : Time) (h : x.dirents.entries name = none) (h0 : ino ≠ 0) :
    x.AddDirent fs ino name t now = (.ok ino, fs, x.withEntry name ino t now) := by
  simp [MemInode.AddDirent, ListMap.Get, h, h0, MemInode.withEntry]

theorem MemInode.AddDirent_zero (fs : MemFS) (x : MemInode) (name : String)
    (t : FileMode) (now : Time) (h : x.dirents.entries name = none) :
    x.AddDirent fs 0 name t now =
      (.ok fs.inoNextFree, { fs with inoNextFree := fs.inoNextFree + 1 },
        x.withEntry name fs.inoNextFree t now) := by
  simp [MemInode.AddDirent, ListMap.Get, h, MemFS.GenerateIno, MemInode.withEntry]

theorem NewMemInode_dir (fs : MemFS) (p : MemInode) (ino : Nat) (mode : FileMode) (now : Time)
    (hd : IsDir mode = true) (h0 : ino ≠ 0) (hp : p.ino ≠ 0) :
    NewMemInode fs (some p) ino mode now =
      (fs, newDir ino mode p.ino p.mode now, some (p.setNlink (inc32 p.nlink))) := by
  simp only [NewMemInode, hd, if_true, MemInode.AddDirent, h0, hp, if_false]
  rfl

theorem NewMemInode_file (fs : MemFS) (p : Option MemInode) (ino : Nat) (mode : FileMode)
    (now : Time) (hd : IsDir mode = false) :
    NewMemInode fs p ino mode now = (fs, MemInode.init ino mode now, p) := by
  simp [NewMemInode, hd]

theorem MemFS.createInode_noent (fs : MemFS) (ino : Nat) (name : String) (mode : FileMode)
    (now : Time) (reference : Bool) (hx : fs.itable ino = none) :
    fs.createInode ino name mode now reference = .ret (.error .ENOENT) fs := by
  simp [MemFS.createInode, MemFS.LoadInode, hx]

theorem MemFS.createInode_exists (fs : MemFS) (ino : Nat) (name : String) (mode : FileMode)
    (now : Time) (reference : Bool) (x : MemInode) (e : Dirent)
    (hx : fs.itable ino = some x) (hg : x.dirents.entries name = some e) :
    fs.createInode ino name mode now reference =
      .ret (.error .EEXIST) (fs.StoreInode ino (x.Lock now)) := by
  have hg1 : (x.Lock now).dirents.entries name = some e := hg
  simp only [MemFS.createInode, MemFS.LoadInode, hx,
    MemInode.AddDirent_of_some _ _ _ _ _ _ e hg1]

theorem MemFS.createInode_file (fs : MemFS) (ino : Nat) (name : String) (mode : FileMode)
    (now : Time) (reference : Bool) (x : MemInode)
    (hx : fs.itable ino = some x) (hg : x.dirents.entries name = none)
    (hd : IsDir mode = false) :
    fs.createInode ino name mode now reference =
      .ret (.ok (refIf reference (MemInode.init fs.inoNextFree mode now)).Stat)
        ((fs.bump.StoreInode ino
            ((x.Lock now).withEntry name fs.inoNextFree (modeType mode) now)).StoreInode
          fs.inoNextFree (refIf reference (MemInode.init fs.inoNextFree mode now))) := by
  have hg1 : (x.Lock now).dirents.entries name = none := hg
  simp only [MemFS.createInode, MemFS.LoadInode, hx,
    MemInode.AddDirent_zero _ _ _ _ _ hg1, NewMemInode_file _ _ _ _ _ hd]
  rfl

theorem MemFS.createInode_dir (fs : MemFS) (ino : Nat) (name : String) (mode : FileMode)
    (now : Time) (reference : Bool) (x : MemInode)
    (hx : fs.itable ino = some x) (hg : x.dirents.entries name = none)
    (hd : IsDir mode = true) (h0 : fs.inoNextFree ≠ 0) (hp : x.ino ≠ 0) :
    fs.createInode ino name mode now reference =
      .ret (.ok (refIf reference (newDir fs.inoNextFree mode x.ino x.mode now)).Stat)
        ((fs.bump.StoreInode ino
            (((x.Lock now).withEntry name fs.inoNextFree (modeType mode) now).setNlink
              (inc32 x.nlink))).StoreInode
          fs.inoNextFree (refIf reference (newDir fs.inoNextFree mode x.ino x.mode now))) := by
  have hg1 : (x.Lock now).dirents.entries name = none := hg
  have hp1 : ((x.Lock now).withEntry name fs.inoNextFree (modeType mode) now).ino ≠ 0 := hp
  simp only [MemFS.createInode, MemFS.LoadInode, hx,
    MemInode.AddDirent_zero _ _ _ _ _ hg1, NewMemInode_dir _ _ _ _ _ hd h0 hp1]
  rfl

theorem InodeOK.withEntry {n i : Nat} {x : MemInode} (h : InodeOK n i x) (name : String)
    {ino : Nat} (t : FileMode) (now : Time) (h0 : 0 < ino) (hlt : ino < n) :
    InodeOK n i (x.withEntry name ino t now) :=
  ⟨h.ino_eq, h.pos, h.lt_next, h.nlink_lt, h.count_lt, h.dirents.withPut name ino t h0 hlt⟩

theorem InodeOK.withoutEntry {n i : Nat} {x : MemInode} (h : InodeOK n i x) (name : String)
    (now : Time) : InodeOK n i (x.withoutEntry name now) :=
  ⟨h.ino_eq, h.pos, h.lt_next, h.nlink_lt, h.count_lt, h.dirents.withDelete name⟩

theorem InodeOK.setNlink {n i : Nat} {x : MemInode} (h : InodeOK n i x) {k : Nat}
    (hk : k < 4294967296) : InodeOK n i (x.setNlink k) :=
  ⟨h.ino_eq, h.pos, h.lt_next, hk, h.count_lt, h.dirents⟩

theorem inodeOK_init {n i : Nat} (mode : FileMode) (now : Time) (h0 : 0 < i) (hlt : i < n) :
    InodeOK n i (MemInode.init i mode now) :=
  ⟨rfl, h0, hlt, by show 1 < 4294967296; decide, by show 0 < 4294967296; decide, DirentsOK.new n⟩

theorem inodeOK_newDir {n i : Nat} (mode : FileMode) {pino : Nat} (pmode : FileMode)
    (now : Time) (h0 : 0 < i) (hlt : i < n) (hp0 : 0 < pino) (hplt : pino < n) :
    InodeOK n i (newDir i mode pino pmode now) :=
  ⟨rfl, h0, hlt, by show 2 < 4294967296; decide, by show 0 < 4294967296; decide,
    ((DirentsOK.new n).withPut "." i _ h0 hlt).withPut ".." pino _ hp0 hplt⟩

theorem inodeOK_refIf {n i : Nat} {x : MemInode} (h : InodeOK n i x) (r : Bool) :
    InodeOK n i (refIf r x) := by
  cases r
  · exact h
  · exact h.Reference

theorem Valid.bump {fs : MemFS} (h : Valid fs) : Valid fs.bump :=
  ⟨Nat.succ_pos _, fun j y hy => (h.inode j y hy).mono (Nat.le_succ _)⟩

theorem valid_createInode {fs fs1 : MemFS} (h : Valid fs) {ino : Nat} {name : String}
    {mode : FileMode} {now : Time} {reference : Bool} {v : Except Errno Fused.Stat}
    (hr : fs.createInode ino name mode now reference = .ret v fs1) : Valid fs1 := by
  cases hx : fs.itable ino with
  | none =>
    rw [MemFS.createInode_noent _ _ _ _ _ _ hx] at hr
    cases hr; exact h
  | some x =>
    have hx0 := h.inode ino x hx
    have hn0 : fs.inoNextFree ≠ 0 := Nat.pos_iff_ne_zero.1 h.next_pos
    have hlt : fs.inoNextFree < fs.bump.inoNextFree := Nat.lt_succ_self _
    have hp : InodeOK fs.bump.inoNextFree ino
        ((x.Lock now).withEntry name fs.inoNextFree (modeType mode) now) :=
      (((hx0.Lock now).mono (Nat.le_succ _)).withEntry name _ now h.next_pos hlt)
    cases hg : x.dirents.entries name with
    | some e =>
      rw [MemFS.createInode_exists _ _ _ _ _ _ x e hx hg] at hr
      cases hr
      exact h.store (hx0.Lock now)
    | none =>
      cases hd : IsDir mode with
      | false =>
        rw [MemFS.createInode_file _ _ _ _ _ _ x hx hg hd] at hr
        cases hr
        exact (h.bump.store hp).store (inodeOK_refIf (inodeOK_init mode now h.next_pos hlt) _)
      | true =>
        have hpne : x.ino ≠ 0 := by rw [hx0.ino_eq]; exact Nat.pos_iff_ne_zero.1 hx0.pos
        rw [MemFS.createInode_dir _ _ _ _ _ _ x hx hg hd hn0 hpne] at hr
        cases hr
        refine (h.bump.store (hp.setNlink (inc32_lt _))).store
          (inodeOK_refIf (inodeOK_newDir mode x.mode now h.next_pos hlt ?_ ?_) _)
        · rw [hx0.ino_eq]; exact hx0.pos
        · rw [hx0.ino_eq]; exact Nat.lt_succ_of_lt hx0.lt_next

theorem valid_Create {fs fs1 : MemFS} (h : Valid fs) {ino : Nat} {name : String} {flags : Int}
    {mode : FileMode} {now : Time} {v : Except Errno Fused.Stat}
    (hr : fs.Create ino name flags mode now = .ret v fs1) : Valid fs1 :=
  valid_createInode h hr

theorem valid_Mkdir {fs fs1 : MemFS} (h : Valid fs) {ino : Nat} {name : String}
    {mode : FileMode} {now : Time} {v : Except Errno Fused.Stat}
    (hr : fs.Mkdir ino name mode now = .ret v fs1) : Valid fs1 :=
  valid_createInode h hr

theorem valid_NewMemFS (now : Time) : Valid (NewMemFS now) := by
  refine ⟨by show 0 < 2; decide, fun i x hx => ?_⟩
  have hroot : NewMemFS now =
      (MemFS.StoreInode { inoNextFree := 2, itable := fun _ => none } 1
        { MemInode.init 1 (ModeDir ||| 0o777) now with
          nlink := 2,
          dirents := newDirents 1 (ModeDir ||| 0o777) 1 (ModeDir ||| 0o777) }) := rfl
  rw [hroot] at hx
  simp only [MemFS.StoreInode_itable] at hx
  split at hx
  · rename_i h1
    subst h1
    cases hx
    exact ⟨rfl, by decide, by show 1 < 2; decide, by show 2 < 4294967296; decide, by show 0 < 4294967296; decide,
      ((DirentsOK.new 2).withPut "." 1 _ (by decide) (by decide)).withPut ".." 1 _ (by decide)
        (by decide)⟩
  · cases hx

theorem inodeOK_removeDirent {n i : Nat} {x : MemInode} (h : InodeOK n i x) (name : String)
    (now : Time) : InodeOK n i (x.RemoveDirent name now).2 := by
  unfold MemInode.RemoveDirent
  split
  · exact h
  · exact ⟨h.ino_eq, h.pos, h.lt_next, h.nlink_lt, h.count_lt, h.dirents.withDelete name⟩

theorem inodeOK_dropLink {n i : Nat} {x : MemInode} (h : InodeOK n i x) (now : Time) :
    InodeOK n i (x.dropLink now) := by
  unfold MemInode.dropLink
  split
  · exact h
  · exact ⟨h.ino_eq, h.pos, h.lt_next, dec32_lt _, h.count_lt, h.dirents⟩

theorem MemInode.doRemove_snd (fs : MemFS) (self ck : Nat) (inode child : MemInode)
    (name : String) (now : Time) :
    (inode.doRemove fs self ck child name now).2 = (inode.RemoveDirent name now).2 := by
  unfold MemInode.doRemove
  dsimp only
  by_cases hc : (child.dropLink now).nlink = 0 ∧ (child.dropLink now).count = 0
  · rw [if_pos hc]
  · rw [if_neg hc]

theorem MemInode.doRemove_fst (fs : MemFS) (self ck : Nat) (inode child : MemInode)
    (name : String) (now : Time) :
    (inode.doRemove fs self ck child name now).1 =
      if (child.dropLink now).nlink = 0 ∧ (child.dropLink now).count = 0 then
        ((fs.StoreInode self (inode.RemoveDirent name now).2).StoreInode ck
          (child.dropLink now)).RemoveInode (child.dropLink now).ino
      else
        (fs.StoreInode self (inode.RemoveDirent name now).2).StoreInode ck
          (child.dropLink now) := by
  unfold MemInode.doRemove
  dsimp only
  by_cases hc : (child.dropLink now).nlink = 0 ∧ (child.dropLink now).count = 0
  · rw [if_pos hc, if_pos hc]
  · rw [if_neg hc, if_neg hc]

theorem MemInode.doRemove_next (fs : MemFS) (self ck : Nat) (inode child : MemInode)
    (name : String) (now : Time) :
    (inode.doRemove fs self ck child name now).1.inoNextFree = fs.inoNextFree := by
  rw [MemInode.doRemove_fst]
  split <;> rfl

theorem valid_doRemove {fs : MemFS} (h : Valid fs) {self ck : Nat} {inode child : MemInode}
    (hi : InodeOK fs.inoNextFree self inode) (hc : InodeOK fs.inoNextFree ck child)
    (name : String) (now : Time) :
    Valid (inode.doRemove fs self ck child name now).1 ∧
      InodeOK fs.inoNextFree self (inode.doRemove fs self ck child name now).2 := by
  have hi1 := inodeOK_removeDirent hi name now
  have hv : Valid ((fs.StoreInode self (inode.RemoveDirent name now).2).StoreInode ck
      (child.dropLink now)) :=
    (h.store hi1).store (inodeOK_dropLink hc now)
  rw [MemInode.doRemove_fst, MemInode.doRemove_snd]
  refine ⟨?_, hi1⟩
  split
  · exact hv.remove _
  · exact hv

theorem valid_inode_Rmdir {fs fs1 : MemFS} (h : Valid fs) {held : List Nat} {self : Nat}
    {inode : MemInode} (hi : InodeOK fs.inoNextFree self inode) {name : String} {now : Time}
    {v : Except Errno MemInode} (hr : inode.Rmdir fs held self name now = .ret v fs1) :
    Valid fs1 ∧ fs1.inoNextFree = fs.inoNextFree ∧
      ∀ x, v = .ok x → InodeOK fs.inoNextFree self x := by
  unfold MemInode.Rmdir MemFS.LoadInode at hr
  split at hr
  · cases hr; exact ⟨h, rfl, fun x hx => by cases hx⟩
  · rename_i dirent hdir
    split at hr
    · cases hr; exact ⟨h, rfl, fun x hx => by cases hx⟩
    · split at hr
      · cases hr
      · rename_i child0 hch
        have hc0 := h.inode _ _ hch
        split at hr
        · cases hr
        · dsimp only at hr
          split at hr
          · cases hr
            exact ⟨h.store (hc0.Lock now), rfl, fun x hx => by cases hx⟩
          · cases hr
            have hi1 : InodeOK fs.inoNextFree self { inode with nlink := dec32 inode.nlink } :=
              ⟨hi.ino_eq, hi.pos, hi.lt_next, dec32_lt _, hi.count_lt, hi.dirents⟩
            have hc2 : InodeOK fs.inoNextFree dirent.Ino
                { child0.Lock now with
                  dirents := ((child0.Lock now).dirents.Delete "..").Delete ".",
                  nlink := dec32 (child0.Lock now).nlink } :=
              ⟨hc0.ino_eq, hc0.pos, hc0.lt_next, dec32_lt _, hc0.count_lt,
                (hc0.dirents.withDelete "..").withDelete "."⟩
            have := valid_doRemove h hi1 hc2 name now
            refine ⟨this.1, ?_, fun x hx => ?_⟩
            · exact MemInode.doRemove_next _ _ _ _ _ _ _
            · rw [← Except.ok.inj hx]; exact this.2

theorem valid_inode_Unlink {fs fs1 : MemFS} (h : Valid fs) {held : List Nat} {self : Nat}
    {inode : MemInode} (hi : InodeOK fs.inoNextFree self inode) {name : String} {now : Time}
    {v : Except Errno MemInode} (hr : inode.Unlink fs held self name now = .ret v fs1) :
    Valid fs1 ∧ fs1.inoNextFree = fs.inoNextFree ∧
      ∀ x, v = .ok x → InodeOK fs.inoNextFree self x := by
  unfold MemInode.Unlink MemFS.LoadInode at hr
  split at hr
  · cases hr; exact ⟨h, rfl, fun x hx => by cases hx⟩
  · rename_i dirent hdir
    split at hr
    · cases hr
    · rename_i child0 hch
      have hc0 := h.inode _ _ hch
      split at hr
      · cases hr
      · cases hr
        have := valid_doRemove h hi (hc0.Lock now) name now
        refine ⟨this.1, ?_, fun x hx => ?_⟩
        · exact MemInode.doRemove_next _ _ _ _ _ _ _
        · rw [← Except.ok.inj hx]; exact this.2

theorem valid_void {r : Res MemInode} {v : Except Errno Unit} {fs1 : MemFS}
    (hr : MemFS.void r = .ret v fs1) : ∃ w, r = .ret w fs1 := by
  unfold MemFS.void at hr
  split at hr <;> cases hr <;> exact ⟨_, rfl⟩

theorem valid_Rmdir {fs fs1 : MemFS} (h : Valid fs) {ino : Nat} {name : String} {now : Time}
    {v : Except Errno Unit} (hr : fs.Rmdir ino name now = .ret v fs1) : Valid fs1 := by
  unfold MemFS.Rmdir MemFS.LoadInode at hr
  split at hr
  · cases hr; exact h
  · rename_i x hx
    obtain ⟨w, hw⟩ := valid_void hr
    have hl := (h.inode ino x hx).Lock now
    exact (valid_inode_Rmdir (h.store hl) hl hw).1

theorem valid_Unlink {fs fs1 : MemFS} (h : Valid fs) {ino : Nat} {name : String} {now : Time}
    {v : Except Errno Unit} (hr : fs.Unlink ino name now = .ret v fs1) : Valid fs1 := by
  unfold MemFS.Unlink MemFS.LoadInode at hr
  split at hr
  · cases hr; exact h
  · rename_i x hx
    obtain ⟨w, hw⟩ := valid_void hr
    have hl := (h.inode ino x hx).Lock now
    exact (valid_inode_Unlink (h.store hl) hl hw).1

@[simp] theorem MemFS.writeBack_next (fs : MemFS) (i : Nat) (x : MemInode) :
    (fs.writeBack i x).inoNextFree = fs.inoNextFree := by
  unfold MemFS.writeBack; split <;> rfl

theorem valid_AddDirent {fs : MemFS} {i : Nat} {x : MemInode}
    (hx : InodeOK fs.inoNextFree i x) {ino : Nat} (name : String) (t : FileMode) (now : Time)
    (h0 : 0 < ino) (hlt : ino < fs.inoNextFree) :
    (x.AddDirent fs ino name t now).2.1 = fs ∧
      InodeOK fs.inoNextFree i (x.AddDirent fs ino name t now).2.2 := by
  cases hg : x.dirents.entries name with
  | some e =>
    rw [MemInode.AddDirent_of_some _ _ _ _ _ _ e hg]
    exact ⟨rfl, hx⟩
  | none =>
    rw [MemInode.AddDirent_of_none _ _ _ _ _ _ hg (Nat.pos_iff_ne_zero.1 h0)]
    exact ⟨rfl, hx.withEntry name t now h0 hlt⟩

theorem valid_renameMove {fs : MemFS} (h : Valid fs) {sIno dIno : Nat} {d s : MemInode}
    (hd : InodeOK fs.inoNextFree dIno d) (hs : InodeOK fs.inoNextFree sIno s)
    (sName dName : String) {sDirent : Dirent} (h0 : 0 < sDirent.Ino)
    (hlt : sDirent.Ino < fs.inoNextFree) (now : Time) :
    Valid (fs.renameMove sIno sName dIno dName sDirent d s now) ∧
      (fs.renameMove sIno sName dIno dName sDirent d s now).inoNextFree = fs.inoNextFree := by
  have ha := valid_AddDirent hd dName sDirent.Typ now h0 hlt
  unfold MemFS.renameMove
  dsimp only
  rw [ha.1]
  have hv1 : Valid (fs.writeBack dIno (d.AddDirent fs sDirent.Ino dName sDirent.Typ now).2.2) :=
    h.writeBack ha.2
  have hn1 : (fs.writeBack dIno
      (d.AddDirent fs sDirent.Ino dName sDirent.Typ now).2.2).inoNextFree = fs.inoNextFree :=
    MemFS.writeBack_next _ _ _
  have hs1 : InodeOK fs.inoNextFree sIno
      (if sIno = dIno then (d.AddDirent fs sDirent.Ino dName sDirent.Typ now).2.2 else s) := by
    split
    · rename_i e; rw [e]; exact ha.2
    · exact hs
  refine ⟨hv1.writeBack ?_, ?_⟩
  · rw [hn1]; exact inodeOK_removeDirent hs1 sName now
  · rw [MemFS.writeBack_next, MemFS.writeBack_next]

theorem valid_Rename {fs fs1 : MemFS} (h : Valid fs) {sIno dIno : Nat} {sName dName : String}
    {now : Time} {v : Except Errno Unit}
    (hr : fs.Rename sIno sName dIno dName now = .ret v fs1) : Valid fs1 := by
  unfold MemFS.Rename MemFS.LoadInode at hr
  split at hr
  · cases hr; exact h
  · rename_i s0 hs0
    split at hr
    · cases hr; exact h
    · rename_i d0 hd0
      have hs := (h.inode _ _ hs0).Lock now
      have hd : InodeOK fs.inoNextFree dIno (if sIno = dIno then s0.Lock now else d0.Lock now) := by
        split
        · rename_i e; rw [← e]; exact hs
        · exact (h.inode _ _ hd0).Lock now
      have hv0 : Valid ((fs.StoreInode sIno (s0.Lock now)).StoreInode dIno
          (if sIno = dIno then s0.Lock now else d0.Lock now)) := (h.store hs).store hd
      dsimp only at hr
      split at hr
      · cases hr; exact hv0
      · rename_i sDirent hsd
        have hsd1 : s0.dirents.entries sName = some sDirent := by
          unfold MemInode.GetDirent ListMap.Get at hsd
          split at hsd
          · cases hsd
          · rename_i e he; cases hsd; exact he
        have hse := (h.inode _ _ hs0).dirents.entry _ _ hsd1
        split at hr
        · split at hr
          · cases hr; exact hv0
          · cases hr
            exact (valid_renameMove hv0 hd hs sName dName hse.2.1 hse.2.2 now).1
        · split at hr
          · cases hr; exact hv0
          · split at hr
            · cases hr; exact hv0
            · split at hr
              · cases hr; exact hv0
              · split at hr
                · rename_i e fs2 hinner
                  cases hr
                  split at hinner
                  · exact (valid_inode_Rmdir hv0 hd hinner).1
                  · exact (valid_inode_Unlink hv0 hd hinner).1
                · rename_i d1 fs2 hinner
                  cases hr
                  have hin : Valid fs2 ∧ fs2.inoNextFree = fs.inoNextFree ∧
                      ∀ x, (Except.ok d1 : Except Errno MemInode) = .ok x →
                        InodeOK fs.inoNextFree dIno x := by
                    split at hinner
                    · exact valid_inode_Rmdir hv0 hd hinner
                    · exact valid_inode_Unlink hv0 hd hinner
                  have hd1 := hin.2.2 d1 rfl
                  have hs1 : InodeOK fs.inoNextFree sIno (if sIno = dIno then d1 else s0.Lock now) := by
                    split
                    · rename_i e; rw [e]; exact hd1
                    · exact hs
                  rw [← hin.2.1] at hd1 hs1 hse
                  exact (valid_renameMove hin.1 hd1 hs1 sName dName hse.2.1 hse.2.2 now).1
                · cases hr
                · cases hr

theorem inodeOK_congr {n i : Nat} {x y : MemInode} (h : InodeOK n i x) (h1 : y.ino = x.ino)
    (h2 : y.nlink = x.nlink) (h3 : y.count = x.count) (h4 : y.dirents = x.dirents) :
    InodeOK n i y :=
  ⟨h1.trans h.ino_eq, h.pos, h.lt_next, h2 ▸ h.nlink_lt, h3 ▸ h.count_lt, h4 ▸ h.dirents⟩

theorem MemInode.Setattr_frame {x y : MemInode} {attrs : Attrs} {now : Time}
    {v : Except Errno Fused.Stat} (h : x.Setattr attrs now = some (v, y)) :
    y.ino = x.ino ∧ y.nlink = x.nlink ∧ y.count = x.count ∧ y.dirents = x.dirents := by
  unfold MemInode.Setattr at h
  dsimp only at h
  split at h
  · cases h; cases attrs.mode <;> exact ⟨rfl, rfl, rfl, rfl⟩
  · split at h
    · cases h; cases attrs.mode <;> exact ⟨rfl, rfl, rfl, rfl⟩
    · split at h
      · split at h
        · cases h
          cases attrs.mode <;> cases attrs.atime <;> cases attrs.mtime <;>
            exact ⟨rfl, rfl, rfl, rfl⟩
        · split at h
          · cases h
          · cases h
            cases attrs.mode <;> cases attrs.atime <;> cases attrs.mtime <;>
              exact ⟨rfl, rfl, rfl, rfl⟩
      · cases h
        cases attrs.mode <;> cases attrs.atime <;> cases attrs.mtime <;>
          exact ⟨rfl, rfl, rfl, rfl⟩

theorem MemInode.Write_frame {x y : MemInode} {offset : Int} {data : List Nat} {k : Nat}
    (h : x.Write offset data = some (k, y)) :
    y.ino = x.ino ∧ y.nlink = x.nlink ∧ y.count = x.count ∧ y.dirents = x.dirents ∧
      y.mode = x.mode := by
  unfold MemInode.Write at h
  split at h
  · cases h
  · dsimp only at h
    cases h
    split <;> split <;> exact ⟨rfl, rfl, rfl, rfl, rfl⟩

theorem valid_Setattr {fs fs1 : MemFS} (h : Valid fs) {ino : Nat} {attrs : Attrs} {now : Time}
    {v : Except Errno Fused.Stat} (hr : fs.Setattr ino attrs now = .ret v fs1) : Valid fs1 := by
  unfold MemFS.Setattr MemFS.LoadInode at hr
  split at hr
  · cases hr; exact h
  · rename_i x hx
    split at hr
    · cases hr
    · rename_i r hs
      cases hr
      have hf := MemInode.Setattr_frame (show (x.Lock now).Setattr attrs now = some (r.1, r.2) from hs)
      exact h.store (inodeOK_congr ((h.inode _ _ hx).Lock now) hf.1 hf.2.1 hf.2.2.1 hf.2.2.2)

theorem valid_Write {fs fs1 : MemFS} (h : Valid fs) {ino : Nat} {offset : Int}
    {data : List Nat} {now : Time} {v : Except Errno Nat}
    (hr : fs.Write ino offset data now = .ret v fs1) : Valid fs1 := by
  unfold MemFS.Write MemFS.LoadInode at hr
  split at hr
  · cases hr; exact h
  · rename_i x hx
    split at hr
    · cases hr
    · rename_i r hs
      cases hr
      have hf := MemInode.Write_frame (show (x.Lock now).Write offset data = some (r.1, r.2) from hs)
      exact h.store (inodeOK_congr ((h.inode _ _ hx).Lock now) hf.1 hf.2.1 hf.2.2.1 hf.2.2.2.1)

theorem valid_Read {fs fs1 : MemFS} (h : Valid fs) {ino : Nat} {offset n : Int} {now : Time}
    {v : Except Errno (List Nat)} (hr : fs.Read ino offset n now = .ret v fs1) : Valid fs1 := by
  unfold MemFS.Read MemFS.LoadInode at hr
  split at hr
  · cases hr; exact h
  · rename_i x hx
    dsimp only at hr
    split at hr
    · cases hr
    · cases hr
      exact h.store ((h.inode _ _ hx).Lock now)

theorem valid_Readdir {fs fs1 : MemFS} (h : Valid fs) {ino : Nat} {marker : String} {n : Int}
    {now : Time} {v : Except Errno (List Dirent)}
    (hr : fs.Readdir ino marker n now = .ret v fs1) : Valid fs1 := by
  unfold MemFS.Readdir MemFS.LoadInode at hr
  split at hr
  · cases hr; exact h
  · rename_i x hx
    split at hr
    · cases hr; exact h
    · dsimp only at hr
      split at hr
      · cases hr
      · cases hr
        exact h.store ((h.inode _ _ hx).Lock now)

theorem valid_Lookup {fs fs1 : MemFS} (h : Valid fs) {ino : Nat} {name : String} {now : Time}
    {v : Except Errno Fused.Stat} (hr : fs.Lookup ino name now = .ret v fs1) : Valid fs1 := by
  unfold MemFS.Lookup MemFS.LoadInode at hr
  split at hr
  · cases hr; exact h
  · rename_i x hx
    have hv := h.store ((h.inode _ _ hx).Lock now)
    dsimp only at hr
    split at hr
    · cases hr; exact hv
    · exact valid_Stat hv hr

theorem inodeOK_dropHandle {n i : Nat} {x : MemInode} (h : InodeOK n i x) :
    InodeOK n i x.dropHandle := by
  unfold MemInode.dropHandle
  split
  · exact ⟨h.ino_eq, h.pos, h.lt_next, h.nlink_lt, dec32_lt _, h.dirents⟩
  · exact h

theorem MemInode.Release_eq (fs : MemFS) (self : Nat) (x : MemInode) :
    x.Release fs self =
      if x.dropHandle.nlink = 0 ∧ x.dropHandle.count = 0 then
        (fs.StoreInode self x.dropHandle).RemoveInode x.dropHandle.ino
      else fs.StoreInode self x.dropHandle := rfl

theorem valid_Release {fs fs1 : MemFS} (h : Valid fs) {ino : Nat} {flags : Int} {now : Time}
    {v : Except Errno Unit} (hr : fs.Release ino flags now = .ret v fs1) : Valid fs1 := by
  unfold MemFS.Release MemFS.LoadInode at hr
  split at hr
  · cases hr; exact h
  · rename_i x hx
    cases hr
    have hl := (h.inode _ _ hx).Lock now
    have hv := (h.store hl).store (inodeOK_dropHandle hl)
    rw [MemInode.Release_eq]
    split
    · exact hv.remove _
    · exact hv

/-- C1 (code defect, evaluated): mkdir a; mkdir b; mkdir a/x; mkdir a/y;
rename a/x to b/x; rename a/y to b/y; rmdir b/x; rmdir b/y.  Every call
succeeds, and directory b (inode 3) is left in the inode table with
nlink = 0 and count = 0. -/
theorem C1_zero_links_zero_handles_still_in_table :
    (runCalls
        [.Mkdir 1 "a" dirMode, .Mkdir 1 "b" dirMode, .Mkdir 2 "x" dirMode,
          .Mkdir 2 "y" dirMode, .Rename 2 "x" 3 "x", .Rename 2 "y" 3 "y",
          .Rmdir 3 "x", .Rmdir 3 "y"]
        (NewMemFS 0) 1).map (fun r => (r.1, linkInfo r.2 3)) =
      some ([none, none, none, none, none, none, none, none], some (0, 0, 0)) := by
  decide

/-- C3 (code defect, evaluated): mkdir a (inode 2); mkdir b (inode 3);
mkdir a/x (inode 4); rename a/x to b/x.  Every call succeeds, yet the `..`
entry of x still refers to a, a keeps nlink 3 with no subdirectory left, and b
keeps nlink 2 with one subdirectory. -/
theorem C3_rename_directory_keeps_old_parent :
    (runCalls
        [.Mkdir 1 "a" dirMode, .Mkdir 1 "b" dirMode, .Mkdir 2 "x" dirMode,
          .Rename 2 "x" 3 "x"]
        (NewMemFS 0) 1).map
        (fun r => (r.1, parentOf r.2 4, linkInfo r.2 2, linkInfo r.2 3)) =
      some ([none, none, none, none], some 2, some (3, 0, 0), some (2, 0, 1)) := by
  rfl

theorem MemInode.RemoveDirent_of_some (x : MemInode) (name : String) (now : Time) (e : Dirent)
    (h : x.dirents.entries name = some e) :
    x.RemoveDirent name now = (.ok e.Ino, x.withoutEntry name now) := by
  simp [MemInode.RemoveDirent, ListMap.Get, h, MemInode.withoutEntry]

theorem MemInode.RemoveDirent_of_none (x : MemInode) (name : String) (now : Time)
    (h : x.dirents.entries name = none) :
    x.RemoveDirent name now = (.error .ENOENT, x) := by
  simp [MemInode.RemoveDirent, ListMap.Get, h]

theorem MemFS.StoreInode_twice (fs : MemFS) (i : Nat) (x y : MemInode) :
    (fs.StoreInode i x).StoreInode i y = fs.StoreInode i y := by
  unfold MemFS.StoreInode
  congr 1
  funext j
  by_cases h : j = i <;> simp [h]

theorem MemFS.Rmdir_noent (fs : MemFS) (ino : Nat) (name : String) (now : Time)
    (hx : fs.itable ino = none) : fs.Rmdir ino name now = .ret (.error .ENOENT) fs := by
  simp [MemFS.Rmdir, MemFS.LoadInode, hx]

theorem MemFS.Rmdir_noname (fs : MemFS) (ino : Nat) (name : String) (now : Time)
    (x : MemInode) (hx : fs.itable ino = some x) (he : x.dirents.entries name = none) :
    fs.Rmdir ino name now = .ret (.error .ENOENT) (fs.StoreInode ino (x.Lock now)) := by
  have he1 : (x.Lock now).dirents.Get name = none := he
  simp [MemFS.Rmdir, MemFS.LoadInode, hx, MemInode.Rmdir, he1, MemFS.void]

theorem MemFS.Rmdir_notdir (fs : MemFS) (ino : Nat) (name : String) (now : Time)
    (x : MemInode) (e : Dirent) (hx : fs.itable ino = some x)
    (he : x.dirents.entries name = some e) (ht : IsDir e.Typ = false) :
    fs.Rmdir ino name now = .ret (.error .ENOTDIR) (fs.StoreInode ino (x.Lock now)) := by
  have he1 : (x.Lock now).dirents.Get name = some e := he
  simp [MemFS.Rmdir, MemFS.LoadInode, hx, MemInode.Rmdir, he1, ht, MemFS.void]

theorem MemFS.Rmdir_self (fs : MemFS) (ino : Nat) (name : String) (now : Time)
    (x : MemInode) (e : Dirent) (hx : fs.itable ino = some x)
    (he : x.dirents.entries name = some e) (ht : IsDir e.Typ = true) (hs : e.Ino = ino) :
    fs.Rmdir ino name now = .deadlock := by
  have he1 : (x.Lock now).dirents.Get name = some e := he
  simp [MemFS.Rmdir, MemFS.LoadInode, hx, MemInode.Rmdir, he1, ht, MemFS.void, hs]

theorem MemFS.Rmdir_dangling (fs : MemFS) (ino : Nat) (name : String) (now : Time)
    (x : MemInode) (e : Dirent) (hx : fs.itable ino = some x)
    (he : x.dirents.entries name = some e) (ht : IsDir e.Typ = true) (hs : e.Ino ≠ ino)
    (hc : fs.itable e.Ino = none) :
    fs.Rmdir ino name now = .panic := by
  have he1 : (x.Lock now).dirents.Get name = some e := he
  simp [MemFS.Rmdir, MemFS.LoadInode, hx, MemInode.Rmdir, he1, ht, MemFS.void, hs, hc]

theorem MemFS.Rmdir_notempty (fs : MemFS) (ino : Nat) (name : String) (now : Time)
    (x c : MemInode) (e : Dirent) (hx : fs.itable ino = some x)
    (he : x.dirents.entries name = some e) (ht : IsDir e.Typ = true) (hs : e.Ino ≠ ino)
    (hc : fs.itable e.Ino = some c) (hd : IsDir c.mode = true) (hl : c.dirents.Len > 2) :
    fs.Rmdir ino name now =
      .ret (.error .ENOTEMPTY)
        ((fs.StoreInode ino (x.Lock now)).StoreInode e.Ino (c.Lock now)) := by
  have he1 : (x.Lock now).dirents.Get name = some e := he
  have hd1 : IsDir (c.Lock now).mode = true := hd
  have hl1 : 2 < (c.Lock now).dirents.Len := hl
  simp [MemFS.Rmdir, MemFS.LoadInode, hx, MemInode.Rmdir, he1, ht, MemFS.void, hs, hc, hd1, hl1]

theorem MemFS.Rmdir_ok (fs : MemFS) (ino : Nat) (name : String) (now : Time)
    (x c : MemInode) (e : Dirent) (hx : fs.itable ino = some x)
    (he : x.dirents.entries name = some e) (ht : IsDir e.Typ = true) (hs : e.Ino ≠ ino)
    (hc : fs.itable e.Ino = some c) (hd : ¬(IsDir c.mode = true ∧ c.dirents.Len > 2)) :
    fs.Rmdir ino name now =
      .ret (.ok ())
        (fs.afterRemove ino (x.rmdirParent name now) e.Ino (c.rmdirChild now)) := by
  have he1 : (x.Lock now).dirents.Get name = some e := he
  have hd1 : ¬(IsDir (c.Lock now).mode = true ∧ 2 < (c.Lock now).dirents.Len) := hd
  have hrem : (MemInode.RemoveDirent
      { x.Lock now with nlink := dec32 (x.Lock now).nlink } name now).2 =
      x.rmdirParent name now := by
    exact congrArg Prod.snd (MemInode.RemoveDirent_of_some
      { x.Lock now with nlink := dec32 (x.Lock now).nlink } name now e he)
  simp only [MemFS.Rmdir, MemFS.LoadInode, hx, MemInode.Rmdir, he1, ht, MemFS.StoreInode_itable,
    hs, if_false, hc, List.mem_singleton, hd1, MemFS.void, MemInode.doRemove_fst, hrem,
    MemFS.StoreInode_twice]
  simp only [Bool.true_eq_false, if_false, MemFS.afterRemove, MemInode.rmdirChild]

theorem MemFS.Unlink_noent (fs : MemFS) (ino : Nat) (name : String) (now : Time)
    (hx : fs.itable ino = none) : fs.Unlink ino name now = .ret (.error .ENOENT) fs := by
  simp [MemFS.Unlink, MemFS.LoadInode, hx]

theorem MemFS.Unlink_noname (fs : MemFS) (ino : Nat) (name : String) (now : Time)
    (x : MemInode) (hx : fs.itable ino = some x) (he : x.dirents.entries name = none) :
    fs.Unlink ino name now = .ret (.error .ENOENT) (fs.StoreInode ino (x.Lock now)) := by
  have he1 : (x.Lock now).dirents.Get name = none := he
  simp [MemFS.Unlink, MemFS.LoadInode, hx, MemInode.Unlink, he1, MemFS.void]

theorem MemFS.Unlink_self (fs : MemFS) (ino : Nat) (name : String) (now : Time)
    (x : MemInode) (e : Dirent) (hx : fs.itable ino = some x)
    (he : x.dirents.entries name = some e) (hs : e.Ino = ino) :
    fs.Unlink ino name now = .deadlock := by
  have he1 : (x.Lock now).dirents.Get name = some e := he
  simp [MemFS.Unlink, MemFS.LoadInode, hx, MemInode.Unlink, he1, MemFS.void, hs]

theorem MemFS.Unlink_dangling (fs : MemFS) (ino : Nat) (name : String) (now : Time)
    (x : MemInode) (e : Dirent) (hx : fs.itable ino = some x)
    (he : x.dirents.entries name = some e) (hs : e.Ino ≠ ino)
    (hc : fs.itable e.Ino = none) :
    fs.Unlink ino name now = .panic := by
  have he1 : (x.Lock now).dirents.Get name = some e := he
  simp [MemFS.Unlink, MemFS.LoadInode, hx, MemInode.Unlink, he1, MemFS.void, hs, hc]

theorem MemFS.Unlink_ok (fs : MemFS) (ino : Nat) (name : String) (now : Time)
    (x c : MemInode) (e : Dirent) (hx : fs.itable ino = some x)
    (he : x.dirents.entries name = some e) (hs : e.Ino ≠ ino)
    (hc : fs.itable e.Ino = some c) :
    fs.Unlink ino name now =
      .ret (.ok ())
        (fs.afterRemove ino ((x.Lock now).withoutEntry name now) e.Ino
          ((c.Lock now).dropLink now)) := by
  have he1 : (x.Lock now).dirents.Get name = some e := he
  have hrem : (MemInode.RemoveDirent (x.Lock now) name now).2 =
      (x.Lock now).withoutEntry name now :=
    congrArg Prod.snd (MemInode.RemoveDirent_of_some (x.Lock now) name now e he)
  simp only [MemFS.Unlink, MemFS.LoadInode, hx, MemInode.Unlink, he1, MemFS.StoreInode_itable,
    hs, if_false, hc, List.mem_singleton, MemFS.void, MemInode.doRemove_fst, hrem,
    MemFS.StoreInode_twice]
  simp only [MemFS.afterRemove]

theorem countP_subdirEntry_congr (t u : ListMap String Dirent) (l : List String)
    (h : ∀ j ∈ l, u.entries j = t.entries j) :
    l.countP (subdirEntry u) = l.countP (subdirEntry t) := by
  apply List.countP_congr
  intro j hj
  simp [subdirEntry, h j hj]

theorem numSubdirs_Put (t : ListMap String Dirent) (hwf : t.WF) (k : String) (e : Dirent)
    (hk : t.entries k = none) :
    (t.Put k e).keys.countP (subdirEntry (t.Put k e)) =
      t.keys.countP (subdirEntry t) +
        (if (k != "." && k != ".." && IsDir e.Typ) = true then 1 else 0) := by
  have hnot : k ∉ t.keys := fun hm => by
    have := (hwf.mem_iff k).1 hm
    rw [hk] at this
    cases this
  rw [ListMap.Put_keys_of_none t k e hk, List.countP_append]
  congr 1
  · apply countP_subdirEntry_congr
    intro j hj
    rw [ListMap.Put_entries, ListMap.setEntry_ne]
    rintro rfl
    exact hnot hj
  · simp [List.countP_cons, subdirEntry, ListMap.Put_entries]

theorem numSubdirs_Delete (t : ListMap String Dirent) (hwf : t.WF) (k : String) (e : Dirent)
    (hk : t.entries k = some e) :
    t.keys.countP (subdirEntry t) =
      (t.Delete k).keys.countP (subdirEntry (t.Delete k)) +
        (if (k != "." && k != ".." && IsDir e.Typ) = true then 1 else 0) := by
  have hmem : k ∈ t.keys := (hwf.mem_iff k).2 (by rw [hk]; rfl)
  have hsome : (t.entries k).isSome = true := by rw [hk]; rfl
  rw [(List.perm_cons_erase hmem).countP_eq, List.countP_cons,
    ListMap.Delete_keys_of_some t k hsome]
  congr 1
  · symm
    apply countP_subdirEntry_congr
    intro j hj
    rw [ListMap.Delete_entries, ListMap.setEntry_ne]
    rintro rfl
    exact hwf.nodup.not_mem_erase hj
  · simp [subdirEntry, hk]

theorem numSubdirs_of_dots (t : ListMap String Dirent) (hwf : t.WF)
    (h1 : (t.entries ".").isSome = true) (h2 : (t.entries "..").isSome = true)
    (hlen : t.keys.length ≤ 2) : t.keys.countP (subdirEntry t) = 0 := by
  have hsub : [".", ".."] ⊆ t.keys := by
    intro a ha
    simp only [List.mem_cons, List.mem_singleton, List.not_mem_nil, or_false] at ha
    rcases ha with rfl | rfl
    · exact (hwf.mem_iff _).2 h1
    · exact (hwf.mem_iff _).2 h2
  have hnd : [".", ".."].Nodup := by decide
  have hperm : [".", ".."].Perm t.keys :=
    (List.subperm_of_subset hnd hsub).perm_of_length_le hlen
  rw [List.countP_eq_zero]
  intro a ha
  have := hperm.mem_iff.2 ha
  simp only [List.mem_cons, List.mem_singleton, List.not_mem_nil, or_false] at this
  rcases this with rfl | rfl <;> simp [subdirEntry]

theorem MemFS.store_remove (fs : MemFS) (i : Nat) (y : MemInode) :
    (fs.StoreInode i y).RemoveInode i = fs.RemoveInode i := by
  unfold MemFS.StoreInode MemFS.RemoveInode
  congr 1
  funext j
  by_cases h : j = i <;> simp [h]

theorem treeInv_remove {fs : MemFS} (h : TreeInv fs) (i : Nat) : TreeInv (fs.RemoveInode i) := by
  refine ⟨h.valid.remove i, fun j x hx hd => ?_, fun j x k e hx hk1 hk2 he ht c hc => ?_⟩
  · simp only [MemFS.RemoveInode_itable] at hx
    split at hx
    · cases hx
    · exact h.dir j x hx hd
  · simp only [MemFS.RemoveInode_itable] at hx hc
    split at hx
    · cases hx
    · split at hc
      · cases hc
      · exact h.file j x k e hx hk1 hk2 he ht c hc

theorem treeInv_update {fs : MemFS} (h : TreeInv fs) {i : Nat} {x y : MemInode}
    (hx : fs.itable i = some x) (hm : y.mode = x.mode) (hok : InodeOK fs.inoNextFree i y)
    (hd : IsDir y.mode = true → DirOK y)
    (hent : ∀ k e, k ≠ "." → k ≠ ".." → y.dirents.entries k = some e → IsDir e.Typ = false →
      x.dirents.entries k = some e ∨ fs.itable e.Ino = none) :
    TreeInv (fs.StoreInode i y) := by
  refine ⟨h.valid.store hok, fun j z hz hdz => ?_, fun j z k e hz hk1 hk2 he ht c hc => ?_⟩
  · simp only [MemFS.StoreInode_itable] at hz
    split at hz
    · cases hz; exact hd hdz
    · exact h.dir j z hz hdz
  · simp only [MemFS.StoreInode_itable] at hz hc
    have key : ∀ c0, fs.itable e.Ino = some c0 → IsDir c0.mode = false := by
      split at hz
      · cases hz
        rcases hent k e hk1 hk2 he ht with h1 | h1
        · exact fun c0 hc0 => h.file i x k e hx hk1 hk2 h1 ht c0 hc0
        · intro c0 hc0; rw [h1] at hc0; cases hc0
      · exact fun c0 hc0 => h.file j z k e hz hk1 hk2 he ht c0 hc0
    split at hc
    · rename_i hei
      cases hc
      rw [hm]
      exact key x (by rw [hei]; exact hx)
    · exact key c hc

theorem treeInv_insert {fs : MemFS} (h : TreeInv fs) {n : Nat} {c : MemInode}
    (hok : InodeOK fs.inoNextFree n c)
    (hd : IsDir c.mode = true → DirOK c)
    (hent : ∀ k e, k ≠ "." → k ≠ ".." → c.dirents.entries k = some e → IsDir e.Typ = true)
    (href : IsDir c.mode = true → ∀ j x k e, fs.itable j = some x → k ≠ "." → k ≠ ".." →
      x.dirents.entries k = some e → IsDir e.Typ = false → e.Ino ≠ n) :
    TreeInv (fs.StoreInode n c) := by
  refine ⟨h.valid.store hok, fun j z hz hdz => ?_, fun j z k e hz hk1 hk2 he ht c0 hc0 => ?_⟩
  · simp only [MemFS.StoreInode_itable] at hz
    split at hz
    · cases hz; exact hd hdz
    · exact h.dir j z hz hdz
  · simp only [MemFS.StoreInode_itable] at hz hc0
    split at hz
    · cases hz
      rw [hent k e hk1 hk2 he] at ht
      cases ht
    · split at hc0
      · rename_i hei
        cases hc0
        cases hcm : IsDir c.mode with
        | false => rfl
        | true => exact absurd hei (href hcm j z k e hz hk1 hk2 he ht)
      · exact h.file j z k e hz hk1 hk2 he ht c0 hc0

theorem dirOK_congr {x y : MemInode} (h : DirOK x) (h1 : y.count = x.count)
    (h2 : y.dirents = x.dirents) (h3 : y.nlink = x.nlink) : DirOK y := by
  refine ⟨h1.trans h.count_zero, h2 ▸ h.dot, h2 ▸ h.dotdot, ?_⟩
  rw [h3, h.nlink_eq]
  unfold numSubdirs
  rw [h2]

theorem treeInv_lock {fs : MemFS} (h : TreeInv fs) {i : Nat} {x : MemInode}
    (hx : fs.itable i = some x) (now : Time) : TreeInv (fs.StoreInode i (x.Lock now)) :=
  treeInv_update h hx rfl ((h.valid.inode i x hx).Lock now)
    (fun hd => dirOK_congr (h.dir i x hx hd) rfl rfl rfl)
    (fun _ _ _ _ he _ => Or.inl he)

theorem inc32_mod (n : Nat) : inc32 (n % 4294967296) = (n + 1) % 4294967296 := by
  unfold inc32; omega

theorem dec32_mod (n : Nat) : dec32 ((n + 1) % 4294967296) = n % 4294967296 := by
  unfold dec32; split <;> omega

theorem newDirents_entries_other (ino : Nat) (mode : FileMode) (pino : Nat) (pmode : FileMode)
    (k : String) (h1 : k ≠ ".") (h2 : k ≠ "..") :
    (newDirents ino mode pino pmode).entries k = none := by
  unfold newDirents
  rw [ListMap.Put_entries, ListMap.setEntry_ne _ _ h2, ListMap.Put_entries,
    ListMap.setEntry_ne _ _ h1]
  rfl

theorem dirOK_newDir (ino : Nat) (mode : FileMode) (pino : Nat) (pmode : FileMode)
    (now : Time) : DirOK (newDir ino mode pino pmode now) := by
  refine ⟨rfl, rfl, rfl, ?_⟩
  have hz : numSubdirs (newDir ino mode pino pmode now) = 0 := by
    unfold numSubdirs
    rw [List.countP_eq_zero]
    intro a _
    by_cases h1 : a = "."
    · subst h1; simp [subdirEntry]
    · by_cases h2 : a = ".."
      · subst h2; simp [subdirEntry]
      · have : (newDir ino mode pino pmode now).dirents.entries a = none :=
          newDirents_entries_other ino mode pino pmode a h1 h2
        simp [subdirEntry, this]
  rw [hz]
  rfl

theorem treeInv_NewMemFS (now : Time) : TreeInv (NewMemFS now) := by
  have hroot : NewMemFS now =
      (MemFS.StoreInode { inoNextFree := 2, itable := fun _ => none } 1
        (newDir 1 (ModeDir ||| 0o777) 1 (ModeDir ||| 0o777) now)) := rfl
  refine ⟨valid_NewMemFS now, fun i x hx _ => ?_, fun i x k e hx hk1 hk2 he _ _ _ => ?_⟩
  · rw [hroot] at hx
    simp only [MemFS.StoreInode_itable] at hx
    split at hx
    · cases hx; exact dirOK_newDir _ _ _ _ _
    · cases hx
  · rw [hroot] at hx
    simp only [MemFS.StoreInode_itable] at hx
    split at hx
    · cases hx
      have : (newDirents 1 (ModeDir ||| 0o777) 1 (ModeDir ||| 0o777)).entries k = some e := he
      rw [newDirents_entries_other _ _ _ _ k hk1 hk2] at this
      cases this
    · cases hx

theorem treeInv_bump {fs : MemFS} (h : TreeInv fs) : TreeInv fs.bump :=
  ⟨h.valid.bump, h.dir, h.file⟩

theorem numSubdirs_withEntry (x : MemInode) (hwf : x.dirents.WF) (name : String) (ino : Nat)
    (t : FileMode) (now : Time) (hk : x.dirents.entries name = none) :
    numSubdirs (x.withEntry name ino t now) =
      numSubdirs x + (if (name != "." && name != ".." && IsDir t) = true then 1 else 0) :=
  numSubdirs_Put x.dirents hwf name _ hk

theorem numSubdirs_withoutEntry (x : MemInode) (hwf : x.dirents.WF) (name : String)
    (now : Time) (e : Dirent) (hk : x.dirents.entries name = some e) :
    numSubdirs x =
      numSubdirs (x.withoutEntry name now) +
        (if (name != "." && name != ".." && IsDir e.Typ) = true then 1 else 0) :=
  numSubdirs_Delete x.dirents hwf name e hk

theorem withEntry_entries_isSome (x : MemInode) (name : String) (ino : Nat) (t : FileMode)
    (now : Time) (k : String) (h : (x.dirents.entries k).isSome = true) :
    ((x.withEntry name ino t now).dirents.entries k).isSome = true := by
  show ((x.dirents.Put name _).entries k).isSome = true
  rw [ListMap.Put_entries]
  by_cases hk : k = name
  · subst hk; simp
  · rw [ListMap.setEntry_ne _ _ hk]; exact h

theorem withEntry_entries_ne (x : MemInode) (name : String) (ino : Nat) (t : FileMode)
    (now : Time) (k : String) (hk : k ≠ name) :
    (x.withEntry name ino t now).dirents.entries k = x.dirents.entries k := by
  show (x.dirents.Put name _).entries k = _
  rw [ListMap.Put_entries, ListMap.setEntry_ne _ _ hk]

theorem withEntry_entries_same (x : MemInode) (name : String) (ino : Nat) (t : FileMode)
    (now : Time) :
    (x.withEntry name ino t now).dirents.entries name =
      some { Ino := ino, Name := name, Typ := t } := by
  show (x.dirents.Put name _).entries name = _
  rw [ListMap.Put_entries, ListMap.setEntry_same]

theorem treeInv_createInode {fs fs1 : MemFS} (h : TreeInv fs) {ino : Nat} {name : String}
    {mode : FileMode} {now : Time} {reference : Bool} {v : Except Errno Fused.Stat}
    (href : IsDir mode = true → reference = false)
    (hr : fs.createInode ino name mode now reference = .ret v fs1) : TreeInv fs1 := by
  cases hx : fs.itable ino with
  | none =>
    rw [MemFS.createInode_noent _ _ _ _ _ _ hx] at hr
    cases hr; exact h
  | some x =>
    have hx0 := h.valid.inode ino x hx
    have hn0 : fs.inoNextFree ≠ 0 := Nat.pos_iff_ne_zero.1 h.valid.next_pos
    have hlt : fs.inoNextFree < fs.bump.inoNextFree := Nat.lt_succ_self _
    have hfree : fs.itable fs.inoNextFree = none := by
      cases hf : fs.itable fs.inoNextFree with
      | none => rfl
      | some z => exact absurd (h.valid.inode _ z hf).lt_next (Nat.lt_irrefl _)
    have hne : fs.inoNextFree ≠ ino := fun e => by rw [e, hx] at hfree; cases hfree
    have hp : InodeOK fs.bump.inoNextFree ino
        ((x.Lock now).withEntry name fs.inoNextFree (modeType mode) now) :=
      (((hx0.Lock now).mono (Nat.le_succ _)).withEntry name _ now h.valid.next_pos hlt)
    cases hg : x.dirents.entries name with
    | some e =>
      rw [MemFS.createInode_exists _ _ _ _ _ _ x e hx hg] at hr
      cases hr
      exact treeInv_lock h hx now
    | none =>
      have hent : ∀ k e, k ≠ "." → k ≠ ".." →
          ((x.Lock now).withEntry name fs.inoNextFree (modeType mode) now).dirents.entries k
            = some e →
          IsDir e.Typ = false →
          x.dirents.entries k = some e ∨ fs.bump.itable e.Ino = none := by
        intro k e _ _ he _
        by_cases hk : k = name
        · subst hk
          rw [withEntry_entries_same] at he
          cases he
          exact Or.inr hfree
        · rw [withEntry_entries_ne _ _ _ _ _ _ hk] at he
          exact Or.inl he
      cases hd : IsDir mode with
      | false =>
        rw [MemFS.createInode_file _ _ _ _ _ _ x hx hg hd] at hr
        cases hr
        have hB : TreeInv (fs.bump.StoreInode ino
            ((x.Lock now).withEntry name fs.inoNextFree (modeType mode) now)) := by
          refine treeInv_update (treeInv_bump h) hx rfl hp (fun hdx => ?_) hent
          have hD := h.dir ino x hx hdx
          refine ⟨hD.count_zero,
            withEntry_entries_isSome (x.Lock now) name fs.inoNextFree (modeType mode) now "."
              hD.dot,
            withEntry_entries_isSome (x.Lock now) name fs.inoNextFree (modeType mode) now ".."
              hD.dotdot, ?_⟩
          rw [numSubdirs_withEntry (x.Lock now) hx0.dirents.wf name _ _ now hg,
            IsDir_modeType, hd]
          simpa using hD.nlink_eq
        have hcm : (refIf reference (MemInode.init fs.inoNextFree mode now)).mode = mode := by
          cases reference <;> rfl
        have hcd : (refIf reference (MemInode.init fs.inoNextFree mode now)).dirents
            = ListMap.NewListMap := by
          cases reference <;> rfl
        refine treeInv_insert hB (inodeOK_refIf (inodeOK_init mode now h.valid.next_pos hlt) _)
          (fun hdc => ?_) (fun k e _ _ he => ?_) (fun hdc => ?_)
        · rw [hcm, hd] at hdc; cases hdc
        · rw [hcd] at he; cases he
        · rw [hcm, hd] at hdc; cases hdc
      | true =>
        have hpne : x.ino ≠ 0 := by rw [hx0.ino_eq]; exact Nat.pos_iff_ne_zero.1 hx0.pos
        rw [MemFS.createInode_dir _ _ _ _ _ _ x hx hg hd hn0 hpne, href hd] at hr
        cases hr
        have hB : TreeInv (fs.bump.StoreInode ino
            (((x.Lock now).withEntry name fs.inoNextFree (modeType mode) now).setNlink
              (inc32 x.nlink))) := by
          refine treeInv_update (treeInv_bump h) hx rfl (hp.setNlink (inc32_lt _))
            (fun hdx => ?_) hent
          have hD := h.dir ino x hx hdx
          have hn1 : name ≠ "." := fun e => by
            have := hD.dot; rw [← e, hg] at this; cases this
          have hn2 : name ≠ ".." := fun e => by
            have := hD.dotdot; rw [← e, hg] at this; cases this
          refine ⟨hD.count_zero,
            withEntry_entries_isSome (x.Lock now) name fs.inoNextFree (modeType mode) now "."
              hD.dot,
            withEntry_entries_isSome (x.Lock now) name fs.inoNextFree (modeType mode) now ".."
              hD.dotdot, ?_⟩
          show inc32 x.nlink = (2 + numSubdirs
            ((x.Lock now).withEntry name fs.inoNextFree (modeType mode) now)) % 4294967296
          rw [numSubdirs_withEntry (x.Lock now) hx0.dirents.wf name _ _ now hg,
            IsDir_modeType, hd, hD.nlink_eq, inc32_mod]
          simp [hn1, hn2]
          rfl
        refine treeInv_insert hB
          (inodeOK_newDir mode x.mode now h.valid.next_pos hlt
            (by rw [hx0.ino_eq]; exact hx0.pos)
            (by rw [hx0.ino_eq]; exact Nat.lt_succ_of_lt hx0.lt_next))
          (fun _ => dirOK_newDir _ _ _ _ _) (fun k e hk1 hk2 he => ?_)
          (fun _ j z k e hz hk1 hk2 he ht => ?_)
        · have : (newDirents fs.inoNextFree mode x.ino x.mode).entries k = some e := he
          rw [newDirents_entries_other _ _ _ _ k hk1 hk2] at this
          cases this
        · simp only [MemFS.StoreInode_itable] at hz
          split at hz
          · cases hz
            by_cases hk : k = name
            · subst hk
              have he1 : ((x.Lock now).withEntry k fs.inoNextFree (modeType mode)
                  now).dirents.entries k = some e := he
              rw [withEntry_entries_same] at he1
              cases he1
              rw [IsDir_modeType, hd] at ht
              cases ht
            · have he1 : ((x.Lock now).withEntry name fs.inoNextFree (modeType mode)
                  now).dirents.entries k = some e := he
              rw [withEntry_entries_ne _ _ _ _ _ _ hk] at he1
              exact Nat.ne_of_lt (hx0.dirents.entry k e he1).2.2
          · have hz0 : fs.itable j = some z := hz
            exact Nat.ne_of_lt ((h.valid.inode j z hz0).dirents.entry k e he).2.2

@[simp] theorem MemInode.dropLink_ino (x : MemInode) (now : Time) :
    (x.dropLink now).ino = x.ino := by unfold MemInode.dropLink; split <;> rfl

@[simp] theorem MemInode.dropLink_mode (x : MemInode) (now : Time) :
    (x.dropLink now).mode = x.mode := by unfold MemInode.dropLink; split <;> rfl

@[simp] theorem MemInode.dropLink_count (x : MemInode) (now : Time) :
    (x.dropLink now).count = x.count := by unfold MemInode.dropLink; split <;> rfl

@[simp] theorem MemInode.dropLink_dirents (x : MemInode) (now : Time) :
    (x.dropLink now).dirents = x.dirents := by unfold MemInode.dropLink; split <;> rfl

@[simp] theorem MemInode.dropLink_data (x : MemInode) (now : Time) :
    (x.dropLink now).data = x.data := by unfold MemInode.dropLink; split <;> rfl

theorem MemInode.dropLink_nlink (x : MemInode) (now : Time) :
    (x.dropLink now).nlink = if x.nlink = 0 then 0 else dec32 x.nlink := by
  unfold MemInode.dropLink
  split
  · rename_i h; exact h
  · rfl

theorem withoutEntry_entries_ne (x : MemInode) (name : String) (now : Time) (k : String)
    (hk : k ≠ name) : (x.withoutEntry name now).dirents.entries k = x.dirents.entries k := by
  show (x.dirents.Delete name).entries k = _
  rw [ListMap.Delete_entries, ListMap.setEntry_ne _ _ hk]

theorem withoutEntry_entries_same (x : MemInode) (name : String) (now : Time) :
    (x.withoutEntry name now).dirents.entries name = none := by
  show (x.dirents.Delete name).entries name = _
  rw [ListMap.Delete_entries, ListMap.setEntry_same]

theorem withoutEntry_entries_sub (x : MemInode) (name : String) (now : Time) (k : String)
    (e : Dirent) (h : (x.withoutEntry name now).dirents.entries k = some e) :
    x.dirents.entries k = some e := by
  by_cases hk : k = name
  · subst hk; rw [withoutEntry_entries_same] at h; cases h
  · rwa [withoutEntry_entries_ne _ _ _ _ hk] at h

theorem Delete_entries_sub {K V : Type} [DecidableEq K] (t : ListMap K V) (name k : K) (e : V)
    (h : (t.Delete name).entries k = some e) : t.entries k = some e := by
  rw [ListMap.Delete_entries] at h
  by_cases hk : k = name
  · subst hk; simp at h
  · rwa [ListMap.setEntry_ne _ _ hk] at h

theorem inodeOK_rmdirChild {n i : Nat} {c : MemInode} (h : InodeOK n i c) (now : Time) :
    InodeOK n i (c.rmdirChild now) := by
  unfold MemInode.rmdirChild
  apply inodeOK_dropLink
  exact ⟨h.ino_eq, h.pos, h.lt_next, dec32_lt _, h.count_lt, (h.dirents.withDelete "..").withDelete "."⟩

theorem inodeOK_rmdirParent {n i : Nat} {x : MemInode} (h : InodeOK n i x) (name : String)
    (now : Time) : InodeOK n i (x.rmdirParent name now) :=
  (((h.Lock now).setNlink (dec32_lt _)).withoutEntry name now)

theorem treeInv_Rmdir {fs fs1 : MemFS} (h : TreeInv fs) {ino : Nat} {name : String}
    {now : Time} {v : Except Errno Unit} (hn1 : name ≠ ".") (hn2 : name ≠ "..")
    (hr : fs.Rmdir ino name now = .ret v fs1) : TreeInv fs1 := by
  cases hx : fs.itable ino with
  | none => rw [MemFS.Rmdir_noent _ _ _ _ hx] at hr; cases hr; exact h
  | some x =>
    have hx0 := h.valid.inode ino x hx
    cases he : x.dirents.entries name with
    | none =>
      rw [MemFS.Rmdir_noname _ _ _ _ x hx he] at hr; cases hr; exact treeInv_lock h hx now
    | some e =>
      cases ht : IsDir e.Typ with
      | false =>
        rw [MemFS.Rmdir_notdir _ _ _ _ x e hx he ht] at hr; cases hr
        exact treeInv_lock h hx now
      | true =>
        by_cases hs : e.Ino = ino
        · rw [MemFS.Rmdir_self _ _ _ _ x e hx he ht hs] at hr; cases hr
        · cases hc : fs.itable e.Ino with
          | none => rw [MemFS.Rmdir_dangling _ _ _ _ x e hx he ht hs hc] at hr; cases hr
          | some c =>
            have hc0 := h.valid.inode e.Ino c hc
            by_cases hd : IsDir c.mode = true ∧ c.dirents.Len > 2
            · rw [MemFS.Rmdir_notempty _ _ _ _ x c e hx he ht hs hc hd.1 hd.2] at hr
              cases hr
              refine treeInv_lock (treeInv_lock h hx now) ?_ now
              simp only [MemFS.StoreInode_itable, hs, if_false, hc]
            · rw [MemFS.Rmdir_ok _ _ _ _ x c e hx he ht hs hc hd] at hr
              cases hr
              have hB : TreeInv (fs.StoreInode ino (x.rmdirParent name now)) := by
                have hm : (x.rmdirParent name now).mode = x.mode := by
                  unfold MemInode.rmdirParent MemInode.withoutEntry MemInode.setNlink
                    MemInode.Lock
                  rfl
                refine treeInv_update h hx hm (inodeOK_rmdirParent hx0 name now)
                  (fun hdx => ?_) (fun k e1 _ _ he1 _ => Or.inl ?_)
                · have hD := h.dir ino x hx hdx
                  refine ⟨hD.count_zero, ?_, ?_, ?_⟩
                  · show ((MemInode.withoutEntry _ name now).dirents.entries ".").isSome = true
                    rw [withoutEntry_entries_ne _ _ _ _ (Ne.symm hn1)]; exact hD.dot
                  · show ((MemInode.withoutEntry _ name now).dirents.entries "..").isSome = true
                    rw [withoutEntry_entries_ne _ _ _ _ (Ne.symm hn2)]; exact hD.dotdot
                  · have hcount := numSubdirs_withoutEntry
                      ((x.Lock now).setNlink (dec32 x.nlink)) hx0.dirents.wf name now e he
                    simp [hn1, hn2, ht] at hcount
                    have hcount2 : numSubdirs x = numSubdirs (x.rmdirParent name now) + 1 :=
                      hcount
                    show dec32 x.nlink = _
                    rw [hD.nlink_eq, hcount2, ← Nat.add_assoc, dec32_mod]
                · exact withoutEntry_entries_sub ((x.Lock now).setNlink (dec32 x.nlink)) name now k e1
                    he1
              have hBc : (fs.StoreInode ino (x.rmdirParent name now)).itable e.Ino = some c := by
                simp only [MemFS.StoreInode_itable, hs, if_false, hc]
              have hino : (c.rmdirChild now).ino = e.Ino := by
                unfold MemInode.rmdirChild
                rw [MemInode.dropLink_ino]
                exact hc0.ino_eq
              cases hcd : IsDir c.mode with
              | true =>
                have hD := h.dir e.Ino c hc hcd
                have hlen : c.dirents.keys.length ≤ 2 := by
                  have : ¬ c.dirents.Len > 2 := fun hl => hd ⟨hcd, hl⟩
                  exact Nat.le_of_not_gt this
                have hz : numSubdirs c = 0 :=
                  numSubdirs_of_dots c.dirents hc0.dirents.wf hD.dot hD.dotdot hlen
                have hnl : c.nlink = 2 := by rw [hD.nlink_eq, hz]
                have h1 : (c.rmdirChild now).nlink = 0 := by
                  unfold MemInode.rmdirChild
                  rw [MemInode.dropLink_nlink]
                  show (if dec32 c.nlink = 0 then 0 else dec32 (dec32 c.nlink)) = 0
                  rw [hnl]; rfl
                have h2 : (c.rmdirChild now).count = 0 := by
                  unfold MemInode.rmdirChild
                  rw [MemInode.dropLink_count]
                  exact hD.count_zero
                unfold MemFS.afterRemove
                rw [if_pos ⟨h1, h2⟩, hino, MemFS.store_remove]
                exact treeInv_remove hB _
              | false =>
                have hC : TreeInv ((fs.StoreInode ino (x.rmdirParent name now)).StoreInode e.Ino
                    (c.rmdirChild now)) := by
                  refine treeInv_update hB hBc ?_ (inodeOK_rmdirChild hc0 now) (fun hdc => ?_)
                    (fun k e1 _ _ he1 _ => Or.inl ?_)
                  · unfold MemInode.rmdirChild; rw [MemInode.dropLink_mode]; rfl
                  · have : (c.rmdirChild now).mode = c.mode := by
                      unfold MemInode.rmdirChild; rw [MemInode.dropLink_mode]; rfl
                    rw [this, hcd] at hdc; cases hdc
                  · have he2 : (((c.Lock now).dirents.Delete "..").Delete ".").entries k
                        = some e1 := by
                      have : (c.rmdirChild now).dirents =
                          ((c.Lock now).dirents.Delete "..").Delete "." := by
                        unfold MemInode.rmdirChild; rw [MemInode.dropLink_dirents]
                      rw [this] at he1; exact he1
                    exact Delete_entries_sub _ _ _ _ (Delete_entries_sub _ _ _ _ he2)
                unfold MemFS.afterRemove
                split
                · exact treeInv_remove hC _
                · exact hC

theorem treeInv_Unlink {fs fs1 : MemFS} (h : TreeInv fs) {ino : Nat} {name : String}
    {now : Time} {v : Except Errno Unit} (hn1 : name ≠ ".") (hn2 : name ≠ "..")
    (hty : ∀ x e, fs.itable ino = some x → x.dirents.entries name = some e →
      IsDir e.Typ = false)
    (hr : fs.Unlink ino name now = .ret v fs1) : TreeInv fs1 := by
  cases hx : fs.itable ino with
  | none => rw [MemFS.Unlink_noent _ _ _ _ hx] at hr; cases hr; exact h
  | some x =>
    have hx0 := h.valid.inode ino x hx
    cases he : x.dirents.entries name with
    | none =>
      rw [MemFS.Unlink_noname _ _ _ _ x hx he] at hr; cases hr; exact treeInv_lock h hx now
    | some e =>
      have ht := hty x e hx he
      by_cases hs : e.Ino = ino
      · rw [MemFS.Unlink_self _ _ _ _ x e hx he hs] at hr; cases hr
      · cases hc : fs.itable e.Ino with
        | none => rw [MemFS.Unlink_dangling _ _ _ _ x e hx he hs hc] at hr; cases hr
        | some c =>
          have hc0 := h.valid.inode e.Ino c hc
          have hcd : IsDir c.mode = false := h.file ino x name e hx hn1 hn2 he ht c hc
          rw [MemFS.Unlink_ok _ _ _ _ x c e hx he hs hc] at hr
          cases hr
          have hm : ((x.Lock now).withoutEntry name now).mode = x.mode := rfl
          have hB : TreeInv (fs.StoreInode ino ((x.Lock now).withoutEntry name now)) := by
            refine treeInv_update h hx hm ((hx0.Lock now).withoutEntry name now)
              (fun hdx => ?_) (fun k e1 _ _ he1 _ => Or.inl ?_)
            · have hD := h.dir ino x hx hdx
              refine ⟨hD.count_zero, ?_, ?_, ?_⟩
              · show ((MemInode.withoutEntry _ name now).dirents.entries ".").isSome = true
                rw [withoutEntry_entries_ne _ _ _ _ (Ne.symm hn1)]; exact hD.dot
              · show ((MemInode.withoutEntry _ name now).dirents.entries "..").isSome = true
                rw [withoutEntry_entries_ne _ _ _ _ (Ne.symm hn2)]; exact hD.dotdot
              · have hcount := numSubdirs_withoutEntry (x.Lock now) hx0.dirents.wf name now e he
                simp [ht] at hcount
                have hcount2 : numSubdirs x = numSubdirs ((x.Lock now).withoutEntry name now) :=
                  hcount
                show x.nlink = _
                rw [← hcount2]
                exact hD.nlink_eq
            · exact withoutEntry_entries_sub (x.Lock now) name now k e1 he1
          have hBc : (fs.StoreInode ino ((x.Lock now).withoutEntry name now)).itable e.Ino
              = some c := by
            simp only [MemFS.StoreInode_itable, hs, if_false, hc]
          have hmc : ((c.Lock now).dropLink now).mode = c.mode := by
            rw [MemInode.dropLink_mode]; rfl
          have hC : TreeInv ((fs.StoreInode ino ((x.Lock now).withoutEntry name now)).StoreInode
              e.Ino ((c.Lock now).dropLink now)) := by
            refine treeInv_update hB hBc hmc (inodeOK_dropLink (hc0.Lock now) now)
              (fun hdc => ?_) (fun k e1 _ _ he1 _ => Or.inl ?_)
            · rw [hmc, hcd] at hdc; cases hdc
            · rw [MemInode.dropLink_dirents] at he1; exact he1
          unfold MemFS.afterRemove
          split
          · exact treeInv_remove hC _
          · exact hC

theorem treeInv_of_reachable {fs : MemFS} (h : TreeReachable fs) : TreeInv fs := by
  induction h with
  | fresh now => exact treeInv_NewMemFS now
  | mkdir ino name mode now v _ hd hr ih =>
    exact treeInv_createInode ih (fun _ => rfl) hr
  | create ino name flags mode now v _ hd hr ih =>
    exact treeInv_createInode ih (fun hd1 => by rw [hd] at hd1; cases hd1) hr
  | rmdir ino name now v _ hn1 hn2 hr ih => exact treeInv_Rmdir ih hn1 hn2 hr
  | unlink ino name now v _ hn1 hn2 hty hr ih => exact treeInv_Unlink ih hn1 hn2 hty hr

/-- C2: in every store reachable from a fresh store by Mkdir (directory mode),
Create (non-directory mode), Rmdir and Unlink (names other than `.` and `..`,
Unlink on non-directory entries only), every directory D of the inode table has
D.nlink = 2 + (number of entries of D other than `.` and `..` whose type is
directory), computed in the `uint32` arithmetic of `nlink` and hence exactly
whenever that number fits in a `uint32`; the root of a fresh store has
nlink 2. -/
theorem C2_directory_nlink_counts_subdirectories :
    (∀ fs : MemFS, TreeReachable fs → ∀ i D, fs.itable i = some D → IsDir D.mode = true →
      D.nlink = (2 + numSubdirs D) % 4294967296 ∧
        (2 + numSubdirs D < 4294967296 → D.nlink = 2 + numSubdirs D)) ∧
      ∀ now, ((NewMemFS now).itable 1).map MemInode.nlink = some 2 := by
  refine ⟨fun fs hfs i D hD hdir => ?_, fun now => rfl⟩
  have := (treeInv_of_reachable hfs).dir i D hD hdir
  exact ⟨this.nlink_eq, fun hlt => by rw [this.nlink_eq, Nat.mod_eq_of_lt hlt]⟩

theorem Res.eq_ret {α : Type} (r : Res α) (h : r.returned = true) :
    r = .ret r.value r.store := by
  cases r with
  | ret v fs => rfl
  | panic => cases h
  | deadlock => cases h

theorem exTreeAXF_reachable : TreeReachable exTreeAXF :=
  .create 2 "f" 0 fileMode 3 _
    (.mkdir 2 "x" dirMode 2 _
      (.mkdir 1 "a" dirMode 1 _ (.fresh 0) (by decide) (Res.eq_ret _ (by decide)))
      (by decide) (Res.eq_ret _ (by decide)))
    (by decide) (Res.eq_ret _ (by decide))

/-- C2, witness: after mkdir a, mkdir a/x and creat a/f, directory a (inode 2)
has one subdirectory entry and nlink 3. -/
theorem C2_directory_nlink_counts_subdirectories_witness :
    TreeReachable exTreeAXF ∧ exTreeAXF.itable 2 = some (exTreeAXF.inodeAt 2) ∧
      IsDir (exTreeAXF.inodeAt 2).mode = true ∧
      2 + numSubdirs (exTreeAXF.inodeAt 2) < 4294967296 ∧
      (exTreeAXF.inodeAt 2).nlink = 2 + numSubdirs (exTreeAXF.inodeAt 2) ∧
      numSubdirs (exTreeAXF.inodeAt 2) = 1 :=
  ⟨exTreeAXF_reachable, rfl, by decide, by decide,
    (C2_directory_nlink_counts_subdirectories.1 exTreeAXF exTreeAXF_reachable 2
      (exTreeAXF.inodeAt 2) rfl (by decide)).2 (by decide),
    by decide⟩

theorem slice_zero (s : List Nat) (n : Nat) (h : n ≤ s.length) :
    slice s 0 (n : Int) = some (s.take n) := by
  unfold slice
  have : (0 : Int) ≤ 0 ∧ (0 : Int) ≤ (n : Int) ∧ (n : Int) ≤ (s.length : Int) :=
    ⟨le_refl _, Int.ofNat_nonneg n, Int.ofNat_le.2 h⟩
  rw [if_pos this]
  simp

theorem slice_to_end (s : List Nat) (o : Nat) (h : o ≤ s.length) :
    slice s (o : Int) (s.length : Int) = some (s.drop o) := by
  unfold slice
  have : (0 : Int) ≤ (o : Int) ∧ (o : Int) ≤ (s.length : Int) ∧
      (s.length : Int) ≤ (s.length : Int) :=
    ⟨Int.ofNat_nonneg o, Int.ofNat_le.2 h, le_refl _⟩
  rw [if_pos this]
  have e1 : ((o : Int)).toNat = o := Int.toNat_ofNat o
  have e2 : ((s.length : Int) - (o : Int)).toNat = s.length - o := by omega
  rw [e1, e2]
  congr 1
  apply List.take_of_length_le
  simp

theorem PadRightLoop_eq (fuel : Nat) : ∀ (src : List Nat) (pad n : Nat),
    n + 1 ≤ src.length + fuel → 0 < fuel →
    PadRightLoop fuel src pad (n : Int) =
      some ((src ++ List.replicate (n - src.length) pad).take n) := by
  induction fuel with
  | zero => intro src pad n _ h0; cases h0
  | succ f ih =>
    intro src pad n h _
    unfold PadRightLoop
    dsimp only
    by_cases hlt : (((src ++ [pad]).length : Nat) : Int) > (n : Int)
    · rw [if_pos hlt]
      have hlen : n ≤ src.length := by
        have : n < (src ++ [pad]).length := Int.ofNat_lt.1 hlt
        simp at this
        omega
      rw [slice_zero _ _ (by simp; omega)]
      have : n - src.length = 0 := by omega
      rw [this]
      simp [List.take_append_of_le_length hlen]
    · rw [if_neg hlt]
      have hlen : src.length + 1 ≤ n := by
        have : ¬ n < (src ++ [pad]).length := fun h => hlt (Int.ofNat_lt.2 h)
        simp at this
        omega
      rw [ih (src ++ [pad]) pad n (by simp; omega) (by omega)]
      have e : n - src.length = (n - (src ++ [pad]).length) + 1 := by simp; omega
      rw [e, List.replicate_succ]
      simp

theorem PadRight_eq (src : List Nat) (pad n : Nat) :
    PadRight src pad (n : Int) =
      some ((src ++ List.replicate (n - src.length) pad).take n) := by
  unfold PadRight
  apply PadRightLoop_eq
  · omega
  · omega

theorem PadRight_neg (src : List Nat) (pad : Nat) (n : Int) (h : n < 0) :
    PadRight src pad n = none := by
  unfold PadRight
  have hf : (n - (src.length : Int)).toNat = 0 := by omega
  rw [hf]
  unfold PadRightLoop
  dsimp only
  have : (((src ++ [pad]).length : Nat) : Int) > n := by
    have : (0 : Int) ≤ ((src ++ [pad]).length : Nat) := Int.ofNat_nonneg _
    omega
  rw [if_pos this]
  unfold slice
  rw [if_neg]
  omega

theorem MemInode.Write_eq (x : MemInode) (o : Nat) (w : List Nat) :
    x.Write (o : Int) w = some (w.length, x.written o w) := by
  unfold MemInode.Write
  rw [PadRight_eq]
  dsimp only
  unfold MemInode.written writtenData
  dsimp only
  by_cases h1 : ((x.data ++ List.replicate (o - x.data.length) 0).take o ++ w).length
      > x.data.length <;> by_cases h2 : w.length > 0 <;> simp only [h1, h2, if_true, if_false]

theorem MemInode.Read_eq (x : MemInode) (o : Nat) (n : Int) (ho : o ≤ x.data.length) :
    x.Read (o : Int) n = some (readBytes x.data o n) := by
  unfold MemInode.Read readBytes
  by_cases h : n ≤ 0 ∨ n ≥ (x.data.length : Int) - (o : Int)
  · rw [if_pos h, if_pos h, slice_to_end _ _ ho]
  · rw [if_neg h, if_neg h]
    unfold slice
    have hn : 0 < n ∧ n < (x.data.length : Int) - (o : Int) := by omega
    have : (0 : Int) ≤ (o : Int) ∧ (o : Int) ≤ (o : Int) + n ∧
        (o : Int) + n ≤ (x.data.length : Int) := by omega
    rw [if_pos this]
    have e1 : ((o : Int)).toNat = o := Int.toNat_ofNat o
    have e2 : ((o : Int) + n - (o : Int)).toNat = n.toNat := by congr 1; omega
    rw [e1, e2]

theorem MemFS.Write_ok (fs : MemFS) (i : Nat) (x : MemInode) (o : Nat) (w : List Nat)
    (now : Time) (hx : fs.itable i = some x) :
    fs.Write i (o : Int) w now =
      .ret (.ok w.length) (fs.StoreInode i ((x.Lock now).written o w)) := by
  simp only [MemFS.Write, MemFS.LoadInode, hx, MemInode.Write_eq]

theorem MemFS.Read_ok (fs : MemFS) (i : Nat) (x : MemInode) (o : Nat) (n : Int)
    (now : Time) (hx : fs.itable i = some x) (ho : o ≤ x.data.length) :
    fs.Read i (o : Int) n now =
      .ret (.ok (readBytes x.data o n)) (fs.StoreInode i (x.Lock now)) := by
  have : (x.Lock now).Read (o : Int) n = some (readBytes x.data o n) :=
    MemInode.Read_eq (x.Lock now) o n ho
  simp only [MemFS.Read, MemFS.LoadInode, hx, this]

theorem MemFS.Stat_ok (fs : MemFS) (i : Nat) (x : MemInode) (now : Time)
    (hx : fs.itable i = some x) :
    fs.Stat [] i now = .ret (.ok (x.Lock now).Stat) (fs.StoreInode i (x.Lock now)) := by
  simp [MemFS.Stat, MemFS.LoadInode, hx]

theorem MemFS.Stat_noent (fs : MemFS) (held : List Nat) (i : Nat) (now : Time)
    (hx : fs.itable i = none) :
    fs.Stat held i now = .ret (.error .ENOENT) fs := by
  simp [MemFS.Stat, MemFS.LoadInode, hx]

theorem MemFS.Lookup_noname (fs : MemFS) (i : Nat) (x : MemInode) (name : String)
    (now : Time) (hx : fs.itable i = some x) (he : x.dirents.entries name = none) :
    fs.Lookup i name now = .ret (.error .ENOENT) (fs.StoreInode i (x.Lock now)) := by
  have he1 : (x.Lock now).dirents.Get name = none := he
  simp [MemFS.Lookup, MemFS.LoadInode, hx, he1]

theorem MemFS.Lookup_ok (fs : MemFS) (i : Nat) (x c : MemInode) (name : String) (e : Dirent)
    (now : Time) (hx : fs.itable i = some x) (he : x.dirents.entries name = some e)
    (hne : e.Ino ≠ i) (hc : fs.itable e.Ino = some c) :
    fs.Lookup i name now =
      .ret (.ok (c.Lock now).Stat)
        ((fs.StoreInode i (x.Lock now)).StoreInode e.Ino (c.Lock now)) := by
  have he1 : (x.Lock now).dirents.Get name = some e := he
  simp [MemFS.Lookup, MemFS.LoadInode, hx, he1, MemFS.Stat, hne, hc]

theorem MemFS.Lookup_dangling (fs : MemFS) (i : Nat) (x : MemInode) (name : String)
    (e : Dirent) (now : Time) (hx : fs.itable i = some x)
    (he : x.dirents.entries name = some e) (hne : e.Ino ≠ i) (hc : fs.itable e.Ino = none) :
    fs.Lookup i name now = .ret (.error .ENOENT) (fs.StoreInode i (x.Lock now)) := by
  have he1 : (x.Lock now).dirents.Get name = some e := he
  simp [MemFS.Lookup, MemFS.LoadInode, hx, he1, MemFS.Stat, hne, hc]

theorem MemFS.Release_ok (fs : MemFS) (i : Nat) (x : MemInode) (flags : Int) (now : Time)
    (hx : fs.itable i = some x) :
    fs.Release i flags now =
      .ret (.ok ())
        (if (x.Lock now).dropHandle.nlink = 0 ∧ (x.Lock now).dropHandle.count = 0 then
          (fs.StoreInode i (x.Lock now).dropHandle).RemoveInode (x.Lock now).dropHandle.ino
        else fs.StoreInode i (x.Lock now).dropHandle) := by
  simp only [MemFS.Release, MemFS.LoadInode, hx, MemInode.Release_eq, MemFS.StoreInode_twice]

theorem MemFS.Open_ok (fs : MemFS) (i : Nat) (x : MemInode) (flags : Int) (now : Time)
    (hx : fs.itable i = some x) :
    fs.Open i flags now = .ret (.ok ()) (fs.StoreInode i (x.Lock now).Reference) := by
  simp only [MemFS.Open, MemFS.LoadInode, hx]

theorem writtenData_nil (o : Nat) (w : List Nat) :
    writtenData [] o w = List.replicate o 0 ++ w := by
  unfold writtenData
  simp

theorem readBytes_written (o : Nat) (w : List Nat) :
    readBytes (List.replicate o 0 ++ w) o (w.length : Int) = w := by
  unfold readBytes
  have h : ((w.length : Nat) : Int) ≤ 0 ∨
      ((w.length : Nat) : Int) ≥ ((List.replicate o 0 ++ w).length : Int) - (o : Int) := by
    right; simp
  rw [if_pos h]
  simp

/-- C4: a held handle keeps an unlinked file alive.  In a store whose
allocator points at an unused number, let directory P have no entry `name`.
Create(P, name) with a non-directory mode returns a new inode number i with
count 1; after a write of `w` at offset `o` through i, Unlink(P, name)
succeeds, Lookup(P, name) returns ENOENT, and inode i stays in the table with
nlink 0: Stat(i) succeeds, Read(i, o, len w) returns `w`, every further Write
at a non-negative offset succeeds.  Release(i) then removes the inode and
Stat(i) returns ENOENT. -/
theorem C4_held_handle_keeps_unlinked_file (fs : MemFS) (P : Nat) (x : MemInode)
    (name : String) (flags : Int) (mode : FileMode) (o : Nat) (w : List Nat)
    (t1 t2 t3 t4 t5 : Time)
    (hfree : fs.itable fs.inoNextFree = none) (hP : fs.itable P = some x)
    (hname : x.dirents.entries name = none) (hmode : IsDir mode = false) :
    ∃ st fs1 fs2 fs3 fs4 y,
      fs.Create P name flags mode t1 = .ret (.ok st) fs1 ∧ st.Ino = fs.inoNextFree ∧
      (fs1.itable st.Ino).map MemInode.count = some 1 ∧
      fs1.Write st.Ino (o : Int) w t2 = .ret (.ok w.length) fs2 ∧
      fs2.Unlink P name t3 = .ret (.ok ()) fs3 ∧
      (∃ fs5, fs3.Lookup P name t4 = .ret (.error .ENOENT) fs5) ∧
      fs3.itable st.Ino = some y ∧ y.nlink = 0 ∧ y.count = 1 ∧
      (∃ s fs5, fs3.Stat [] st.Ino t4 = .ret (.ok s) fs5 ∧ s.Ino = st.Ino ∧ s.Nlink = 0 ∧
        s.Size = o + w.length) ∧
      (∃ fs5, fs3.Read st.Ino (o : Int) (w.length : Int) t4 = .ret (.ok w) fs5) ∧
      (∀ (o1 : Nat) (w1 : List Nat) (t : Time),
        ∃ fs5, fs3.Write st.Ino (o1 : Int) w1 t = .ret (.ok w1.length) fs5) ∧
      fs3.Release st.Ino flags t4 = .ret (.ok ()) fs4 ∧ fs4.itable st.Ino = none ∧
      fs4.Stat [] st.Ino t5 = .ret (.error .ENOENT) fs4 := by
  have hne : fs.inoNextFree ≠ P := fun e => by rw [e, hP] at hfree; cases hfree
  -- the stores and inodes along the way
  let i := fs.inoNextFree
  let P1 := (x.Lock t1).withEntry name i (modeType mode) t1
  let C1 := refIf true (MemInode.init i mode t1)
  let fs1 := (fs.bump.StoreInode P P1).StoreInode i C1
  let C2 := (C1.Lock t2).written o w
  let fs2 := fs1.StoreInode i C2
  let P3 := (P1.Lock t3).withoutEntry name t3
  let C3 := (C2.Lock t3).dropLink t3
  let fs3 := (fs2.StoreInode P P3).StoreInode i C3
  have h1i : fs1.itable i = some C1 := by simp [fs1]
  have h2P : fs2.itable P = some P1 := by simp [fs2, fs1, Ne.symm hne]
  have h2i : fs2.itable i = some C2 := by simp [fs2]
  have hent : P1.dirents.entries name = some { Ino := i, Name := name, Typ := modeType mode } :=
    withEntry_entries_same _ _ _ _ _
  have hC2data : C2.data = List.replicate o 0 ++ w := by
    have : C2.data = writtenData [] o w := by
      show ((C1.Lock t2).written o w).data = _
      unfold MemInode.written
      split <;> rfl
    rw [this, writtenData_nil]
  have hC2nlink : C2.nlink = 1 := by
    show ((C1.Lock t2).written o w).nlink = 1
    unfold MemInode.written
    split <;> rfl
  have hC2count : C2.count = 1 := by
    show ((C1.Lock t2).written o w).count = 1
    unfold MemInode.written
    split <;> rfl
  have hC2ino : C2.ino = i := by
    show ((C1.Lock t2).written o w).ino = i
    unfold MemInode.written
    split <;> rfl
  have hC3nlink : C3.nlink = 0 := by
    show ((C2.Lock t3).dropLink t3).nlink = 0
    rw [MemInode.dropLink_nlink]
    show (if C2.nlink = 0 then 0 else dec32 C2.nlink) = 0
    rw [hC2nlink]; rfl
  have hC3count : C3.count = 1 := by
    show ((C2.Lock t3).dropLink t3).count = 1
    rw [MemInode.dropLink_count]; exact hC2count
  have hC3data : C3.data = List.replicate o 0 ++ w := by
    show ((C2.Lock t3).dropLink t3).data = _
    rw [MemInode.dropLink_data]; exact hC2data
  have hC3ino : C3.ino = i := by
    show ((C2.Lock t3).dropLink t3).ino = _
    rw [MemInode.dropLink_ino]; exact hC2ino
  have hunlink : fs2.Unlink P name t3 = .ret (.ok ()) fs3 := by
    rw [MemFS.Unlink_ok fs2 P name t3 P1 C2 _ h2P hent hne h2i]
    unfold MemFS.afterRemove
    have : ¬(((C2.Lock t3).dropLink t3).nlink = 0 ∧ ((C2.Lock t3).dropLink t3).count = 0) := by
      intro h
      have := h.2
      rw [show ((C2.Lock t3).dropLink t3).count = 1 from hC3count] at this
      cases this
    rw [if_neg this]
  have h3P : fs3.itable P = some P3 := by simp [fs3, Ne.symm hne]
  have h3i : fs3.itable i = some C3 := by simp [fs3]
  have hP3 : P3.dirents.entries name = none := withoutEntry_entries_same _ _ _
  have hrel : ((C3.Lock t4).dropHandle.nlink = 0 ∧ (C3.Lock t4).dropHandle.count = 0) := by
    unfold MemInode.dropHandle
    have hc : (C3.Lock t4).count > 0 := by
      show C3.count > 0
      rw [hC3count]; decide
    rw [if_pos hc]
    refine ⟨hC3nlink, ?_⟩
    show dec32 C3.count = 0
    rw [hC3count]; rfl
  have hrelino : (C3.Lock t4).dropHandle.ino = i := by
    unfold MemInode.dropHandle
    split <;> exact hC3ino
  refine ⟨C1.Stat, fs1, fs2, fs3,
    (fs3.StoreInode i (C3.Lock t4).dropHandle).RemoveInode i, C3, ?_, rfl, ?_, ?_, hunlink,
    ⟨_, MemFS.Lookup_noname fs3 P P3 name t4 h3P hP3⟩, h3i, hC3nlink, hC3count,
    ⟨_, _, MemFS.Stat_ok fs3 i C3 t4 h3i, hC3ino, hC3nlink, ?_⟩,
    ⟨fs3.StoreInode i (C3.Lock t4), ?_⟩, fun o1 w1 t => ⟨_,
      MemFS.Write_ok fs3 i C3 o1 w1 t h3i⟩, ?_, ?_, ?_⟩
  · exact MemFS.createInode_file fs P name mode t1 true x hP hname hmode
  · show (fs1.itable i).map MemInode.count = some 1
    rw [h1i]; rfl
  · exact MemFS.Write_ok fs1 i C1 o w t2 h1i
  · show (C3.Lock t4).data.length = o + w.length
    show C3.data.length = _
    rw [hC3data]; simp
  · have := MemFS.Read_ok fs3 i C3 o (w.length : Int) t4 h3i (by rw [hC3data]; simp)
    rw [hC3data, readBytes_written] at this
    exact this
  · show fs3.Release i flags t4 = _
    rw [MemFS.Release_ok fs3 i C3 flags t4 h3i, if_pos hrel, hrelino]
  · show ((fs3.StoreInode i (C3.Lock t4).dropHandle).RemoveInode i).itable i = none
    simp
  · apply MemFS.Stat_noent
    show ((fs3.StoreInode i (C3.Lock t4).dropHandle).RemoveInode i).itable i = none
    simp

/-- C4, witness: on a fresh store, creat f in the root, write bytes 7, 8 at
offset 2, unlink f: the hypotheses hold and the new inode is number 2. -/
theorem C4_held_handle_keeps_unlinked_file_witness :
    (NewMemFS 0).itable (NewMemFS 0).inoNextFree = none ∧
      (NewMemFS 0).itable 1 = some ((NewMemFS 0).inodeAt 1) ∧
      ((NewMemFS 0).inodeAt 1).dirents.entries "f" = none ∧ IsDir fileMode = false ∧
      ∃ st fs1, (NewMemFS 0).Create 1 "f" 0 fileMode 1 = .ret (.ok st) fs1 ∧ st.Ino = 2 :=
  ⟨rfl, rfl, rfl, by decide,
    match C4_held_handle_keeps_unlinked_file (NewMemFS 0) 1 ((NewMemFS 0).inodeAt 1) "f" 0
        fileMode 2 [7, 8] 1 2 3 4 5 rfl rfl rfl (by decide) with
    | ⟨st, fs1, _, _, _, _, h1, h2, _⟩ => ⟨st, fs1, h1, h2⟩⟩

theorem MemInode.sameButTimes_inode_refl (x : MemInode) : x.sameButTimes x :=
  ⟨rfl, rfl, rfl, rfl, rfl, rfl⟩

theorem MemInode.sameButTimes_inode_trans {x y z : MemInode} (h1 : x.sameButTimes y)
    (h2 : y.sameButTimes z) : x.sameButTimes z :=
  ⟨h1.1.trans h2.1, h1.2.1.trans h2.2.1, h1.2.2.1.trans h2.2.2.1,
    h1.2.2.2.1.trans h2.2.2.2.1, h1.2.2.2.2.1.trans h2.2.2.2.2.1,
    h1.2.2.2.2.2.trans h2.2.2.2.2.2⟩

theorem MemFS.sameButTimes_refl (fs : MemFS) : fs.sameButTimes fs := by
  refine ⟨rfl, fun i => ?_⟩
  cases fs.itable i with
  | none => trivial
  | some x => exact x.sameButTimes_inode_refl

theorem MemFS.sameButTimes_trans {a b c : MemFS} (h1 : a.sameButTimes b)
    (h2 : b.sameButTimes c) : a.sameButTimes c := by
  refine ⟨h1.1.trans h2.1, fun i => ?_⟩
  have e1 := h1.2 i
  have e2 := h2.2 i
  cases ha : a.itable i <;> cases hb : b.itable i <;> cases hc : c.itable i <;>
    simp only [ha, hb, hc] at e1 e2 ⊢
  all_goals first
    | trivial
    | exact e1.elim
    | exact e2.elim
    | exact MemInode.sameButTimes_inode_trans e1 e2

theorem MemFS.sameButTimes_lock (fs : MemFS) (i : Nat) (x : MemInode) (now : Time)
    (hx : fs.itable i = some x) : fs.sameButTimes (fs.StoreInode i (x.Lock now)) := by
  refine ⟨rfl, fun j => ?_⟩
  simp only [MemFS.StoreInode_itable]
  by_cases hj : j = i
  · subst hj
    rw [hx, if_pos rfl]
    exact ⟨rfl, rfl, rfl, rfl, rfl, rfl⟩
  · rw [if_neg hj]
    cases fs.itable j with
    | none => trivial
    | some y => exact y.sameButTimes_inode_refl

theorem MemInode.GetDirent_ok {x : MemInode} {name : String} {e : Dirent}
    (h : x.GetDirent name = .ok e) : x.dirents.entries name = some e := by
  unfold MemInode.GetDirent ListMap.Get at h
  split at h
  · cases h
  · rename_i d hd; cases h; exact hd

theorem MemInode.GetDirent_error {x : MemInode} {name : String} {e : Errno}
    (h : x.GetDirent name = .error e) : x.dirents.entries name = none ∧ e = .ENOENT := by
  unfold MemInode.GetDirent ListMap.Get at h
  split at h
  · rename_i hd; cases h; exact ⟨hd, rfl⟩
  · cases h

theorem MemInode.Rmdir_error {fs fs1 : MemFS} {held : List Nat} {self : Nat}
    {x : MemInode} {name : String} {now : Time} {e : Errno} {d : Dirent}
    (hd : x.dirents.entries name = some d) (ht : IsDir d.Typ = true)
    (hr : x.Rmdir fs held self name now = .ret (.error e) fs1) :
    e = .ENOTEMPTY ∧ ∃ c, fs.itable d.Ino = some c ∧ IsDir c.mode = true ∧
      c.dirents.Len > 2 ∧ fs1 = fs.StoreInode d.Ino (c.Lock now) := by
  have hd1 : x.dirents.Get name = some d := hd
  simp only [MemInode.Rmdir, hd1, ht, MemFS.LoadInode] at hr
  simp only [Bool.true_eq_false, if_false] at hr
  split at hr
  · cases hr
  · rename_i c hc
    split at hr
    · cases hr
    · split at hr
      · rename_i hcond
        cases hr
        exact ⟨rfl, c, hc, hcond.1, hcond.2, rfl⟩
      · cases hr

theorem MemInode.Unlink_error {fs fs1 : MemFS} {held : List Nat} {self : Nat}
    {x : MemInode} {name : String} {now : Time} {e : Errno} {d : Dirent}
    (hd : x.dirents.entries name = some d)
    (hr : x.Unlink fs held self name now = .ret (.error e) fs1) : False := by
  have hd1 : x.dirents.Get name = some d := hd
  simp only [MemInode.Unlink, hd1, MemFS.LoadInode] at hr
  split at hr
  · cases hr
  · split at hr <;> cases hr

theorem MemFS.sameButTimes_rename_locks (fs : MemFS) (s d : Nat) (s0 d0 : MemInode)
    (now : Time) (hs : fs.itable s = some s0) (hd : fs.itable d = some d0) :
    fs.sameButTimes ((fs.StoreInode s (s0.Lock now)).StoreInode d
      (if s = d then s0.Lock now else d0.Lock now)) := by
  by_cases hsd : s = d
  · subst hsd
    rw [if_pos rfl, MemFS.StoreInode_twice]
    exact fs.sameButTimes_lock s s0 now hs
  · rw [if_neg hsd]
    refine MemFS.sameButTimes_trans (fs.sameButTimes_lock s s0 now hs)
      (MemFS.sameButTimes_lock _ d d0 now ?_)
    simp only [MemFS.StoreInode_itable, Ne.symm hsd, if_false, hd]

theorem MemFS.sameButTimes_some {a b : MemFS} (h : a.sameButTimes b) {i : Nat} {y : MemInode}
    (hy : b.itable i = some y) : ∃ x, a.itable i = some x ∧ x.sameButTimes y := by
  have := h.2 i
  rw [hy] at this
  cases ha : a.itable i with
  | none => rw [ha] at this; exact this.elim
  | some x => rw [ha] at this; exact ⟨x, rfl, this⟩

/-- C8: Rename is atomic on failure.  Whenever Rename returns an error, the
store it leaves differs from the store before in timestamps only (same
allocator, same inodes in the table, same entries, nlink, count, mode and
data), and the error is ENOENT (a parent inode or the source name is missing),
EISDIR (source entry not a directory, destination entry a directory), ENOTDIR
(source a directory, destination not) or ENOTEMPTY (destination a directory
inode holding more than two entries). -/
theorem C8_rename_atomic_on_failure (fs fs1 : MemFS) (sIno : Nat) (sName : String)
    (dIno : Nat) (dName : String) (now : Time) (e : Errno)
    (hr : fs.Rename sIno sName dIno dName now = .ret (.error e) fs1) :
    fs.sameButTimes fs1 ∧
      ((e = .ENOENT ∧
          (fs.itable sIno = none ∨ fs.itable dIno = none ∨
            ∃ xs, fs.itable sIno = some xs ∧ xs.dirents.entries sName = none)) ∨
        ∃ xs xd es ed, fs.itable sIno = some xs ∧ fs.itable dIno = some xd ∧
          xs.dirents.entries sName = some es ∧ xd.dirents.entries dName = some ed ∧
          es.Ino ≠ ed.Ino ∧
          ((e = .EISDIR ∧ IsDir es.Typ = false ∧ IsDir ed.Typ = true) ∨
            (e = .ENOTDIR ∧ IsDir es.Typ = true ∧ IsDir ed.Typ = false) ∨
            (e = .ENOTEMPTY ∧ IsDir es.Typ = true ∧ IsDir ed.Typ = true ∧
              ∃ c, fs.itable ed.Ino = some c ∧ IsDir c.mode = true ∧ c.dirents.Len > 2))) := by
  unfold MemFS.Rename MemFS.LoadInode at hr
  split at hr
  · rename_i hs0
    cases hr
    exact ⟨fs.sameButTimes_refl, Or.inl ⟨rfl, Or.inl hs0⟩⟩
  · rename_i s0 hs0
    split at hr
    · rename_i hd0
      cases hr
      exact ⟨fs.sameButTimes_refl, Or.inl ⟨rfl, Or.inr (Or.inl hd0)⟩⟩
    · rename_i d0 hd0
      have hlocks := fs.sameButTimes_rename_locks sIno dIno s0 d0 now hs0 hd0
      have hdd : ∀ k, (if sIno = dIno then s0.Lock now else d0.Lock now).dirents.entries k
          = (if sIno = dIno then s0 else d0).dirents.entries k := by
        intro k; split <;> rfl
      have hdtab : fs.itable dIno = some (if sIno = dIno then s0 else d0) := by
        split
        · rename_i h; rw [← h]; exact hs0
        · exact hd0
      dsimp only at hr
      split at hr
      · rename_i e1 hsd
        have := MemInode.GetDirent_error hsd
        cases hr
        exact ⟨hlocks, Or.inl ⟨this.2, Or.inr (Or.inr ⟨s0, hs0, this.1⟩)⟩⟩
      · rename_i sDirent hsd
        have hse : s0.dirents.entries sName = some sDirent := MemInode.GetDirent_ok hsd
        split at hr
        · rename_i e1 hdd1
          have := MemInode.GetDirent_error hdd1
          split at hr
          · rename_i hne; exact absurd this.2 hne
          · cases hr
        · rename_i dDirent hdd1
          have hde : (if sIno = dIno then s0 else d0).dirents.entries dName = some dDirent := by
            rw [← hdd]; exact MemInode.GetDirent_ok hdd1
          split at hr
          · cases hr
          · rename_i hneq
            split at hr
            · rename_i hty
              cases hr
              exact ⟨hlocks, Or.inr ⟨s0, _, sDirent, dDirent, hs0, hdtab, hse, hde, hneq,
                Or.inl ⟨rfl, hty.1, hty.2⟩⟩⟩
            · split at hr
              · rename_i hty
                cases hr
                exact ⟨hlocks, Or.inr ⟨s0, _, sDirent, dDirent, hs0, hdtab, hse, hde, hneq,
                  Or.inr (Or.inl ⟨rfl, hty.1, hty.2⟩)⟩⟩
              · rename_i hty1 hty2
                split at hr
                · rename_i e2 fs2 hinner
                  cases hr
                  cases hdt : IsDir dDirent.Typ with
                  | false =>
                    rw [hdt] at hinner
                    simp only [Bool.false_eq_true, if_false] at hinner
                    exact (MemInode.Unlink_error (MemInode.GetDirent_ok hdd1) hinner).elim
                  | true =>
                    rw [hdt] at hinner
                    simp only [if_true] at hinner
                    obtain ⟨he, c, hc, hcm, hcl, hfs⟩ :=
                      MemInode.Rmdir_error (MemInode.GetDirent_ok hdd1) hdt hinner
                    have hst : IsDir sDirent.Typ = true := by
                      cases hs : IsDir sDirent.Typ with
                      | true => rfl
                      | false => exact absurd ⟨hs, hdt⟩ hty1
                    subst hfs
                    refine ⟨MemFS.sameButTimes_trans hlocks
                      (MemFS.sameButTimes_lock _ _ c now hc), ?_⟩
                    obtain ⟨c1, hc1, hsame⟩ := MemFS.sameButTimes_some hlocks hc
                    refine Or.inr ⟨s0, _, sDirent, dDirent, hs0, hdtab, hse, hde, hneq,
                      Or.inr (Or.inr ⟨he, hst, hdt, c1, hc1, ?_, ?_⟩)⟩
                    · rw [hsame.2.2.2.1]; exact hcm
                    · rw [hsame.2.2.2.2.1]; exact hcl
                · cases hr
                · cases hr
                · cases hr

/-- C8, witness: with directory a holding subdirectory x and file f, renaming
a/f onto a/x fails with EISDIR and changes timestamps only. -/
theorem C8_rename_atomic_on_failure_witness :
    exTreeAXF.Rename 2 "f" 2 "x" 9 =
        .ret (.error .EISDIR) (exTreeAXF.Rename 2 "f" 2 "x" 9).store ∧
      exTreeAXF.sameButTimes (exTreeAXF.Rename 2 "f" 2 "x" 9).store :=
  ⟨rfl,
    (C8_rename_atomic_on_failure exTreeAXF (exTreeAXF.Rename 2 "f" 2 "x" 9).store 2 "f" 2 "x" 9
      .EISDIR rfl).1⟩

theorem MemFS.StoreInode_shadow (fs : MemFS) (s d : Nat) (a b c : MemInode) :
    ((fs.StoreInode s a).StoreInode d b).StoreInode s c =
      (fs.StoreInode d b).StoreInode s c := by
  unfold MemFS.StoreInode
  congr 1
  funext j
  by_cases h1 : j = s <;> by_cases h2 : j = d <;> simp [h1, h2]

theorem MemFS.writeBack_of_some (fs : MemFS) (i : Nat) (x : MemInode)
    (h : (fs.itable i).isSome = true) : fs.writeBack i x = fs.StoreInode i x := by
  unfold MemFS.writeBack; rw [if_pos h]

theorem MemFS.renameMove_eq (fs : MemFS) (sIno : Nat) (sName : String) (dIno : Nat)
    (dName : String) (e e1 : Dirent) (d s : MemInode) (now : Time)
    (hd : d.dirents.entries dName = none) (h0 : e.Ino ≠ 0)
    (hdt : (fs.itable dIno).isSome = true) (hst : (fs.itable sIno).isSome = true)
    (hs : (if sIno = dIno then d.withEntry dName e.Ino e.Typ now else s).dirents.entries sName
      = some e1) :
    fs.renameMove sIno sName dIno dName e d s now =
      (fs.StoreInode dIno (d.withEntry dName e.Ino e.Typ now)).StoreInode sIno
        ((if sIno = dIno then d.withEntry dName e.Ino e.Typ now else s).withoutEntry
          sName now) := by
  unfold MemFS.renameMove
  dsimp only
  rw [MemInode.AddDirent_of_none _ _ _ _ _ _ hd h0]
  dsimp only
  rw [MemInode.RemoveDirent_of_some _ _ _ e1 hs, MemFS.writeBack_of_some _ _ _ hdt,
    MemFS.writeBack_of_some]
  simp only [MemFS.StoreInode_itable]
  split
  · rfl
  · exact hst

theorem MemFS.Rename_free (fs : MemFS) (s : Nat) (sName : String) (d : Nat) (dName : String)
    (now : Time) (xs xd : MemInode) (e : Dirent)
    (hs : fs.itable s = some xs) (hd : fs.itable d = some xd)
    (hse : xs.dirents.entries sName = some e) (hde : xd.dirents.entries dName = none)
    (h0 : e.Ino ≠ 0) :
    fs.Rename s sName d dName now = .ret (.ok ()) (fs.afterMove s sName d dName e xs xd now) := by
  have hsg : (xs.Lock now).GetDirent sName = .ok e := by
    simp [MemInode.GetDirent, ListMap.Get, MemInode.Lock, hse]
  by_cases hsd : s = d
  · subst hsd
    have hxd : xd = xs := by rw [hs] at hd; cases hd; rfl
    subst hxd
    have hdg : (xd.Lock now).GetDirent dName = .error .ENOENT := by
      simp [MemInode.GetDirent, ListMap.Get, MemInode.Lock, hde]
    have hne : sName ≠ dName := fun h => by rw [h, hde] at hse; cases hse
    simp only [MemFS.Rename, MemFS.LoadInode, hs, if_true, hsg, hdg, ne_eq, not_true,
      if_false, MemFS.StoreInode_twice]
    rw [MemFS.renameMove_eq (fs.StoreInode s (xd.Lock now)) s sName s dName e e (xd.Lock now)
      (xd.Lock now) now hde h0 (by simp) (by simp)
      (by rw [if_pos rfl, withEntry_entries_ne _ _ _ _ _ _ hne]; exact hse)]
    simp only [if_true, MemFS.StoreInode_twice, MemFS.afterMove]
  · have hdg : (xd.Lock now).GetDirent dName = .error .ENOENT := by
      simp [MemInode.GetDirent, ListMap.Get, MemInode.Lock, hde]
    simp only [MemFS.Rename, MemFS.LoadInode, hs, hd, hsd, if_false, hsg, hdg, ne_eq,
      not_true]
    rw [MemFS.renameMove_eq ((fs.StoreInode s (xs.Lock now)).StoreInode d (xd.Lock now)) s sName
      d dName e e (xd.Lock now) (xs.Lock now) now hde h0 (by simp) (by simp [hsd])
      (by rw [if_neg hsd]; exact hse)]
    simp only [hsd, if_false, MemFS.StoreInode_twice, MemFS.afterMove,
      MemFS.StoreInode_shadow]

theorem MemFS.Rename_noname (fs : MemFS) (s : Nat) (sName : String) (d : Nat) (dName : String)
    (now : Time) (xs xd : MemInode)
    (hs : fs.itable s = some xs) (hd : fs.itable d = some xd)
    (hse : xs.dirents.entries sName = none) :
    fs.Rename s sName d dName now =
      .ret (.error .ENOENT)
        ((fs.StoreInode s (xs.Lock now)).StoreInode d
          (if s = d then xs.Lock now else xd.Lock now)) := by
  have hsg : (xs.Lock now).GetDirent sName = .error .ENOENT := by
    simp [MemInode.GetDirent, ListMap.Get, MemInode.Lock, hse]
  simp only [MemFS.Rename, MemFS.LoadInode, hs, hd, hsg]

theorem withEntry_keys (x : MemInode) (name : String) (ino : Nat) (t : FileMode) (now : Time)
    (h : x.dirents.entries name = none) :
    (x.withEntry name ino t now).dirents.keys = x.dirents.keys ++ [name] :=
  ListMap.Put_keys_of_none x.dirents name _ h

theorem withoutEntry_keys (x : MemInode) (name : String) (now : Time) (e : Dirent)
    (h : x.dirents.entries name = some e) :
    (x.withoutEntry name now).dirents.keys = x.dirents.keys.erase name :=
  ListMap.Delete_keys_of_some x.dirents name (by rw [h]; rfl)

/-- C5: Rename onto a free name moves the entry.  In a valid store where
directory A has an entry X and directory B (possibly A itself) has no entry Y,
Rename(A, X, B, Y) succeeds; afterwards B has the entry Y with the inode number
and type of the former (A, X), placed last in B's order; A has no entry X;
every other entry of A and of B is unchanged and the other names keep their
relative order; every inode other than A and B is untouched, and every inode
of the table, the moved one included, keeps its number, data, nlink, count and
mode. -/
theorem C5_rename_onto_free_name (fs : MemFS) (A B : Nat) (X Y : String)
    (xa xb : MemInode) (e : Dirent) (now : Time) (hv : Valid fs)
    (hA : fs.itable A = some xa) (hB : fs.itable B = some xb)
    (hX : xa.dirents.entries X = some e) (hY : xb.dirents.entries Y = none) :
    ∃ fs1 xa1 xb1, fs.Rename A X B Y now = .ret (.ok ()) fs1 ∧
      fs1.itable A = some xa1 ∧ fs1.itable B = some xb1 ∧
      xb1.dirents.entries Y = some { Ino := e.Ino, Name := Y, Typ := e.Typ } ∧
      xb1.dirents.keys.getLast? = some Y ∧
      xa1.dirents.entries X = none ∧ X ∉ xa1.dirents.keys ∧
      (∀ k, k ≠ X → (A = B → k ≠ Y) → xa1.dirents.entries k = xa.dirents.entries k) ∧
      (∀ k, k ≠ Y → (A = B → k ≠ X) → xb1.dirents.entries k = xb.dirents.entries k) ∧
      xa1.dirents.keys =
        (if A = B then xa.dirents.keys.erase X ++ [Y] else xa.dirents.keys.erase X) ∧
      xb1.dirents.keys =
        (if A = B then xb.dirents.keys.erase X else xb.dirents.keys) ++ [Y] ∧
      (∀ j, j ≠ A → j ≠ B → fs1.itable j = fs.itable j) ∧
      (∀ j m, fs.itable j = some m → ∃ m1, fs1.itable j = some m1 ∧ m1.ino = m.ino ∧
        m1.data = m.data ∧ m1.nlink = m.nlink ∧ m1.count = m.count ∧ m1.mode = m.mode) := by
  have hokA := hv.inode A xa hA
  have hokB := hv.inode B xb hB
  have h0 : e.Ino ≠ 0 := Nat.pos_iff_ne_zero.1 (hokA.dirents.entry X e hX).2.1
  have hXmem : X ∈ xa.dirents.keys := (hokA.dirents.wf.mem_iff X).2 (by rw [hX]; rfl)
  have hYnot : Y ∉ xb.dirents.keys := fun hm => by
    have := (hokB.dirents.wf.mem_iff Y).1 hm
    rw [hY] at this; cases this
  have hreq := MemFS.Rename_free fs A X B Y now xa xb e hA hB hX hY h0
  by_cases hAB : A = B
  · subst hAB
    have hxb : xb = xa := by rw [hA] at hB; cases hB; rfl
    subst hxb
    have hne : X ≠ Y := fun h => by rw [h, hY] at hX; cases hX
    have hYL : (xb.Lock now).dirents.entries Y = none := hY
    have hXL : ((xb.Lock now).withEntry Y e.Ino e.Typ now).dirents.entries X = some e := by
      rw [withEntry_entries_ne _ _ _ _ _ _ hne]; exact hX
    have hkeys : (((xb.Lock now).withEntry Y e.Ino e.Typ now).withoutEntry X now).dirents.keys
        = xb.dirents.keys.erase X ++ [Y] := by
      rw [withoutEntry_keys _ _ _ e hXL, withEntry_keys _ _ _ _ _ hYL]
      exact List.erase_append_left _ hXmem
    refine ⟨_, ((xb.Lock now).withEntry Y e.Ino e.Typ now).withoutEntry X now,
      ((xb.Lock now).withEntry Y e.Ino e.Typ now).withoutEntry X now, hreq, ?_, ?_, ?_, ?_,
      ?_, ?_, ?_, ?_, ?_, ?_, ?_, ?_⟩
    · simp [MemFS.afterMove]
    · simp [MemFS.afterMove]
    · rw [withoutEntry_entries_ne _ _ _ _ (Ne.symm hne), withEntry_entries_same]
    · rw [hkeys]; simp
    · exact withoutEntry_entries_same _ _ _
    · rw [hkeys]
      intro hm
      rcases List.mem_append.1 hm with h1 | h1
      · exact hokA.dirents.wf.nodup.not_mem_erase h1
      · simp at h1; exact hne h1
    · intro k hk1 hk2
      rw [withoutEntry_entries_ne _ _ _ _ hk1, withEntry_entries_ne _ _ _ _ _ _ (hk2 rfl)]
      rfl
    · intro k hk1 hk2
      rw [withoutEntry_entries_ne _ _ _ _ (hk2 rfl), withEntry_entries_ne _ _ _ _ _ _ hk1]
      rfl
    · rw [hkeys, if_pos rfl]
    · rw [hkeys, if_pos rfl]
    · intro j hj _
      simp [MemFS.afterMove, hj]
    · intro j m hm
      by_cases hj : j = A
      · have hmx : m = xb := by rw [hj, hA] at hm; cases hm; rfl
        rw [hj, hmx]
        exact ⟨((xb.Lock now).withEntry Y e.Ino e.Typ now).withoutEntry X now,
          by simp [MemFS.afterMove], rfl, rfl, rfl, rfl, rfl⟩
      · exact ⟨m, by simp [MemFS.afterMove, hj, hm], rfl, rfl, rfl, rfl, rfl⟩
  · have hYL : (xb.Lock now).dirents.entries Y = none := hY
    have hXL : (xa.Lock now).dirents.entries X = some e := hX
    refine ⟨_, (xa.Lock now).withoutEntry X now, (xb.Lock now).withEntry Y e.Ino e.Typ now,
      hreq, ?_, ?_, ?_, ?_, ?_, ?_, ?_, ?_, ?_, ?_, ?_, ?_⟩
    · simp [MemFS.afterMove, hAB]
    · simp [MemFS.afterMove, hAB, Ne.symm hAB]
    · exact withEntry_entries_same _ _ _ _ _
    · rw [withEntry_keys _ _ _ _ _ hYL]; simp
    · exact withoutEntry_entries_same _ _ _
    · rw [withoutEntry_keys _ _ _ e hXL]
      exact hokA.dirents.wf.nodup.not_mem_erase
    · intro k hk1 _
      rw [withoutEntry_entries_ne _ _ _ _ hk1]; rfl
    · intro k hk1 _
      rw [withEntry_entries_ne _ _ _ _ _ _ hk1]; rfl
    · rw [withoutEntry_keys _ _ _ e hXL, if_neg hAB]; rfl
    · rw [withEntry_keys _ _ _ _ _ hYL, if_neg hAB]; rfl
    · intro j hjA hjB
      simp [MemFS.afterMove, hAB, hjA, hjB]
    · intro j m hm
      by_cases hjA : j = A
      · have hmx : m = xa := by rw [hjA, hA] at hm; cases hm; rfl
        rw [hjA, hmx]
        exact ⟨(xa.Lock now).withoutEntry X now, by simp [MemFS.afterMove, hAB],
          rfl, rfl, rfl, rfl, rfl⟩
      · by_cases hjB : j = B
        · have hmx : m = xb := by rw [hjB, hB] at hm; cases hm; rfl
          rw [hjB, hmx]
          exact ⟨(xb.Lock now).withEntry Y e.Ino e.Typ now,
            by simp [MemFS.afterMove, hAB, Ne.symm hAB], rfl, rfl, rfl, rfl, rfl⟩
        · exact ⟨m, by simp [MemFS.afterMove, hAB, hjA, hjB, hm], rfl, rfl, rfl, rfl, rfl⟩

theorem exTreeAXF_valid : Valid exTreeAXF :=
  (treeInv_of_reachable exTreeAXF_reachable).valid

/-- C5, witness: with directory a (inode 2) holding file f, Rename(a, f, root, g)
meets the hypotheses and succeeds. -/
theorem C5_rename_onto_free_name_witness :
    Valid exTreeAXF ∧ exTreeAXF.itable 2 = some (exTreeAXF.inodeAt 2) ∧
      exTreeAXF.itable 1 = some (exTreeAXF.inodeAt 1) ∧
      (exTreeAXF.inodeAt 2).dirents.entries "f" =
        some { Ino := 4, Name := "f", Typ := modeType fileMode } ∧
      (exTreeAXF.inodeAt 1).dirents.entries "g" = none ∧
      ∃ fs1, exTreeAXF.Rename 2 "f" 1 "g" 9 = .ret (.ok ()) fs1 :=
  ⟨exTreeAXF_valid, rfl, rfl, rfl, rfl,
    match C5_rename_onto_free_name exTreeAXF 2 1 "f" "g" (exTreeAXF.inodeAt 2)
        (exTreeAXF.inodeAt 1) { Ino := 4, Name := "f", Typ := modeType fileMode } 9
        exTreeAXF_valid rfl rfl rfl rfl with
    | ⟨fs1, _, _, h, _⟩ => ⟨fs1, h⟩⟩

theorem runCalls_cons (c : Call) (cs : List Call) (fs fs1 fs2 : MemFS) (t : Time)
    (e : Option Errno) (es : List (Option Errno)) (h1 : c.exec fs t = some (e, fs1))
    (h2 : runCalls cs fs1 (t + 1) = some (es, fs2)) :
    runCalls (c :: cs) fs t = some (e :: es, fs2) := by
  simp only [runCalls, h1, h2]

theorem MemInode.sameButAtime_inode_refl (x : MemInode) : x.sameButAtime x :=
  ⟨x.sameButTimes_inode_refl, rfl, rfl, rfl⟩

theorem MemInode.sameButAtime_inode_trans {x y z : MemInode} (h1 : x.sameButAtime y)
    (h2 : y.sameButAtime z) : x.sameButAtime z :=
  ⟨MemInode.sameButTimes_inode_trans h1.1 h2.1, h1.2.1.trans h2.2.1, h1.2.2.1.trans h2.2.2.1,
    h1.2.2.2.trans h2.2.2.2⟩

theorem MemFS.sameButAtime_refl (fs : MemFS) : fs.sameButAtime fs := by
  refine ⟨rfl, fun i => ?_⟩
  cases fs.itable i with
  | none => trivial
  | some x => exact x.sameButAtime_inode_refl

theorem MemFS.sameButAtime_trans {a b c : MemFS} (h1 : a.sameButAtime b)
    (h2 : b.sameButAtime c) : a.sameButAtime c := by
  refine ⟨h1.1.trans h2.1, fun i => ?_⟩
  have e1 := h1.2 i
  have e2 := h2.2 i
  cases ha : a.itable i <;> cases hb : b.itable i <;> cases hc : c.itable i <;>
    simp only [ha, hb, hc] at e1 e2 ⊢
  all_goals first
    | trivial
    | exact e1.elim
    | exact e2.elim
    | exact MemInode.sameButAtime_inode_trans e1 e2

theorem MemFS.sameButAtime_lock (fs : MemFS) (i : Nat) (x : MemInode) (now : Time)
    (hx : fs.itable i = some x) : fs.sameButAtime (fs.StoreInode i (x.Lock now)) := by
  refine ⟨rfl, fun j => ?_⟩
  simp only [MemFS.StoreInode_itable]
  by_cases hj : j = i
  · subst hj
    rw [hx, if_pos rfl]
    exact ⟨⟨rfl, rfl, rfl, rfl, rfl, rfl⟩, rfl, rfl, rfl⟩
  · rw [if_neg hj]
    cases fs.itable j with
    | none => trivial
    | some y => exact y.sameButAtime_inode_refl

theorem repeated_rename_noent_atime (P : Nat) (old new : String) (n : Nat) :
    ∀ (fs : MemFS) (y : MemInode) (t : Time), fs.itable P = some y →
      y.dirents.entries old = none →
      ∃ fs2, runCalls (List.replicate n (.Rename P old P new)) fs t =
          some (List.replicate n (some .ENOENT), fs2) ∧ fs.sameButAtime fs2 := by
  induction n with
  | zero => intro fs y t _ _; exact ⟨fs, rfl, fs.sameButAtime_refl⟩
  | succ n ih =>
    intro fs y t hy hold
    have hr := MemFS.Rename_noname fs P old P new t y y hy hy hold
    rw [if_pos rfl, MemFS.StoreInode_twice] at hr
    obtain ⟨fs2, h2, hs2⟩ := ih (fs.StoreInode P (y.Lock t)) (y.Lock t) (t + 1) (by simp) hold
    refine ⟨fs2, ?_, MemFS.sameButAtime_trans (fs.sameButAtime_lock P y t hy) hs2⟩
    rw [List.replicate_succ, List.replicate_succ]
    exact runCalls_cons _ _ _ _ _ _ _ _ (by simp only [Call.exec, hr, Res.outcome]) h2

/-- C7: of repeated identical renames only the first succeeds.  In a valid
store where directory P has an entry `old` and no entry `new`, the first
Rename(P, old, P, new) succeeds; afterwards Lookup(P, old) returns ENOENT and
Lookup(P, new) returns the stat of the original inode (the inode c of the
table, other than P, that `old` referred to); every further
Rename(P, old, P, new), however many, returns ENOENT and leaves the store as
it was but for access times (each failing call sets the access time of P). -/
theorem C7_only_first_rename_succeeds (fs : MemFS) (P : Nat) (old new : String)
    (x : MemInode) (e : Dirent) (t1 t2 : Time) (hv : Valid fs)
    (hP : fs.itable P = some x) (hold : x.dirents.entries old = some e)
    (hnew : x.dirents.entries new = none) :
    ∃ fs1, fs.Rename P old P new t1 = .ret (.ok ()) fs1 ∧
      (∃ fs2, fs1.Lookup P old t2 = .ret (.error .ENOENT) fs2) ∧
      (∀ c, e.Ino ≠ P → fs.itable e.Ino = some c →
        ∃ st fs2, fs1.Lookup P new t2 = .ret (.ok st) fs2 ∧ st.Ino = e.Ino ∧
          st.Ino = c.ino) ∧
      ∀ (n : Nat) (t : Time), ∃ fs2,
        runCalls (List.replicate n (.Rename P old P new)) fs1 t =
            some (List.replicate n (some .ENOENT), fs2) ∧
          fs1.sameButAtime fs2 := by
  have hokP := hv.inode P x hP
  have h0 : e.Ino ≠ 0 := Nat.pos_iff_ne_zero.1 (hokP.dirents.entry old e hold).2.1
  have hon : old ≠ new := fun h => by rw [h, hnew] at hold; cases hold
  have hreq := MemFS.Rename_free fs P old P new t1 x x e hP hP hold hnew h0
  have hfs1 : fs.afterMove P old P new e x x t1 =
      fs.StoreInode P (((x.Lock t1).withEntry new e.Ino e.Typ t1).withoutEntry old t1) := by
    unfold MemFS.afterMove; rw [if_pos rfl]
  rw [hfs1] at hreq
  have h1P : (fs.StoreInode P
      (((x.Lock t1).withEntry new e.Ino e.Typ t1).withoutEntry old t1)).itable P =
      some (((x.Lock t1).withEntry new e.Ino e.Typ t1).withoutEntry old t1) := by simp
  have hold1 : (((x.Lock t1).withEntry new e.Ino e.Typ t1).withoutEntry old t1).dirents.entries
      old = none := withoutEntry_entries_same _ _ _
  have hnew1 : (((x.Lock t1).withEntry new e.Ino e.Typ t1).withoutEntry old t1).dirents.entries
      new = some { Ino := e.Ino, Name := new, Typ := e.Typ } := by
    rw [withoutEntry_entries_ne _ _ _ _ (Ne.symm hon), withEntry_entries_same]
  refine ⟨_, hreq, ⟨_, MemFS.Lookup_noname _ P _ old t2 h1P hold1⟩,
    fun c hne hc => ?_, fun n t => ?_⟩
  · have h1c : (fs.StoreInode P
        (((x.Lock t1).withEntry new e.Ino e.Typ t1).withoutEntry old t1)).itable e.Ino =
        some c := by simp [hne, hc]
    exact ⟨_, _, MemFS.Lookup_ok _ P _ c new _ t2 h1P hnew1 hne h1c,
      (hv.inode e.Ino c hc).ino_eq, rfl⟩
  · exact repeated_rename_noent_atime P old new n _ _ t h1P hold1

/-- C7, witness: in directory a (inode 2) holding file f (inode 4) and no g,
the hypotheses hold and the first Rename(a, f, a, g) succeeds. -/
theorem C7_only_first_rename_succeeds_witness :
    Valid exTreeAXF ∧ exTreeAXF.itable 2 = some (exTreeAXF.inodeAt 2) ∧
      (exTreeAXF.inodeAt 2).dirents.entries "f" =
        some { Ino := 4, Name := "f", Typ := modeType fileMode } ∧
      (exTreeAXF.inodeAt 2).dirents.entries "g" = none ∧
      ∃ fs1, exTreeAXF.Rename 2 "f" 2 "g" 9 = .ret (.ok ()) fs1 ∧
        ∃ st fs2, fs1.Lookup 2 "g" 10 = .ret (.ok st) fs2 ∧ st.Ino = 4 :=
  ⟨exTreeAXF_valid, rfl, rfl, rfl,
    match C7_only_first_rename_succeeds exTreeAXF 2 "f" "g" (exTreeAXF.inodeAt 2)
        { Ino := 4, Name := "f", Typ := modeType fileMode } 9 10
        exTreeAXF_valid rfl rfl rfl with
    | ⟨fs1, h, _, hl, _⟩ =>
      ⟨fs1, h,
        match hl (exTreeAXF.inodeAt 4) (by decide) rfl with
        | ⟨st, fs2, h2, h3, _⟩ => ⟨st, fs2, h2, h3⟩⟩⟩

theorem MemInode.Unlink_eq (fs : MemFS) (held : List Nat) (self : Nat) (x c : MemInode)
    (name : String) (now : Time) (e : Dirent) (he : x.dirents.entries name = some e)
    (hc : fs.itable e.Ino = some c) (hh : e.Ino ∉ held) :
    x.Unlink fs held self name now =
      .ret (.ok (x.withoutEntry name now))
        (fs.afterRemove self (x.withoutEntry name now) e.Ino ((c.Lock now).dropLink now)) := by
  have he1 : x.dirents.Get name = some e := he
  have hrem : (x.RemoveDirent name now).2 = x.withoutEntry name now :=
    congrArg Prod.snd (MemInode.RemoveDirent_of_some x name now e he)
  simp only [MemInode.Unlink, he1, MemFS.LoadInode, hc, hh, if_false, MemInode.doRemove_fst,
    MemInode.doRemove_snd, hrem, MemFS.afterRemove]

theorem MemFS.afterRemove_itable_ne (fs : MemFS) (P : Nat) (p : MemInode) (ck : Nat)
    (c : MemInode) (j : Nat) (h1 : j ≠ ck) (h2 : j ≠ c.ino) :
    (fs.afterRemove P p ck c).itable j = (fs.StoreInode P p).itable j := by
  unfold MemFS.afterRemove
  split <;> simp [h1, h2]

theorem MemFS.afterRemove_itable_child (fs : MemFS) (P : Nat) (p : MemInode) (ck : Nat)
    (c : MemInode) (h : c.ino = ck) :
    (fs.afterRemove P p ck c).itable ck =
      if c.nlink = 0 ∧ c.count = 0 then none else some c := by
  unfold MemFS.afterRemove
  split <;> simp [h]

theorem MemFS.Rename_replace_file (fs : MemFS) (P : Nat) (X Y : String) (now : Time)
    (x c : MemInode) (eX eY : Dirent) (hP : fs.itable P = some x)
    (hX : x.dirents.entries X = some eX) (hY : x.dirents.entries Y = some eY)
    (hneq : eX.Ino ≠ eY.Ino) (htX : IsDir eX.Typ = false) (htY : IsDir eY.Typ = false)
    (hc : fs.itable eY.Ino = some c) (hcP : eY.Ino ≠ P) (hcino : c.ino = eY.Ino)
    (h0 : eX.Ino ≠ 0) :
    fs.Rename P X P Y now =
      .ret (.ok ())
        ((fs.afterRemove P ((x.Lock now).withoutEntry Y now) eY.Ino
          ((c.Lock now).dropLink now)).StoreInode P (x.replaced X Y eX now)) := by
  have hXY : X ≠ Y := fun h => by rw [h, hY] at hX; cases hX; exact hneq rfl
  have hsg : (x.Lock now).GetDirent X = .ok eX := by
    simp [MemInode.GetDirent, ListMap.Get, MemInode.Lock, hX]
  have hdg : (x.Lock now).GetDirent Y = .ok eY := by
    simp [MemInode.GetDirent, ListMap.Get, MemInode.Lock, hY]
  have hin := MemInode.Unlink_eq (fs.StoreInode P (x.Lock now)) [P, P] P (x.Lock now) c Y now eY
    hY (by simp [hcP, hc]) (by simp [hcP])
  have hPsome : ((MemFS.afterRemove (fs.StoreInode P (x.Lock now)) P
      ((x.Lock now).withoutEntry Y now) eY.Ino ((c.Lock now).dropLink now)).itable P).isSome
      = true := by
    rw [MemFS.afterRemove_itable_ne _ _ _ _ _ _ (Ne.symm hcP)
      (by rw [MemInode.dropLink_ino]; show P ≠ c.ino; rw [hcino]; exact Ne.symm hcP)]
    simp
  have hmove := MemFS.renameMove_eq
    (MemFS.afterRemove (fs.StoreInode P (x.Lock now)) P ((x.Lock now).withoutEntry Y now)
      eY.Ino ((c.Lock now).dropLink now))
    P X P Y eX eX ((x.Lock now).withoutEntry Y now) ((x.Lock now).withoutEntry Y now) now
    (withoutEntry_entries_same _ _ _) h0 hPsome hPsome
    (by
      rw [if_pos rfl, withEntry_entries_ne _ _ _ _ _ _ hXY,
        withoutEntry_entries_ne _ _ _ _ hXY]
      exact hX)
  simp only [MemFS.Rename, MemFS.LoadInode, hP, if_true, hsg, hdg, hneq, if_false, htX, htY,
    MemFS.StoreInode_twice, Bool.false_eq_true, and_false, false_and, hin, hmove]
  simp only [MemFS.StoreInode_twice, MemInode.replaced, MemFS.afterRemove]

theorem dec32_of_pos (n : Nat) (h0 : n ≠ 0) (hlt : n < 4294967296) : dec32 n = n - 1 := by
  unfold dec32
  rw [Nat.mod_eq_of_lt hlt, if_neg h0]

/-- C6: Rename replaces an existing regular file.  In a valid store where X
and Y are entries of directory P, of non-directory type, referring to two
different non-directory inodes a and b of the table, Rename(P, X, P, Y)
succeeds; afterwards Lookup(P, X) returns ENOENT, Lookup(P, Y) returns the stat
of inode a, reading a yields its former data, and b has lost one link (its
nlink is one less, or still 0): b is gone from the table when that leaves it
without link and it has no open handle, and is kept with the lower nlink
otherwise. -/
theorem C6_rename_replaces_regular_file (fs : MemFS) (P : Nat) (X Y : String)
    (x a b : MemInode) (eX eY : Dirent) (t1 t2 : Time) (hv : Valid fs)
    (hP : fs.itable P = some x) (hX : x.dirents.entries X = some eX)
    (hY : x.dirents.entries Y = some eY) (hneq : eX.Ino ≠ eY.Ino)
    (ha : fs.itable eX.Ino = some a) (hb : fs.itable eY.Ino = some b)
    (hPd : IsDir x.mode = true) (had : IsDir a.mode = false) (hbd : IsDir b.mode = false)
    (htX : IsDir eX.Typ = false) (htY : IsDir eY.Typ = false) :
    ∃ fs1, fs.Rename P X P Y t1 = .ret (.ok ()) fs1 ∧
      (∃ fs2, fs1.Lookup P X t2 = .ret (.error .ENOENT) fs2) ∧
      (∃ st fs2, fs1.Lookup P Y t2 = .ret (.ok st) fs2 ∧ st.Ino = eX.Ino ∧
        st.Ino = a.ino) ∧
      (∃ fs2, fs1.Read eX.Ino 0 (-1) t2 = .ret (.ok a.data) fs2) ∧
      (b.nlink ≤ 1 ∧ b.count = 0 → fs1.itable eY.Ino = none) ∧
      (¬(b.nlink ≤ 1 ∧ b.count = 0) →
        ∃ b1, fs1.itable eY.Ino = some b1 ∧ b1.nlink = b.nlink - 1 ∧
          b1.count = b.count ∧ b1.data = b.data) := by
  have hokP := hv.inode P x hP
  have hokb := hv.inode eY.Ino b hb
  have h0 : eX.Ino ≠ 0 := Nat.pos_iff_ne_zero.1 (hokP.dirents.entry X eX hX).2.1
  have haP : eX.Ino ≠ P := fun h => by
    rw [h, hP] at ha; cases ha; rw [hPd] at had; cases had
  have hbP : eY.Ino ≠ P := fun h => by
    rw [h, hP] at hb; cases hb; rw [hPd] at hbd; cases hbd
  have hXY : X ≠ Y := fun h => by rw [h, hY] at hX; cases hX; exact hneq rfl
  have hreq := MemFS.Rename_replace_file fs P X Y t1 x b eX eY hP hX hY hneq htX htY hb hbP
    hokb.ino_eq h0
  have hbino : ((b.Lock t1).dropLink t1).ino = eY.Ino := by
    rw [MemInode.dropLink_ino]; exact hokb.ino_eq
  have hbnl : ((b.Lock t1).dropLink t1).nlink = b.nlink - 1 := by
    rw [MemInode.dropLink_nlink]
    show (if b.nlink = 0 then 0 else dec32 b.nlink) = b.nlink - 1
    split
    · rename_i h; rw [h]
    · rename_i h; exact dec32_of_pos _ h hokb.nlink_lt
  have hbcount : ((b.Lock t1).dropLink t1).count = b.count := by
    rw [MemInode.dropLink_count]; rfl
  have h1P : ((fs.afterRemove P ((x.Lock t1).withoutEntry Y t1) eY.Ino
      ((b.Lock t1).dropLink t1)).StoreInode P (x.replaced X Y eX t1)).itable P =
      some (x.replaced X Y eX t1) := by simp
  have h1a : ((fs.afterRemove P ((x.Lock t1).withoutEntry Y t1) eY.Ino
      ((b.Lock t1).dropLink t1)).StoreInode P (x.replaced X Y eX t1)).itable eX.Ino =
      some a := by
    rw [MemFS.StoreInode_itable, if_neg haP,
      MemFS.afterRemove_itable_ne _ _ _ _ _ _ hneq (by rw [hbino]; exact hneq),
      MemFS.StoreInode_itable, if_neg haP, ha]
  have h1b : ((fs.afterRemove P ((x.Lock t1).withoutEntry Y t1) eY.Ino
      ((b.Lock t1).dropLink t1)).StoreInode P (x.replaced X Y eX t1)).itable eY.Ino =
      if ((b.Lock t1).dropLink t1).nlink = 0 ∧ ((b.Lock t1).dropLink t1).count = 0 then none
      else some ((b.Lock t1).dropLink t1) := by
    rw [MemFS.StoreInode_itable, if_neg hbP, MemFS.afterRemove_itable_child _ _ _ _ _ hbino]
  have hXg : (x.replaced X Y eX t1).dirents.entries X = none :=
    withoutEntry_entries_same _ _ _
  have hYg : (x.replaced X Y eX t1).dirents.entries Y =
      some { Ino := eX.Ino, Name := Y, Typ := eX.Typ } := by
    unfold MemInode.replaced
    rw [withoutEntry_entries_ne _ _ _ _ (Ne.symm hXY), withEntry_entries_same]
  have hread := MemFS.Read_ok _ eX.Ino a 0 (-1) t2 h1a (Nat.zero_le _)
  have hrb : readBytes a.data 0 (-1) = a.data := by simp [readBytes]
  rw [hrb] at hread
  refine ⟨_, hreq, ⟨_, MemFS.Lookup_noname _ P _ X t2 h1P hXg⟩,
    ⟨_, _, MemFS.Lookup_ok _ P _ a Y _ t2 h1P hYg haP h1a, (hv.inode _ a ha).ino_eq, rfl⟩,
    ⟨_, hread⟩, fun hcond => ?_, fun hcond => ?_⟩
  · rw [h1b, if_pos]
    rw [hbnl, hbcount]
    exact ⟨by omega, hcond.2⟩
  · refine ⟨(b.Lock t1).dropLink t1, ?_, hbnl, hbcount, ?_⟩
    · rw [h1b, if_neg]
      rw [hbnl, hbcount]
      intro h
      exact hcond ⟨by omega, h.2⟩
    · rw [MemInode.dropLink_data]; rfl

theorem Res.outcome_some {α : Type} {r : Res α} {e : Option Errno} {fs1 : MemFS}
    (h : r.outcome = some (e, fs1)) : ∃ v, r = .ret v fs1 := by
  cases r with
  | ret v fs =>
    cases v <;> simp only [Res.outcome, Option.some.injEq, Prod.mk.injEq] at h <;>
      exact ⟨_, by rw [h.2]⟩
  | panic => cases h
  | deadlock => cases h

theorem valid_exec {fs fs1 : MemFS} (h : Valid fs) {c : Call} {t : Time} {e : Option Errno}
    (hr : c.exec fs t = some (e, fs1)) : Valid fs1 := by
  cases c <;> simp only [Call.exec] at hr <;> obtain ⟨v, hv⟩ := Res.outcome_some hr
  · exact valid_Create h hv
  · exact valid_Mkdir h hv
  · exact valid_Open h hv
  · exact valid_Release h hv
  · exact valid_Unlink h hv
  · exact valid_Rmdir h hv
  · exact valid_Rename h hv
  · exact valid_Setattr h hv
  · exact valid_Read h hv
  · exact valid_Write h hv
  · exact valid_Stat h hv
  · exact valid_Lookup h hv
  · exact valid_Readdir h hv

theorem valid_runCalls (cs : List Call) : ∀ {fs fs1 : MemFS} {t : Time}
    {es : List (Option Errno)}, Valid fs → runCalls cs fs t = some (es, fs1) → Valid fs1 := by
  induction cs with
  | nil =>
    intro fs fs1 t es h hr
    simp only [runCalls, Option.some.injEq, Prod.mk.injEq] at hr
    rw [← hr.2]; exact h
  | cons c cs ih =>
    intro fs fs1 t es h hr
    unfold runCalls at hr
    split at hr
    · cases hr
    · rename_i e fs2 hc
      split at hr
      · cases hr
      · rename_i es2 fs3 hcs
        simp only [Option.some.injEq, Prod.mk.injEq] at hr
        rw [← hr.2]
        exact ih (valid_exec h hc) hcs

theorem valid_storeAfter (cs : List Call) : Valid (storeAfter cs) := by
  unfold storeAfter
  split
  · rename_i r hr
    exact valid_runCalls cs (valid_NewMemFS 0) (show runCalls cs (NewMemFS 0) 1 = some (r.1, r.2) from hr)
  · exact valid_NewMemFS 0

/-- C6, witness (scenario 5 of the specification): files a containing 65 and b
containing 66, both closed; the hypotheses hold for Rename(root, a, root, b),
which succeeds. -/
theorem C6_rename_replaces_regular_file_witness :
    Valid exFilesAB ∧ exFilesAB.itable 1 = some (exFilesAB.inodeAt 1) ∧
      (exFilesAB.inodeAt 1).dirents.entries "a" =
        some { Ino := 2, Name := "a", Typ := modeType fileMode } ∧
      (exFilesAB.inodeAt 1).dirents.entries "b" =
        some { Ino := 3, Name := "b", Typ := modeType fileMode } ∧
      (2 : Nat) ≠ 3 ∧
      exFilesAB.itable 2 = some (exFilesAB.inodeAt 2) ∧
      exFilesAB.itable 3 = some (exFilesAB.inodeAt 3) ∧
      IsDir (exFilesAB.inodeAt 1).mode = true ∧ IsDir (exFilesAB.inodeAt 2).mode = false ∧
      IsDir (exFilesAB.inodeAt 3).mode = false ∧ IsDir (modeType fileMode) = false ∧
      ∃ fs1, exFilesAB.Rename 1 "a" 1 "b" 9 = .ret (.ok ()) fs1 ∧
        fs1.itable 3 = none ∧
        ∃ fs2, fs1.Read 2 0 (-1) 10 = .ret (.ok [65]) fs2 :=
  ⟨valid_storeAfter _, rfl, rfl, rfl, by decide, rfl, rfl, by decide, by decide, by decide,
    by decide,
    match C6_rename_replaces_regular_file exFilesAB 1 "a" "b" (exFilesAB.inodeAt 1)
        (exFilesAB.inodeAt 2) (exFilesAB.inodeAt 3)
        { Ino := 2, Name := "a", Typ := modeType fileMode }
        { Ino := 3, Name := "b", Typ := modeType fileMode } 9 10
        (valid_storeAfter _) rfl rfl rfl (by decide) rfl rfl (by decide) (by decide)
        (by decide) (by decide) (by decide) with
    | ⟨fs1, h, _, _, hread, hgone, _⟩ => ⟨fs1, h, hgone ⟨by decide, by decide⟩, hread⟩⟩

/-- C9 (counterexample): with files a and b in the root, Readdir of the root
lists `.`, `..`, a, b; after Rename(root, a, root, c) and Rename(root, c, root,
a), both successful, it lists `.`, `..`, b, a: the order is not restored. -/
theorem C9_round_trip_changes_order :
    readdirNames exFilesAB 1 20 = some [".", "..", "a", "b"] ∧
      (runCalls [.Rename 1 "a" 1 "c", .Rename 1 "c" 1 "a"] exFilesAB 20).map
          (fun r => (r.1, readdirNames r.2 1 30)) =
        some ([none, none], some [".", "..", "b", "a"]) := by
  decide

theorem erase_append_singleton_self (l : List String) (Y : String) (h : Y ∉ l) :
    (l ++ [Y]).erase Y = l := by
  rw [List.erase_append_right _ h]
  simp

/-- C9 (amended): Rename round trip.  In a valid store where directory A has
an entry X and directory B has no entry Y, Rename(A, X, B, Y) followed by
Rename(B, Y, A, X) both succeed and restore the store except for timestamps and
for the place of X in A's order: the allocator and the set of inodes in the
table are as before, and every inode has its former number, nlink, count, mode,
data and entry map (each name yields the same entry as before); the ordered
name list of every inode is as before, except that in A the name X has moved to
the last place. -/
theorem C9_rename_round_trip_amended (fs : MemFS) (A B : Nat) (X Y : String)
    (xa xb : MemInode) (e : Dirent) (t1 t2 : Time) (hv : Valid fs)
    (hA : fs.itable A = some xa) (hB : fs.itable B = some xb)
    (hX : xa.dirents.entries X = some e) (hY : xb.dirents.entries Y = none) :
    ∃ fs1 fs2, fs.Rename A X B Y t1 = .ret (.ok ()) fs1 ∧
      fs1.Rename B Y A X t2 = .ret (.ok ()) fs2 ∧
      fs2.inoNextFree = fs.inoNextFree ∧
      (∀ j, fs.itable j = none → fs2.itable j = none) ∧
      ∀ j m, fs.itable j = some m → ∃ m2, fs2.itable j = some m2 ∧ m2.ino = m.ino ∧
        m2.nlink = m.nlink ∧ m2.count = m.count ∧ m2.mode = m.mode ∧ m2.data = m.data ∧
        m2.dirents.entries = m.dirents.entries ∧
        m2.dirents.keys = if j = A then m.dirents.keys.erase X ++ [X] else m.dirents.keys := by
  have hokA := hv.inode A xa hA
  have hokB := hv.inode B xb hB
  have hent := hokA.dirents.entry X e hX
  have h0 : e.Ino ≠ 0 := Nat.pos_iff_ne_zero.1 hent.2.1
  have he : ({ Ino := e.Ino, Name := X, Typ := e.Typ } : Dirent) = e := by
    cases e; simp only [Dirent.mk.injEq, true_and, and_true]; exact hent.1.symm
  have hXmem : X ∈ xa.dirents.keys := (hokA.dirents.wf.mem_iff X).2 (by rw [hX]; rfl)
  have hYnot : Y ∉ xb.dirents.keys := fun hm => by
    have := (hokB.dirents.wf.mem_iff Y).1 hm
    rw [hY] at this; cases this
  have hreq1 := MemFS.Rename_free fs A X B Y t1 xa xb e hA hB hX hY h0
  by_cases hAB : A = B
  · subst hAB
    have hxb : xb = xa := by rw [hA] at hB; cases hB; rfl
    subst hxb
    have hne : X ≠ Y := fun h => by rw [h, hY] at hX; cases hX
    have hfs1 : fs.afterMove A X A Y e xb xb t1 =
        fs.StoreInode A (((xb.Lock t1).withEntry Y e.Ino e.Typ t1).withoutEntry X t1) := by
      unfold MemFS.afterMove; rw [if_pos rfl]
    rw [hfs1] at hreq1
    have hXL : ((xb.Lock t1).withEntry Y e.Ino e.Typ t1).dirents.entries X = some e := by
      rw [withEntry_entries_ne _ _ _ _ _ _ hne]; exact hX
    have hk1 : (((xb.Lock t1).withEntry Y e.Ino e.Typ t1).withoutEntry X t1).dirents.keys
        = xb.dirents.keys.erase X ++ [Y] := by
      rw [withoutEntry_keys _ _ _ e hXL,
        withEntry_keys (xb.Lock t1) Y e.Ino e.Typ t1 hY]
      exact List.erase_append_left _ hXmem
    have hY1 : (((xb.Lock t1).withEntry Y e.Ino e.Typ t1).withoutEntry X t1).dirents.entries Y
        = some { Ino := e.Ino, Name := Y, Typ := e.Typ } := by
      rw [withoutEntry_entries_ne _ _ _ _ (Ne.symm hne), withEntry_entries_same]
    have hX1 : (((xb.Lock t1).withEntry Y e.Ino e.Typ t1).withoutEntry X t1).dirents.entries X
        = none := withoutEntry_entries_same _ _ _
    have hreq2 := MemFS.Rename_free
      (fs.StoreInode A (((xb.Lock t1).withEntry Y e.Ino e.Typ t1).withoutEntry X t1)) A Y A X t2
      _ _ _ (by simp) (by simp) hY1 hX1 h0
    have hfs2 : MemFS.afterMove
        (fs.StoreInode A (((xb.Lock t1).withEntry Y e.Ino e.Typ t1).withoutEntry X t1)) A Y A X
        { Ino := e.Ino, Name := Y, Typ := e.Typ }
        (((xb.Lock t1).withEntry Y e.Ino e.Typ t1).withoutEntry X t1)
        (((xb.Lock t1).withEntry Y e.Ino e.Typ t1).withoutEntry X t1) t2 =
        fs.StoreInode A
          ((((((xb.Lock t1).withEntry Y e.Ino e.Typ t1).withoutEntry X t1).Lock t2).withEntry X
            e.Ino e.Typ t2).withoutEntry Y t2) := by
      unfold MemFS.afterMove; rw [if_pos rfl, MemFS.StoreInode_twice]
    rw [hfs2] at hreq2
    refine ⟨_, _, hreq1, hreq2, rfl, fun j hj => ?_, fun j m hm => ?_⟩
    · have : j ≠ A := fun h => by rw [h, hA] at hj; cases hj
      simp [this, hj]
    · by_cases hj : j = A
      · have hmx : m = xb := by rw [hj, hA] at hm; cases hm; rfl
        rw [hj, hmx, if_pos rfl]
        refine ⟨(((((xb.Lock t1).withEntry Y e.Ino e.Typ t1).withoutEntry X t1).Lock t2).withEntry
          X e.Ino e.Typ t2).withoutEntry Y t2, by simp, rfl, rfl, rfl, rfl, rfl, ?_, ?_⟩
        · funext k
          by_cases hkY : k = Y
          · rw [hkY, withoutEntry_entries_same, hY]
          · rw [withoutEntry_entries_ne _ _ _ _ hkY]
            by_cases hkX : k = X
            · rw [hkX, withEntry_entries_same, he, hX]
            · rw [withEntry_entries_ne _ _ _ _ _ _ hkX]
              show (((xb.Lock t1).withEntry Y e.Ino e.Typ t1).withoutEntry X t1).dirents.entries k
                = _
              rw [withoutEntry_entries_ne _ _ _ _ hkX, withEntry_entries_ne _ _ _ _ _ _ hkY]
              rfl
        · have hY2 : ((((xb.Lock t1).withEntry Y e.Ino e.Typ t1).withoutEntry X t1).Lock
              t2).dirents.entries X = none := hX1
          have hY3 : (((((xb.Lock t1).withEntry Y e.Ino e.Typ t1).withoutEntry X t1).Lock
              t2).withEntry X e.Ino e.Typ t2).dirents.entries Y
              = some { Ino := e.Ino, Name := Y, Typ := e.Typ } := by
            rw [withEntry_entries_ne _ _ _ _ _ _ (Ne.symm hne)]; exact hY1
          rw [withoutEntry_keys _ _ _ _ hY3, withEntry_keys _ _ _ _ _ hY2]
          show ((((xb.Lock t1).withEntry Y e.Ino e.Typ t1).withoutEntry X t1).dirents.keys
            ++ [X]).erase Y = _
          rw [hk1, List.append_assoc,
            List.erase_append_right _ (fun h => hYnot (List.mem_of_mem_erase h))]
          simp [Ne.symm hne]
      · exact ⟨m, by simp [hj, hm], rfl, rfl, rfl, rfl, rfl, rfl, by rw [if_neg hj]⟩
  · have hBA : B ≠ A := Ne.symm hAB
    have hfs1 : fs.afterMove A X B Y e xa xb t1 =
        (fs.StoreInode B ((xb.Lock t1).withEntry Y e.Ino e.Typ t1)).StoreInode A
          ((xa.Lock t1).withoutEntry X t1) := by
      unfold MemFS.afterMove; rw [if_neg hAB]
    rw [hfs1] at hreq1
    have hY1 : ((xb.Lock t1).withEntry Y e.Ino e.Typ t1).dirents.entries Y
        = some { Ino := e.Ino, Name := Y, Typ := e.Typ } := withEntry_entries_same _ _ _ _ _
    have hX1 : ((xa.Lock t1).withoutEntry X t1).dirents.entries X = none :=
      withoutEntry_entries_same _ _ _
    have hreq2 := MemFS.Rename_free
      ((fs.StoreInode B ((xb.Lock t1).withEntry Y e.Ino e.Typ t1)).StoreInode A
        ((xa.Lock t1).withoutEntry X t1)) B Y A X t2
      ((xb.Lock t1).withEntry Y e.Ino e.Typ t1) ((xa.Lock t1).withoutEntry X t1) _
      (by simp [hBA]) (by simp) hY1 hX1 h0
    have hfs2 : MemFS.afterMove
        ((fs.StoreInode B ((xb.Lock t1).withEntry Y e.Ino e.Typ t1)).StoreInode A
          ((xa.Lock t1).withoutEntry X t1)) B Y A X
        { Ino := e.Ino, Name := Y, Typ := e.Typ }
        ((xb.Lock t1).withEntry Y e.Ino e.Typ t1) ((xa.Lock t1).withoutEntry X t1) t2 =
        ((fs.StoreInode A ((((xa.Lock t1).withoutEntry X t1).Lock t2).withEntry X e.Ino e.Typ
            t2))).StoreInode B
          ((((xb.Lock t1).withEntry Y e.Ino e.Typ t1).Lock t2).withoutEntry Y t2) := by
      unfold MemFS.afterMove
      rw [if_neg hBA, MemFS.StoreInode_twice, MemFS.StoreInode_shadow]
    rw [hfs2] at hreq2
    refine ⟨_, _, hreq1, hreq2, rfl, fun j hj => ?_, fun j m hm => ?_⟩
    · have h1 : j ≠ A := fun h => by rw [h, hA] at hj; cases hj
      have h2 : j ≠ B := fun h => by rw [h, hB] at hj; cases hj
      simp [h1, h2, hj]
    · by_cases hjA : j = A
      · have hmx : m = xa := by rw [hjA, hA] at hm; cases hm; rfl
        rw [hjA, hmx, if_pos rfl]
        refine ⟨(((xa.Lock t1).withoutEntry X t1).Lock t2).withEntry X e.Ino e.Typ t2,
          by simp [hAB], rfl, rfl, rfl, rfl, rfl, ?_, ?_⟩
        · funext k
          by_cases hkX : k = X
          · rw [hkX, withEntry_entries_same, he, hX]
          · rw [withEntry_entries_ne _ _ _ _ _ _ hkX]
            show ((xa.Lock t1).withoutEntry X t1).dirents.entries k = _
            rw [withoutEntry_entries_ne _ _ _ _ hkX]
            rfl
        · have hX2 : (((xa.Lock t1).withoutEntry X t1).Lock t2).dirents.entries X = none := hX1
          rw [withEntry_keys _ _ _ _ _ hX2]
          show ((xa.Lock t1).withoutEntry X t1).dirents.keys ++ [X] = _
          rw [withoutEntry_keys (xa.Lock t1) X t1 e hX]
          rfl
      · by_cases hjB : j = B
        · have hmx : m = xb := by rw [hjB, hB] at hm; cases hm; rfl
          rw [hjB, hmx, if_neg hBA]
          refine ⟨(((xb.Lock t1).withEntry Y e.Ino e.Typ t1).Lock t2).withoutEntry Y t2,
            by simp, rfl, rfl, rfl, rfl, rfl, ?_, ?_⟩
          · funext k
            by_cases hkY : k = Y
            · rw [hkY, withoutEntry_entries_same, hY]
            · rw [withoutEntry_entries_ne _ _ _ _ hkY]
              show ((xb.Lock t1).withEntry Y e.Ino e.Typ t1).dirents.entries k = _
              rw [withEntry_entries_ne _ _ _ _ _ _ hkY]
              rfl
          · have hY2 : (((xb.Lock t1).withEntry Y e.Ino e.Typ t1).Lock t2).dirents.entries Y
                = some { Ino := e.Ino, Name := Y, Typ := e.Typ } := hY1
            rw [withoutEntry_keys _ _ _ _ hY2]
            show ((xb.Lock t1).withEntry Y e.Ino e.Typ t1).dirents.keys.erase Y = _
            rw [withEntry_keys (xb.Lock t1) Y e.Ino e.Typ t1 hY]
            exact erase_append_singleton_self _ _ hYnot
        · exact ⟨m, by simp [hjA, hjB, hm], rfl, rfl, rfl, rfl, rfl, rfl, by rw [if_neg hjA]⟩

/-- C9 (amended), witness: with closed files a and b in the root, the
hypotheses hold for A = B = root, X = a, Y = c, and both renames succeed. -/
theorem C9_rename_round_trip_amended_witness :
    Valid exFilesAB ∧ exFilesAB.itable 1 = some (exFilesAB.inodeAt 1) ∧
      (exFilesAB.inodeAt 1).dirents.entries "a" =
        some { Ino := 2, Name := "a", Typ := modeType fileMode } ∧
      (exFilesAB.inodeAt 1).dirents.entries "c" = none ∧
      ∃ fs1 fs2, exFilesAB.Rename 1 "a" 1 "c" 20 = .ret (.ok ()) fs1 ∧
        fs1.Rename 1 "c" 1 "a" 21 = .ret (.ok ()) fs2 :=
  ⟨valid_storeAfter _, rfl, rfl, rfl,
    match C9_rename_round_trip_amended exFilesAB 1 1 "a" "c" (exFilesAB.inodeAt 1)
        (exFilesAB.inodeAt 1) { Ino := 2, Name := "a", Typ := modeType fileMode } 20 21
        (valid_storeAfter _) rfl rfl rfl rfl with
    | ⟨fs1, fs2, h1, h2, _⟩ => ⟨fs1, fs2, h1, h2⟩⟩

theorem three_le_keys_length (t : ListMap String Dirent) (hwf : t.WF) (k : String)
    (h1 : (t.entries ".").isSome = true) (h2 : (t.entries "..").isSome = true)
    (hk : (t.entries k).isSome = true) (hk1 : k ≠ ".") (hk2 : k ≠ "..") :
    t.Len > 2 := by
  have hsub : [".", "..", k] ⊆ t.keys := by
    intro a ha
    simp only [List.mem_cons, List.mem_singleton, List.not_mem_nil, or_false] at ha
    rcases ha with rfl | rfl | rfl
    · exact (hwf.mem_iff _).2 h1
    · exact (hwf.mem_iff _).2 h2
    · exact (hwf.mem_iff _).2 hk
  have hnd : [".", "..", k].Nodup := by
    simp only [List.nodup_cons, List.mem_cons, List.mem_singleton, List.not_mem_nil,
      not_false_eq_true, List.nodup_nil, and_true, or_false, not_or]
    exact ⟨⟨by decide, Ne.symm hk1⟩, Ne.symm hk2⟩
  have := (List.subperm_of_subset hnd hsub).length_le
  exact this

/-- C10 (amended): errors of Rmdir.  Rmdir(P, n) returns ENOENT when P is
not in the table or has no entry n, and ENOTDIR when the entry's type is not a
directory.  When the entry has directory type and refers to an inode of the
table other than P, it returns ENOTEMPTY exactly when that inode has a
directory mode and its map holds more than two entries (the test `Len() > 2`
of the code), and succeeds otherwise; a child whose map is in step and holds
`.`, `..` and one more entry passes that test.  In each error case the store is
unchanged but for access times (the call sets the access time of P and, for
ENOTEMPTY, of the child, and nothing else).  When the entry has directory type
and refers to P itself the call does not return.  Scenario: mkdir d; mkdir d/e; rmdir d gives ENOTEMPTY; rmdir d/e and
then rmdir d succeed; a further rmdir d fails with ENOENT.  A directory that
has lost its `..` and holds one file is removed: mkdir d; create d/f; rename
d/.. to up in the root; rmdir d succeeds. -/
theorem C10_rmdir_errors :
    (∀ (fs : MemFS) (P : Nat) (n : String) (now : Time), fs.itable P = none →
      fs.Rmdir P n now = .ret (.error .ENOENT) fs) ∧
    (∀ (fs : MemFS) (P : Nat) (n : String) (now : Time) (x : MemInode),
      fs.itable P = some x → x.dirents.entries n = none →
      ∃ fs1, fs.Rmdir P n now = .ret (.error .ENOENT) fs1 ∧
        fs1 = fs.StoreInode P (x.Lock now) ∧ fs.sameButAtime fs1) ∧
    (∀ (fs : MemFS) (P : Nat) (n : String) (now : Time) (x : MemInode) (e : Dirent),
      fs.itable P = some x → x.dirents.entries n = some e → IsDir e.Typ = false →
      ∃ fs1, fs.Rmdir P n now = .ret (.error .ENOTDIR) fs1 ∧
        fs1 = fs.StoreInode P (x.Lock now) ∧ fs.sameButAtime fs1) ∧
    (∀ (fs : MemFS) (P : Nat) (n : String) (now : Time) (x c : MemInode) (e : Dirent)
      (k : String),
      fs.itable P = some x → x.dirents.entries n = some e → IsDir e.Typ = true →
      e.Ino ≠ P → fs.itable e.Ino = some c → IsDir c.mode = true → c.dirents.WF →
      (c.dirents.entries ".").isSome = true → (c.dirents.entries "..").isSome = true →
      k ≠ "." → k ≠ ".." → (c.dirents.entries k).isSome = true →
      ∃ fs1, fs.Rmdir P n now = .ret (.error .ENOTEMPTY) fs1 ∧
        fs1 = (fs.StoreInode P (x.Lock now)).StoreInode e.Ino (c.Lock now) ∧
        fs.sameButAtime fs1) ∧
    (∀ (fs : MemFS) (P : Nat) (n : String) (now : Time) (x c : MemInode) (e : Dirent),
      fs.itable P = some x → x.dirents.entries n = some e → IsDir e.Typ = true →
      e.Ino ≠ P → fs.itable e.Ino = some c → IsDir c.mode = true → c.dirents.Len > 2 →
      ∃ fs1, fs.Rmdir P n now = .ret (.error .ENOTEMPTY) fs1 ∧
        fs1 = (fs.StoreInode P (x.Lock now)).StoreInode e.Ino (c.Lock now) ∧
        fs.sameButAtime fs1) ∧
    (∀ (fs : MemFS) (P : Nat) (n : String) (now : Time) (x c : MemInode) (e : Dirent),
      fs.itable P = some x → x.dirents.entries n = some e → IsDir e.Typ = true →
      e.Ino ≠ P → fs.itable e.Ino = some c → ¬(IsDir c.mode = true ∧ c.dirents.Len > 2) →
      ∃ fs1, fs.Rmdir P n now = .ret (.ok ()) fs1) ∧
    (∀ (fs : MemFS) (P : Nat) (n : String) (now : Time) (x : MemInode) (e : Dirent),
      fs.itable P = some x → x.dirents.entries n = some e → IsDir e.Typ = true →
      e.Ino = P → fs.Rmdir P n now = .deadlock) ∧
    (runCalls [.Mkdir 1 "d" dirMode, .Mkdir 2 "e" dirMode, .Rmdir 1 "d", .Rmdir 2 "e",
        .Rmdir 1 "d", .Rmdir 1 "d"] (NewMemFS 0) 1).map Prod.fst =
      some [none, none, some .ENOTEMPTY, none, none, some .ENOENT] ∧
    (runCalls [.Mkdir 1 "d" dirMode, .Create 2 "f" 0 fileMode, .Rename 2 ".." 1 "up",
        .Rmdir 1 "d"] (NewMemFS 0) 1).map Prod.fst = some [none, none, none, none] := by
  refine ⟨fun fs P n now hP => MemFS.Rmdir_noent fs P n now hP,
    fun fs P n now x hP hn => ⟨_, MemFS.Rmdir_noname fs P n now x hP hn, rfl,
      fs.sameButAtime_lock P x now hP⟩,
    fun fs P n now x e hP hn ht => ⟨_, MemFS.Rmdir_notdir fs P n now x e hP hn ht, rfl,
      fs.sameButAtime_lock P x now hP⟩,
    fun fs P n now x c e k hP hn ht hne hc hcd hwf h1 h2 hk1 hk2 hk => ?_,
    fun fs P n now x c e hP hn ht hne hc hcd hl => ?_,
    fun fs P n now x c e hP hn ht hne hc hd =>
      ⟨_, MemFS.Rmdir_ok fs P n now x c e hP hn ht hne hc hd⟩,
    fun fs P n now x e hP hn ht hs => MemFS.Rmdir_self fs P n now x e hP hn ht hs,
    by decide, by decide⟩
  · refine ⟨_, MemFS.Rmdir_notempty fs P n now x c e hP hn ht hne hc hcd
      (three_le_keys_length c.dirents hwf k h1 h2 hk hk1 hk2), rfl, ?_⟩
    refine MemFS.sameButAtime_trans (fs.sameButAtime_lock P x now hP)
      (MemFS.sameButAtime_lock _ e.Ino c now ?_)
    simp [hne, hc]
  · refine ⟨_, MemFS.Rmdir_notempty fs P n now x c e hP hn ht hne hc hcd hl, rfl, ?_⟩
    refine MemFS.sameButAtime_trans (fs.sameButAtime_lock P x now hP)
      (MemFS.sameButAtime_lock _ e.Ino c now ?_)
    simp [hne, hc]

/-- C10, witness: with directory a (inode 2) of the root holding x and f,
Rmdir(root, a) meets the hypotheses of the ENOTEMPTY case. -/
theorem C10_rmdir_errors_witness :
    exTreeAXF.itable 1 = some (exTreeAXF.inodeAt 1) ∧
      (exTreeAXF.inodeAt 1).dirents.entries "a" =
        some { Ino := 2, Name := "a", Typ := modeType dirMode } ∧
      IsDir (modeType dirMode) = true ∧ (2 : Nat) ≠ 1 ∧
      exTreeAXF.itable 2 = some (exTreeAXF.inodeAt 2) ∧
      IsDir (exTreeAXF.inodeAt 2).mode = true ∧ (exTreeAXF.inodeAt 2).dirents.WF ∧
      ((exTreeAXF.inodeAt 2).dirents.entries "x").isSome = true ∧
      ∃ fs1, exTreeAXF.Rmdir 1 "a" 9 = .ret (.error .ENOTEMPTY) fs1 ∧
        exTreeAXF.sameButAtime fs1 :=
  ⟨rfl, rfl, by decide, by decide, rfl, by decide,
    (exTreeAXF_valid.inode 2 _ rfl).dirents.wf, by decide,
    match C10_rmdir_errors.2.2.2.1 exTreeAXF 1 "a" 9 (exTreeAXF.inodeAt 1)
        (exTreeAXF.inodeAt 2) { Ino := 2, Name := "a", Typ := modeType dirMode } "x" rfl rfl
        (by decide) (by decide) rfl (by decide) (exTreeAXF_valid.inode 2 _ rfl).dirents.wf
        (by decide) (by decide) (by decide) (by decide) (by decide) with
    | ⟨fs1, h1, _, h3⟩ => ⟨fs1, h1, h3⟩⟩

/-- C7, the claim as stated fails: a repeated rename that returns ENOENT does
change the store.  In directory a (inode 2) holding f, Rename(a, f, a, g) at
instant 9 succeeds; the same call at instant 10 returns ENOENT and moves the
access time of a from 9 to 10. -/
theorem C7_failed_rename_sets_access_time :
    ((exTreeAXF.Rename 2 "f" 2 "g" 9).outcome.map Prod.fst = some none) ∧
    (((exTreeAXF.Rename 2 "f" 2 "g" 9).store.Rename 2 "f" 2 "g" 10).outcome.map Prod.fst =
      some (some .ENOENT)) ∧
    (exTreeAXF.Rename 2 "f" 2 "g" 9).store.atimeAt 2 = some 9 ∧
    ((exTreeAXF.Rename 2 "f" 2 "g" 9).store.Rename 2 "f" 2 "g" 10).store.atimeAt 2 =
      some 10 := by
  decide

/-- C10, the claim as stated fails: a failing Rmdir does change the store.  On
a fresh store created at instant 0, Rmdir(root, d) at instant 5 returns ENOENT
and moves the access time of the root from 0 to 5. -/
theorem C10_failed_rmdir_sets_access_time :
    ((NewMemFS 0).Rmdir 1 "d" 5).outcome.map Prod.fst = some (some .ENOENT) ∧
    (NewMemFS 0).atimeAt 1 = some 0 ∧
    ((NewMemFS 0).Rmdir 1 "d" 5).store.atimeAt 1 = some 5 := by
  decide

theorem MemFS.sameButAtime_isSome {a b : MemFS} (h : a.sameButAtime b) (j : Nat) :
    (b.itable j).isSome = (a.itable j).isSome := by
  have e := h.2 j
  cases ha : a.itable j <;> cases hb : b.itable j <;> simp only [ha, hb] at e ⊢
  rfl

theorem MemFS.sameButAtime_at {a b : MemFS} (h : a.sameButAtime b) {i : Nat} {x : MemInode}
    (hx : a.itable i = some x) : ∃ y, b.itable i = some y ∧ x.sameButAtime y := by
  have e := h.2 i
  rw [hx] at e
  cases hb : b.itable i with
  | none => rw [hb] at e; exact e.elim
  | some y => rw [hb] at e; exact ⟨y, rfl, e⟩

theorem derefAll_of_named (f : String → Option Dirent) (l : List String)
    (h : ∀ k, k ∈ l → ∃ e, f k = some e ∧ e.Name = k) :
    ∃ ds, MemInode.derefAll (l.map f) = some ds ∧ ds.map Dirent.Name = l := by
  induction l with
  | nil => exact ⟨[], rfl, rfl⟩
  | cons k l ih =>
    obtain ⟨e, he, hn⟩ := h k (List.mem_cons_self k l)
    obtain ⟨ds, hds, hnames⟩ := ih (fun j hj => h j (List.mem_cons_of_mem k hj))
    refine ⟨e :: ds, ?_, ?_⟩
    · simp only [List.map_cons, he, MemInode.derefAll, hds]
    · simp only [List.map_cons, hn, hnames]

theorem MemInode.Readdir_all (x : MemInode) (next : Nat) (h : DirentsOK next x.dirents) :
    ∃ ds, x.Readdir (-1) = some ds ∧ ds.map Dirent.Name = x.dirents.keys := by
  have hall : ∀ k, k ∈ x.dirents.keys → ∃ e, x.dirents.entries k = some e ∧ e.Name = k := by
    intro k hk
    have hs := (h.wf.mem_iff k).1 hk
    cases he : x.dirents.entries k with
    | none => rw [he] at hs; cases hs
    | some e => exact ⟨e, rfl, (h.entry k e he).1⟩
  obtain ⟨ds, hds, hn⟩ := derefAll_of_named x.dirents.entries x.dirents.keys hall
  refine ⟨ds, ?_, hn⟩
  unfold MemInode.Readdir
  rw [if_pos (by decide)]
  show MemInode.derefAll ((x.dirents.keys.map x.dirents.entries).take x.dirents.keys.length) = _
  rw [← List.length_map x.dirents.keys x.dirents.entries, List.take_length]
  exact hds

/-- C12 (amended): names are unique within a directory.  Create(P, n) and
Mkdir(P, n) on a name n that P already holds return EEXIST and change nothing
but the access time of P, which the call sets to its own instant: the
allocator is as before (no inode number consumed), the table has the same keys
(no inode added), P has its former entries, in their order, and its former
nlink, and the store differs from the former one in access times at most.  In
every store reached from a fresh one by backend calls, the names of every
inode's entry list, which is what Readdir returns, are pairwise different. -/
theorem C12_names_unique_in_directory :
    (∀ (fs : MemFS) (P : Nat) (x : MemInode) (n : String) (e : Dirent) (flags : Int)
        (mode : FileMode) (now : Time),
      fs.itable P = some x → x.dirents.entries n = some e →
      ∀ r, (r = fs.Create P n flags mode now ∨ r = fs.Mkdir P n mode now) →
        ∃ fs1 x1, r = .ret (.error .EEXIST) fs1 ∧
          fs1.inoNextFree = fs.inoNextFree ∧
          (∀ j, (fs1.itable j).isSome = (fs.itable j).isSome) ∧
          fs1.itable P = some x1 ∧ x1.dirents = x.dirents ∧ x1.nlink = x.nlink ∧
          x1.atime = now ∧ fs.sameButAtime fs1 ∧ x1 = { x with atime := now } ∧
          ∀ j, j ≠ P → fs1.itable j = fs.itable j) ∧
    (∀ (cs : List Call) (t0 t : Time) (es : List (Option Errno)) (fs : MemFS) (i : Nat)
        (x : MemInode),
      runCalls cs (NewMemFS t0) t = some (es, fs) → fs.itable i = some x →
      x.dirents.keys.Nodup ∧
        ∃ ds, x.Readdir (-1) = some ds ∧ ds.map Dirent.Name = x.dirents.keys ∧
          (ds.map Dirent.Name).Nodup) := by
  constructor
  · intro fs P x n e flags mode now hP hn r hr
    have hs := fs.sameButAtime_lock P x now hP
    have hreq : r = .ret (.error .EEXIST) (fs.StoreInode P (x.Lock now)) := by
      rcases hr with h | h
      · rw [h]; exact MemFS.createInode_exists fs P n mode now true x e hP hn
      · rw [h]; exact MemFS.createInode_exists fs P n mode now false x e hP hn
    refine ⟨_, x.Lock now, hreq, rfl, fun j => MemFS.sameButAtime_isSome hs j, ?_, rfl, rfl,
      rfl, hs, rfl, fun j hj => ?_⟩
    · simp
    · rw [MemFS.StoreInode_itable, if_neg hj]
  · intro cs t0 t es fs i x hr hx
    have hv := valid_runCalls cs (valid_NewMemFS t0) hr
    have hok := (hv.inode i x hx).dirents
    obtain ⟨ds, hds, hnames⟩ := x.Readdir_all _ hok
    exact ⟨hok.wf.nodup, ds, hds, hnames, by rw [hnames]; exact hok.wf.nodup⟩

/-- C12, the claim as stated fails: a Create or Mkdir that returns EEXIST does
change the store.  The root of `exFilesAB` holds the name a and has the access
time 4; Mkdir(root, a) and Create(root, a) at instant 30 return EEXIST and
leave the root with the access time 30. -/
theorem C12_failed_create_sets_access_time :
    (exFilesAB.Mkdir 1 "a" dirMode 30).outcome.map Prod.fst = some (some .EEXIST) ∧
    (exFilesAB.Create 1 "a" 0 fileMode 30).outcome.map Prod.fst = some (some .EEXIST) ∧
    exFilesAB.atimeAt 1 = some 4 ∧
    (exFilesAB.Mkdir 1 "a" dirMode 30).store.atimeAt 1 = some 30 ∧
    (exFilesAB.Create 1 "a" 0 fileMode 30).store.atimeAt 1 = some 30 := by
  decide

/-- C12 (amended), witness: the root of `exFilesAB` holds the name a, so Create
and Mkdir of a in the root return EEXIST. -/
theorem C12_names_unique_in_directory_witness :
    exFilesAB.itable 1 = some (exFilesAB.inodeAt 1) ∧
      (exFilesAB.inodeAt 1).dirents.entries "a" =
        some { Ino := 2, Name := "a", Typ := modeType fileMode } ∧
      ∃ fs1, exFilesAB.Mkdir 1 "a" dirMode 30 = .ret (.error .EEXIST) fs1 ∧
        fs1.inoNextFree = exFilesAB.inoNextFree :=
  ⟨rfl, rfl,
    match C12_names_unique_in_directory.1 exFilesAB 1 (exFilesAB.inodeAt 1) "a"
        { Ino := 2, Name := "a", Typ := modeType fileMode } 0 dirMode 30 rfl rfl
        (exFilesAB.Mkdir 1 "a" dirMode 30) (Or.inr rfl) with
    | ⟨fs1, _, h1, h2, _⟩ => ⟨fs1, h1, h2⟩⟩

/-- C13, the claim as stated fails twice.  Unlink of the name `.`, which every
directory holds, does not succeed: the entry refers to the directory itself,
whose mutex the call already holds, so the call blocks for ever.  And an
Unlink that returns ENOENT has set the access time of the directory: on a
fresh store created at instant 0, Unlink(root, d) at instant 5 returns ENOENT
and moves the access time of the root from 0 to 5. -/
theorem C13_unlink_dot_blocks_and_enoent_sets_access_time :
    (((NewMemFS 0).inodeAt 1).dirents.entries ".").isSome = true ∧
    (NewMemFS 0).Unlink 1 "." 5 = .deadlock ∧
    (((NewMemFS 0).inodeAt 1).dirents.entries "d").isSome = false ∧
    ((NewMemFS 0).Unlink 1 "d" 5).outcome.map Prod.fst = some (some .ENOENT) ∧
    (NewMemFS 0).atimeAt 1 = some 0 ∧
    ((NewMemFS 0).Unlink 1 "d" 5).store.atimeAt 1 = some 5 := by
  refine ⟨by decide, rfl, by decide, by decide, by decide, by decide⟩

/-- C13 (amended): Unlink.  In a valid store, Unlink(P, n) returns ENOENT when
P is not in the table (store untouched) or has no entry n (store unchanged but
for the access time of P).  When P has an entry n that refers to an inode c of
the table other than P, it succeeds: P loses the entry n, its other names keep
their order and their entries, its nlink stays; the child keeps its handle
count, data and entries and has nlink one less (0 stays 0); it is out of the
table exactly when its nlink is then 0 and its count is 0, and is held with
the new nlink otherwise; no other inode is touched. -/
theorem C13_unlink_removes_entry_and_link (fs : MemFS) (P : Nat) (n : String) (now : Time)
    (hv : Valid fs) :
    (fs.itable P = none → fs.Unlink P n now = .ret (.error .ENOENT) fs) ∧
    (∀ x, fs.itable P = some x → x.dirents.entries n = none →
      ∃ fs1, fs.Unlink P n now = .ret (.error .ENOENT) fs1 ∧ fs.sameButAtime fs1) ∧
    (∀ x e c, fs.itable P = some x → x.dirents.entries n = some e → e.Ino ≠ P →
      fs.itable e.Ino = some c →
      ∃ fs1 x1 c1, fs.Unlink P n now = .ret (.ok ()) fs1 ∧
        fs1.itable P = some x1 ∧ x1.dirents.entries n = none ∧
        x1.dirents.keys = x.dirents.keys.erase n ∧
        (∀ k, k ≠ n → x1.dirents.entries k = x.dirents.entries k) ∧
        x1.nlink = x.nlink ∧
        c1.nlink = c.nlink - 1 ∧ c1.count = c.count ∧ c1.data = c.data ∧
        c1.dirents = c.dirents ∧ c1.ino = c.ino ∧ c1.mode = c.mode ∧
        fs1.itable e.Ino = (if c1.nlink = 0 ∧ c1.count = 0 then none else some c1) ∧
        (∀ j, j ≠ P → j ≠ e.Ino → fs1.itable j = fs.itable j)) := by
  refine ⟨fun hP => MemFS.Unlink_noent fs P n now hP,
    fun x hP hn => ⟨_, MemFS.Unlink_noname fs P n now x hP hn,
      fs.sameButAtime_lock P x now hP⟩,
    fun x e c hP hn hne hc => ?_⟩
  have hokc := hv.inode e.Ino c hc
  have hreq := MemFS.Unlink_ok fs P n now x c e hP hn hne hc
  have hcino : ((c.Lock now).dropLink now).ino = e.Ino := by
    rw [MemInode.dropLink_ino]; exact hokc.ino_eq
  have hcnl : ((c.Lock now).dropLink now).nlink = c.nlink - 1 := by
    rw [MemInode.dropLink_nlink]
    show (if c.nlink = 0 then 0 else dec32 c.nlink) = c.nlink - 1
    split
    · rename_i h; rw [h]
    · rename_i h; exact dec32_of_pos _ h hokc.nlink_lt
  have hPne : P ≠ e.Ino := Ne.symm hne
  refine ⟨_, (x.Lock now).withoutEntry n now, (c.Lock now).dropLink now, hreq, ?_,
    withoutEntry_entries_same _ _ _, withoutEntry_keys (x.Lock now) n now e hn,
    fun k hk => withoutEntry_entries_ne (x.Lock now) n now k hk, rfl, hcnl,
    by rw [MemInode.dropLink_count]; rfl, by rw [MemInode.dropLink_data]; rfl,
    by rw [MemInode.dropLink_dirents]; rfl, by rw [MemInode.dropLink_ino]; rfl,
    by rw [MemInode.dropLink_mode]; rfl,
    MemFS.afterRemove_itable_child _ _ _ _ _ hcino, fun j hjP hje => ?_⟩
  · rw [MemFS.afterRemove_itable_ne _ _ _ _ _ _ hPne (by rw [hcino]; exact hPne)]
    simp
  · rw [MemFS.afterRemove_itable_ne _ _ _ _ _ _ hje (by rw [hcino]; exact hje),
      MemFS.StoreInode_itable, if_neg hjP]

/-- C13 (amended), witness: in `exTreeAXF` directory a (inode 2) holds the file
f (inode 4, one link, one open handle); the hypotheses of the success case
hold and Unlink(a, f) succeeds. -/
theorem C13_unlink_removes_entry_and_link_witness :
    Valid exTreeAXF ∧ exTreeAXF.itable 2 = some (exTreeAXF.inodeAt 2) ∧
      (exTreeAXF.inodeAt 2).dirents.entries "f" =
        some { Ino := 4, Name := "f", Typ := modeType fileMode } ∧
      (4 : Nat) ≠ 2 ∧ exTreeAXF.itable 4 = some (exTreeAXF.inodeAt 4) ∧
      ∃ fs1, exTreeAXF.Unlink 2 "f" 9 = .ret (.ok ()) fs1 :=
  ⟨exTreeAXF_valid, rfl, rfl, by decide, rfl,
    match (C13_unlink_removes_entry_and_link exTreeAXF 2 "f" 9 exTreeAXF_valid).2.2
        (exTreeAXF.inodeAt 2) { Ino := 4, Name := "f", Typ := modeType fileMode }
        (exTreeAXF.inodeAt 4) rfl rfl (by decide) rfl with
    | ⟨fs1, _, _, h, _⟩ => ⟨fs1, h⟩⟩

theorem MemInode.dropHandle_of_zero (x : MemInode) (h : x.count = 0) : x.dropHandle = x := by
  unfold MemInode.dropHandle
  rw [if_neg (by rw [h]; exact Nat.lt_irrefl 0)]

theorem MemInode.dropHandle_count (x : MemInode) (hlt : x.count < 4294967296) :
    x.dropHandle.count = if x.count > 0 then x.count - 1 else 0 := by
  unfold MemInode.dropHandle
  by_cases h : x.count > 0
  · rw [if_pos h, if_pos h]
    exact dec32_of_pos _ (Nat.pos_iff_ne_zero.1 h) hlt
  · rw [if_neg h, if_neg h]
    exact Nat.eq_zero_of_not_pos h

theorem MemInode.dropHandle_rest (x : MemInode) :
    x.dropHandle.ino = x.ino ∧ x.dropHandle.nlink = x.nlink ∧ x.dropHandle.mode = x.mode ∧
      x.dropHandle.data = x.data ∧ x.dropHandle.dirents = x.dirents ∧
      x.dropHandle.atime = x.atime ∧ x.dropHandle.mtime = x.mtime ∧
      x.dropHandle.ctime = x.ctime ∧ x.dropHandle.crtime = x.crtime := by
  unfold MemInode.dropHandle
  split <;> exact ⟨rfl, rfl, rfl, rfl, rfl, rfl, rfl, rfl, rfl⟩

theorem repeated_release_idle (i : Nat) (flags : Int) (n : Nat) :
    ∀ (fs : MemFS) (y : MemInode) (t : Time), fs.itable i = some y → 0 < y.nlink →
      y.count = 0 →
      ∃ fs2, runCalls (List.replicate n (.Release i flags)) fs t =
          some (List.replicate n none, fs2) ∧ fs.sameButAtime fs2 := by
  induction n with
  | zero => intro fs y t _ _ _; exact ⟨fs, rfl, fs.sameButAtime_refl⟩
  | succ n ih =>
    intro fs y t hy hn hc
    have hd : (y.Lock t).dropHandle = y.Lock t := MemInode.dropHandle_of_zero _ hc
    have hr := MemFS.Release_ok fs i y flags t hy
    have hne : ¬((y.Lock t).nlink = 0 ∧ (y.Lock t).count = 0) := fun h => by
      have h1 : y.nlink = 0 := h.1
      omega
    rw [hd, if_neg hne] at hr
    obtain ⟨fs2, h2, hs2⟩ := ih (fs.StoreInode i (y.Lock t)) (y.Lock t) (t + 1) (by simp) hn hc
    refine ⟨fs2, ?_, MemFS.sameButAtime_trans (fs.sameButAtime_lock i y t hy) hs2⟩
    rw [List.replicate_succ, List.replicate_succ]
    exact runCalls_cons _ _ _ _ _ _ _ _ (by simp only [Call.exec, hr, Res.outcome]) h2

/-- C14, the claim as stated fails: a Release on an inode with links and no
open handle does change the store.  On a fresh store created at instant 0 (root
with nlink 2 and count 0), Release(root) at instant 5 returns without error and
moves the access time of the root from 0 to 5. -/
theorem C14_idle_release_sets_access_time :
    linkInfo (NewMemFS 0) 1 = some (2, 0, 0) ∧
    ((NewMemFS 0).Release 1 0 5).outcome.map Prod.fst = some none ∧
    (NewMemFS 0).atimeAt 1 = some 0 ∧
    ((NewMemFS 0).Release 1 0 5).store.atimeAt 1 = some 5 := by
  decide

/-- C14 (amended): Release never drives the handle count below zero.  In a
valid store, Release of an inode x of the table succeeds; the count goes down
by 1 when it was positive and stays 0 otherwise (no wrap-around), everything
else of the inode but its access time is kept; the inode is out of the table
exactly when afterwards nlink is 0 and count is 0, and is held with the new
count otherwise; no other inode is touched.  On an inode with nlink > 0 and
count 0, any number of further Release calls succeed and leave the store as it
was but for access times. -/
theorem C14_release_floors_count (fs : MemFS) (i : Nat) (x : MemInode) (flags : Int)
    (now : Time) (hv : Valid fs) (hx : fs.itable i = some x) :
    ∃ fs1 x1, fs.Release i flags now = .ret (.ok ()) fs1 ∧
      x1.count = (if x.count > 0 then x.count - 1 else 0) ∧
      x1.nlink = x.nlink ∧ x1.ino = x.ino ∧ x1.mode = x.mode ∧ x1.data = x.data ∧
      x1.dirents = x.dirents ∧ x1.mtime = x.mtime ∧ x1.ctime = x.ctime ∧
      x1.crtime = x.crtime ∧
      fs1.itable i = (if x1.nlink = 0 ∧ x1.count = 0 then none else some x1) ∧
      (∀ j, j ≠ i → fs1.itable j = fs.itable j) ∧
      fs1.inoNextFree = fs.inoNextFree ∧
      (0 < x.nlink → x.count = 0 → ∀ (n : Nat) (t : Time), ∃ fs2,
        runCalls (List.replicate n (.Release i flags)) fs t =
            some (List.replicate n none, fs2) ∧
          fs.sameButAtime fs2) := by
  have hok := hv.inode i x hx
  have hr := MemFS.Release_ok fs i x flags now hx
  have hrest := (x.Lock now).dropHandle_rest
  have hino : (x.Lock now).dropHandle.ino = i := by rw [hrest.1]; exact hok.ino_eq
  rw [hino] at hr
  refine ⟨_, (x.Lock now).dropHandle, hr, MemInode.dropHandle_count (x.Lock now) hok.count_lt,
    hrest.2.1, hrest.1, hrest.2.2.1, hrest.2.2.2.1, hrest.2.2.2.2.1, hrest.2.2.2.2.2.2.1,
    hrest.2.2.2.2.2.2.2.1, hrest.2.2.2.2.2.2.2.2, ?_, fun j hj => ?_, ?_,
    fun hn hc n t => repeated_release_idle i flags n fs x t hx hn hc⟩
  · split <;> simp
  · split <;> simp [hj]
  · split <;> rfl

/-- C14 (amended), witness: file f (inode 4) of `exTreeAXF` has one link and
one open handle; Release(4) succeeds. -/
theorem C14_release_floors_count_witness :
    Valid exTreeAXF ∧ exTreeAXF.itable 4 = some (exTreeAXF.inodeAt 4) ∧
      linkInfo exTreeAXF 4 = some (1, 1, 0) ∧
      ∃ fs1, exTreeAXF.Release 4 0 9 = .ret (.ok ()) fs1 :=
  ⟨exTreeAXF_valid, rfl, by decide,
    match C14_release_floors_count exTreeAXF 4 (exTreeAXF.inodeAt 4) 0 9 exTreeAXF_valid rfl with
    | ⟨fs1, _, h, _⟩ => ⟨fs1, h⟩⟩

theorem refIf_Stat_Ino (r : Bool) (x : MemInode) : (refIf r x).Stat.Ino = x.ino := by
  cases r <;> rfl

theorem createInode_alloc {fs fs1 : MemFS} (h : Valid fs) {ino : Nat} {name : String}
    {mode : FileMode} {now : Time} {reference : Bool} {v : Except Errno Fused.Stat}
    (hr : fs.createInode ino name mode now reference = .ret v fs1) :
    (∀ st, v = .ok st → st.Ino = fs.inoNextFree ∧ fs1.inoNextFree = fs.inoNextFree + 1) ∧
      (∀ e, v = .error e → fs1.inoNextFree = fs.inoNextFree) := by
  cases hx : fs.itable ino with
  | none =>
    rw [MemFS.createInode_noent _ _ _ _ _ _ hx] at hr
    cases hr
    exact ⟨fun st hst => (by cases hst), fun e _ => rfl⟩
  | some x =>
    have hx0 := h.inode ino x hx
    have hn0 : fs.inoNextFree ≠ 0 := Nat.pos_iff_ne_zero.1 h.next_pos
    cases hg : x.dirents.entries name with
    | some e =>
      rw [MemFS.createInode_exists _ _ _ _ _ _ x e hx hg] at hr
      cases hr
      exact ⟨fun st hst => (by cases hst), fun e _ => rfl⟩
    | none =>
      cases hd : IsDir mode with
      | false =>
        rw [MemFS.createInode_file _ _ _ _ _ _ x hx hg hd] at hr
        cases hr
        refine ⟨fun st hst => ?_, fun e he => by cases he⟩
        rw [← Except.ok.inj hst]
        exact ⟨refIf_Stat_Ino _ _, rfl⟩
      | true =>
        have hpne : x.ino ≠ 0 := by rw [hx0.ino_eq]; exact Nat.pos_iff_ne_zero.1 hx0.pos
        rw [MemFS.createInode_dir _ _ _ _ _ _ x hx hg hd hn0 hpne] at hr
        cases hr
        refine ⟨fun st hst => ?_, fun e he => by cases he⟩
        rw [← Except.ok.inj hst]
        exact ⟨refIf_Stat_Ino _ _, rfl⟩

theorem next_Stat {fs fs1 : MemFS} {held : List Nat} {ino : Nat} {now : Time}
    {v : Except Errno Stat} (hr : fs.Stat held ino now = .ret v fs1) :
    fs1.inoNextFree = fs.inoNextFree := by
  unfold MemFS.Stat MemFS.LoadInode at hr
  split at hr
  · cases hr; rfl
  · split at hr
    · cases hr
    · cases hr; rfl

theorem next_Open {fs fs1 : MemFS} {ino : Nat} {flags : Int} {now : Time}
    {v : Except Errno Unit} (hr : fs.Open ino flags now = .ret v fs1) :
    fs1.inoNextFree = fs.inoNextFree := by
  unfold MemFS.Open MemFS.LoadInode at hr
  split at hr
  · cases hr; rfl
  · cases hr; rfl

theorem next_Release {fs fs1 : MemFS} {ino : Nat} {flags : Int} {now : Time}
    {v : Except Errno Unit} (hr : fs.Release ino flags now = .ret v fs1) :
    fs1.inoNextFree = fs.inoNextFree := by
  unfold MemFS.Release MemFS.LoadInode at hr
  split at hr
  · cases hr; rfl
  · cases hr
    rw [MemInode.Release_eq]
    split <;> rfl

theorem next_Rmdir {fs fs1 : MemFS} (h : Valid fs) {ino : Nat} {name : String} {now : Time}
    {v : Except Errno Unit} (hr : fs.Rmdir ino name now = .ret v fs1) :
    fs1.inoNextFree = fs.inoNextFree := by
  unfold MemFS.Rmdir MemFS.LoadInode at hr
  split at hr
  · cases hr; rfl
  · rename_i x hx
    obtain ⟨w, hw⟩ := valid_void hr
    have hl := (h.inode ino x hx).Lock now
    exact (valid_inode_Rmdir (h.store hl) hl hw).2.1

theorem next_Unlink {fs fs1 : MemFS} (h : Valid fs) {ino : Nat} {name : String} {now : Time}
    {v : Except Errno Unit} (hr : fs.Unlink ino name now = .ret v fs1) :
    fs1.inoNextFree = fs.inoNextFree := by
  unfold MemFS.Unlink MemFS.LoadInode at hr
  split at hr
  · cases hr; rfl
  · rename_i x hx
    obtain ⟨w, hw⟩ := valid_void hr
    have hl := (h.inode ino x hx).Lock now
    exact (valid_inode_Unlink (h.store hl) hl hw).2.1

theorem next_Setattr {fs fs1 : MemFS} {ino : Nat} {attrs : Attrs} {now : Time}
    {v : Except Errno Fused.Stat} (hr : fs.Setattr ino attrs now = .ret v fs1) :
    fs1.inoNextFree = fs.inoNextFree := by
  unfold MemFS.Setattr MemFS.LoadInode at hr
  split at hr
  · cases hr; rfl
  · split at hr
    · cases hr
    · cases hr; rfl

theorem next_Write {fs fs1 : MemFS} {ino : Nat} {offset : Int} {data : List Nat} {now : Time}
    {v : Except Errno Nat} (hr : fs.Write ino offset data now = .ret v fs1) :
    fs1.inoNextFree = fs.inoNextFree := by
  unfold MemFS.Write MemFS.LoadInode at hr
  split at hr
  · cases hr; rfl
  · split at hr
    · cases hr
    · cases hr; rfl

theorem next_Read {fs fs1 : MemFS} {ino : Nat} {offset n : Int} {now : Time}
    {v : Except Errno (List Nat)} (hr : fs.Read ino offset n now = .ret v fs1) :
    fs1.inoNextFree = fs.inoNextFree := by
  unfold MemFS.Read MemFS.LoadInode at hr
  split at hr
  · cases hr; rfl
  · dsimp only at hr
    split at hr
    · cases hr
    · cases hr; rfl

theorem next_Readdir {fs fs1 : MemFS} {ino : Nat} {marker : String} {n : Int} {now : Time}
    {v : Except Errno (List Dirent)} (hr : fs.Readdir ino marker n now = .ret v fs1) :
    fs1.inoNextFree = fs.inoNextFree := by
  unfold MemFS.Readdir MemFS.LoadInode at hr
  split at hr
  · cases hr; rfl
  · split at hr
    · cases hr; rfl
    · dsimp only at hr
      split at hr
      · cases hr
      · cases hr; rfl

theorem next_Lookup {fs fs1 : MemFS} {ino : Nat} {name : String} {now : Time}
    {v : Except Errno Fused.Stat} (hr : fs.Lookup ino name now = .ret v fs1) :
    fs1.inoNextFree = fs.inoNextFree := by
  unfold MemFS.Lookup MemFS.LoadInode at hr
  split at hr
  · cases hr; rfl
  · dsimp only at hr
    split at hr
    · cases hr; rfl
    · exact (next_Stat hr).trans rfl

theorem next_Rename {fs fs1 : MemFS} (h : Valid fs) {sIno dIno : Nat} {sName dName : String}
    {now : Time} {v : Except Errno Unit}
    (hr : fs.Rename sIno sName dIno dName now = .ret v fs1) :
    fs1.inoNextFree = fs.inoNextFree := by
  unfold MemFS.Rename MemFS.LoadInode at hr
  split at hr
  · cases hr; rfl
  · rename_i s0 hs0
    split at hr
    · cases hr; rfl
    · rename_i d0 hd0
      have hs := (h.inode _ _ hs0).Lock now
      have hd : InodeOK fs.inoNextFree dIno (if sIno = dIno then s0.Lock now else d0.Lock now) := by
        split
        · rename_i e; rw [← e]; exact hs
        · exact (h.inode _ _ hd0).Lock now
      have hv0 : Valid ((fs.StoreInode sIno (s0.Lock now)).StoreInode dIno
          (if sIno = dIno then s0.Lock now else d0.Lock now)) := (h.store hs).store hd
      dsimp only at hr
      split at hr
      · cases hr; rfl
      · rename_i sDirent hsd
        have hsd1 : s0.dirents.entries sName = some sDirent := by
          unfold MemInode.GetDirent ListMap.Get at hsd
          split at hsd
          · cases hsd
          · rename_i e he; cases hsd; exact he
        have hse := (h.inode _ _ hs0).dirents.entry _ _ hsd1
        split at hr
        · split at hr
          · cases hr; rfl
          · cases hr
            exact (valid_renameMove hv0 hd hs sName dName hse.2.1 hse.2.2 now).2
        · split at hr
          · cases hr; rfl
          · split at hr
            · cases hr; rfl
            · split at hr
              · cases hr; rfl
              · split at hr
                · rename_i e fs2 hinner
                  cases hr
                  split at hinner
                  · exact (valid_inode_Rmdir hv0 hd hinner).2.1
                  · exact (valid_inode_Unlink hv0 hd hinner).2.1
                · rename_i d1 fs2 hinner
                  cases hr
                  have hin : Valid fs2 ∧ fs2.inoNextFree = fs.inoNextFree ∧
                      ∀ x, (Except.ok d1 : Except Errno MemInode) = .ok x →
                        InodeOK fs.inoNextFree dIno x := by
                    split at hinner
                    · exact valid_inode_Rmdir hv0 hd hinner
                    · exact valid_inode_Unlink hv0 hd hinner
                  have hd1 := hin.2.2 d1 rfl
                  have hs1 : InodeOK fs.inoNextFree sIno (if sIno = dIno then d1 else s0.Lock now) := by
                    split
                    · rename_i e; rw [e]; exact hd1
                    · exact hs
                  rw [← hin.2.1] at hd1 hs1 hse
                  exact ((valid_renameMove hin.1 hd1 hs1 sName dName hse.2.1 hse.2.2 now).2).trans
                    hin.2.1
                · cases hr
                · cases hr

theorem exec_alloc {fs fs1 : MemFS} (h : Valid fs) {c : Call} {t : Time} {e : Option Errno}
    (hr : c.exec fs t = some (e, fs1)) :
    (c.newIno fs t = none ∧ fs1.inoNextFree = fs.inoNextFree) ∨
      (c.newIno fs t = some fs.inoNextFree ∧ fs1.inoNextFree = fs.inoNextFree + 1) := by
  cases c <;> simp only [Call.exec] at hr <;> obtain ⟨v, hv⟩ := Res.outcome_some hr
  · have ha := createInode_alloc h (show fs.createInode _ _ _ _ true = _ from hv)
    cases v with
    | error e1 =>
      left
      exact ⟨by simp only [Call.newIno, hv], ha.2 e1 rfl⟩
    | ok st =>
      right
      exact ⟨by simp only [Call.newIno, hv, (ha.1 st rfl).1], (ha.1 st rfl).2⟩
  · have ha := createInode_alloc h (show fs.createInode _ _ _ _ false = _ from hv)
    cases v with
    | error e1 =>
      left
      exact ⟨by simp only [Call.newIno, hv], ha.2 e1 rfl⟩
    | ok st =>
      right
      exact ⟨by simp only [Call.newIno, hv, (ha.1 st rfl).1], (ha.1 st rfl).2⟩
  · exact Or.inl ⟨rfl, next_Open hv⟩
  · exact Or.inl ⟨rfl, next_Release hv⟩
  · exact Or.inl ⟨rfl, next_Unlink h hv⟩
  · exact Or.inl ⟨rfl, next_Rmdir h hv⟩
  · exact Or.inl ⟨rfl, next_Rename h hv⟩
  · exact Or.inl ⟨rfl, next_Setattr hv⟩
  · exact Or.inl ⟨rfl, next_Read hv⟩
  · exact Or.inl ⟨rfl, next_Write hv⟩
  · exact Or.inl ⟨rfl, next_Stat hv⟩
  · exact Or.inl ⟨rfl, next_Lookup hv⟩
  · exact Or.inl ⟨rfl, next_Readdir hv⟩

theorem valid_free_at_next {fs : MemFS} (h : Valid fs) : fs.itable fs.inoNextFree = none := by
  cases hx : fs.itable fs.inoNextFree with
  | none => rfl
  | some x => exact absurd (h.inode _ x hx).lt_next (Nat.lt_irrefl _)

theorem handedOut_from (cs : List Call) : ∀ (fs : MemFS) (t : Time), Valid fs →
    (∀ p, p ∈ handedOut cs fs t → fs.inoNextFree ≤ p.1 ∧ p.2 = false) ∧
      ((handedOut cs fs t).map Prod.fst).Pairwise (fun a b => a < b) := by
  induction cs with
  | nil => intro fs t _; exact ⟨fun p hp => (by cases hp), List.Pairwise.nil⟩
  | cons c cs ih =>
    intro fs t hv
    cases hc : c.exec fs t with
    | none =>
      simp only [handedOut, hc]
      exact ⟨fun p hp => (by cases hp), List.Pairwise.nil⟩
    | some r =>
      obtain ⟨e, fs1⟩ := r
      have hv1 := valid_exec hv hc
      have ih1 := ih fs1 (t + 1) hv1
      rcases exec_alloc hv hc with ⟨hn, hnext⟩ | ⟨hn, hnext⟩
      · simp only [handedOut, hc, hn]
        rw [hnext] at ih1
        exact ih1
      · simp only [handedOut, hc, hn]
        rw [hnext] at ih1
        constructor
        · intro p hp
          rcases List.mem_cons.1 hp with hp | hp
          · rw [hp]
            exact ⟨Nat.le_refl _, by simp only [valid_free_at_next hv, Option.isSome_none]⟩
          · exact ⟨Nat.le_of_succ_le (ih1.1 p hp).1, (ih1.1 p hp).2⟩
        · rw [List.map_cons, List.pairwise_cons]
          refine ⟨fun b hb => ?_, ih1.2⟩
          obtain ⟨p, hp, hpb⟩ := List.mem_map.1 hb
          rw [← hpb]
          exact (ih1.1 p hp).1

/-- C15: inode numbers are never reused.  Run any list of backend calls on a
fresh store.  The inode numbers returned by the successful Create and Mkdir
calls, taken in the order of the calls, are strictly increasing (each is
greater than every earlier one), each is at least 2, and none was a key of the
inode table when its call began, whatever Unlink, Rmdir and Release calls have
removed before.  (The allocator is a natural number here; the `uint64` of the
code wraps only after 2 to the power 64 allocations.) -/
theorem C15_inode_numbers_never_reused (cs : List Call) (t0 t : Time) :
    ((handedOut cs (NewMemFS t0) t).map Prod.fst).Pairwise (fun a b => a < b) ∧
      ∀ p, p ∈ handedOut cs (NewMemFS t0) t → 2 ≤ p.1 ∧ p.2 = false := by
  have h := handedOut_from cs (NewMemFS t0) t (valid_NewMemFS t0)
  exact ⟨h.2, fun p hp => h.1 p hp⟩

/-- C15, witness: mkdir a, rmdir a, mkdir a on a fresh store hands out 2 and
then 3, although inode 2 has left the table in between. -/
theorem C15_inode_numbers_never_reused_witness :
    handedOut [.Mkdir 1 "a" dirMode, .Rmdir 1 "a", .Mkdir 1 "a" dirMode] (NewMemFS 0) 1 =
        [(2, false), (3, false)] ∧
      (2 ≤ ((3, false) : Nat × Bool).1 ∧ ((3, false) : Nat × Bool).2 = false) :=
  ⟨by decide,
    (C15_inode_numbers_never_reused
      [.Mkdir 1 "a" dirMode, .Rmdir 1 "a", .Mkdir 1 "a" dirMode] 0 1).2 (3, false)
      (by decide)⟩

theorem padded_length (d : List Nat) (o : Nat) :
    ((d ++ List.replicate (o - d.length) 0).take o).length = o := by
  simp only [List.length_take, List.length_append, List.length_replicate]
  omega

theorem padded_get (d : List Nat) (o i : Nat) (hi : i < o) :
    ((d ++ List.replicate (o - d.length) 0).take o)[i]? =
      if i < d.length then d[i]? else some 0 := by
  rw [List.getElem?_take_of_lt hi, List.getElem?_append]
  split
  · rfl
  · rename_i h
    rw [List.getElem?_replicate, if_pos (by omega)]

theorem writtenData_get (d : List Nat) (o : Nat) (w : List Nat) (i : Nat) :
    (writtenData d o w)[i]? =
      if i < o then (if i < d.length then d[i]? else some 0)
      else if i < o + w.length then w[i - o]? else d[i]? := by
  have hlen := padded_length d o
  unfold writtenData
  dsimp only
  have hbl : ((d ++ List.replicate (o - d.length) 0).take o ++ w).length = o + w.length := by
    rw [List.length_append, hlen]
  rw [hbl]
  by_cases hio : i < o
  · rw [if_pos hio]
    split
    · rw [List.getElem?_append_left (by rw [hlen]; exact hio)]
      exact padded_get d o i hio
    · rw [List.getElem?_append_left (by rw [hbl]; omega),
        List.getElem?_append_left (by rw [hlen]; exact hio)]
      exact padded_get d o i hio
  · rw [if_neg hio]
    by_cases hiw : i < o + w.length
    · rw [if_pos hiw]
      split
      · rw [List.getElem?_append_right (by rw [hlen]; omega), hlen]
      · rw [List.getElem?_append_left (by rw [hbl]; exact hiw),
          List.getElem?_append_right (by rw [hlen]; omega), hlen]
    · rw [if_neg hiw]
      split
      · rename_i hgt
        rw [List.getElem?_append_right (by rw [hlen]; omega), hlen,
          List.getElem?_eq_none (by omega), List.getElem?_eq_none (by omega)]
      · rw [List.getElem?_append_right (by rw [hbl]; omega), hbl, List.getElem?_drop]
        congr 1
        omega

theorem writtenData_length (d : List Nat) (o : Nat) (w : List Nat) :
    (writtenData d o w).length = max d.length (o + w.length) := by
  have hlen := padded_length d o
  unfold writtenData
  dsimp only
  have hbl : ((d ++ List.replicate (o - d.length) 0).take o ++ w).length = o + w.length := by
    rw [List.length_append, hlen]
  rw [hbl]
  split
  · rw [hbl]; omega
  · rw [List.length_append, hbl, List.length_drop]; omega

theorem MemInode.written_data (x : MemInode) (o : Nat) (w : List Nat) :
    (x.written o w).data = writtenData x.data o w := by
  unfold MemInode.written
  split <;> rfl

/-- C16: Write places the bytes at the offset.  For an inode x of the table
with content d, an offset o ≥ 0 and bytes w, Write(o, w) returns len(w) without
error and leaves content d' of length max(len d, o + len w) with
d'[i] = w[i - o] for o ≤ i < o + len w, d'[i] = d[i] for every other i < len d,
and d'[i] = 0 for len d ≤ i < o: a write beyond the end zero-fills the gap, and
no byte follows the written ones unless the old content reached further. -/
theorem C16_write_places_bytes (fs : MemFS) (ino : Nat) (x : MemInode) (o : Nat)
    (w : List Nat) (now : Time) (hx : fs.itable ino = some x) :
    ∃ fs1 y, fs.Write ino (o : Int) w now = .ret (.ok w.length) fs1 ∧
      fs1.itable ino = some y ∧
      y.data.length = max x.data.length (o + w.length) ∧
      (∀ i, o ≤ i → i < o + w.length → y.data[i]? = w[i - o]?) ∧
      (∀ i, i < x.data.length → ¬(o ≤ i ∧ i < o + w.length) → y.data[i]? = x.data[i]?) ∧
      (∀ i, x.data.length ≤ i → i < o → y.data[i]? = some 0) ∧
      (x.data.length ≤ o → y.data = x.data ++ List.replicate (o - x.data.length) 0 ++ w) := by
  have hd : ((x.Lock now).written o w).data = writtenData x.data o w :=
    MemInode.written_data (x.Lock now) o w
  refine ⟨_, (x.Lock now).written o w, MemFS.Write_ok fs ino x o w now hx, by simp, ?_,
    fun i h1 h2 => ?_, fun i h1 h2 => ?_, fun i h1 h2 => ?_, fun h => ?_⟩
  · rw [hd]; exact writtenData_length _ _ _
  · rw [hd, writtenData_get, if_neg (by omega), if_pos h2]
  · rw [hd, writtenData_get]
    by_cases hio : i < o
    · rw [if_pos hio, if_pos h1]
    · rw [if_neg hio, if_neg (by omega)]
  · rw [hd, writtenData_get, if_pos h2, if_neg (by omega)]
  · rw [hd]
    apply List.ext_getElem?
    intro i
    rw [writtenData_get, List.append_assoc, List.getElem?_append, List.getElem?_append,
      List.length_replicate, List.getElem?_replicate]
    have e : i - x.data.length - (o - x.data.length) = i - o := by omega
    rw [e]
    split_ifs <;> first
      | rfl
      | (exfalso; omega)
      | rw [List.getElem?_eq_none (by omega), List.getElem?_eq_none (by omega)]

/-- C16, witness: file a of `exFilesAB` (inode 2) holds the one byte 65; a
write of 7, 8 at offset 3 returns 2 and leaves 65, 0, 0, 7, 8. -/
theorem C16_write_places_bytes_witness :
    exFilesAB.itable 2 = some (exFilesAB.inodeAt 2) ∧
      (exFilesAB.inodeAt 2).data = [65] ∧
      ((exFilesAB.Write 2 3 [7, 8] 30).store.inodeAt 2).data = [65, 0, 0, 7, 8] ∧
      ∃ fs1, exFilesAB.Write 2 ((3 : Nat) : Int) [7, 8] 30 = .ret (.ok 2) fs1 :=
  ⟨rfl, by decide, by decide,
    match C16_write_places_bytes exFilesAB 2 (exFilesAB.inodeAt 2) 3 [7, 8] 30 rfl with
    | ⟨fs1, _, h, _⟩ => ⟨fs1, h⟩⟩

theorem readBytes_window (D : List Nat) (o n : Nat) (hn : 0 < n) (hfit : o + n ≤ D.length) :
    readBytes D o (n : Int) = (D.drop o).take n := by
  unfold readBytes
  split
  · rename_i h
    have hlen : (D.drop o).length = n := by
      rw [List.length_drop]
      omega
    rw [← hlen, List.take_length]
  · rfl

theorem window_get (D : List Nat) (o n k : Nat) (hk : k < n) :
    ((D.drop o).take n)[k]? = D[o + k]? := by
  rw [List.getElem?_take_of_lt hk, List.getElem?_drop]

theorem window_eq (D w : List Nat) (o : Nat)
    (h : ∀ k, k < w.length → D[o + k]? = w[k]?) : (D.drop o).take w.length = w := by
  apply List.ext_getElem?
  intro k
  by_cases hk : k < w.length
  · rw [window_get D o w.length k hk, h k hk]
  · rw [List.getElem?_eq_none (by rw [List.length_take]; omega),
      List.getElem?_eq_none (by omega)]

theorem readBytes_all (D : List Nat) : readBytes D 0 (-1) = D := by
  simp [readBytes]

theorem chunkWrites_run (ino : Nat) (cs : List (List Nat)) :
    ∀ (fs : MemFS) (x : MemInode) (t : Time), fs.itable ino = some x →
      ∃ fs1 y, runCalls (chunkWrites ino x.data.length cs) fs t =
          some (List.replicate cs.length none, fs1) ∧
        fs1.itable ino = some y ∧ y.data = x.data ++ cs.flatten := by
  induction cs with
  | nil => intro fs x t hx; exact ⟨fs, x, rfl, hx, by simp⟩
  | cons c cs ih =>
    intro fs x t hx
    have hw := MemFS.Write_ok fs ino x x.data.length c t hx
    have hd : ((x.Lock t).written x.data.length c).data = x.data ++ c := by
      rw [MemInode.written_data]
      show writtenData x.data x.data.length c = x.data ++ c
      apply List.ext_getElem?
      intro i
      rw [writtenData_get, List.getElem?_append]
      split_ifs <;> first
        | rfl
        | rw [List.getElem?_eq_none (by omega), List.getElem?_eq_none (by omega)]
    obtain ⟨fs1, y, hrun, hy, hyd⟩ :=
      ih (fs.StoreInode ino ((x.Lock t).written x.data.length c))
        ((x.Lock t).written x.data.length c) (t + 1) (by simp)
    rw [hd] at hyd hrun
    refine ⟨fs1, y, ?_, hy, by rw [hyd]; simp⟩
    rw [List.length_append] at hrun
    exact runCalls_cons _ _ _ _ _ _ _ _ (by simp only [Call.exec, hw, Res.outcome]) hrun

theorem writtenData_covers (d : List Nat) (o : Nat) (w : List Nat) :
    o + w.length ≤ (writtenData d o w).length := by
  rw [writtenData_length]
  exact Nat.le_max_right _ _

theorem writtenData_grows (d : List Nat) (o : Nat) (w : List Nat) :
    d.length ≤ (writtenData d o w).length := by
  rw [writtenData_length]
  exact Nat.le_max_left _ _

/-- C17: Read undoes Write.  For an inode x of the table, an offset o ≥ 0 and
non-empty bytes w: after Write(o, w), Read(o, len w) returns exactly w.  After
a further Write(o2, w2), Read(o, len w) returns len w bytes, of which the byte
at place k is the byte of w2 for the place o + k when o + k lies in the range
[o2, o2 + len w2) of the later write, and is the byte k of w otherwise (last
writer wins on the overlap).  Chunks written one behind the other to an empty
file are read back, by a read of the whole file, as their concatenation, and
Stat reports its length as size. -/
theorem C17_read_undoes_write (fs : MemFS) (ino : Nat) (x : MemInode)
    (hx : fs.itable ino = some x) :
    (∀ (o : Nat) (w : List Nat) (t1 t2 : Time), w ≠ [] →
      ∃ fs1 fs2, fs.Write ino (o : Int) w t1 = .ret (.ok w.length) fs1 ∧
        fs1.Read ino (o : Int) (w.length : Int) t2 = .ret (.ok w) fs2) ∧
    (∀ (o : Nat) (w : List Nat) (o2 : Nat) (w2 : List Nat) (t1 t2 t3 : Time), w ≠ [] →
      ∃ fs1 fs2 fs3 r, fs.Write ino (o : Int) w t1 = .ret (.ok w.length) fs1 ∧
        fs1.Write ino (o2 : Int) w2 t2 = .ret (.ok w2.length) fs2 ∧
        fs2.Read ino (o : Int) (w.length : Int) t3 = .ret (.ok r) fs3 ∧
        r.length = w.length ∧
        ∀ k, k < w.length →
          r[k]? = if o2 ≤ o + k ∧ o + k < o2 + w2.length then w2[o + k - o2]? else w[k]?) ∧
    (∀ (cs : List (List Nat)) (t t2 t3 : Time), x.data = [] →
      ∃ fs1 fs2 fs3 st, runCalls (chunkWrites ino 0 cs) fs t =
          some (List.replicate cs.length none, fs1) ∧
        fs1.Read ino 0 (-1) t2 = .ret (.ok cs.flatten) fs2 ∧
        fs2.Stat [] ino t3 = .ret (.ok st) fs3 ∧ st.Size = cs.flatten.length) := by
  refine ⟨fun o w t1 t2 hw => ?_, fun o w o2 w2 t1 t2 t3 hw => ?_, fun cs t t2 t3 hd => ?_⟩
  · have hpos : 0 < w.length := List.length_pos.2 hw
    have h1 := MemFS.Write_ok fs ino x o w t1 hx
    have hd1 : ((x.Lock t1).written o w).data = writtenData x.data o w :=
      MemInode.written_data _ _ _
    have hfit : o + w.length ≤ ((x.Lock t1).written o w).data.length := by
      rw [hd1]; exact writtenData_covers _ _ _
    have h2 := MemFS.Read_ok (fs.StoreInode ino ((x.Lock t1).written o w)) ino
      ((x.Lock t1).written o w) o (w.length : Int) t2 (by simp) (by omega)
    rw [readBytes_window _ o w.length hpos hfit, window_eq _ w o] at h2
    · exact ⟨_, _, h1, h2⟩
    · intro k hk
      rw [hd1, writtenData_get, if_neg (by omega), if_pos (by omega)]
      congr 1
      omega
  · have hpos : 0 < w.length := List.length_pos.2 hw
    have h1 := MemFS.Write_ok fs ino x o w t1 hx
    have hd1 : ((x.Lock t1).written o w).data = writtenData x.data o w :=
      MemInode.written_data _ _ _
    have h2 := MemFS.Write_ok (fs.StoreInode ino ((x.Lock t1).written o w)) ino
      ((x.Lock t1).written o w) o2 w2 t2 (by simp)
    have hd2 : ((((x.Lock t1).written o w).Lock t2).written o2 w2).data =
        writtenData (writtenData x.data o w) o2 w2 := by
      rw [MemInode.written_data]
      show writtenData ((x.Lock t1).written o w).data o2 w2 = _
      rw [hd1]
    have hfit1 : o + w.length ≤ (writtenData x.data o w).length := writtenData_covers _ _ _
    have hfit : o + w.length ≤
        ((((x.Lock t1).written o w).Lock t2).written o2 w2).data.length := by
      rw [hd2]
      exact Nat.le_trans hfit1 (writtenData_grows _ _ _)
    have h3 := MemFS.Read_ok
      ((fs.StoreInode ino ((x.Lock t1).written o w)).StoreInode ino
        ((((x.Lock t1).written o w).Lock t2).written o2 w2)) ino
      ((((x.Lock t1).written o w).Lock t2).written o2 w2) o (w.length : Int) t3 (by simp)
      (by omega)
    rw [readBytes_window _ o w.length hpos hfit] at h3
    refine ⟨_, _, _, _, h1, h2, h3, ?_, fun k hk => ?_⟩
    · rw [List.length_take, List.length_drop]
      omega
    · rw [window_get _ o w.length k hk, hd2, writtenData_get]
      have hw1 : (writtenData x.data o w)[o + k]? = w[k]? := by
        rw [writtenData_get, if_neg (by omega), if_pos (by omega)]
        congr 1
        omega
      by_cases h12 : o + k < o2
      · rw [if_pos h12, if_pos (by omega), if_neg (by omega)]
        exact hw1
      · rw [if_neg h12]
        by_cases h22 : o + k < o2 + w2.length
        · rw [if_pos h22, if_pos ⟨by omega, h22⟩]
        · rw [if_neg h22, if_neg (fun h => h22 h.2)]
          exact hw1
  · obtain ⟨fs1, y, hrun, hy, hyd⟩ := chunkWrites_run ino cs fs x t hx
    rw [hd] at hrun hyd
    rw [List.nil_append] at hyd
    have h2 := MemFS.Read_ok fs1 ino y 0 (-1) t2 hy (Nat.zero_le _)
    rw [readBytes_all, hyd] at h2
    have h3 := MemFS.Stat_ok (fs1.StoreInode ino (y.Lock t2)) ino (y.Lock t2) t3 (by simp)
    refine ⟨fs1, _, _, _, hrun, h2, h3, ?_⟩
    show y.data.length = _
    rw [hyd]

/-- C17, witness: file a of `exFilesAB` (inode 2); a write of 7, 8 at offset 3
is read back by Read(3, 2). -/
theorem C17_read_undoes_write_witness :
    exFilesAB.itable 2 = some (exFilesAB.inodeAt 2) ∧
      ∃ fs1 fs2, exFilesAB.Write 2 ((3 : Nat) : Int) [7, 8] 30 = .ret (.ok 2) fs1 ∧
        fs1.Read 2 ((3 : Nat) : Int) 2 31 = .ret (.ok [7, 8]) fs2 :=
  ⟨rfl, (C17_read_undoes_write exFilesAB 2 (exFilesAB.inodeAt 2) rfl).1 3 [7, 8] 30 31
    (by decide)⟩

/-- C18: Read within the file.  For an inode x of the table with content d, an
offset o with 0 ≤ o ≤ len d and a count n, Read(o, n) returns without error the
bytes d[o .. len d) when n ≤ 0 or n ≥ len d - o, and the bytes d[o .. o + n)
otherwise; the byte at place k of the result is d[o + k]; for n > 0 the result
has at most n bytes; the file data is as before. -/
theorem C18_read_within_file (fs : MemFS) (ino : Nat) (x : MemInode) (o : Nat) (n : Int)
    (now : Time) (hx : fs.itable ino = some x) (ho : o ≤ x.data.length) :
    ∃ fs1 r y, fs.Read ino (o : Int) n now = .ret (.ok r) fs1 ∧
      (n ≤ 0 ∨ n ≥ (x.data.length : Int) - (o : Int) → r = x.data.drop o) ∧
      (¬(n ≤ 0 ∨ n ≥ (x.data.length : Int) - (o : Int)) →
        r = (x.data.drop o).take n.toNat ∧ r.length = n.toNat) ∧
      (∀ k, k < r.length → r[k]? = x.data[o + k]?) ∧
      (0 < n → r.length ≤ n.toNat) ∧
      fs1.itable ino = some y ∧ y.data = x.data := by
  refine ⟨_, readBytes x.data o n, x.Lock now, MemFS.Read_ok fs ino x o n now hx ho,
    fun h => ?_, fun h => ?_, fun k hk => ?_, fun hn => ?_, by simp, rfl⟩
  · unfold readBytes; rw [if_pos h]
  · unfold readBytes; rw [if_neg h]
    refine ⟨rfl, ?_⟩
    rw [List.length_take, List.length_drop]
    omega
  · unfold readBytes at hk ⊢
    split
    · rw [List.getElem?_drop]
    · rename_i h
      rw [if_neg h, List.length_take] at hk
      rw [List.getElem?_take_of_lt (by omega), List.getElem?_drop]
  · unfold readBytes
    split
    · rename_i h
      rw [List.length_drop]
      omega
    · rw [List.length_take]
      exact Nat.min_le_left _ _

/-- C18, witness: file a of `exFilesAB` (inode 2) holds the one byte 65;
Read(0, 1) returns it. -/
theorem C18_read_within_file_witness :
    exFilesAB.itable 2 = some (exFilesAB.inodeAt 2) ∧
      0 ≤ (exFilesAB.inodeAt 2).data.length ∧
      ∃ fs1 r, exFilesAB.Read 2 ((0 : Nat) : Int) 1 30 = .ret (.ok r) fs1 ∧ r.length ≤ 1 :=
  ⟨rfl, Nat.zero_le _,
    match C18_read_within_file exFilesAB 2 (exFilesAB.inodeAt 2) 0 1 30 rfl (Nat.zero_le _) with
    | ⟨fs1, r, _, h, _, _, _, hl, _⟩ => ⟨fs1, r, h, hl (by decide)⟩⟩

theorem slice_out_of_range (s : List Nat) (lo hi : Int) (h : (s.length : Int) < lo) :
    slice s lo hi = none := by
  unfold slice
  rw [if_neg]
  intro hc
  omega

/-- C19 (code defect): Read does not clip the offset.  For every inode x of the
table and every offset o greater than the size of its content, Read(o, n)
panics for every n: both branches of `(*MemInode).Read` slice `inode.data` from
`offset`, which is out of range, and no check precedes them. -/
theorem C19_read_past_end_panics (fs : MemFS) (ino : Nat) (x : MemInode) (o : Nat) (n : Int)
    (now : Time) (hx : fs.itable ino = some x) (ho : x.data.length < o) :
    fs.Read ino (o : Int) n now = .panic := by
  have hr : (x.Lock now).Read (o : Int) n = none := by
    unfold MemInode.Read
    have hlt : (((x.Lock now).data.length : Nat) : Int) < (o : Int) := by
      show ((x.data.length : Nat) : Int) < (o : Int)
      omega
    split <;> exact slice_out_of_range _ _ _ hlt
  unfold MemFS.Read MemFS.LoadInode
  rw [hx]
  dsimp only
  rw [hr]

/-- C19, witness: file a of `exFilesAB` (inode 2) holds one byte; Read(2, 0)
panics. -/
theorem C19_read_past_end_panics_witness :
    exFilesAB.itable 2 = some (exFilesAB.inodeAt 2) ∧
      (exFilesAB.inodeAt 2).data.length < 2 ∧
      exFilesAB.Read 2 ((2 : Nat) : Int) 0 30 = .panic :=
  ⟨rfl, by decide,
    C19_read_past_end_panics exFilesAB 2 (exFilesAB.inodeAt 2) 2 0 30 rfl (by decide)⟩

theorem toInt_of_lt (s : Nat) (h : s < 9223372036854775808) : toInt s = (s : Int) := by
  unfold toInt
  have hm : s % 18446744073709551616 = s := Nat.mod_eq_of_lt (by omega)
  rw [hm, if_pos h]

theorem MemInode.Setattr_sizeOnly (x : MemInode) (s : Nat) (now : Time)
    (hreg : IsDir x.mode = false) (hs : s < 9223372036854775808) :
    x.Setattr (sizeOnly s) now = some (.ok (x.resized s now).Stat, x.resized s now) := by
  unfold MemInode.Setattr sizeOnly
  simp only [Option.isSome_none, Bool.false_eq_true, if_false, hreg]
  rw [toInt_of_lt s hs, PadRight_eq]
  rfl

/-- C20, the claim as stated fails for sizes from 2 to the power 63 on: the
size attribute is a `uint64`, `int(sz)` is then negative, and `PadRight` panics
on `src[0:lengh]`.  File a of `exFilesAB` (inode 2), a regular file:
Setattr with size 9223372036854775808 alone panics. -/
theorem C20_truncation_to_huge_size_panics :
    (exFilesAB.itable 2).map (fun x => IsDir x.mode) = some false ∧
    toInt 9223372036854775808 = -9223372036854775808 ∧
    exFilesAB.Setattr 2 (sizeOnly 9223372036854775808) 30 = .panic := by
  refine ⟨by decide, by decide, rfl⟩

/-- C20 (amended): truncation resizes exactly.  For a regular-file inode x of
the table with content d and every size s below 2 to the power 63 (the sizes
that `int(sz)` keeps non-negative), Setattr with the size attribute alone
succeeds and leaves content of length exactly s, whose first min(s, len d)
bytes are those of d and whose other bytes are 0; the stat returned reports
size s.  `PadRight(src, pad, n)` returns exactly n bytes for every n ≥ 0: its
loop ends within `n + 1 - len src` rounds (one round when that is less), with
the same result for any larger bound on the rounds. -/
theorem C20_truncation_resizes_exactly (fs : MemFS) (ino : Nat) (x : MemInode) (s : Nat)
    (now : Time) (hx : fs.itable ino = some x) (hreg : IsDir x.mode = false)
    (hs : s < 9223372036854775808) :
    (∃ fs1 st y, fs.Setattr ino (sizeOnly s) now = .ret (.ok st) fs1 ∧
      fs1.itable ino = some y ∧ st.Size = s ∧ y.data.length = s ∧
      (∀ i, i < min s x.data.length → y.data[i]? = x.data[i]?) ∧
      (∀ i, x.data.length ≤ i → i < s → y.data[i]? = some 0)) ∧
    (∀ (src : List Nat) (pad n : Nat), ∃ r, PadRight src pad (n : Int) = some r ∧
      r.length = n ∧
      ∀ fuel, n + 1 ≤ src.length + fuel → 0 < fuel →
        PadRightLoop fuel src pad (n : Int) = some r) := by
  have hlen : ∀ (src : List Nat) (pad n : Nat),
      ((src ++ List.replicate (n - src.length) pad).take n).length = n := by
    intro src pad n
    rw [List.length_take, List.length_append, List.length_replicate]
    omega
  constructor
  · have hset := MemInode.Setattr_sizeOnly (x.Lock now) s now hreg hs
    have hr : fs.Setattr ino (sizeOnly s) now =
        .ret (.ok ((x.Lock now).resized s now).Stat)
          (fs.StoreInode ino ((x.Lock now).resized s now)) := by
      unfold MemFS.Setattr MemFS.LoadInode
      rw [hx]
      dsimp only
      rw [hset]
    refine ⟨fs.StoreInode ino ((x.Lock now).resized s now),
      ((x.Lock now).resized s now).Stat, (x.Lock now).resized s now, hr, by simp,
      hlen x.data 0 s, hlen x.data 0 s, fun i hi => ?_, fun i h1 h2 => ?_⟩
    · show ((x.data ++ List.replicate (s - x.data.length) 0).take s)[i]? = _
      rw [List.getElem?_take_of_lt (by omega), List.getElem?_append_left (by omega)]
    · show ((x.data ++ List.replicate (s - x.data.length) 0).take s)[i]? = _
      rw [List.getElem?_take_of_lt h2, List.getElem?_append_right h1,
        List.getElem?_replicate, if_pos (by omega)]
  · intro src pad n
    exact ⟨_, PadRight_eq src pad n, hlen src pad n,
      fun fuel h1 h2 => PadRightLoop_eq fuel src pad n h1 h2⟩

/-- C20 (amended), witness: file a of `exFilesAB` (inode 2) holds one byte;
Setattr with size 3 alone succeeds and reports size 3. -/
theorem C20_truncation_resizes_exactly_witness :
    exFilesAB.itable 2 = some (exFilesAB.inodeAt 2) ∧
      IsDir (exFilesAB.inodeAt 2).mode = false ∧ (3 : Nat) < 9223372036854775808 ∧
      ((exFilesAB.Setattr 2 (sizeOnly 3) 30).store.inodeAt 2).data = [65, 0, 0] ∧
      ∃ fs1 st, exFilesAB.Setattr 2 (sizeOnly 3) 30 = .ret (.ok st) fs1 ∧ st.Size = 3 :=
  ⟨rfl, by decide, by decide, by decide,
    match (C20_truncation_resizes_exactly exFilesAB 2 (exFilesAB.inodeAt 2) 3 30 rfl
        (by decide) (by decide)).1 with
    | ⟨fs1, st, _, h, _, hsz, _⟩ => ⟨fs1, st, h, hsz⟩⟩

theorem pending_start (fs0 : MemFS) (P : Nat) (x0 : MemInode) (hv : Valid fs0)
    (hP : fs0.itable P = some x0) : Pending fs0 P x0 [] fs0 x0 :=
  { valid := hv
    next_le := Nat.le_refl _
    nodup := List.nodup_nil
    absent := fun n hn => by cases hn
    tbl := hP
    keys := by rw [List.append_nil]
    frame := fun k _ => rfl
    nlink := by
      rw [List.length_nil, Nat.add_zero, Nat.mod_eq_of_lt (hv.inode P x0 hP).nlink_lt]
    rest := ⟨rfl, rfl, rfl, rfl⟩
    child := fun n hn => by cases hn
    distinct := fun n m e1 e2 hn => by cases hn
    others := fun j _ _ => rfl }

theorem pending_mkdir {fs0 fs : MemFS} {P : Nat} {x0 x : MemInode} {L : List String}
    (hv0 : Valid fs0) (hP0 : fs0.itable P = some x0) (h : Pending fs0 P x0 L fs x)
    (n : String) (mode : FileMode) (now : Time) (hn : n ∉ L)
    (habs : x0.dirents.entries n = none) (hmode : IsDir mode = true) :
    ∃ st fs1 x1, fs.Mkdir P n mode now = .ret (.ok st) fs1 ∧
      Pending fs0 P x0 (L ++ [n]) fs1 x1 := by
  have hxok := h.valid.inode P x h.tbl
  have hg : x.dirents.entries n = none := by rw [h.frame n hn]; exact habs
  have hn0 : fs.inoNextFree ≠ 0 := Nat.pos_iff_ne_zero.1 h.valid.next_pos
  have hpne : x.ino ≠ 0 := by rw [hxok.ino_eq]; exact Nat.pos_iff_ne_zero.1 hxok.pos
  have hreq : fs.Mkdir P n mode now = _ :=
    MemFS.createInode_dir fs P n mode now false x h.tbl hg hmode hn0 hpne
  have hPnext : P ≠ fs.inoNextFree := Nat.ne_of_lt hxok.lt_next
  have hP0lt : P < fs0.inoNextFree := (hv0.inode P x0 hP0).lt_next
  have hkey1 : (((x.Lock now).withEntry n fs.inoNextFree (modeType mode) now).setNlink
      (inc32 x.nlink)).dirents.keys = x.dirents.keys ++ [n] :=
    withEntry_keys (x.Lock now) n fs.inoNextFree (modeType mode) now hg
  have hent_ne : ∀ k, k ≠ n →
      (((x.Lock now).withEntry n fs.inoNextFree (modeType mode) now).setNlink
        (inc32 x.nlink)).dirents.entries k = x.dirents.entries k :=
    fun k hk => withEntry_entries_ne (x.Lock now) n fs.inoNextFree (modeType mode) now k hk
  have hent_n : (((x.Lock now).withEntry n fs.inoNextFree (modeType mode) now).setNlink
      (inc32 x.nlink)).dirents.entries n =
      some { Ino := fs.inoNextFree, Name := n, Typ := modeType mode } :=
    withEntry_entries_same (x.Lock now) n fs.inoNextFree (modeType mode) now
  have htab : ∀ j, ((fs.bump.StoreInode P
      (((x.Lock now).withEntry n fs.inoNextFree (modeType mode) now).setNlink
        (inc32 x.nlink))).StoreInode fs.inoNextFree
      (refIf false (newDir fs.inoNextFree mode x.ino x.mode now))).itable j =
      if j = fs.inoNextFree then some (newDir fs.inoNextFree mode x.ino x.mode now)
      else if j = P then some (((x.Lock now).withEntry n fs.inoNextFree (modeType mode)
        now).setNlink (inc32 x.nlink))
      else fs.itable j := by
    intro j
    simp only [MemFS.StoreInode_itable, refIf, Bool.false_eq_true, if_false]
    rfl
  refine ⟨_, _, ((x.Lock now).withEntry n fs.inoNextFree (modeType mode) now).setNlink
    (inc32 x.nlink), hreq, ?_⟩
  have hmemL : ∀ m, m ∈ L → m ≠ n := fun m hm e => hn (e ▸ hm)
  exact
    { valid := valid_Mkdir h.valid hreq
      next_le := Nat.le_succ_of_le h.next_le
      nodup := by
        rw [List.nodup_append]
        exact ⟨h.nodup, List.nodup_singleton n, fun a ha hb => hn
          ((List.mem_singleton.1 hb) ▸ ha)⟩
      absent := fun m hm => by
        rcases List.mem_append.1 hm with hm | hm
        · exact h.absent m hm
        · rw [List.mem_singleton.1 hm]; exact habs
      tbl := by rw [htab, if_neg hPnext, if_pos rfl]
      keys := by rw [hkey1, h.keys, List.append_assoc]
      frame := fun k hk => by
        have hk1 : k ∉ L := fun hm => hk (List.mem_append_left _ hm)
        have hk2 : k ≠ n := fun e => hk (List.mem_append_right _ (List.mem_singleton.2 e))
        rw [hent_ne k hk2, h.frame k hk1]
      nlink := by
        show inc32 x.nlink = _
        rw [h.nlink, inc32_mod, List.length_append, List.length_singleton, Nat.add_assoc]
      rest := h.rest
      child := fun m hm => by
        rcases List.mem_append.1 hm with hm | hm
        · obtain ⟨e, c, he, ht, hle, hc, hlen, hnl, hcnt⟩ := h.child m hm
          have hePne : e.Ino ≠ P := Nat.ne_of_gt (Nat.lt_of_lt_of_le hP0lt hle)
          have henext : e.Ino ≠ fs.inoNextFree :=
            Nat.ne_of_lt (h.valid.inode e.Ino c hc).lt_next
          refine ⟨e, c, by rw [hent_ne m (hmemL m hm)]; exact he, ht, hle, ?_, hlen, hnl,
            hcnt⟩
          rw [htab, if_neg henext, if_neg hePne]; exact hc
        · rw [List.mem_singleton.1 hm]
          refine ⟨_, newDir fs.inoNextFree mode x.ino x.mode now, hent_n, ?_, h.next_le, ?_,
            Nat.le_refl 2, rfl, rfl⟩
          · show IsDir (modeType mode) = true
            rw [IsDir_modeType]; exact hmode
          · rw [htab, if_pos rfl]
      distinct := fun a b e1 e2 ha hb h1 h2 hino => by
        have key : ∀ m e, m ∈ L →
            (((x.Lock now).withEntry n fs.inoNextFree (modeType mode) now).setNlink
              (inc32 x.nlink)).dirents.entries m = some e → e.Ino ≠ fs.inoNextFree := by
          intro m e hm hme
          rw [hent_ne m (hmemL m hm)] at hme
          obtain ⟨e', c, he', _, _, hc, _⟩ := h.child m hm
          rw [he'] at hme
          rw [← Option.some.inj hme]
          exact Nat.ne_of_lt (h.valid.inode e'.Ino c hc).lt_next
        rcases List.mem_append.1 ha with ha | ha <;> rcases List.mem_append.1 hb with hb | hb
        · rw [hent_ne a (hmemL a ha)] at h1
          rw [hent_ne b (hmemL b hb)] at h2
          exact h.distinct a b e1 e2 ha hb h1 h2 hino
        · exfalso
          rw [List.mem_singleton.1 hb, hent_n] at h2
          rw [← Option.some.inj h2] at hino
          exact key a e1 ha h1 hino
        · exfalso
          rw [List.mem_singleton.1 ha, hent_n] at h1
          rw [← Option.some.inj h1] at hino
          exact key b e2 hb h2 hino.symm
        · rw [List.mem_singleton.1 ha, List.mem_singleton.1 hb]
      others := fun j hjP hj => by
        have hjn : j ≠ fs.inoNextFree := fun e =>
          hj n _ (List.mem_append_right _ (List.mem_singleton.2 rfl)) hent_n e.symm
        rw [htab, if_neg hjn, if_neg hjP]
        refine h.others j hjP (fun m e hm hme => ?_)
        exact hj m e (List.mem_append_left _ hm) (by rw [hent_ne m (hmemL m hm)]; exact hme) }

theorem pending_rmdir {fs0 fs : MemFS} {P : Nat} {x0 x : MemInode} {L : List String}
    (hv0 : Valid fs0) (hP0 : fs0.itable P = some x0) (h : Pending fs0 P x0 L fs x)
    (n : String) (now : Time) (hn : n ∈ L) :
    ∃ fs1 x1, fs.Rmdir P n now = .ret (.ok ()) fs1 ∧
      Pending fs0 P x0 (L.erase n) fs1 x1 := by
  obtain ⟨e, c, he, ht, hle, hc, hlen, hnl, hcnt⟩ := h.child n hn
  have hP0lt : P < fs0.inoNextFree := (hv0.inode P x0 hP0).lt_next
  have hePne : e.Ino ≠ P := Nat.ne_of_gt (Nat.lt_of_lt_of_le hP0lt hle)
  have hcok := h.valid.inode e.Ino c hc
  have hd : ¬(IsDir c.mode = true ∧ c.dirents.Len > 2) := fun hh =>
    Nat.lt_irrefl _ (Nat.lt_of_lt_of_le hh.2 hlen)
  have hreq := MemFS.Rmdir_ok fs P n now x c e h.tbl he ht hePne hc hd
  have hino : (c.rmdirChild now).ino = e.Ino := by
    unfold MemInode.rmdirChild
    rw [MemInode.dropLink_ino]
    exact hcok.ino_eq
  have h1 : (c.rmdirChild now).nlink = 0 := by
    unfold MemInode.rmdirChild
    rw [MemInode.dropLink_nlink]
    show (if dec32 c.nlink = 0 then 0 else dec32 (dec32 c.nlink)) = 0
    rw [hnl]; rfl
  have h2 : (c.rmdirChild now).count = 0 := by
    unfold MemInode.rmdirChild
    rw [MemInode.dropLink_count]
    exact hcnt
  have hchild : (fs.afterRemove P (x.rmdirParent n now) e.Ino (c.rmdirChild now)).itable e.Ino =
      none := by
    rw [MemFS.afterRemove_itable_child _ _ _ _ _ hino, if_pos ⟨h1, h2⟩]
  have hother : ∀ j, j ≠ e.Ino →
      (fs.afterRemove P (x.rmdirParent n now) e.Ino (c.rmdirChild now)).itable j =
        if j = P then some (x.rmdirParent n now) else fs.itable j := by
    intro j hj
    rw [MemFS.afterRemove_itable_ne _ _ _ _ _ _ hj (by rw [hino]; exact hj),
      MemFS.StoreInode_itable]
  have hkeys : (x.rmdirParent n now).dirents.keys = x.dirents.keys.erase n :=
    withoutEntry_keys ((x.Lock now).setNlink (dec32 x.nlink)) n now e he
  have hent_ne : ∀ k, k ≠ n → (x.rmdirParent n now).dirents.entries k = x.dirents.entries k :=
    fun k hk => withoutEntry_entries_ne ((x.Lock now).setNlink (dec32 x.nlink)) n now k hk
  have hent_n : (x.rmdirParent n now).dirents.entries n = none :=
    withoutEntry_entries_same ((x.Lock now).setNlink (dec32 x.nlink)) n now
  have hn0keys : n ∉ x0.dirents.keys := fun hm => by
    have := ((hv0.inode P x0 hP0).dirents.wf.mem_iff n).1 hm
    rw [h.absent n hn] at this
    cases this
  have hmem : ∀ m, m ∈ L.erase n → m ≠ n ∧ m ∈ L := fun m hm =>
    (List.Nodup.mem_erase_iff h.nodup).1 hm
  refine ⟨_, x.rmdirParent n now, hreq, ?_⟩
  exact
    { valid := valid_Rmdir h.valid hreq
      next_le := by rw [next_Rmdir h.valid hreq]; exact h.next_le
      nodup := h.nodup.erase n
      absent := fun m hm => h.absent m (hmem m hm).2
      tbl := by rw [hother P (Ne.symm hePne), if_pos rfl]
      keys := by rw [hkeys, h.keys, List.erase_append_right _ hn0keys]
      frame := fun k hk => by
        by_cases hkn : k = n
        · rw [hkn, hent_n, h.absent n hn]
        · have hkL : k ∉ L := fun hm => hk ((List.Nodup.mem_erase_iff h.nodup).2 ⟨hkn, hm⟩)
          rw [hent_ne k hkn, h.frame k hkL]
      nlink := by
        show dec32 x.nlink = _
        have hl : L.length = (L.erase n).length + 1 := by
          rw [List.length_erase_of_mem hn]
          have : 0 < L.length := List.length_pos_of_mem hn
          omega
        rw [h.nlink, hl, ← Nat.add_assoc, dec32_mod]
      rest := h.rest
      child := fun m hm => by
        obtain ⟨hmn, hmL⟩ := hmem m hm
        obtain ⟨e', c', he', ht', hle', hc', hlen', hnl', hcnt'⟩ := h.child m hmL
        have hne : e'.Ino ≠ e.Ino := fun hh => hmn (h.distinct m n e' e hmL hn he' he hh)
        have hne' : e'.Ino ≠ P := Nat.ne_of_gt (Nat.lt_of_lt_of_le hP0lt hle')
        refine ⟨e', c', by rw [hent_ne m hmn]; exact he', ht', hle', ?_, hlen', hnl', hcnt'⟩
        rw [hother e'.Ino hne, if_neg hne']; exact hc'
      distinct := fun a b e1 e2 ha hb h1' h2' hh => by
        obtain ⟨han, haL⟩ := hmem a ha
        obtain ⟨hbn, hbL⟩ := hmem b hb
        rw [hent_ne a han] at h1'
        rw [hent_ne b hbn] at h2'
        exact h.distinct a b e1 e2 haL hbL h1' h2' hh
      others := fun j hjP hj => by
        by_cases hje : j = e.Ino
        · rw [hje, hchild]
          cases h0 : fs0.itable e.Ino with
          | none => rfl
          | some z =>
            exact absurd (hv0.inode e.Ino z h0).lt_next (Nat.not_lt.2 hle)
        · rw [hother j hje, if_neg hjP]
          refine h.others j hjP (fun m e' hm hme => ?_)
          by_cases hmn : m = n
          · rw [hmn, he] at hme
            rw [← Option.some.inj hme]
            exact Ne.symm hje
          · exact hj m e' ((List.Nodup.mem_erase_iff h.nodup).2 ⟨hmn, hm⟩)
              (by rw [hent_ne m hmn]; exact hme) }

theorem runCalls_append (a : List Call) : ∀ (b : List Call) (fs fs1 fs2 : MemFS) (t : Time)
    (ea eb : List (Option Errno)), runCalls a fs t = some (ea, fs1) →
    runCalls b fs1 (t + a.length) = some (eb, fs2) →
    runCalls (a ++ b) fs t = some (ea ++ eb, fs2) := by
  induction a with
  | nil =>
    intro b fs fs1 fs2 t ea eb h1 h2
    simp only [runCalls, Option.some.injEq, Prod.mk.injEq] at h1
    obtain ⟨h1a, h1b⟩ := h1
    subst h1a
    subst h1b
    simpa using h2
  | cons c a ih =>
    intro b fs fs1 fs2 t ea eb h1 h2
    cases hc : c.exec fs t with
    | none => simp only [runCalls, hc] at h1; cases h1
    | some r =>
      obtain ⟨e, fsm⟩ := r
      cases hr : runCalls a fsm (t + 1) with
      | none => simp only [runCalls, hc, hr] at h1; cases h1
      | some r2 =>
        obtain ⟨es, fsa⟩ := r2
        simp only [runCalls, hc, hr, Option.some.injEq, Prod.mk.injEq] at h1
        have h2' : runCalls b fsa (t + 1 + a.length) = some (eb, fs2) := by
          rw [h1.2]
          have e : t + 1 + a.length = t + (c :: a).length := by
            rw [List.length_cons, Nat.add_assoc, Nat.add_comm 1]
          rw [e]; exact h2
        have := ih b fsm fsa fs2 (t + 1) es eb hr h2'
        rw [List.cons_append, ← h1.1, List.cons_append]
        exact runCalls_cons _ _ _ _ _ _ _ _ hc this

theorem pending_mkdirs {fs0 : MemFS} {P : Nat} {x0 : MemInode} (hv0 : Valid fs0)
    (hP0 : fs0.itable P = some x0) (dirs : List (String × FileMode)) :
    ∀ (L : List String) (fs : MemFS) (x : MemInode) (t : Time), Pending fs0 P x0 L fs x →
      (dirs.map Prod.fst).Nodup →
      (∀ d, d ∈ dirs → d.1 ∉ L ∧ x0.dirents.entries d.1 = none ∧ IsDir d.2 = true) →
      ∃ fs1 x1, runCalls (dirs.map (fun d => Call.Mkdir P d.1 d.2)) fs t =
          some (List.replicate dirs.length none, fs1) ∧
        Pending fs0 P x0 (L ++ dirs.map Prod.fst) fs1 x1 := by
  induction dirs with
  | nil =>
    intro L fs x t h _ _
    exact ⟨fs, x, rfl, by rw [List.map_nil, List.append_nil]; exact h⟩
  | cons d ds ih =>
    intro L fs x t h hnd hall
    obtain ⟨hdL, hdabs, hdmode⟩ := hall d (List.mem_cons_self d ds)
    obtain ⟨st, fsm, xm, hreq, hpm⟩ := pending_mkdir hv0 hP0 h d.1 d.2 t hdL hdabs hdmode
    rw [List.map_cons, List.nodup_cons] at hnd
    have hall' : ∀ d', d' ∈ ds →
        d'.1 ∉ L ++ [d.1] ∧ x0.dirents.entries d'.1 = none ∧ IsDir d'.2 = true := by
      intro d' hd'
      obtain ⟨h1, h2, h3⟩ := hall d' (List.mem_cons_of_mem d hd')
      refine ⟨fun hm => ?_, h2, h3⟩
      rcases List.mem_append.1 hm with hm | hm
      · exact h1 hm
      · exact hnd.1 (List.mem_map.2 ⟨d', hd', (List.mem_singleton.1 hm)⟩)
    obtain ⟨fs1, x1, hrun, hp1⟩ := ih (L ++ [d.1]) fsm xm (t + 1) hpm hnd.2 hall'
    refine ⟨fs1, x1, ?_, ?_⟩
    · rw [List.map_cons, List.length_cons, List.replicate_succ]
      exact runCalls_cons _ _ _ _ _ _ _ _ (by simp only [Call.exec, hreq, Res.outcome]) hrun
    · rw [List.map_cons]
      rw [List.append_assoc, List.singleton_append] at hp1
      exact hp1

theorem pending_rmdirs {fs0 : MemFS} {P : Nat} {x0 : MemInode} (hv0 : Valid fs0)
    (hP0 : fs0.itable P = some x0) (perm : List String) :
    ∀ (L : List String) (fs : MemFS) (x : MemInode) (t : Time), Pending fs0 P x0 L fs x →
      perm.Nodup → (∀ n, n ∈ perm → n ∈ L) →
      ∃ L1 fs1 x1, runCalls (perm.map (fun n => Call.Rmdir P n)) fs t =
          some (List.replicate perm.length none, fs1) ∧
        Pending fs0 P x0 L1 fs1 x1 ∧ L1.length + perm.length = L.length := by
  induction perm with
  | nil =>
    intro L fs x t h _ _
    exact ⟨L, fs, x, rfl, h, rfl⟩
  | cons n ns ih =>
    intro L fs x t h hnd hall
    have hnL := hall n (List.mem_cons_self n ns)
    obtain ⟨fsm, xm, hreq, hpm⟩ := pending_rmdir hv0 hP0 h n t hnL
    rw [List.nodup_cons] at hnd
    have hall' : ∀ m, m ∈ ns → m ∈ L.erase n := fun m hm =>
      (List.Nodup.mem_erase_iff h.nodup).2
        ⟨fun e => hnd.1 (e ▸ hm), hall m (List.mem_cons_of_mem n hm)⟩
    obtain ⟨L1, fs1, x1, hrun, hp1, hlen⟩ := ih (L.erase n) fsm xm (t + 1) hpm hnd.2 hall'
    refine ⟨L1, fs1, x1, ?_, hp1, ?_⟩
    · rw [List.map_cons, List.length_cons, List.replicate_succ]
      exact runCalls_cons _ _ _ _ _ _ _ _ (by simp only [Call.exec, hreq, Res.outcome]) hrun
    · rw [List.length_erase_of_mem hnL] at hlen
      have : 0 < L.length := List.length_pos_of_mem hnL
      rw [List.length_cons]
      omega

/-- C11: Mkdir followed by Rmdir is a round trip on the parent.  In a valid
store with inode P in the table, make in P directories under pairwise different
names that P does not hold (each with a directory mode), then remove them with
Rmdir in any order: every call succeeds, and afterwards P has its entries of
before, in their order, and its nlink of before (P differs from its former
self in timestamps at most), the table holds the same inode numbers, and every
inode other than P is untouched.  One Mkdir followed
by the Rmdir of its name is the case of one name. -/
theorem C11_mkdir_rmdir_round_trip (fs : MemFS) (P : Nat) (x : MemInode)
    (dirs : List (String × FileMode)) (perm : List String) (t : Time) (hv : Valid fs)
    (hP : fs.itable P = some x) (hnd : (dirs.map Prod.fst).Nodup)
    (hdirs : ∀ d, d ∈ dirs → x.dirents.entries d.1 = none ∧ IsDir d.2 = true)
    (hperm : perm.Perm (dirs.map Prod.fst)) :
    ∃ fs1 x1,
      runCalls (dirs.map (fun d => Call.Mkdir P d.1 d.2) ++
          perm.map (fun n => Call.Rmdir P n)) fs t =
        some (List.replicate (dirs.length + perm.length) none, fs1) ∧
      fs1.itable P = some x1 ∧ x1.dirents.keys = x.dirents.keys ∧
      x1.dirents.entries = x.dirents.entries ∧ x1.nlink = x.nlink ∧
      (x1.ino = x.ino ∧ x1.count = x.count ∧ x1.mode = x.mode ∧ x1.data = x.data) ∧
      (∀ j, (fs1.itable j).isSome = (fs.itable j).isSome) ∧
      (∀ j, j ≠ P → fs1.itable j = fs.itable j) := by
  obtain ⟨fsa, xa, hrunA, hpA⟩ := pending_mkdirs hv hP dirs [] fs x t
    (pending_start fs P x hv hP) hnd
    (fun d hd => ⟨fun hm => (by cases hm), (hdirs d hd).1, (hdirs d hd).2⟩)
  rw [List.nil_append] at hpA
  obtain ⟨L1, fs1, x1, hrunB, hpB, hlen⟩ := pending_rmdirs hv hP perm (dirs.map Prod.fst) fsa xa
    (t + (dirs.map (fun d => Call.Mkdir P d.1 d.2)).length) hpA
    (hperm.nodup_iff.2 hnd) (fun n hn => hperm.mem_iff.1 hn)
  have hL1 : L1 = [] := by
    have := hperm.length_eq
    exact List.length_eq_zero.1 (by omega)
  rw [hL1] at hpB
  have hnot : ∀ j, j ≠ P → fs1.itable j = fs.itable j := fun j hj =>
    hpB.others j hj (fun n e hn => by cases hn)
  refine ⟨fs1, x1, ?_, hpB.tbl, by rw [hpB.keys, List.append_nil],
    funext (fun k => hpB.frame k (fun hm => by cases hm)), ?_, hpB.rest, fun j => ?_, hnot⟩
  · have := runCalls_append _ _ fs fsa fs1 t _ _ hrunA hrunB
    rw [← List.replicate_add] at this
    exact this
  · rw [hpB.nlink, List.length_nil, Nat.add_zero, Nat.mod_eq_of_lt (hv.inode P x hP).nlink_lt]
  · by_cases hj : j = P
    · rw [hj, hpB.tbl, hP]
      rfl
    · rw [hnot j hj]

/-- C11, witness: on a fresh store, mkdir d, mkdir e, rmdir e, rmdir d in the
root; the names are different and new, and e, d is an order of d, e. -/
theorem C11_mkdir_rmdir_round_trip_witness :
    Valid (NewMemFS 0) ∧ (NewMemFS 0).itable 1 = some ((NewMemFS 0).inodeAt 1) ∧
      ([("d", dirMode), ("e", dirMode)].map Prod.fst).Nodup ∧
      ["e", "d"].Perm ([("d", dirMode), ("e", dirMode)].map Prod.fst) ∧
      ∃ fs1, runCalls [.Mkdir 1 "d" dirMode, .Mkdir 1 "e" dirMode, .Rmdir 1 "e",
          .Rmdir 1 "d"] (NewMemFS 0) 1 = some ([none, none, none, none], fs1) ∧
        (fs1.itable 1).map MemInode.nlink = some 2 :=
  ⟨valid_NewMemFS 0, rfl, by decide, List.Perm.swap "d" "e" [],
    match C11_mkdir_rmdir_round_trip (NewMemFS 0) 1 ((NewMemFS 0).inodeAt 1)
        [("d", dirMode), ("e", dirMode)] ["e", "d"] 1 (valid_NewMemFS 0) rfl (by decide)
        (by decide) (List.Perm.swap "d" "e" []) with
    | ⟨fs1, x1, hrun, htbl, _, _, hnl, _, _⟩ => ⟨fs1, hrun, by rw [htbl]; exact congrArg some hnl⟩⟩

theorem MemInode.Setattr_enosys (x : MemInode) (attrs : Attrs) (now : Time)
    (h : attrs.gid.isSome = true ∨ attrs.uid.isSome = true) :
    x.Setattr attrs now = some (.error .ENOSYS, x.withMode attrs now) := by
  unfold MemInode.Setattr MemInode.withMode
  dsimp only
  by_cases hg : attrs.gid.isSome = true
  · rw [if_pos hg]
  · rw [if_neg hg]
    have hu : attrs.uid.isSome = true := h.resolve_left hg
    rw [if_pos hu]

theorem MemInode.Setattr_nosize (x : MemInode) (attrs : Attrs) (now : Time)
    (hg : attrs.gid = none) (hu : attrs.uid = none) (hs : attrs.size = none) :
    x.Setattr attrs now = some (.ok (x.applied attrs now).Stat, x.applied attrs now) := by
  unfold MemInode.Setattr MemInode.applied MemInode.withMode
  simp only [hg, hu, hs, Option.isSome_none, Bool.false_eq_true, if_false]

theorem MemInode.Setattr_eisdir (x : MemInode) (attrs : Attrs) (now : Time) (s : Nat)
    (hg : attrs.gid = none) (hu : attrs.uid = none) (hs : attrs.size = some s)
    (hd : IsDir (x.applied attrs now).mode = true) :
    x.Setattr attrs now = some (.error .EISDIR, x.applied attrs now) := by
  unfold MemInode.applied MemInode.withMode at hd
  unfold MemInode.Setattr MemInode.applied MemInode.withMode
  simp only [hg, hu, hs, Option.isSome_none, Bool.false_eq_true, if_false]
  dsimp only at hd ⊢
  rw [if_pos hd]

theorem MemInode.Setattr_size (x : MemInode) (attrs : Attrs) (now : Time) (s : Nat)
    (hg : attrs.gid = none) (hu : attrs.uid = none) (hs : attrs.size = some s)
    (hd : IsDir (x.applied attrs now).mode = false) (hlt : s < 9223372036854775808) :
    x.Setattr attrs now =
      some (.ok ((x.applied attrs now).resized s now).Stat,
        (x.applied attrs now).resized s now) := by
  unfold MemInode.applied MemInode.withMode at hd
  unfold MemInode.Setattr MemInode.applied MemInode.withMode
  simp only [hg, hu, hs, Option.isSome_none, Bool.false_eq_true, if_false]
  dsimp only at hd ⊢
  rw [if_neg (by rw [hd]; exact Bool.false_ne_true), toInt_of_lt s hlt, PadRight_eq]
  rfl

theorem MemFS.Setattr_ret (fs : MemFS) (ino : Nat) (x y : MemInode) (attrs : Attrs)
    (now : Time) (v : Except Errno Fused.Stat) (hx : fs.itable ino = some x)
    (h : (x.Lock now).Setattr attrs now = some (v, y)) :
    fs.Setattr ino attrs now = .ret v (fs.StoreInode ino y) := by
  unfold MemFS.Setattr MemFS.LoadInode
  rw [hx]
  dsimp only
  rw [h]

theorem MemInode.applied_frame (x : MemInode) (attrs : Attrs) (now : Time) :
    (x.applied attrs now).dirents = x.dirents ∧ (x.applied attrs now).data = x.data ∧
      (x.applied attrs now).nlink = x.nlink ∧ (x.applied attrs now).count = x.count ∧
      (x.applied attrs now).ino = x.ino := by
  unfold MemInode.applied MemInode.withMode
  cases attrs.mode <;> cases attrs.atime <;> cases attrs.mtime <;>
    exact ⟨rfl, rfl, rfl, rfl, rfl⟩

theorem MemInode.applied_mode (x : MemInode) (attrs : Attrs) (now : Time) :
    (x.applied attrs now).mode = attrs.mode.getD x.mode := by
  unfold MemInode.applied MemInode.withMode
  cases attrs.mode <;> cases attrs.atime <;> cases attrs.mtime <;> rfl

theorem MemInode.applied_atime (x : MemInode) (attrs : Attrs) (now : Time) :
    (x.applied attrs now).atime = attrs.atime.getD x.atime := by
  unfold MemInode.applied MemInode.withMode
  cases attrs.mode <;> cases attrs.atime <;> cases attrs.mtime <;> rfl

theorem MemInode.applied_mtime (x : MemInode) (attrs : Attrs) (now : Time) :
    (x.applied attrs now).mtime = attrs.mtime.getD x.mtime := by
  unfold MemInode.applied MemInode.withMode
  cases attrs.mode <;> cases attrs.atime <;> cases attrs.mtime <;> rfl

/-- C21, the claim as stated fails for sizes from 2 to the power 63 on: file a
of `exFilesAB` (inode 2) is a regular file, and Setattr with the size
18446744073709551615 (for which `int(sz)` is -1) and an atime panics in
`PadRight` instead of succeeding. -/
theorem C21_setattr_huge_size_panics :
    (exFilesAB.itable 2).map (fun x => IsDir x.mode) = some false ∧
    toInt 18446744073709551615 = -1 ∧
    exFilesAB.Setattr 2
      { mode := none, gid := none, uid := none, atime := some 7, mtime := none,
        size := some 18446744073709551615 } 30 = .panic := by
  refine ⟨by decide, by decide, rfl⟩

/-- C21 (amended): outcomes of Setattr on an inode x of the table.  (1) With
uid or gid in the attribute set, whatever else it holds, the call returns
ENOSYS.  (2) On a directory, with size and without uid, gid and mode, it
returns EISDIR and the inode keeps its entries, link count and data.  (3) With
any subset of mode, atime, mtime (no uid, gid, size) it succeeds and returns
the stat of the inode as the call leaves it, which has the mode, atime and
mtime given.  (4) On a regular file, with a size below 2 to the power 63, with
or without atime and mtime and a non-directory mode (no uid, gid), it succeeds
and returns the stat of the inode as the call leaves it, whose size is the one
given and whose mode and atime are those given. -/
theorem C21_setattr_outcomes (fs : MemFS) (ino : Nat) (x : MemInode) (now : Time)
    (hx : fs.itable ino = some x) :
    (∀ attrs : Attrs, attrs.gid.isSome = true ∨ attrs.uid.isSome = true →
      ∃ fs1, fs.Setattr ino attrs now = .ret (.error .ENOSYS) fs1) ∧
    (∀ (attrs : Attrs) (s : Nat), IsDir x.mode = true → attrs.size = some s →
      attrs.gid = none → attrs.uid = none → attrs.mode = none →
      ∃ fs1 y, fs.Setattr ino attrs now = .ret (.error .EISDIR) fs1 ∧
        fs1.itable ino = some y ∧ y.dirents = x.dirents ∧ y.nlink = x.nlink ∧
        y.data = x.data) ∧
    (∀ attrs : Attrs, attrs.gid = none → attrs.uid = none → attrs.size = none →
      ∃ fs1 y, fs.Setattr ino attrs now = .ret (.ok y.Stat) fs1 ∧
        fs1.itable ino = some y ∧
        (∀ m, attrs.mode = some m → y.Stat.Mode = m) ∧
        (∀ a, attrs.atime = some a → y.Stat.Atime = a) ∧
        (∀ m, attrs.mtime = some m → y.Stat.Mtime = m) ∧
        y.data = x.data ∧ y.dirents = x.dirents) ∧
    (∀ (attrs : Attrs) (s : Nat), attrs.gid = none → attrs.uid = none →
      attrs.size = some s → s < 9223372036854775808 → IsDir x.mode = false →
      (∀ m, attrs.mode = some m → IsDir m = false) →
      ∃ fs1 y, fs.Setattr ino attrs now = .ret (.ok y.Stat) fs1 ∧
        fs1.itable ino = some y ∧ y.Stat.Size = s ∧
        (∀ m, attrs.mode = some m → y.Stat.Mode = m) ∧
        (∀ a, attrs.atime = some a → y.Stat.Atime = a) ∧
        y.dirents = x.dirents) := by
  refine ⟨fun attrs h => ?_, fun attrs s hd hs hg hu hm => ?_, fun attrs hg hu hs => ?_,
    fun attrs s hg hu hs hlt hreg hm => ?_⟩
  · exact ⟨_, MemFS.Setattr_ret fs ino x _ attrs now _ hx
      (MemInode.Setattr_enosys (x.Lock now) attrs now h)⟩
  · have hmode : ((x.Lock now).applied attrs now).mode = x.mode := by
      rw [MemInode.applied_mode, hm]; rfl
    have hf := (x.Lock now).applied_frame attrs now
    refine ⟨_, (x.Lock now).applied attrs now, MemFS.Setattr_ret fs ino x _ attrs now _ hx
      (MemInode.Setattr_eisdir (x.Lock now) attrs now s hg hu hs (by rw [hmode]; exact hd)),
      by simp, hf.1, hf.2.2.1, hf.2.1⟩
  · have hf := (x.Lock now).applied_frame attrs now
    refine ⟨_, (x.Lock now).applied attrs now, MemFS.Setattr_ret fs ino x _ attrs now _ hx
      (MemInode.Setattr_nosize (x.Lock now) attrs now hg hu hs), by simp,
      fun m h => ?_, fun a h => ?_, fun m h => ?_, hf.2.1, hf.1⟩
    · show ((x.Lock now).applied attrs now).mode = m
      rw [MemInode.applied_mode, h]; rfl
    · show ((x.Lock now).applied attrs now).atime = a
      rw [MemInode.applied_atime, h]; rfl
    · show ((x.Lock now).applied attrs now).mtime = m
      rw [MemInode.applied_mtime, h]; rfl
  · have hmode : IsDir ((x.Lock now).applied attrs now).mode = false := by
      rw [MemInode.applied_mode]
      cases hmo : attrs.mode with
      | none => exact hreg
      | some m => exact hm m hmo
    have hf := (x.Lock now).applied_frame attrs now
    refine ⟨_, ((x.Lock now).applied attrs now).resized s now,
      MemFS.Setattr_ret fs ino x _ attrs now _ hx
        (MemInode.Setattr_size (x.Lock now) attrs now s hg hu hs hmode hlt), by simp, ?_,
      fun m h => ?_, fun a h => ?_, hf.1⟩
    · show ((((x.Lock now).applied attrs now).data ++
        List.replicate (s - ((x.Lock now).applied attrs now).data.length) 0).take s).length = s
      rw [List.length_take, List.length_append, List.length_replicate]
      omega
    · show ((x.Lock now).applied attrs now).mode = m
      rw [MemInode.applied_mode, h]; rfl
    · show ((x.Lock now).applied attrs now).atime = a
      rw [MemInode.applied_atime, h]; rfl

/-- C21 (amended), witness: the root of a fresh store is a directory; Setattr
with the size 0 alone returns EISDIR. -/
theorem C21_setattr_outcomes_witness :
    (NewMemFS 0).itable 1 = some ((NewMemFS 0).inodeAt 1) ∧
      IsDir ((NewMemFS 0).inodeAt 1).mode = true ∧
      ∃ fs1, (NewMemFS 0).Setattr 1 (sizeOnly 0) 5 = .ret (.error .EISDIR) fs1 :=
  ⟨rfl, by decide,
    match (C21_setattr_outcomes (NewMemFS 0) 1 ((NewMemFS 0).inodeAt 1) 5 rfl).2.1
        (sizeOnly 0) 0 (by decide) rfl rfl rfl rfl with
    | ⟨fs1, _, h, _⟩ => ⟨fs1, h⟩⟩

theorem FuseError_errno (e : Errno) :
    FuseError (some e.toGo) = .ret (some (.fuseErrno e.code)) := rfl

theorem MemFS.Setattr_noAttrs (fs : MemFS) (ino : Nat) (x : MemInode) (now : Time)
    (hx : fs.itable ino = some x) :
    fs.Setattr ino noAttrs now =
      .ret (.ok (x.Lock now).Stat) (fs.StoreInode ino (x.Lock now)) :=
  MemFS.Setattr_ret fs ino x (x.Lock now) noAttrs now _ hx
    (MemInode.Setattr_nosize (x.Lock now) noAttrs now rfl rfl rfl)

/-- C22, the claim as stated fails: the backend accepts an attribute set
without any key.  On a fresh store, `MemFS.Setattr` of the root with the empty
set returns the stat of the root and no error. -/
theorem C22_backend_accepts_empty_attribute_set :
    noAttrs.len = 0 ∧
    ((NewMemFS 0).Setattr 1 noAttrs 5).outcome.map Prod.fst = some none ∧
    ((NewMemFS 0).Setattr 1 noAttrs 5).value =
      .ok (((NewMemFS 0).inodeAt 1).Lock 5).Stat := by
  refine ⟨by decide, by decide, rfl⟩

/-- C22 (amended): the empty attribute set is refused by the adapter, not by
the backend.  `(*FuseNode).Setattr` with a request whose `Valid` mask has none
of the bits for mode, uid, gid, size, atime, mtime returns the protocol errno
EINVAL without calling the backend: the adapter state, backend store and
cached stat included, is exactly as before.  The backend `MemFS.Setattr`
called with the empty attribute set on an inode x of the table returns the
stat of x without error and changes nothing but the access time of x. -/
theorem C22_empty_setattr_refused_by_adapter :
    (∀ (s : FS) (p : Nat) (fn : FuseNode) (req : SetattrRequest) (now : Time),
      s.nodes p = some fn →
      req.Valid &&& SetattrMode = 0 → req.Valid &&& SetattrGid = 0 →
      req.Valid &&& SetattrUid = 0 → req.Valid &&& SetattrSize = 0 →
      req.Valid &&& SetattrAtime = 0 → req.Valid &&& SetattrMtime = 0 →
      FuseNode.Setattr s p req now =
        .ret (some (.fuseErrno (Errno.code Errno.EINVAL))) () s) ∧
    (∀ (fs : MemFS) (ino : Nat) (x : MemInode) (now : Time), fs.itable ino = some x →
      ∃ fs1, fs.Setattr ino noAttrs now = .ret (.ok (x.Lock now).Stat) fs1 ∧
        fs.sameButAtime fs1) := by
  constructor
  · intro s p fn req now hp h1 h2 h3 h4 h5 h6
    have ha : req.attrs = noAttrs := by
      unfold SetattrRequest.attrs noAttrs
      simp only [h1, h2, h3, h4, h5, h6, ne_eq, not_true_eq_false, if_false]
    unfold FuseNode.Setattr
    rw [hp]
    dsimp only
    rw [ha, if_pos (by decide)]
    rfl
  · intro fs ino x now hx
    exact ⟨_, MemFS.Setattr_noAttrs fs ino x now hx, fs.sameButAtime_lock ino x now hx⟩

/-- C22 (amended), witness: a request whose mask holds the bit 64 alone (the
handle bit), on the root node of an adapter over a fresh store. -/
theorem C22_empty_setattr_refused_by_adapter_witness :
    ((FS.init (NewMemFS 0)).Root.2.nodes 0).isSome = true ∧
      FuseNode.Setattr (FS.init (NewMemFS 0)).Root.2 0
          { Valid := 64, Mode := 0, Gid := 0, Uid := 0, Size := 0, Atime := 0, Mtime := 0 } 5 =
        .ret (some (.fuseErrno (Errno.code Errno.EINVAL))) () (FS.init (NewMemFS 0)).Root.2 :=
  ⟨rfl, C22_empty_setattr_refused_by_adapter.1 (FS.init (NewMemFS 0)).Root.2 0
    { ino := 1, attr := none }
    { Valid := 64, Mode := 0, Gid := 0, Uid := 0, Size := 0, Atime := 0, Mtime := 0 } 5 rfl
    (by decide) (by decide) (by decide) (by decide) (by decide) (by decide)⟩

theorem derefAll_filterMap (f : String → Option Dirent) (l : List String)
    (h : ∀ k, k ∈ l → (f k).isSome = true) :
    MemInode.derefAll (l.map f) = some (l.filterMap f) := by
  induction l with
  | nil => rfl
  | cons k l ih =>
    have hk := h k (List.mem_cons_self k l)
    cases hf : f k with
    | none => rw [hf] at hk; cases hk
    | some e =>
      have := ih (fun j hj => h j (List.mem_cons_of_mem k hj))
      simp only [List.map_cons, hf, MemInode.derefAll, this, List.filterMap_cons]

theorem MemInode.Readdir_listing (x : MemInode) (hwf : x.dirents.WF) :
    x.Readdir (-1) = some x.listing := by
  unfold MemInode.Readdir MemInode.listing
  rw [if_pos (by decide)]
  show MemInode.derefAll ((x.dirents.keys.map x.dirents.entries).take x.dirents.keys.length) = _
  rw [← List.length_map x.dirents.keys x.dirents.entries, List.take_length]
  exact derefAll_filterMap _ _ (fun k hk => (hwf.mem_iff k).1 hk)

theorem MemFS.Readdir_ok (fs : MemFS) (ino : Nat) (x : MemInode) (now : Time)
    (hx : fs.itable ino = some x) (hwf : x.dirents.WF) :
    fs.Readdir ino "" 0 now = .ret (.ok x.listing) (fs.StoreInode ino (x.Lock now)) := by
  unfold MemFS.Readdir MemFS.LoadInode
  rw [hx]
  dsimp only
  rw [if_neg (by decide)]
  have h : (x.Lock now).Readdir (-1) = some x.listing :=
    MemInode.Readdir_listing (x.Lock now) hwf
  rw [h]

theorem filterMap_congr_mem (f g : String → Option Dirent) (l : List String)
    (h : ∀ k, k ∈ l → f k = g k) : l.filterMap f = l.filterMap g := by
  induction l with
  | nil => rfl
  | cons k l ih =>
    rw [List.filterMap_cons, List.filterMap_cons, h k (List.mem_cons_self k l),
      ih (fun j hj => h j (List.mem_cons_of_mem k hj))]

theorem listing_put (x z : MemInode) (n : String) (e : Dirent) (hwf : x.dirents.WF)
    (hn : x.dirents.entries n = none) (hz : z.dirents = x.dirents.Put n e) :
    z.listing = x.listing ++ [e] := by
  unfold MemInode.listing
  have hnk : n ∉ x.dirents.keys := fun hm => by
    have := (hwf.mem_iff n).1 hm
    rw [hn] at this; cases this
  rw [hz, ListMap.Put_keys_of_none _ _ _ hn, ListMap.Put_entries, List.filterMap_append]
  congr 1
  · exact filterMap_congr_mem _ _ _ (fun k hk =>
      ListMap.setEntry_ne _ _ (fun (e1 : k = n) => hnk (e1 ▸ hk)))
  · simp [ListMap.setEntry]

theorem filterMap_drop_name (f g : String → Option Dirent) (n : String) (l : List String)
    (hname : ∀ k e, f k = some e → e.Name = k) (hg : ∀ k, k ≠ n → g k = f k) :
    (l.filter (fun k => k != n)).filterMap g =
      (l.filterMap f).filter (fun e => e.Name != n) := by
  induction l with
  | nil => rfl
  | cons k l ih =>
    by_cases hk : k = n
    · rw [List.filter_cons_of_neg (by simp [hk]), ih, List.filterMap_cons]
      cases hf : f k with
      | none => rfl
      | some e =>
        dsimp only
        rw [List.filter_cons_of_neg]
        rw [hname k e hf]
        simp [hk]
    · rw [List.filter_cons_of_pos (by simp [hk]), List.filterMap_cons, List.filterMap_cons,
        hg k hk]
      cases hf : f k with
      | none => exact ih
      | some e =>
        dsimp only
        rw [List.filter_cons_of_pos, ih]
        rw [hname k e hf]
        simp [hk]

theorem listing_delete (x z : MemInode) (n : String) (next : Nat)
    (hok : DirentsOK next x.dirents) (hz : z.dirents = x.dirents.Delete n) :
    z.listing = x.listing.filter (fun e => e.Name != n) := by
  unfold MemInode.listing
  have hname : ∀ k e, x.dirents.entries k = some e → e.Name = k :=
    fun k e h => (hok.entry k e h).1
  have hgen := filterMap_drop_name x.dirents.entries (ListMap.setEntry x.dirents.entries n none)
    n x.dirents.keys hname (fun k hk => ListMap.setEntry_ne _ _ hk)
  cases hn : x.dirents.entries n with
  | none =>
    have hnk : n ∉ x.dirents.keys := fun hm => by
      have := (hok.wf.mem_iff n).1 hm
      rw [hn] at this; cases this
    rw [hz, ListMap.Delete_of_none _ _ hn, ← hgen]
    have hfe : x.dirents.keys.filter (fun k => k != n) = x.dirents.keys := by
      rw [List.filter_eq_self]
      intro k hk
      simp only [bne_iff_ne, ne_eq]
      exact fun (e1 : k = n) => hnk (e1 ▸ hk)
    rw [hfe]
    exact filterMap_congr_mem _ _ _ (fun k hk =>
      (ListMap.setEntry_ne _ _ (fun (e1 : k = n) => hnk (e1 ▸ hk))).symm)
  | some e =>
    rw [hz, ListMap.Delete_keys_of_some _ _ (by rw [hn]; rfl), ListMap.Delete_entries,
      List.Nodup.erase_eq_filter hok.wf.nodup, ← hgen]

theorem creation_step (fs : MemFS) (D : Nat) (y : MemInode) (name : String) (mode : FileMode)
    (t : Time) (reference : Bool) (hv : Valid fs) (hD : fs.itable D = some y)
    (hg : y.dirents.entries name = none) :
    ∃ st fs1 y1, fs.createInode D name mode t reference = .ret (.ok st) fs1 ∧
      st.Ino = fs.inoNextFree ∧ fs1.itable D = some y1 ∧
      y1.dirents = y.dirents.Put name
        { Ino := fs.inoNextFree, Name := name, Typ := modeType mode } ∧
      fs1.inoNextFree = fs.inoNextFree + 1 ∧
      (∀ j, j ≠ D → j ≠ fs.inoNextFree → fs1.itable j = fs.itable j) := by
  have hy := hv.inode D y hD
  have hDne : D ≠ fs.inoNextFree := Nat.ne_of_lt hy.lt_next
  cases hd : IsDir mode with
  | false =>
    refine ⟨_, _, (y.Lock t).withEntry name fs.inoNextFree (modeType mode) t,
      MemFS.createInode_file fs D name mode t reference y hD hg hd, refIf_Stat_Ino _ _, ?_,
      rfl, rfl, fun j h1 h2 => ?_⟩
    · simp only [MemFS.StoreInode_itable, if_neg hDne, if_true]
    · simp only [MemFS.StoreInode_itable, if_neg h1, if_neg h2]
      rfl
  | true =>
    have hn0 : fs.inoNextFree ≠ 0 := Nat.pos_iff_ne_zero.1 hv.next_pos
    have hpne : y.ino ≠ 0 := by rw [hy.ino_eq]; exact Nat.pos_iff_ne_zero.1 hy.pos
    refine ⟨_, _, ((y.Lock t).withEntry name fs.inoNextFree (modeType mode) t).setNlink
        (inc32 y.nlink),
      MemFS.createInode_dir fs D name mode t reference y hD hg hd hn0 hpne,
      refIf_Stat_Ino _ _, ?_, rfl, rfl, fun j h1 h2 => ?_⟩
    · simp only [MemFS.StoreInode_itable, if_neg hDne, if_true]
    · simp only [MemFS.StoreInode_itable, if_neg h1, if_neg h2]
      rfl

theorem creation_exec (fs fs1 : MemFS) (D : Nat) (c : Creation) (t : Time) (st : Fused.Stat)
    (h : fs.createInode D c.name c.mode t c.viaCreate = .ret (.ok st) fs1) :
    (c.call D).exec fs t = some (none, fs1) ∧ (c.call D).newIno fs t = some st.Ino := by
  unfold Creation.call
  cases hc : c.viaCreate with
  | true =>
    rw [hc] at h
    simp only [if_true, Call.exec, Call.newIno, MemFS.Create, h, Res.outcome, and_self]
  | false =>
    rw [hc] at h
    simp only [Bool.false_eq_true, if_false, Call.exec, Call.newIno, MemFS.Mkdir, h,
      Res.outcome, and_self]

theorem creations_run (D : Nat) (cs : List Creation) :
    ∀ (fs : MemFS) (y : MemInode) (t : Time), Valid fs → fs.itable D = some y →
      (cs.map Creation.name).Nodup → (∀ c, c ∈ cs → y.dirents.entries c.name = none) →
      ∃ fs2 y2, runCalls (cs.map (Creation.call D)) fs t =
          some (List.replicate cs.length none, fs2) ∧
        Valid fs2 ∧ fs2.itable D = some y2 ∧
        y2.listing = y.listing ++ createdEntries fs.inoNextFree cs ∧
        handedOut (cs.map (Creation.call D)) fs t =
          (createdEntries fs.inoNextFree cs).map (fun e => (e.Ino, false)) := by
  induction cs with
  | nil =>
    intro fs y t hv hD _ _
    exact ⟨fs, y, rfl, hv, hD, by simp [createdEntries], rfl⟩
  | cons c cs ih =>
    intro fs y t hv hD hnd habs
    have hg := habs c (List.mem_cons_self c cs)
    obtain ⟨st, fs1, y1, hreq, hst, hD1, hy1, hnext, _⟩ :=
      creation_step fs D y c.name c.mode t c.viaCreate hv hD hg
    have hv1 : Valid fs1 := valid_createInode hv hreq
    obtain ⟨hexec, hnew⟩ := creation_exec fs fs1 D c t st hreq
    rw [List.map_cons, List.nodup_cons] at hnd
    have habs1 : ∀ c', c' ∈ cs → y1.dirents.entries c'.name = none := by
      intro c' hc'
      have hne : c'.name ≠ c.name := fun e => hnd.1 (e ▸ List.mem_map_of_mem Creation.name hc')
      rw [hy1, ListMap.Put_entries, ListMap.setEntry_ne _ _ hne]
      exact habs c' (List.mem_cons_of_mem c hc')
    obtain ⟨fs2, y2, hrun, hv2, hD2, hlist, hout⟩ := ih fs1 y1 (t + 1) hv1 hD1 hnd.2 habs1
    refine ⟨fs2, y2, ?_, hv2, hD2, ?_, ?_⟩
    · rw [List.map_cons, List.length_cons, List.replicate_succ]
      exact runCalls_cons _ _ _ _ _ _ _ _ hexec hrun
    · rw [hlist, listing_put y y1 c.name _ (hv.inode D y hD).dirents.wf hg hy1, hnext,
        List.append_assoc]
      rfl
    · rw [List.map_cons]
      simp only [handedOut, hexec, hnew, hst, valid_free_at_next hv, Option.isSome_none]
      rw [hout, hnext]
      rfl

theorem listing_names (x : MemInode) (next : Nat) (hok : DirentsOK next x.dirents) :
    x.listing.map Dirent.Name = x.dirents.keys := by
  have hall : ∀ k, k ∈ x.dirents.keys → ∃ e, x.dirents.entries k = some e ∧ e.Name = k := by
    intro k hk
    have hs := (hok.wf.mem_iff k).1 hk
    cases he : x.dirents.entries k with
    | none => rw [he] at hs; cases hs
    | some e => exact ⟨e, rfl, (hok.entry k e he).1⟩
  obtain ⟨ds, hds, hn⟩ := derefAll_of_named x.dirents.entries x.dirents.keys hall
  have h2 := derefAll_filterMap x.dirents.entries x.dirents.keys
    (fun k hk => (hok.wf.mem_iff k).1 hk)
  rw [hds] at h2
  have : ds = x.listing := Option.some.inj h2
  rw [← this]; exact hn

theorem listing_mem (x : MemInode) (hwf : x.dirents.WF) (k : String) (e : Dirent)
    (h : x.dirents.entries k = some e) : e ∈ x.listing := by
  unfold MemInode.listing
  rw [List.mem_filterMap]
  exact ⟨k, (hwf.mem_iff k).2 (by rw [h]; rfl), h⟩

theorem removal_parent (fs fs1 : MemFS) (D : Nat) (n : String) (t : Time) (hv : Valid fs)
    (h : fs.Unlink D n t = .ret (.ok ()) fs1 ∨ fs.Rmdir D n t = .ret (.ok ()) fs1) :
    ∃ x x1, fs.itable D = some x ∧ fs1.itable D = some x1 ∧
      x1.dirents = x.dirents.Delete n := by
  cases hx : fs.itable D with
  | none =>
    rcases h with h | h
    · rw [MemFS.Unlink_noent fs D n t hx] at h; cases h
    · rw [MemFS.Rmdir_noent fs D n t hx] at h; cases h
  | some x =>
    cases he : x.dirents.entries n with
    | none =>
      rcases h with h | h
      · rw [MemFS.Unlink_noname fs D n t x hx he] at h; cases h
      · rw [MemFS.Rmdir_noname fs D n t x hx he] at h; cases h
    | some e =>
      by_cases hs : e.Ino = D
      · rcases h with h | h
        · rw [MemFS.Unlink_self fs D n t x e hx he hs] at h; cases h
        · cases ht : IsDir e.Typ with
          | false => rw [MemFS.Rmdir_notdir fs D n t x e hx he ht] at h; cases h
          | true => rw [MemFS.Rmdir_self fs D n t x e hx he ht hs] at h; cases h
      · cases hc : fs.itable e.Ino with
        | none =>
          rcases h with h | h
          · rw [MemFS.Unlink_dangling fs D n t x e hx he hs hc] at h; cases h
          · cases ht : IsDir e.Typ with
            | false => rw [MemFS.Rmdir_notdir fs D n t x e hx he ht] at h; cases h
            | true => rw [MemFS.Rmdir_dangling fs D n t x e hx he ht hs hc] at h; cases h
        | some c =>
          have hcino : c.ino = e.Ino := (hv.inode e.Ino c hc).ino_eq
          have hDe : D ≠ e.Ino := Ne.symm hs
          rcases h with h | h
          · rw [MemFS.Unlink_ok fs D n t x c e hx he hs hc] at h
            have hfs : fs1 = fs.afterRemove D ((x.Lock t).withoutEntry n t) e.Ino
                ((c.Lock t).dropLink t) := by
              cases h; rfl
            refine ⟨x, (x.Lock t).withoutEntry n t, rfl, ?_, rfl⟩
            rw [hfs, MemFS.afterRemove_itable_ne _ _ _ _ _ _ hDe
              (by rw [MemInode.dropLink_ino]; exact fun e1 => hDe (e1.trans hcino))]
            simp
          · cases ht : IsDir e.Typ with
            | false => rw [MemFS.Rmdir_notdir fs D n t x e hx he ht] at h; cases h
            | true =>
              by_cases hd : IsDir c.mode = true ∧ c.dirents.Len > 2
              · rw [MemFS.Rmdir_notempty fs D n t x c e hx he ht hs hc hd.1 hd.2] at h
                cases h
              · rw [MemFS.Rmdir_ok fs D n t x c e hx he ht hs hc hd] at h
                have hfs : fs1 = fs.afterRemove D (x.rmdirParent n t) e.Ino
                    (c.rmdirChild t) := by
                  cases h; rfl
                have hino : (c.rmdirChild t).ino = e.Ino := by
                  unfold MemInode.rmdirChild
                  rw [MemInode.dropLink_ino]
                  exact hcino
                refine ⟨x, x.rmdirParent n t, rfl, ?_, rfl⟩
                rw [hfs, MemFS.afterRemove_itable_ne _ _ _ _ _ _ hDe (by rw [hino]; exact hDe)]
                simp

theorem newDir_listing (ino : Nat) (mode : FileMode) (pino : Nat) (pmode : FileMode)
    (now : Time) :
    (newDir ino mode pino pmode now).listing =
      [{ Ino := ino, Name := ".", Typ := modeType mode },
       { Ino := pino, Name := "..", Typ := modeType pmode }] := rfl

/-- C23: Readdir returns every entry once, in insertion order.  (1) In a valid
store, Readdir(D, "", 0) returns the entries of D in the order of its key
list: each name of the list once, each entry of the map among them.  (2) After
Mkdir(P, d) has made directory D, let names other than `.` and `..`, pairwise
different, be created in D in a given order, each by Create or Mkdir, none
being removed: every call succeeds and Readdir(D, "", 0) returns `.` (inode D,
type of the mode given), `..` (inode P, type of P), and then one entry per
creation, in that order, with the name and type given and the inode number
that the creating call returned.  (3) When Unlink or Rmdir of a name n in D
succeeds, Readdir(D, "", 0) returns the former list without the entry named n,
the others in their former order. -/
theorem C23_readdir_insertion_order :
    (∀ (fs : MemFS) (D : Nat) (x : MemInode) (t : Time), Valid fs → fs.itable D = some x →
      ∃ fs1, fs.Readdir D "" 0 t = .ret (.ok x.listing) fs1 ∧
        x.listing.map Dirent.Name = x.dirents.keys ∧ x.dirents.keys.Nodup ∧
        ∀ k e, x.dirents.entries k = some e → e ∈ x.listing) ∧
    (∀ (fs : MemFS) (P : Nat) (x : MemInode) (d : String) (mode : FileMode)
        (cs : List Creation) (t0 t t2 : Time),
      Valid fs → fs.itable P = some x → x.dirents.entries d = none → IsDir mode = true →
      (cs.map Creation.name).Nodup → (∀ c, c ∈ cs → c.name ≠ "." ∧ c.name ≠ "..") →
      ∃ st fs1 fs2 fs3, fs.Mkdir P d mode t0 = .ret (.ok st) fs1 ∧
        runCalls (cs.map (Creation.call st.Ino)) fs1 t =
          some (List.replicate cs.length none, fs2) ∧
        fs2.Readdir st.Ino "" 0 t2 =
          .ret (.ok ({ Ino := st.Ino, Name := ".", Typ := modeType mode } ::
            { Ino := P, Name := "..", Typ := modeType x.mode } ::
            createdEntries (st.Ino + 1) cs)) fs3 ∧
        (handedOut (cs.map (Creation.call st.Ino)) fs1 t).map Prod.fst =
          (createdEntries (st.Ino + 1) cs).map Dirent.Ino) ∧
    (∀ (fs fsr fs1 : MemFS) (D : Nat) (n : String) (ds : List Dirent) (t1 t2 t3 : Time),
      Valid fs → fs.Readdir D "" 0 t1 = .ret (.ok ds) fsr →
      (fs.Unlink D n t2 = .ret (.ok ()) fs1 ∨ fs.Rmdir D n t2 = .ret (.ok ()) fs1) →
      ∃ fs2, fs1.Readdir D "" 0 t3 =
        .ret (.ok (ds.filter (fun e => e.Name != n))) fs2) := by
  refine ⟨fun fs D x t hv hD => ?_, fun fs P x d mode cs t0 t t2 hv hP hd hmode hnd hdots => ?_,
    fun fs fsr fs1 D n ds t1 t2 t3 hv hread hrem => ?_⟩
  · have hok := (hv.inode D x hD).dirents
    exact ⟨_, MemFS.Readdir_ok fs D x t hD hok.wf, listing_names x _ hok, hok.wf.nodup,
      fun k e h => listing_mem x hok.wf k e h⟩
  · have hxok := hv.inode P x hP
    have hn0 : fs.inoNextFree ≠ 0 := Nat.pos_iff_ne_zero.1 hv.next_pos
    have hpne : x.ino ≠ 0 := by rw [hxok.ino_eq]; exact Nat.pos_iff_ne_zero.1 hxok.pos
    have hreq : fs.Mkdir P d mode t0 = _ :=
      MemFS.createInode_dir fs P d mode t0 false x hP hd hmode hn0 hpne
    have hv1 := valid_Mkdir hv hreq
    have hD1 : ((fs.bump.StoreInode P
        (((x.Lock t0).withEntry d fs.inoNextFree (modeType mode) t0).setNlink
          (inc32 x.nlink))).StoreInode fs.inoNextFree
        (refIf false (newDir fs.inoNextFree mode x.ino x.mode t0))).itable fs.inoNextFree =
        some (newDir fs.inoNextFree mode x.ino x.mode t0) := by
      simp only [MemFS.StoreInode_itable, if_true, refIf, Bool.false_eq_true, if_false]
    have habs : ∀ c, c ∈ cs →
        (newDir fs.inoNextFree mode x.ino x.mode t0).dirents.entries c.name = none :=
      fun c hc => newDirents_entries_other _ _ _ _ c.name (hdots c hc).1 (hdots c hc).2
    obtain ⟨fs2, y2, hrun, hv2, hD2, hlist, hout⟩ :=
      creations_run fs.inoNextFree cs _ _ t hv1 hD1 hnd habs
    have hnext : ((fs.bump.StoreInode P
        (((x.Lock t0).withEntry d fs.inoNextFree (modeType mode) t0).setNlink
          (inc32 x.nlink))).StoreInode fs.inoNextFree
        (refIf false (newDir fs.inoNextFree mode x.ino x.mode t0))).inoNextFree =
        fs.inoNextFree + 1 := rfl
    rw [hnext] at hlist hout
    have hstIno : (refIf false (newDir fs.inoNextFree mode x.ino x.mode t0)).Stat.Ino =
        fs.inoNextFree := refIf_Stat_Ino _ _
    refine ⟨_, _, fs2, fs2.StoreInode fs.inoNextFree (y2.Lock t2), hreq, ?_, ?_, ?_⟩
    · rw [hstIno]; exact hrun
    · rw [hstIno]
      have hr := MemFS.Readdir_ok fs2 fs.inoNextFree y2 t2 hD2
        (hv2.inode _ y2 hD2).dirents.wf
      rw [hlist, newDir_listing, hxok.ino_eq] at hr
      exact hr
    · rw [hstIno, hout, List.map_map]
      rfl
  · obtain ⟨x, x1, hD, hD1, hdel⟩ := removal_parent fs fs1 D n t2 hv hrem
    have hok := (hv.inode D x hD).dirents
    have hv1 : Valid fs1 := by
      rcases hrem with h | h
      · exact valid_Unlink hv h
      · exact valid_Rmdir hv h
    rw [MemFS.Readdir_ok fs D x t1 hD hok.wf] at hread
    have hds : ds = x.listing := by
      cases hread; rfl
    refine ⟨fs1.StoreInode D (x1.Lock t3), ?_⟩
    rw [hds, ← listing_delete x x1 n _ hok hdel]
    exact MemFS.Readdir_ok fs1 D x1 t3 hD1 (hv1.inode D x1 hD1).dirents.wf

/-- C23, witness: on a fresh store, mkdir d in the root, then in d: mkdir d1,
creat f, mkdir d2; Readdir of d lists `.`, `..`, d1, f, d2. -/
theorem C23_readdir_insertion_order_witness :
    Valid (NewMemFS 0) ∧ (NewMemFS 0).itable 1 = some ((NewMemFS 0).inodeAt 1) ∧
      ((NewMemFS 0).inodeAt 1).dirents.entries "d" = none ∧ IsDir dirMode = true ∧
      ∃ st fs1 fs2 ds fs3, (NewMemFS 0).Mkdir 1 "d" dirMode 1 = .ret (.ok st) fs1 ∧
        runCalls [.Mkdir st.Ino "d1" dirMode, .Create st.Ino "f" 0 fileMode,
          .Mkdir st.Ino "d2" dirMode] fs1 2 = some ([none, none, none], fs2) ∧
        fs2.Readdir st.Ino "" 0 9 = .ret (.ok ds) fs3 ∧
        ds.map Dirent.Name = [".", "..", "d1", "f", "d2"] :=
  ⟨valid_NewMemFS 0, rfl, by decide, by decide,
    match C23_readdir_insertion_order.2.1 (NewMemFS 0) 1 ((NewMemFS 0).inodeAt 1) "d" dirMode
        [{ name := "d1", mode := dirMode, viaCreate := false },
         { name := "f", mode := fileMode, viaCreate := true },
         { name := "d2", mode := dirMode, viaCreate := false }] 1 2 9
        (valid_NewMemFS 0) rfl (by decide) (by decide) (by decide) (by decide) with
    | ⟨st, fs1, fs2, fs3, h1, h2, h3, _⟩ => ⟨st, fs1, fs2, _, fs3, h1, h2, h3, rfl⟩⟩

/-- C24: Put inserts or replaces in place.  For every map t, key k and value
v: after Put(k, v), Get(k) returns v and Get(j) is as before for every other
key j; when k was present, Keys() and Len() are as before; otherwise Keys() is
the former key sequence with k appended last and Len() has grown by 1. -/
theorem C24_put_inserts_or_replaces {K V : Type} [DecidableEq K] (t : ListMap K V) (k : K)
    (v : V) :
    (t.Put k v).Get k = some v ∧
      (∀ j, j ≠ k → (t.Put k v).Get j = t.Get j) ∧
      (t.Contains k = true → (t.Put k v).Keys = t.Keys ∧ (t.Put k v).Len = t.Len) ∧
      (t.Contains k = false →
        (t.Put k v).Keys = t.Keys ++ [k] ∧ (t.Put k v).Len = t.Len + 1) := by
  refine ⟨?_, fun j hj => ?_, fun h => ?_, fun h => ?_⟩
  · unfold ListMap.Get
    rw [ListMap.Put_entries, ListMap.setEntry_same]
  · unfold ListMap.Get
    rw [ListMap.Put_entries, ListMap.setEntry_ne _ _ hj]
  · have hk : (t.Put k v).keys = t.keys := by
      unfold ListMap.Put
      rw [if_pos (show (t.entries k).isSome = true from h)]
    exact ⟨hk, congrArg List.length hk⟩
  · have hn : t.entries k = none := by
      unfold ListMap.Contains at h
      cases he : t.entries k with
      | none => rfl
      | some w => rw [he] at h; cases h
    have hk : (t.Put k v).keys = t.keys ++ [k] := ListMap.Put_keys_of_none t k v hn
    refine ⟨hk, ?_⟩
    show (t.Put k v).keys.length = t.keys.length + 1
    rw [hk, List.length_append, List.length_singleton]

/-- C24, witness: on the map with the keys 1, 2 (values 10, 20), Put(1, 11)
replaces in place and Put(3, 30) appends. -/
theorem C24_put_inserts_or_replaces_witness :
    (((ListMap.NewListMap : ListMap Nat Nat).Put 1 10).Put 2 20).Contains 1 = true ∧
      ((((ListMap.NewListMap : ListMap Nat Nat).Put 1 10).Put 2 20).Put 1 11).Keys = [1, 2] ∧
      ((((ListMap.NewListMap : ListMap Nat Nat).Put 1 10).Put 2 20).Put 3 30).Keys =
        [1, 2, 3] ∧
      ((((ListMap.NewListMap : ListMap Nat Nat).Put 1 10).Put 2 20).Put 1 11).Keys =
        (((ListMap.NewListMap : ListMap Nat Nat).Put 1 10).Put 2 20).Keys :=
  ⟨by decide, by decide, by decide,
    ((C24_put_inserts_or_replaces
      (((ListMap.NewListMap : ListMap Nat Nat).Put 1 10).Put 2 20) 1 11).2.2.1
      (by decide)).1⟩

/-- C25: Delete removes exactly one key.  For every map t whose key list and
entry map are in step (as in every map built from `NewListMap` by Put and
Delete) and every key k: after Delete(k), Contains(k) is false, Get(k) is nil,
Keys() is the former key sequence without k (the other keys in their former
order), every other key has its former value, and the map is still in step;
Len() has dropped by 1 when k was present; Delete of an absent key leaves the
map as it was. -/
theorem C25_delete_removes_one_key {K V : Type} [DecidableEq K] (t : ListMap K V) (k : K)
    (hwf : t.WF) :
    (t.Delete k).Contains k = false ∧ (t.Delete k).Get k = none ∧
      (t.Delete k).Keys = t.Keys.filter (fun j => j != k) ∧
      (t.Delete k).Keys = t.Keys.erase k ∧ k ∉ (t.Delete k).Keys ∧
      (∀ j, j ≠ k → (t.Delete k).Get j = t.Get j) ∧ (t.Delete k).WF ∧
      (t.Contains k = true → (t.Delete k).Len + 1 = t.Len) ∧
      (t.Contains k = false → t.Delete k = t) := by
  have hget : (t.Delete k).entries k = none := by
    rw [ListMap.Delete_entries, ListMap.setEntry_same]
  have hkeys : (t.Delete k).keys = t.keys.erase k := by
    cases he : t.entries k with
    | none =>
      rw [ListMap.Delete_of_none t k he]
      have hnk : k ∉ t.keys := fun hm => by
        have := (hwf.mem_iff k).1 hm
        rw [he] at this; cases this
      exact (List.erase_of_not_mem hnk).symm
    | some w => exact ListMap.Delete_keys_of_some t k (by rw [he]; rfl)
  refine ⟨?_, hget, ?_, hkeys, ?_, fun j hj => ?_, hwf.afterDelete k, fun h => ?_, fun h => ?_⟩
  · unfold ListMap.Contains
    rw [hget]; rfl
  · show (t.Delete k).keys = _
    rw [hkeys, List.Nodup.erase_eq_filter hwf.nodup]
    rfl
  · show k ∉ (t.Delete k).keys
    rw [hkeys]
    exact fun hm => ((List.Nodup.mem_erase_iff hwf.nodup).1 hm).1 rfl
  · unfold ListMap.Get
    rw [ListMap.Delete_entries, ListMap.setEntry_ne _ _ hj]
  · show (t.Delete k).keys.length + 1 = t.keys.length
    have hm : k ∈ t.keys := (hwf.mem_iff k).2 h
    rw [hkeys, List.length_erase_of_mem hm]
    have : 0 < t.keys.length := List.length_pos_of_mem hm
    omega
  · have hn : t.entries k = none := by
      unfold ListMap.Contains at h
      cases he : t.entries k with
      | none => rfl
      | some w => rw [he] at h; cases h
    exact ListMap.Delete_of_none t k hn

/-- C25, witness: the map with the keys 1, 2, 3 is in step; Delete(2) leaves
the keys 1, 3. -/
theorem C25_delete_removes_one_key_witness :
    ((((ListMap.NewListMap : ListMap Nat Nat).Put 1 10).Put 2 20).Put 3 30).WF ∧
      (((((ListMap.NewListMap : ListMap Nat Nat).Put 1 10).Put 2 20).Put 3 30).Delete 2).Keys =
        [1, 3] ∧
      (((((ListMap.NewListMap : ListMap Nat Nat).Put 1 10).Put 2 20).Put 3 30).Delete 2).Get 2 =
        none :=
  ⟨((ListMap.WF_NewListMap.afterPut 1 10).afterPut 2 20).afterPut 3 30, by decide,
    (C25_delete_removes_one_key
      ((((ListMap.NewListMap : ListMap Nat Nat).Put 1 10).Put 2 20).Put 3 30) 2
      (((ListMap.WF_NewListMap.afterPut 1 10).afterPut 2 20).afterPut 3 30)).2.1⟩

theorem FuseError_sentinel (err : GoError) (e : Errno) (h : sentinelCode err = some e) :
    FuseError (some err) = .ret (some (.fuseErrno e.code)) ∧
      ∀ kind, FuseError (some (.wrapped kind err)) = .ret (some (.fuseErrno e.code)) := by
  cases err <;> simp only [sentinelCode, Option.some.injEq] at h <;>
    first
    | (rw [← h]; exact ⟨rfl, fun kind => rfl⟩)
    | cases h

theorem FuseError_other (err : GoError) (h1 : err.isFuseErrno = false)
    (h2 : err.isSysErrno = false) (hp : ∀ kind, err ≠ .nilPointer kind)
    (h3 : ∀ u, underlyingError err = .ret (some u) → sentinelCode u = none) :
    FuseError (some err) = .ret (some (.fuseErrno (Errno.code Errno.EIO))) := by
  cases err with
  | fuseErrno c => cases h1
  | sysErrno c => cases h2
  | ErrClosed => have := h3 _ rfl; cases this
  | ErrExist => have := h3 _ rfl; cases this
  | ErrInvalid => have := h3 _ rfl; cases this
  | ErrNotExist => have := h3 _ rfl; cases this
  | ErrPermission => have := h3 _ rfl; cases this
  | wrappedNil kind => rfl
  | nilPointer kind => exact absurd rfl (hp kind)
  | other id => rfl
  | wrapped kind inner =>
    have hi := h3 inner rfl
    cases inner <;> first
      | rfl
      | cases hi

theorem FuseError_shape (e : Option GoError) (hp : ∀ kind, e ≠ some (.nilPointer kind)) :
    (e = none ∧ FuseError e = .ret none) ∨
      (e ≠ none ∧ ∃ c, FuseError e = .ret (some (.fuseErrno c))) := by
  cases e with
  | none => exact Or.inl ⟨rfl, rfl⟩
  | some err =>
    right
    refine ⟨fun h => (by cases h), ?_⟩
    cases err with
    | fuseErrno c => exact ⟨c, rfl⟩
    | sysErrno c => exact ⟨c, rfl⟩
    | ErrClosed => exact ⟨_, rfl⟩
    | ErrExist => exact ⟨_, rfl⟩
    | ErrInvalid => exact ⟨_, rfl⟩
    | ErrNotExist => exact ⟨_, rfl⟩
    | ErrPermission => exact ⟨_, rfl⟩
    | wrappedNil kind => exact ⟨_, rfl⟩
    | nilPointer kind => exact absurd rfl (hp kind)
    | other id => exact ⟨_, rfl⟩
    | wrapped kind inner => cases inner <;> exact ⟨_, rfl⟩

theorem FuseError_panic_iff (e : Option GoError) :
    FuseError e = .panic ↔ ∃ kind, e = some (.nilPointer kind) := by
  constructor
  · intro h
    by_contra hn
    have hp : ∀ kind, e ≠ some (.nilPointer kind) := fun kind he => hn ⟨kind, he⟩
    rcases FuseError_shape e hp with ⟨_, h1⟩ | ⟨_, c, h1⟩
    · rw [h1] at h; cases h
    · rw [h1] at h; cases h
  · rintro ⟨kind, rfl⟩
    rfl

/-- C26, the claim as stated fails: `FuseError` is not total.  A nil pointer
of type `*os.PathError`, `*os.LinkError` or `*os.SyscallError` held in an error
value is an error other than nil; `underlyingError` reads the field `Err`
through it and the call panics instead of returning EIO. -/
theorem C26_FuseError_panics_on_nil_wrapper_pointer :
    (some (GoError.nilPointer .PathError) ≠ none) ∧
    underlyingError (.nilPointer .PathError) = .panic ∧
    convertUnderlyingError (.nilPointer .PathError) = .panic ∧
    FuseError (some (.nilPointer .PathError)) = .panic ∧
    FuseError (some (.nilPointer .PathError)) ≠
      .ret (some (.fuseErrno (Errno.code Errno.EIO))) ∧
    (∀ kind, FuseError (some (.nilPointer kind)) = .panic) := by
  refine ⟨by decide, rfl, rfl, rfl, by decide, fun kind => rfl⟩

/-- C26 (amended): `FuseError` as a mapping.  nil maps to nil; a protocol
errno is returned as it is; the values `os.ErrClosed`, `os.ErrExist`,
`os.ErrInvalid`, `os.ErrNotExist`, `os.ErrPermission`, bare or as the `Err` of
a PathError, LinkError or SyscallError, map to EBADF, EEXIST, EINVAL, ENOENT,
EPERM; a raw syscall errno maps to the protocol errno with the same code;
every other error that is no nil wrapper pointer (neither a protocol errno nor
a raw errno, and whose underlying error is none of the five values) maps to
EIO.  The call panics exactly on a nil wrapper pointer held in an error value.
On every other argument it returns nil exactly for nil and a protocol errno
otherwise; applying `FuseError` to a result of `FuseError` returns that
result. -/
theorem C26_FuseError_mapping :
    FuseError none = .ret none ∧
    (∀ c, FuseError (some (.fuseErrno c)) = .ret (some (.fuseErrno c))) ∧
    (∀ err e, sentinelCode err = some e →
      FuseError (some err) = .ret (some (.fuseErrno e.code)) ∧
        ∀ kind, FuseError (some (.wrapped kind err)) = .ret (some (.fuseErrno e.code))) ∧
    (sentinelCode .ErrClosed = some Errno.EBADF ∧ sentinelCode .ErrExist = some Errno.EEXIST ∧
      sentinelCode .ErrInvalid = some Errno.EINVAL ∧
      sentinelCode .ErrNotExist = some Errno.ENOENT ∧
      sentinelCode .ErrPermission = some Errno.EPERM) ∧
    (∀ c, FuseError (some (.sysErrno c)) = .ret (some (.fuseErrno c))) ∧
    (∀ err, err.isFuseErrno = false → err.isSysErrno = false →
      (∀ kind, err ≠ .nilPointer kind) →
      (∀ u, underlyingError err = .ret (some u) → sentinelCode u = none) →
      FuseError (some err) = .ret (some (.fuseErrno (Errno.code Errno.EIO)))) ∧
    (∀ e, FuseError e = .panic ↔ ∃ kind, e = some (.nilPointer kind)) ∧
    (∀ e, (∀ kind, e ≠ some (.nilPointer kind)) →
      (e = none ∧ FuseError e = .ret none) ∨
        (e ≠ none ∧ ∃ c, FuseError e = .ret (some (.fuseErrno c)))) ∧
    (∀ e r, FuseError e = .ret r → FuseError r = .ret r) := by
  refine ⟨rfl, fun c => rfl, FuseError_sentinel, ⟨rfl, rfl, rfl, rfl, rfl⟩, fun c => rfl,
    FuseError_other, FuseError_panic_iff, FuseError_shape, fun e r hr => ?_⟩
  have hp : ∀ kind, e ≠ some (.nilPointer kind) := fun kind he => by
    rw [he] at hr
    cases hr
  rcases FuseError_shape e hp with ⟨_, h⟩ | ⟨_, c, h⟩
  · rw [h] at hr
    cases hr
    rfl
  · rw [h] at hr
    cases hr
    rfl

/-- C26 (amended), witness: `os.ErrNotExist` wrapped in a PathError maps to
ENOENT. -/
theorem C26_FuseError_mapping_witness :
    sentinelCode .ErrNotExist = some Errno.ENOENT ∧
      FuseError (some (.wrapped .PathError .ErrNotExist)) =
        .ret (some (.fuseErrno (Errno.code Errno.ENOENT))) :=
  ⟨rfl, (C26_FuseError_mapping.2.2.1 .ErrNotExist Errno.ENOENT rfl).2 .PathError⟩

/-- C27 (code defect): a wrapped errno is mapped to EIO.  For every raw
syscall errno with code c, `FuseError` of a PathError, LinkError or
SyscallError whose `Err` is that errno returns the protocol errno EIO, not the
protocol errno with code c: `convertUnderlyingError` opens the wrapper, finds
none of the five values of package `os` and reports failure, and `FuseError`
then looks for a `syscall.Errno` in the wrapper itself.  A PathError around
ENOTEMPTY maps to EIO. -/
theorem C27_wrapped_errno_maps_to_EIO_code :
    (∀ (kind : WrapKind) (c : Nat),
      FuseError (some (.wrapped kind (.sysErrno c))) =
        .ret (some (.fuseErrno (Errno.code Errno.EIO)))) ∧
    FuseError (some (.wrapped .PathError Errno.ENOTEMPTY.toGo)) =
      .ret (some (.fuseErrno (Errno.code Errno.EIO))) ∧
    Errno.code Errno.EIO ≠ Errno.code Errno.ENOTEMPTY ∧
    (convertUnderlyingError (.wrapped .PathError Errno.ENOTEMPTY.toGo)) =
      .ret (false, some Errno.ENOTEMPTY.toGo) := by
  refine ⟨fun kind c => rfl, rfl, by decide, rfl⟩

theorem FuseHandle.Write_denied (fh : FuseHandle) (s : FS) (req : WriteRequest) (size0 : Nat)
    (now : Time) (h : req.Pid ≠ fh.pid) :
    fh.Write s req size0 now =
      .ret (some (.fuseErrno (Errno.code Errno.EACCES))) size0 s := by
  unfold FuseHandle.Write
  rw [if_pos h]
  rfl

theorem FuseHandle.Write_forward (fh : FuseHandle) (s : FS) (req : WriteRequest) (size0 : Nat)
    (now : Time) (h : req.Pid = fh.pid) :
    fh.Write s req size0 now =
      match s.Back.Write fh.ino req.Offset req.Data now with
      | .ret (.error e) back => .ret (some (.fuseErrno e.code)) size0 { s with Back := back }
      | .ret (.ok n) back => .ret none n { s with Back := back }
      | .panic => .panic
      | .deadlock => .deadlock := by
  unfold FuseHandle.Write
  rw [if_neg (fun hne => hne h)]
  rfl

/-- C28: a write through a handle by another process is refused.  For every
handle and every write request whose process id differs from the one the
handle was created with (`NewFuseHandle` records it), `FuseHandle.Write`
returns the protocol errno EACCES and leaves the adapter state, backend store
included, exactly as it was, the reply size untouched.  When the ids are equal
the request goes to the backend Write: its byte count is the reply size when
it succeeds, its error is returned as a protocol errno when it fails, and on an
inode of the table with an offset that is not negative the reply size is the
length of the data. -/
theorem C28_write_by_other_process_refused (s : FS) (ino : Nat) (flags : Int) (pid : Nat)
    (req : WriteRequest) (size0 : Nat) (now : Time) :
    (NewFuseHandle ino flags pid).pid = pid ∧ (NewFuseHandle ino flags pid).ino = ino ∧
    (req.Pid ≠ pid →
      (NewFuseHandle ino flags pid).Write s req size0 now =
        .ret (some (.fuseErrno (Errno.code Errno.EACCES))) size0 s) ∧
    (req.Pid = pid →
      (∀ n back, s.Back.Write ino req.Offset req.Data now = .ret (.ok n) back →
        (NewFuseHandle ino flags pid).Write s req size0 now =
          .ret none n { s with Back := back }) ∧
      (∀ e back, s.Back.Write ino req.Offset req.Data now = .ret (.error e) back →
        (NewFuseHandle ino flags pid).Write s req size0 now =
          .ret (some (.fuseErrno e.code)) size0 { s with Back := back }) ∧
      (∀ x (o : Nat), s.Back.itable ino = some x → req.Offset = (o : Int) →
        ∃ back, (NewFuseHandle ino flags pid).Write s req size0 now =
          .ret none req.Data.length { s with Back := back })) := by
  refine ⟨rfl, rfl, fun h => FuseHandle.Write_denied _ s req size0 now h, fun h => ?_⟩
  have hf := FuseHandle.Write_forward (NewFuseHandle ino flags pid) s req size0 now h
  have hino : (NewFuseHandle ino flags pid).ino = ino := rfl
  rw [hino] at hf
  refine ⟨fun n back hb => ?_, fun e back hb => ?_, fun x o hx ho => ?_⟩
  · rw [hf, hb]
  · rw [hf, hb]
  · have hb := MemFS.Write_ok s.Back ino x o req.Data now hx
    rw [← ho] at hb
    exact ⟨_, by rw [hf, hb]⟩

/-- C28, witness: a handle created by process 7 on file a of `exFilesAB`; a
write request of process 8 is refused. -/
theorem C28_write_by_other_process_refused_witness :
    (8 : Nat) ≠ 7 ∧
      (NewFuseHandle 2 O_WRONLY 7).Write (FS.init exFilesAB)
          { Pid := 8, Offset := 0, Data := [1, 2] } 0 30 =
        .ret (some (.fuseErrno (Errno.code Errno.EACCES))) 0 (FS.init exFilesAB) :=
  ⟨by decide,
    (C28_write_by_other_process_refused (FS.init exFilesAB) 2 O_WRONLY 7
      { Pid := 8, Offset := 0, Data := [1, 2] } 0 30).2.2.1 (by decide)⟩

theorem FS.Update_frame (s : FS) (p : Nat) (stat : Option Stat) :
    (s.Update p stat).nodeMap = s.nodeMap ∧ (s.Update p stat).nextNode = s.nextNode ∧
      (s.Update p stat).Back = s.Back ∧
      (∀ q, q ≠ p → (s.Update p stat).nodes q = s.nodes q) := by
  unfold FS.Update
  cases s.nodes p with
  | none => exact ⟨rfl, rfl, rfl, fun q _ => rfl⟩
  | some fn => exact ⟨rfl, rfl, rfl, fun q hq => if_neg hq⟩

theorem FS.Update_node (s : FS) (p : Nat) (stat : Option Stat) (fn : FuseNode)
    (h : s.nodes p = some fn) :
    (s.Update p stat).nodes p = some { fn with attr := stat } := by
  unfold FS.Update
  rw [h]
  exact if_pos rfl

theorem FS.LoadNode_cached (s : FS) (i p : Nat) (stat : Option Stat)
    (h : s.nodeMap i = some p) : s.LoadNode i stat = (p, s.Update p stat) := by
  unfold FS.LoadNode
  rw [h]

theorem FS.LoadNode_new (s : FS) (i : Nat) (stat : Option Stat) (h : s.nodeMap i = none) :
    (s.LoadNode i stat).1 = s.nextNode ∧
      (s.LoadNode i stat).2.nodeMap i = some s.nextNode ∧
      (s.LoadNode i stat).2.nodes s.nextNode = some { ino := i, attr := stat } ∧
      (s.LoadNode i stat).2.nextNode = s.nextNode + 1 ∧
      (∀ j, j ≠ i → (s.LoadNode i stat).2.nodeMap j = s.nodeMap j) ∧
      (∀ q, q ≠ s.nextNode → (s.LoadNode i stat).2.nodes q = s.nodes q) := by
  unfold FS.LoadNode
  rw [h]
  dsimp only
  have hn : ({ s with
      nodes := fun q => if q = s.nextNode then some { ino := i, attr := stat } else s.nodes q,
      nextNode := s.nextNode + 1,
      nodeMap := fun j => if j = i then some s.nextNode else s.nodeMap j } : FS).nodes
      s.nextNode = some { ino := i, attr := stat } := if_pos rfl
  have hf := FS.Update_frame { s with
      nodes := fun q => if q = s.nextNode then some { ino := i, attr := stat } else s.nodes q,
      nextNode := s.nextNode + 1,
      nodeMap := fun j => if j = i then some s.nextNode else s.nodeMap j } s.nextNode stat
  refine ⟨rfl, ?_, ?_, hf.2.1, fun j hj => ?_, fun q hq => ?_⟩
  · rw [hf.1]; exact if_pos rfl
  · rw [FS.Update_node _ _ _ _ hn]
  · rw [hf.1]; exact if_neg hj
  · rw [hf.2.2.2 q hq]; exact if_neg hq

theorem FS.LoadNode_keeps (s : FS) (i j p : Nat) (stat : Option Stat)
    (h : s.nodeMap i = some p) : (s.LoadNode j stat).2.nodeMap i = some p := by
  cases hj : s.nodeMap j with
  | some q =>
    rw [FS.LoadNode_cached s j q stat hj]
    show (s.Update q stat).nodeMap i = some p
    rw [(FS.Update_frame s q stat).1]; exact h
  | none =>
    have hne : i ≠ j := fun e => by rw [e, hj] at h; cases h
    rw [(FS.LoadNode_new s j stat hj).2.2.2.2.1 i hne]; exact h

theorem runCache_keeps (ops : List CacheOp) (i p : Nat) :
    ∀ s : FS, s.nodeMap i = some p → (∀ op, op ∈ ops → op.removes i = false) →
      (runCache ops s).nodeMap i = some p := by
  induction ops with
  | nil => intro s h _; exact h
  | cons op ops ih =>
    intro s h hno
    refine ih (op.run s) ?_ (fun o ho => hno o (List.mem_cons_of_mem op ho))
    have hop := hno op (List.mem_cons_self op ops)
    cases op with
    | load j stat => exact FS.LoadNode_keeps s i j p stat h
    | remove j =>
      have hne : i ≠ j := fun e => by
        simp only [CacheOp.removes, beq_eq_false_iff_ne, ne_eq] at hop
        exact hop e.symm
      show (if i = j then none else s.nodeMap i) = some p
      rw [if_neg hne]; exact h

theorem FS.LoadNode_filed (s : FS) (i : Nat) (stat : Option Stat) :
    (s.LoadNode i stat).2.nodeMap i = some (s.LoadNode i stat).1 := by
  cases hi : s.nodeMap i with
  | some p =>
    rw [FS.LoadNode_cached s i p stat hi]
    show (s.Update p stat).nodeMap i = some p
    rw [(FS.Update_frame s p stat).1]; exact hi
  | none =>
    have h := FS.LoadNode_new s i stat hi
    rw [h.1]; exact h.2.1

/-- C29, the claim as stated fails: LoadNode(i, nil) does not leave the cached
stat as it was.  On an adapter over a fresh store, LoadNode(1, st) caches st
for inode 1, for every stat st and for the stat of the root in particular; the
call LoadNode(1, nil) that `Root` makes then returns the same handle and
leaves it with the cached stat nil. -/
theorem C29_LoadNode_with_nil_clears_cached_stat :
    (∀ st : Stat,
      ((FS.init (NewMemFS 0)).LoadNode 1 (some st)).2.cachedStat 1 = some st ∧
        ((FS.init (NewMemFS 0)).LoadNode 1 (some st)).2.Root.1 =
          ((FS.init (NewMemFS 0)).LoadNode 1 (some st)).1 ∧
        ((FS.init (NewMemFS 0)).LoadNode 1 (some st)).2.Root.2.cachedStat 1 = none) ∧
    ((FS.init (NewMemFS 0)).LoadNode 1 (some ((NewMemFS 0).inodeAt 1).Stat)).2.cachedStat 1 =
      some ((NewMemFS 0).inodeAt 1).Stat ∧
    (((FS.init (NewMemFS 0)).LoadNode 1 (some ((NewMemFS 0).inodeAt 1).Stat)).2.LoadNode 1
      none).2.cachedStat 1 = none :=
  ⟨fun _ => ⟨rfl, rfl, rfl⟩, rfl, rfl⟩

/-- C29 (amended): `LoadNode` keeps one handle per inode number and replaces
the cached stat by the one given, nil included.  (1) When the cache holds a
handle p for i, LoadNode(i, stat) returns p and leaves the node map as it was;
the cached stat of p becomes `stat`, whatever it is: after LoadNode(i, nil),
as `Root` issues it, the cached stat is nil.  (2) When the cache holds no
handle for i, LoadNode(i, stat) allocates a new node with number i and stat
`stat`, files it under i and returns it; in a coherent cache it differs from
every handle filed so far.  (3) Two LoadNode(i, ...) calls return the same
handle whatever cache operations other than RemoveNode(i) run in between. -/
theorem C29_LoadNode_replaces_cached_stat :
    (∀ (s : FS) (i p : Nat) (fn : FuseNode) (stat : Option Stat),
      s.nodeMap i = some p → s.nodes p = some fn →
      (s.LoadNode i stat).1 = p ∧ (s.LoadNode i stat).2.nodeMap = s.nodeMap ∧
        (s.LoadNode i stat).2.nodes p = some { fn with attr := stat } ∧
        (s.LoadNode i none).2.cachedStat i = none) ∧
    (∀ (s : FS) (i : Nat) (stat : Option Stat), s.nodeMap i = none →
      (s.LoadNode i stat).1 = s.nextNode ∧
        (s.LoadNode i stat).2.nodeMap i = some s.nextNode ∧
        (s.LoadNode i stat).2.nodes s.nextNode = some { ino := i, attr := stat } ∧
        (s.Coherent → ∀ j q, s.nodeMap j = some q → q ≠ (s.LoadNode i stat).1)) ∧
    (∀ (s : FS) (i : Nat) (st1 st2 : Option Stat) (ops : List CacheOp),
      (∀ op, op ∈ ops → op.removes i = false) →
      ((runCache ops (s.LoadNode i st1).2).LoadNode i st2).1 = (s.LoadNode i st1).1) := by
  refine ⟨fun s i p fn stat hi hp => ?_, fun s i stat hi => ?_,
    fun s i st1 st2 ops hno => ?_⟩
  · rw [FS.LoadNode_cached s i p stat hi, FS.LoadNode_cached s i p none hi]
    refine ⟨rfl, (FS.Update_frame s p stat).1, FS.Update_node s p stat fn hp, ?_⟩
    unfold FS.cachedStat
    dsimp only
    rw [(FS.Update_frame s p none).1, hi]
    dsimp only
    rw [FS.Update_node s p none fn hp]
  · have h := FS.LoadNode_new s i stat hi
    refine ⟨h.1, h.2.1, h.2.2.1, fun hc j q hj => ?_⟩
    rw [h.1]
    exact Nat.ne_of_lt (hc j q hj).1
  · have h1 := FS.LoadNode_filed s i st1
    have h2 := runCache_keeps ops i _ _ h1 hno
    rw [FS.LoadNode_cached _ i _ st2 h2]

/-- C29 (amended), witness: on an adapter over a fresh store whose cache holds
node 0 for inode 1, LoadNode(1, nil) returns node 0. -/
theorem C29_LoadNode_replaces_cached_stat_witness :
    (FS.init (NewMemFS 0)).Root.2.nodeMap 1 = some 0 ∧
      (FS.init (NewMemFS 0)).Root.2.nodes 0 = some { ino := 1, attr := none } ∧
      ((FS.init (NewMemFS 0)).Root.2.LoadNode 1 none).1 = 0 :=
  ⟨rfl, rfl,
    (C29_LoadNode_replaces_cached_stat.1 (FS.init (NewMemFS 0)).Root.2 1 0
      { ino := 1, attr := none } none rfl rfl).1⟩

theorem FuseHandle.Read_forward (fh : FuseHandle) (s : FS) (x : MemInode) (o : Nat)
    (n : Int) (data0 : List Nat) (now : Time) (hx : s.Back.itable fh.ino = some x)
    (ho : o ≤ x.data.length) :
    fh.Read s { Offset := (o : Int), Size := n } data0 now =
      .ret none (readBytes x.data o n)
        { s with Back := s.Back.StoreInode fh.ino (x.Lock now) } := by
  unfold FuseHandle.Read
  dsimp only
  rw [MemFS.Read_ok s.Back fh.ino x o n now hx ho]

theorem FuseHandle.ReadAll_forward (fh : FuseHandle) (s : FS) (x : MemInode) (now : Time)
    (hx : s.Back.itable fh.ino = some x) :
    fh.ReadAll s now =
      .ret none x.data { s with Back := s.Back.StoreInode fh.ino (x.Lock now) } := by
  unfold FuseHandle.ReadAll
  have h := MemFS.Read_ok s.Back fh.ino x 0 (-1) now hx (Nat.zero_le _)
  have hb : readBytes x.data 0 (-1) = x.data := by
    unfold readBytes
    rw [if_pos (Or.inl (by decide)), List.drop_zero]
  rw [hb] at h
  rw [show ((0 : Int)) = ((0 : Nat) : Int) from rfl, h]

theorem FuseHandle.Read_errors (fh : FuseHandle) (s : FS) (req : ReadRequest)
    (data0 : List Nat) (now : Time) (err : Option GoError) (v : List Nat) (s1 : FS)
    (h : fh.Read s req data0 now = .ret err v s1) :
    err = none ∨ err = some (.fuseErrno (Errno.code Errno.ENOENT)) := by
  unfold FuseHandle.Read MemFS.Read MemFS.LoadInode at h
  cases hx : s.Back.itable fh.ino with
  | none =>
    rw [hx] at h
    right
    cases h
    rfl
  | some x =>
    rw [hx] at h
    dsimp only at h
    cases hr : (x.Lock now).Read req.Offset req.Size with
    | none => rw [hr] at h; cases h
    | some b =>
      rw [hr] at h
      left
      cases h
      rfl

/-- C30, the claim as stated fails: the read handler serves a write-only
handle.  On an adapter over a fresh store, process 7 creates f in the root with
`O_CREAT|O_WRONLY|O_TRUNC` (577, access mode O_WRONLY), writes "hello, world"
through the handle and reads 16 bytes at offset 0 through the same handle: the
handler returns "hello, world" and a nil error, not EBADF. -/
theorem C30_write_only_handle_returns_data :
    O_CREAT + O_WRONLY + O_TRUNC = 577 ∧ (NewFuseHandle 2 577 7).flags = O_WRONLY ∧
    exWriteOnlyRead = some (none, helloWorld) ∧
    exWriteOnlyRead ≠ some (some (.fuseErrno (Errno.code Errno.EBADF)), []) := by
  refine ⟨by decide, by decide, by decide, by decide⟩

/-- C30 (amended): the read handlers do not look at the access mode of the
handle.  For every handle made by `NewFuseHandle`, whatever its flags, Read and
ReadAll reply as they do for a read-only handle on the same inode: they pass
the request to the backend Read.  When the inode x is in the backend table,
ReadAll returns all of x's data with a nil error and Read at an offset within
the data returns the requested bytes with a nil error; when it is not, both
return ENOENT.  The only error a Read that returns can carry is ENOENT; none
carries EBADF. -/
theorem C30_read_handlers_ignore_access_mode (s : FS) (ino : Nat) (flags : Int) (pid : Nat)
    (now : Time) :
    (∀ req data0, (NewFuseHandle ino flags pid).Read s req data0 now =
      (NewFuseHandle ino O_RDONLY pid).Read s req data0 now) ∧
    (NewFuseHandle ino flags pid).ReadAll s now =
      (NewFuseHandle ino O_RDONLY pid).ReadAll s now ∧
    (∀ x, s.Back.itable ino = some x →
      (NewFuseHandle ino flags pid).ReadAll s now =
          .ret none x.data { s with Back := s.Back.StoreInode ino (x.Lock now) } ∧
        ∀ (o : Nat) (n : Int) (data0 : List Nat), o ≤ x.data.length →
          (NewFuseHandle ino flags pid).Read s { Offset := (o : Int), Size := n } data0 now =
            .ret none (readBytes x.data o n)
              { s with Back := s.Back.StoreInode ino (x.Lock now) }) ∧
    (s.Back.itable ino = none →
      (NewFuseHandle ino flags pid).ReadAll s now =
          .ret (some (.fuseErrno (Errno.code Errno.ENOENT))) [] s ∧
        ∀ req data0, (NewFuseHandle ino flags pid).Read s req data0 now =
          .ret (some (.fuseErrno (Errno.code Errno.ENOENT))) data0 s) ∧
    (∀ req data0 err v s1,
      (NewFuseHandle ino flags pid).Read s req data0 now = .ret err v s1 →
      (err = none ∨ err = some (.fuseErrno (Errno.code Errno.ENOENT))) ∧
        err ≠ some (.fuseErrno (Errno.code Errno.EBADF))) := by
  refine ⟨fun req data0 => rfl, rfl, fun x hx => ⟨?_, fun o n data0 ho => ?_⟩, fun hx => ?_,
    fun req data0 err v s1 h => ?_⟩
  · exact FuseHandle.ReadAll_forward (NewFuseHandle ino flags pid) s x now hx
  · exact FuseHandle.Read_forward (NewFuseHandle ino flags pid) s x o n data0 now hx ho
  · have hx1 : s.Back.itable (NewFuseHandle ino flags pid).ino = none := hx
    constructor
    · unfold FuseHandle.ReadAll MemFS.Read MemFS.LoadInode
      rw [hx1]
      rfl
    · intro req data0
      unfold FuseHandle.Read MemFS.Read MemFS.LoadInode
      rw [hx1]
      rfl
  · have h1 := FuseHandle.Read_errors _ s req data0 now err v s1 h
    refine ⟨h1, ?_⟩
    rcases h1 with h2 | h2
    · rw [h2]; exact fun e => by cases e
    · rw [h2]; decide

/-- C30 (amended), witness: on a store holding file a (inode 2, content 65),
ReadAll through a handle with flags 577 (access mode O_WRONLY) returns the
content with a nil error. -/
theorem C30_read_handlers_ignore_access_mode_witness :
    (NewFuseHandle 2 577 7).flags = O_WRONLY ∧
      exFilesAB.itable 2 = some (exFilesAB.inodeAt 2) ∧
      (exFilesAB.inodeAt 2).data = [65] ∧
      (NewFuseHandle 2 577 7).ReadAll (FS.init exFilesAB) 9 =
        .ret none (exFilesAB.inodeAt 2).data
          { FS.init exFilesAB with
            Back := exFilesAB.StoreInode 2 ((exFilesAB.inodeAt 2).Lock 9) } :=
  ⟨by decide, rfl, rfl,
    ((C30_read_handlers_ignore_access_mode (FS.init exFilesAB) 2 577 7 9).2.2.1
      (exFilesAB.inodeAt 2) rfl).1⟩

theorem ListMap.WF.afterInit {K V : Type} [DecidableEq K] (t : ListMap K V) : t.Init.WF :=
  ⟨List.nodup_nil, fun k => by simp [ListMap.Init]⟩

theorem ListMap.Pop_eq {K V : Type} [DecidableEq K] (t : ListMap K V) (l : List K) (k : K)
    (h : t.keys = l ++ [k]) :
    t.Pop = (t.entries k, { entries := ListMap.setEntry t.entries k none, keys := l }) := by
  unfold ListMap.Pop ListMap.NotEmpty
  rw [h]
  simp

theorem ListMap.Pop_nil {K V : Type} [DecidableEq K] (t : ListMap K V) (h : t.keys = []) :
    t.Pop = (none, t) := by
  unfold ListMap.Pop ListMap.NotEmpty
  rw [h]
  simp

theorem ListMap.Pull_eq {K V : Type} [DecidableEq K] (t : ListMap K V) (l : List K) (k : K)
    (h : t.keys = k :: l) :
    t.Pull = (t.entries k, { entries := ListMap.setEntry t.entries k none, keys := l }) := by
  unfold ListMap.Pull ListMap.NotEmpty
  rw [h]
  simp

theorem ListMap.Pull_nil {K V : Type} [DecidableEq K] (t : ListMap K V) (h : t.keys = []) :
    t.Pull = (none, t) := by
  unfold ListMap.Pull ListMap.NotEmpty
  rw [h]
  simp

theorem ListMap.Tail_eq {K V : Type} (t : ListMap K V) (l : List K) (k : K)
    (h : t.keys = l ++ [k]) : t.Tail = t.entries k := by
  unfold ListMap.Tail ListMap.NotEmpty
  rw [h]
  simp

theorem ListMap.Head_eq {K V : Type} (t : ListMap K V) (l : List K) (k : K)
    (h : t.keys = k :: l) : t.Head = t.entries k := by
  unfold ListMap.Head ListMap.NotEmpty
  rw [h]
  simp

theorem ListMap.Tail_nil {K V : Type} (t : ListMap K V) (h : t.keys = []) : t.Tail = none := by
  unfold ListMap.Tail ListMap.NotEmpty
  rw [h]
  simp

theorem ListMap.Head_nil {K V : Type} (t : ListMap K V) (h : t.keys = []) : t.Head = none := by
  unfold ListMap.Head ListMap.NotEmpty
  rw [h]
  simp

theorem ListMap.keys_snoc_or_nil {K : Type} (l : List K) :
    l = [] ∨ ∃ l1 k, l = l1 ++ [k] := by
  rcases List.eq_nil_or_concat l with h | ⟨l1, k, h⟩
  · exact Or.inl h
  · exact Or.inr ⟨l1, k, by rw [h, List.concat_eq_append]⟩

theorem ListMap.WF.afterPop {K V : Type} [DecidableEq K] {t : ListMap K V} (h : t.WF) :
    t.Pop.2.WF := by
  rcases ListMap.keys_snoc_or_nil t.keys with hn | ⟨l, k, hl⟩
  · rw [ListMap.Pop_nil t hn]; exact h
  · rw [ListMap.Pop_eq t l k hl]
    have hnd := h.nodup
    rw [hl] at hnd
    have hkl : k ∉ l := fun hm => by
      have := (List.nodup_append.1 hnd).2.2
      exact this hm (List.mem_singleton_self k)
    refine ⟨(List.nodup_append.1 hnd).1, fun j => ?_⟩
    show j ∈ l ↔ (ListMap.setEntry t.entries k none j).isSome = true
    by_cases hj : j = k
    · subst hj; simp [hkl]
    · rw [ListMap.setEntry_ne _ _ hj, ← h.mem_iff j, hl]
      simp [hj]

theorem ListMap.WF.afterPull {K V : Type} [DecidableEq K] {t : ListMap K V} (h : t.WF) :
    t.Pull.2.WF := by
  cases hk : t.keys with
  | nil => rw [ListMap.Pull_nil t hk]; exact h
  | cons k l =>
    rw [ListMap.Pull_eq t l k hk]
    have hnd := h.nodup
    rw [hk] at hnd
    have hkl : k ∉ l := (List.nodup_cons.1 hnd).1
    refine ⟨(List.nodup_cons.1 hnd).2, fun j => ?_⟩
    show j ∈ l ↔ (ListMap.setEntry t.entries k none j).isSome = true
    by_cases hj : j = k
    · subst hj; simp [hkl]
    · rw [ListMap.setEntry_ne _ _ hj, ← h.mem_iff j, hk]
      simp [hj]

theorem ListMap.WF.afterRun {K V : Type} [DecidableEq K] {t : ListMap K V} (h : t.WF)
    (op : ListMapOp K V) : (op.run t).WF := by
  cases op with
  | Put key value => exact h.afterPut key value
  | Delete key => exact h.afterDelete key
  | Pop => exact h.afterPop
  | Pull => exact h.afterPull
  | Init => exact ListMap.WF.afterInit t

theorem ListMap.WF.afterOps {K V : Type} [DecidableEq K] (ops : List (ListMapOp K V)) :
    ∀ t : ListMap K V, t.WF → (ops.foldl (fun t op => op.run t) t).WF := by
  induction ops with
  | nil => intro t h; exact h
  | cons op ops ih => intro t h; exact ih _ (h.afterRun op)

theorem ListMap.Pop_fst {K V : Type} [DecidableEq K] (t : ListMap K V) : t.Pop.1 = t.Tail := by
  rcases ListMap.keys_snoc_or_nil t.keys with hn | ⟨l, k, hl⟩
  · rw [ListMap.Pop_nil t hn, ListMap.Tail_nil t hn]
  · rw [ListMap.Pop_eq t l k hl, ListMap.Tail_eq t l k hl]

theorem ListMap.Pull_fst {K V : Type} [DecidableEq K] (t : ListMap K V) :
    t.Pull.1 = t.Head := by
  cases hk : t.keys with
  | nil => rw [ListMap.Pull_nil t hk, ListMap.Head_nil t hk]
  | cons k l => rw [ListMap.Pull_eq t l k hk, ListMap.Head_eq t l k hk]

/-- C33: a `ListMap` keeps its key list and its entry map in step.  For every
map obtained from `NewListMap` by a sequence of Put, Delete, Pop, Pull and
Init calls: Keys() has no duplicate; a key is in Keys() exactly when
Contains reports it; Len() is the length of every duplicate-free enumeration
of the keys that Contains reports, which is the number of stored entries;
Values() is as long as Keys(), and at every index i below Len() the i-th key
has a stored value, which is the i-th element of Values(); Pop and Pull return
what Tail and Head return on the same map, a stored value when the map is not
empty. -/
theorem C33_listmap_keys_and_entries_in_step {K V : Type} [DecidableEq K]
    (ops : List (ListMapOp K V)) :
    (ListMap.after ops).Keys.Nodup ∧
    (∀ k, k ∈ (ListMap.after ops).Keys ↔ (ListMap.after ops).Contains k = true) ∧
    (∀ l : List K, l.Nodup → (∀ k, k ∈ l ↔ (ListMap.after ops).Contains k = true) →
      (ListMap.after ops).Len = l.length) ∧
    (ListMap.after ops).Values.length = (ListMap.after ops).Len ∧
    (∀ i, i < (ListMap.after ops).Len →
      ∃ k v, (ListMap.after ops).Keys[i]? = some k ∧ (ListMap.after ops).Get k = some v ∧
        (ListMap.after ops).Values[i]? = some (some v)) ∧
    (ListMap.after ops).Pop.1 = (ListMap.after ops).Tail ∧
    (ListMap.after ops).Pull.1 = (ListMap.after ops).Head ∧
    ((ListMap.after ops).NotEmpty = true →
      (∃ v, (ListMap.after ops).Tail = some v) ∧ ∃ v, (ListMap.after ops).Head = some v) := by
  have hwf : (ListMap.after ops).WF := ListMap.WF.afterOps ops _ ListMap.WF_NewListMap
  refine ⟨hwf.nodup, hwf.mem_iff, fun l hl hmem => ?_, ?_, fun i hi => ?_,
    ListMap.Pop_fst _, ListMap.Pull_fst _, fun hne => ?_⟩
  · have hp : List.Perm (ListMap.after ops).keys l :=
      (List.perm_ext_iff_of_nodup hwf.nodup hl).2
        (fun k => (hwf.mem_iff k).trans (hmem k).symm)
    exact hp.length_eq
  · exact List.length_map _ _
  · have hi1 : i < (ListMap.after ops).keys.length := hi
    have hk : (ListMap.after ops).keys[i] ∈ (ListMap.after ops).keys :=
      List.getElem_mem hi1
    have hs := (hwf.mem_iff _).1 hk
    obtain ⟨v, hv⟩ := Option.isSome_iff_exists.1 hs
    refine ⟨(ListMap.after ops).keys[i], v, List.getElem?_eq_getElem hi1, hv, ?_⟩
    show ((ListMap.after ops).keys.map (ListMap.after ops).entries)[i]? = some (some v)
    rw [List.getElem?_map, List.getElem?_eq_getElem hi1]
    exact congrArg some hv
  · have hpos : 0 < (ListMap.after ops).keys.length := by
      simpa [ListMap.NotEmpty] using hne
    constructor
    · rcases ListMap.keys_snoc_or_nil (ListMap.after ops).keys with hn | ⟨l, k, hl⟩
      · rw [hn] at hpos; exact absurd hpos (Nat.lt_irrefl 0)
      · rw [ListMap.Tail_eq _ l k hl]
        exact Option.isSome_iff_exists.1 ((hwf.mem_iff k).1 (by rw [hl]; simp))
    · cases hk : (ListMap.after ops).keys with
      | nil => rw [hk] at hpos; exact absurd hpos (Nat.lt_irrefl 0)
      | cons k l =>
        rw [ListMap.Head_eq _ l k hk]
        exact Option.isSome_iff_exists.1 ((hwf.mem_iff k).1 (by rw [hk]; simp))

/-- C33, witness: the map after Put(1, 10), Put(2, 20), Put(3, 30), Pull,
Put(2, 21), Pop, Put(4, 40), Delete(9) has the keys 2, 4 and the values 21,
40; at index 1 the key is 4 and its value 40. -/
theorem C33_listmap_keys_and_entries_in_step_witness :
    (ListMap.after ([.Put 1 10, .Put 2 20, .Put 3 30, .Pull, .Put 2 21, .Pop, .Put 4 40,
        .Delete 9] : List (ListMapOp Nat Nat))).Keys = [2, 4] ∧
      (ListMap.after ([.Put 1 10, .Put 2 20, .Put 3 30, .Pull, .Put 2 21, .Pop, .Put 4 40,
        .Delete 9] : List (ListMapOp Nat Nat))).Values = [some 21, some 40] ∧
      ∃ k v,
        (ListMap.after ([.Put 1 10, .Put 2 20, .Put 3 30, .Pull, .Put 2 21, .Pop, .Put 4 40,
          .Delete 9] : List (ListMapOp Nat Nat))).Keys[1]? = some k ∧
        (ListMap.after ([.Put 1 10, .Put 2 20, .Put 3 30, .Pull, .Put 2 21, .Pop, .Put 4 40,
          .Delete 9] : List (ListMapOp Nat Nat))).Get k = some v ∧
        (ListMap.after ([.Put 1 10, .Put 2 20, .Put 3 30, .Pull, .Put 2 21, .Pop, .Put 4 40,
          .Delete 9] : List (ListMapOp Nat Nat))).Values[1]? = some (some v) :=
  ⟨by decide, by decide,
    (C33_listmap_keys_and_entries_in_step
      ([.Put 1 10, .Put 2 20, .Put 3 30, .Pull, .Put 2 21, .Pop, .Put 4 40, .Delete 9] :
        List (ListMapOp Nat Nat))).2.2.2.2.1 1 (by decide)⟩

/-- C34: Setattr is not atomic on error.  On every inode x of the table:
(1) with a mode m and uid or gid in the attribute set, Setattr returns ENOSYS
and leaves the inode with mode m and its change time set to the instant of
the call, the rest as the lock left it; atime and mtime of the set are not
applied.  (2) With a size, without uid and gid, when the mode the inode has
after the mode attribute is applied is a directory mode, Setattr returns
EISDIR and leaves the inode with the atime, mtime and mode of the set, its
entries, data and link count untouched. -/
theorem C34_setattr_not_atomic_on_error (fs : MemFS) (ino : Nat) (x : MemInode) (now : Time)
    (hx : fs.itable ino = some x) :
    (∀ (attrs : Attrs) (m : FileMode), attrs.mode = some m →
      attrs.gid.isSome = true ∨ attrs.uid.isSome = true →
      ∃ fs1, fs.Setattr ino attrs now = .ret (.error .ENOSYS) fs1 ∧
        fs1.itable ino = some { x with atime := now, mode := m, ctime := now } ∧
        fs1.modeAt ino = some m ∧ (m ≠ x.mode → fs1.modeAt ino ≠ fs.modeAt ino)) ∧
    (∀ (attrs : Attrs) (s : Nat), attrs.size = some s → attrs.gid = none →
      attrs.uid = none → IsDir (attrs.mode.getD x.mode) = true →
      ∃ fs1 y, fs.Setattr ino attrs now = .ret (.error .EISDIR) fs1 ∧
        fs1.itable ino = some y ∧ y.atime = attrs.atime.getD now ∧
        y.mtime = attrs.mtime.getD x.mtime ∧ y.mode = attrs.mode.getD x.mode ∧
        y.dirents = x.dirents ∧ y.data = x.data ∧ y.nlink = x.nlink) := by
  constructor
  · intro attrs m hm hgu
    have h1 := MemInode.Setattr_enosys (x.Lock now) attrs now hgu
    have h2 : (x.Lock now).withMode attrs now =
        { x with atime := now, mode := m, ctime := now } := by
      unfold MemInode.withMode
      rw [hm]
      rfl
    rw [h2] at h1
    refine ⟨_, MemFS.Setattr_ret fs ino x _ attrs now _ hx h1, ?_, ?_, fun hne => ?_⟩
    · rw [MemFS.StoreInode_itable, if_pos rfl]
    · unfold MemFS.modeAt
      rw [MemFS.StoreInode_itable, if_pos rfl]
      rfl
    · unfold MemFS.modeAt
      rw [MemFS.StoreInode_itable, if_pos rfl, hx]
      exact fun e => hne (Option.some.inj e)
  · intro attrs s hs hg hu hd
    have hm := MemInode.applied_mode (x.Lock now) attrs now
    have hd1 : IsDir ((x.Lock now).applied attrs now).mode = true := by
      rw [hm]; exact hd
    have h1 := MemInode.Setattr_eisdir (x.Lock now) attrs now s hg hu hs hd1
    have hf := MemInode.applied_frame (x.Lock now) attrs now
    refine ⟨_, _, MemFS.Setattr_ret fs ino x _ attrs now _ hx h1, ?_,
      MemInode.applied_atime (x.Lock now) attrs now,
      MemInode.applied_mtime (x.Lock now) attrs now, hm, hf.1, hf.2.1, hf.2.2.1⟩
    rw [MemFS.StoreInode_itable, if_pos rfl]

/-- C34, witness: file a of `exFilesAB` (inode 2) has mode 0644; Setattr with
mode 0600 and uid 1000 returns ENOSYS and leaves the file with mode 0600. -/
theorem C34_setattr_not_atomic_on_error_witness :
    exFilesAB.modeAt 2 = some 0o644 ∧
      ∃ fs1, exFilesAB.Setattr 2
          { mode := some 0o600, gid := none, uid := some 1000, atime := none, mtime := none,
            size := none } 30 = .ret (.error .ENOSYS) fs1 ∧
        fs1.modeAt 2 = some 0o600 :=
  ⟨by decide,
    match (C34_setattr_not_atomic_on_error exFilesAB 2 (exFilesAB.inodeAt 2) 30 rfl).1
        { mode := some 0o600, gid := none, uid := some 1000, atime := none, mtime := none,
          size := none } 0o600 rfl (Or.inr rfl) with
    | ⟨fs1, h, _, hmode, _⟩ => ⟨fs1, h, hmode⟩⟩

theorem locks_pair (i : Nat) :
    maxHeld [.acquire i, .release i] = 1 ∧ selfBlocks [.acquire i, .release i] [] = false := by
  simp [maxHeld, heldSets, selfBlocks, LockEvent.apply]

theorem locks_none : maxHeld [] = 0 ∧ selfBlocks [] [] = false := ⟨rfl, rfl⟩

theorem locks_nested (p c : Nat) (h : c ≠ p) :
    maxHeld [.acquire p, .acquire c, .release c, .release p] = 2 ∧
      selfBlocks [.acquire p, .acquire c, .release c, .release p] [] = false ∧
      heldSets [.acquire p, .acquire c, .release c, .release p] [] = [[p], [c, p], [p], []] := by
  simp [maxHeld, heldSets, selfBlocks, LockEvent.apply, h]

theorem locks_self (p : Nat) (rest : List LockEvent) :
    selfBlocks (.acquire p :: .acquire p :: rest) [] = true := by
  simp [selfBlocks, LockEvent.apply]

theorem MemFS.oneLock_bound (fs : MemFS) (ino : Nat) :
    maxHeld (fs.oneLock ino) ≤ 1 ∧ selfBlocks (fs.oneLock ino) [] = false := by
  unfold MemFS.oneLock
  cases fs.LoadInode ino with
  | none => exact ⟨Nat.zero_le 1, rfl⟩
  | some x => exact ⟨Nat.le_of_eq (locks_pair ino).1, (locks_pair ino).2⟩

theorem MemFS.ReaddirLocks_bound (fs : MemFS) (ino : Nat) (marker : String) (n : Int) :
    maxHeld (fs.ReaddirLocks ino marker n) ≤ 1 ∧
      selfBlocks (fs.ReaddirLocks ino marker n) [] = false := by
  unfold MemFS.ReaddirLocks
  cases fs.LoadInode ino with
  | none => exact ⟨Nat.zero_le 1, rfl⟩
  | some x =>
    dsimp only
    split
    · exact ⟨Nat.zero_le 1, rfl⟩
    · exact ⟨Nat.le_of_eq (locks_pair ino).1, (locks_pair ino).2⟩

theorem MemFS.LookupLocks_entry (fs : MemFS) (p : Nat) (x c : MemInode) (name : String)
    (e : Dirent) (hx : fs.itable p = some x) (he : x.dirents.entries name = some e)
    (hc : fs.itable e.Ino = some c) :
    fs.LookupLocks p name =
      [.acquire p, .acquire e.Ino, .release e.Ino, .release p] := by
  have he1 : x.dirents.Get name = some e := he
  simp [MemFS.LookupLocks, MemFS.underLock, MemFS.LoadInode, hx, MemInode.LookupLocks, he1,
    MemFS.StatLocks, MemFS.oneLock, hc]

theorem MemFS.UnlinkLocks_entry (fs : MemFS) (p : Nat) (x c : MemInode) (name : String)
    (e : Dirent) (hx : fs.itable p = some x) (he : x.dirents.entries name = some e)
    (hc : fs.itable e.Ino = some c) :
    fs.UnlinkLocks p name =
      [.acquire p, .acquire e.Ino, .release e.Ino, .release p] := by
  have he1 : x.dirents.Get name = some e := he
  simp [MemFS.UnlinkLocks, MemFS.underLock, MemFS.LoadInode, hx, MemInode.UnlinkLocks, he1, hc]

theorem MemFS.RmdirLocks_entry (fs : MemFS) (p : Nat) (x c : MemInode) (name : String)
    (e : Dirent) (hx : fs.itable p = some x) (he : x.dirents.entries name = some e)
    (ht : IsDir e.Typ = true) (hc : fs.itable e.Ino = some c) :
    fs.RmdirLocks p name =
      [.acquire p, .acquire e.Ino, .release e.Ino, .release p] := by
  have he1 : x.dirents.Get name = some e := he
  simp [MemFS.RmdirLocks, MemFS.underLock, MemFS.LoadInode, hx, MemInode.RmdirLocks, he1, hc,
    ht]

theorem MemFS.Lookup_self (fs : MemFS) (i : Nat) (x : MemInode) (name : String) (e : Dirent)
    (now : Time) (hx : fs.itable i = some x) (he : x.dirents.entries name = some e)
    (hs : e.Ino = i) : fs.Lookup i name now = .deadlock := by
  have he1 : (x.Lock now).dirents.Get name = some e := he
  simp [MemFS.Lookup, MemFS.LoadInode, hx, he1, MemFS.Stat, hs]

theorem newDir_dot (ino : Nat) (mode : FileMode) (pino : Nat) (pmode : FileMode)
    (now : Time) :
    (newDir ino mode pino pmode now).dirents.entries "." =
      some { Ino := ino, Name := ".", Typ := modeType mode } := rfl

theorem MemFS.Mkdir_then_dot (fs : MemFS) (p : Nat) (x : MemInode) (d : String)
    (mode : FileMode) (now : Time) (hv : Valid fs) (hx : fs.itable p = some x)
    (hd : x.dirents.entries d = none) (hm : IsDir mode = true) :
    ∃ st fs1, fs.Mkdir p d mode now = .ret (.ok st) fs1 ∧ st.Ino = fs.inoNextFree ∧
      ∃ y, fs1.itable st.Ino = some y ∧
        y.dirents.entries "." =
          some { Ino := st.Ino, Name := ".", Typ := modeType mode } := by
  have hok := hv.inode p x hx
  have h0 : fs.inoNextFree ≠ 0 := Nat.pos_iff_ne_zero.1 hv.next_pos
  have hp : x.ino ≠ 0 := by rw [hok.ino_eq]; exact Nat.pos_iff_ne_zero.1 hok.pos
  have h := MemFS.createInode_dir fs p d mode now false x hx hd hm h0 hp
  refine ⟨_, _, h, rfl, newDir fs.inoNextFree mode x.ino x.mode now, ?_, rfl⟩
  show (MemFS.StoreInode _ fs.inoNextFree _).itable fs.inoNextFree = _
  rw [MemFS.StoreInode_itable, if_pos rfl]
  rfl

/-- C32 (code defect): Lookup, Rmdir and Unlink lock the inode of the entry
while they hold the lock of the directory, and block for ever when the entry
refers to the directory itself.  (1) Stat, Open, Create, Mkdir, Setattr,
Readdir, Read, Write and Release hold at most one inode mutex at a time and
never lock a mutex they hold, on every store.  (2) Lookup, Unlink and Rmdir of
an entry of directory P that refers to another inode of the table lock P, then
the inode of the entry, and hold both mutexes at once.  (3) When the entry
refers to P itself, Lookup, Unlink and Rmdir call Lock on the mutex they hold
and never return.  (4) On a fresh store Lookup(1, `.`) and Lookup(1, `..`) never
return, and after a successful Mkdir in a valid store Lookup of `.` in the new
directory never returns.  (5) Rename of f in a onto g in b, in `exDirsAB`,
holds three inode mutexes at once. -/
theorem C32_lookup_locks_entry_under_parent_lock :
    (∀ (fs : MemFS) (c : Call), c.isRename = false → c.visitsEntry = false →
      maxHeld (c.locks fs) ≤ 1 ∧ selfBlocks (c.locks fs) [] = false) ∧
    (∀ (fs : MemFS) (p : Nat) (x c : MemInode) (name : String) (e : Dirent),
      fs.itable p = some x → x.dirents.entries name = some e → e.Ino ≠ p →
      fs.itable e.Ino = some c →
      (Call.Lookup p name).locks fs =
          [.acquire p, .acquire e.Ino, .release e.Ino, .release p] ∧
        heldSets ((Call.Lookup p name).locks fs) [] = [[p], [e.Ino, p], [p], []] ∧
        maxHeld ((Call.Lookup p name).locks fs) = 2 ∧
        maxHeld ((Call.Unlink p name).locks fs) = 2 ∧
        (IsDir e.Typ = true → maxHeld ((Call.Rmdir p name).locks fs) = 2)) ∧
    (∀ (fs : MemFS) (p : Nat) (x : MemInode) (name : String) (e : Dirent) (now : Time),
      fs.itable p = some x → x.dirents.entries name = some e → e.Ino = p →
      selfBlocks ((Call.Lookup p name).locks fs) [] = true ∧
        fs.Lookup p name now = .deadlock ∧
        selfBlocks ((Call.Unlink p name).locks fs) [] = true ∧
        fs.Unlink p name now = .deadlock ∧
        (IsDir e.Typ = true →
          selfBlocks ((Call.Rmdir p name).locks fs) [] = true ∧
            fs.Rmdir p name now = .deadlock)) ∧
    (∀ now t : Time, (NewMemFS now).Lookup 1 "." t = .deadlock ∧
      (NewMemFS now).Lookup 1 ".." t = .deadlock) ∧
    (∀ (fs : MemFS) (p : Nat) (x : MemInode) (d : String) (mode : FileMode) (now t : Time),
      Valid fs → fs.itable p = some x → x.dirents.entries d = none → IsDir mode = true →
      ∃ st fs1, fs.Mkdir p d mode now = .ret (.ok st) fs1 ∧
        fs1.Lookup st.Ino "." t = .deadlock) ∧
    (Call.Rename 2 "f" 3 "g").locks exDirsAB =
      [.acquire 2, .acquire 3, .acquire 5, .release 5, .release 3, .release 2] ∧
    maxHeld ((Call.Rename 2 "f" 3 "g").locks exDirsAB) = 3 := by
  refine ⟨fun fs c hr hv => ?_, fun fs p x c name e hx he hne hc => ?_,
    fun fs p x name e now hx he hs => ?_, fun now t => ⟨?_, ?_⟩,
    fun fs p x d mode now t hv hx hd hm => ?_, by decide, by decide⟩
  · cases c with
    | Create ino name flags mode => exact MemFS.oneLock_bound fs ino
    | Mkdir ino name mode => exact MemFS.oneLock_bound fs ino
    | Open ino flags => exact MemFS.oneLock_bound fs ino
    | Release ino flags => exact MemFS.oneLock_bound fs ino
    | Unlink ino name => cases hv
    | Rmdir ino name => cases hv
    | Rename sIno sName dIno dName => cases hr
    | Setattr ino attrs => exact MemFS.oneLock_bound fs ino
    | Read ino offset n => exact MemFS.oneLock_bound fs ino
    | Write ino offset data => exact MemFS.oneLock_bound fs ino
    | Stat ino => exact MemFS.oneLock_bound fs ino
    | Lookup ino name => cases hv
    | Readdir ino marker n => exact MemFS.ReaddirLocks_bound fs ino marker n
  · have hl : (Call.Lookup p name).locks fs =
        [.acquire p, .acquire e.Ino, .release e.Ino, .release p] :=
      MemFS.LookupLocks_entry fs p x c name e hx he hc
    have hu : (Call.Unlink p name).locks fs =
        [.acquire p, .acquire e.Ino, .release e.Ino, .release p] :=
      MemFS.UnlinkLocks_entry fs p x c name e hx he hc
    have hn := locks_nested p e.Ino hne
    refine ⟨hl, ?_, ?_, ?_, fun ht => ?_⟩
    · rw [hl]; exact hn.2.2
    · rw [hl]; exact hn.1
    · rw [hu]; exact hn.1
    · have hr : (Call.Rmdir p name).locks fs =
          [.acquire p, .acquire e.Ino, .release e.Ino, .release p] :=
        MemFS.RmdirLocks_entry fs p x c name e hx he ht hc
      rw [hr]; exact hn.1
  · have hc : fs.itable e.Ino = some x := by rw [hs]; exact hx
    have hl : (Call.Lookup p name).locks fs =
        [.acquire p, .acquire e.Ino, .release e.Ino, .release p] :=
      MemFS.LookupLocks_entry fs p x x name e hx he hc
    have hu : (Call.Unlink p name).locks fs =
        [.acquire p, .acquire e.Ino, .release e.Ino, .release p] :=
      MemFS.UnlinkLocks_entry fs p x x name e hx he hc
    refine ⟨?_, MemFS.Lookup_self fs p x name e now hx he hs, ?_,
      MemFS.Unlink_self fs p name now x e hx he hs, fun ht => ⟨?_, ?_⟩⟩
    · rw [hl, hs]; exact locks_self p _
    · rw [hu, hs]; exact locks_self p _
    · have hr : (Call.Rmdir p name).locks fs =
          [.acquire p, .acquire e.Ino, .release e.Ino, .release p] :=
        MemFS.RmdirLocks_entry fs p x x name e hx he ht hc
      rw [hr, hs]; exact locks_self p _
    · exact MemFS.Rmdir_self fs p name now x e hx he ht hs
  · exact MemFS.Lookup_self (NewMemFS now) 1 ((NewMemFS now).inodeAt 1) "."
      { Ino := 1, Name := ".", Typ := modeType (ModeDir ||| 0o777) } t rfl rfl rfl
  · exact MemFS.Lookup_self (NewMemFS now) 1 ((NewMemFS now).inodeAt 1) ".."
      { Ino := 1, Name := "..", Typ := modeType (ModeDir ||| 0o777) } t rfl rfl rfl
  · obtain ⟨st, fs1, h1, _, y, hy, hdot⟩ := MemFS.Mkdir_then_dot fs p x d mode now hv hx hd hm
    exact ⟨st, fs1, h1, MemFS.Lookup_self fs1 st.Ino y "." _ t hy hdot rfl⟩

/-- C32, witness: in `exDirsAB` the root holds the entry a for inode 2, and
Lookup(1, a) holds the mutexes of inodes 1 and 2 at once. -/
theorem C32_lookup_locks_entry_under_parent_lock_witness :
    (exDirsAB.inodeAt 1).dirents.entries "a" =
        some { Ino := 2, Name := "a", Typ := modeType dirMode } ∧
      heldSets ((Call.Lookup 1 "a").locks exDirsAB) [] = [[1], [2, 1], [1], []] :=
  ⟨rfl,
    (C32_lookup_locks_entry_under_parent_lock.2.1 exDirsAB 1 (exDirsAB.inodeAt 1)
      (exDirsAB.inodeAt 2) "a" { Ino := 2, Name := "a", Typ := modeType dirMode } rfl rfl
      (by decide) rfl).2.1⟩

theorem trail_head (held : List Nat) (p : List LockEvent) :
    { held := held, rest := p } ∈ trail held p := by
  cases p with
  | nil => exact List.mem_singleton_self _
  | cons e r => exact List.mem_cons_self _ _

theorem trail_closed (p : List LockEvent) :
    ∀ (held : List Nat) (t t1 : Thread), t ∈ trail held p → t.advance = some t1 →
      t1 ∈ trail held p := by
  induction p with
  | nil =>
    intro held t t1 ht ha
    have : t = { held := held, rest := [] } := List.mem_singleton.1 ht
    subst this
    cases ha
  | cons e r ih =>
    intro held t t1 ht ha
    rcases List.mem_cons.1 ht with h | h
    · subst h
      unfold Thread.advance at ha
      dsimp only at ha
      unfold trail
      cases he : e.apply held with
      | none => rw [he] at ha; cases ha
      | some h1 =>
        rw [he] at ha
        have : t1 = { held := h1, rest := r } := (Option.some.inj ha).symm
        subst this
        exact List.mem_cons_of_mem _ (trail_head h1 r)
    · unfold trail
      cases he : e.apply held with
      | none => rw [he] at h; cases h
      | some h1 =>
        rw [he] at h
        exact List.mem_cons_of_mem _ (ih h1 t t1 h ha)

theorem lockedBy_false (ts : List Thread) (i : Nat) (h : lockedBy ts i = false) (t : Thread)
    (ht : t ∈ ts) : i ∉ t.held := by
  unfold lockedBy at h
  rw [List.any_eq_false] at h
  have := h t ht
  simpa using this

theorem lockedBy_true (ts : List Thread) (i : Nat) (h : lockedBy ts i = true) :
    ∃ t, t ∈ ts ∧ i ∈ t.held := by
  unfold lockedBy at h
  rw [List.any_eq_true] at h
  obtain ⟨t, ht, hi⟩ := h
  exact ⟨t, ht, by simpa using hi⟩

theorem stepThread_some (ts ts1 : List Thread) (k : Nat) (h : stepThread ts k = some ts1) :
    ∃ t t1, ts[k]? = some t ∧ t.advance = some t1 ∧ ts1 = ts.set k t1 := by
  unfold stepThread at h
  cases hk : ts[k]? with
  | none => rw [hk] at h; cases h
  | some t =>
    rw [hk] at h
    dsimp only at h
    have htm : t ∈ ts := List.getElem?_mem hk
    cases hr : t.rest with
    | nil => rw [hr] at h; cases h
    | cons e r =>
      rw [hr] at h
      cases e with
      | acquire i =>
        dsimp only at h
        by_cases hl : lockedBy ts i = true
        · rw [if_pos hl] at h; cases h
        · rw [if_neg hl] at h
          have hni : i ∉ t.held :=
            lockedBy_false ts i (by simpa using hl) t htm
          refine ⟨t, { held := i :: t.held, rest := r }, rfl, ?_, (Option.some.inj h).symm⟩
          unfold Thread.advance
          rw [hr]
          simp [LockEvent.apply, hni]
      | release i =>
        dsimp only at h
        refine ⟨t, { held := t.held.erase i, rest := r }, rfl, ?_, (Option.some.inj h).symm⟩
        unfold Thread.advance
        rw [hr]
        rfl

theorem stepThread_release (ts : List Thread) (k : Nat) (t : Thread) (i : Nat)
    (r : List LockEvent) (hk : ts[k]? = some t) (hr : t.rest = .release i :: r) :
    (stepThread ts k).isSome = true := by
  unfold stepThread
  rw [hk]
  dsimp only
  rw [hr]
  rfl

theorem stepThread_acquire (ts : List Thread) (k : Nat) (t : Thread) (i : Nat)
    (r : List LockEvent) (hk : ts[k]? = some t) (hr : t.rest = .acquire i :: r)
    (hl : lockedBy ts i = false) : (stepThread ts k).isSome = true := by
  unfold stepThread
  rw [hk]
  dsimp only
  rw [hr]
  dsimp only
  rw [hl]
  rfl

theorem runSchedule_inv (P : Thread → Prop)
    (hP : ∀ t t1, P t → t.advance = some t1 → P t1) :
    ∀ (sch : List Nat) (ts : List Thread), (∀ t, t ∈ ts → P t) →
      ∀ t, t ∈ runSchedule sch ts → P t := by
  intro sch
  induction sch with
  | nil => intro ts h t ht; exact h t ht
  | cons k ks ih =>
    intro ts h t ht
    unfold runSchedule at ht
    cases hs : stepThread ts k with
    | none => rw [hs] at ht; exact ih ts h t ht
    | some ts1 =>
      rw [hs] at ht
      obtain ⟨u, u1, hu, ha, he⟩ := stepThread_some ts ts1 k hs
      refine ih ts1 (fun v hv => ?_) t ht
      rw [he] at hv
      rcases List.mem_or_eq_of_mem_set hv with h1 | h1
      · exact h v h1
      · rw [h1]; exact hP u u1 (h u (List.getElem?_mem hu)) ha

theorem locking_progress (ts : List Thread)
    (hA : ∀ t, t ∈ ts → t.rest = [] → t.held = [])
    (hB : ∀ t, t ∈ ts → ∀ i r, t.rest = .acquire i :: r → ∀ j, j ∈ t.held → j < i) :
    allDone ts = true ∨ ∃ k, k < ts.length ∧ (stepThread ts k).isSome = true := by
  by_contra hcon
  push_neg at hcon
  obtain ⟨hnd, hno⟩ := hcon
  have hstuck : ∀ t, t ∈ ts → t.rest ≠ [] →
      ∃ i r, t.rest = .acquire i :: r ∧ lockedBy ts i = true := by
    intro t ht hne
    obtain ⟨k, hk⟩ := List.mem_iff_getElem?.1 ht
    have hlt : k < ts.length := (List.getElem?_eq_some.1 hk).1
    have hnone := hno k hlt
    cases hr : t.rest with
    | nil => exact absurd hr hne
    | cons e r =>
      cases e with
      | release i => exact absurd (stepThread_release ts k t i r hk hr) hnone
      | acquire i =>
        refine ⟨i, r, rfl, ?_⟩
        by_contra hl
        exact hnone (stepThread_acquire ts k t i r hk hr (by simpa using hl))
  have hex : ∃ t, t ∈ ts ∧ t.rest ≠ [] := by
    by_contra hall
    push_neg at hall
    apply hnd
    unfold allDone
    rw [List.all_eq_true]
    intro t ht
    rw [hall t ht]
    rfl
  obtain ⟨t0, ht0, hne0⟩ := hex
  have hS : (ts.toFinset.filter (fun t => t.rest ≠ [])).Nonempty :=
    ⟨t0, Finset.mem_filter.2 ⟨List.mem_toFinset.2 ht0, hne0⟩⟩
  obtain ⟨m, hm, hmax⟩ := Finset.exists_max_image _ Thread.wanted hS
  have hmts : m ∈ ts := List.mem_toFinset.1 (Finset.mem_filter.1 hm).1
  obtain ⟨i, r, hmr, hli⟩ := hstuck m hmts (Finset.mem_filter.1 hm).2
  obtain ⟨u, hu, hiu⟩ := lockedBy_true ts i hli
  have hune : u.rest ≠ [] := fun h => by
    rw [hA u hu h] at hiu
    cases hiu
  obtain ⟨j, r1, hur, _⟩ := hstuck u hu hune
  have hij : i < j := hB u hu j r1 hur i hiu
  have hle := hmax u (Finset.mem_filter.2 ⟨List.mem_toFinset.2 hu, hune⟩)
  unfold Thread.wanted at hle
  rw [hur, hmr] at hle
  exact absurd hij (Nat.not_lt.2 hle)

theorem renameProgram_ordered (s d : Nat) (inner : List LockEvent) (h : s ≠ d) :
    renameProgram s d inner =
      [.acquire (min s d), .acquire (max s d)] ++ inner ++
        [.release (max s d), .release (min s d)] := by
  unfold renameProgram
  rw [if_neg h]
  by_cases hlt : s < d
  · rw [if_pos hlt, Nat.min_eq_left (Nat.le_of_lt hlt), Nat.max_eq_right (Nat.le_of_lt hlt)]
  · have hgt : d < s := by omega
    rw [if_neg hlt, Nat.min_eq_right (Nat.le_of_lt hgt), Nat.max_eq_left (Nat.le_of_lt hgt)]

theorem trail_pair (s : Nat) (t : Thread) (h : t ∈ trail [] [.acquire s, .release s]) :
    (t.rest = [] → t.held = []) ∧
      (∀ i r, t.rest = .acquire i :: r → ∀ j, j ∈ t.held → j < i) := by
  simp [trail, LockEvent.apply] at h
  rcases h with h | h | h <;> subst h <;> simp

theorem trail_ordered (lo hi : Nat) (hlt : lo < hi) (t : Thread)
    (h : t ∈ trail [] [.acquire lo, .acquire hi, .release hi, .release lo]) :
    (t.rest = [] → t.held = []) ∧
      (∀ i r, t.rest = .acquire i :: r → ∀ j, j ∈ t.held → j < i) := by
  have hne : hi ≠ lo := Nat.ne_of_gt hlt
  simp [trail, LockEvent.apply, hne] at h
  rcases h with h | h | h | h | h <;> subst h <;> simp [hlt]

theorem trail_parents (s d : Nat) (t : Thread) (h : t ∈ trail [] (renameProgram s d [])) :
    (t.rest = [] → t.held = []) ∧
      (∀ i r, t.rest = .acquire i :: r → ∀ j, j ∈ t.held → j < i) := by
  by_cases hsd : s = d
  · have : renameProgram s d [] = [.acquire s, .release s] := by
      unfold renameProgram
      rw [if_pos hsd]
      rfl
    rw [this] at h
    exact trail_pair s t h
  · rw [renameProgram_ordered s d [] hsd] at h
    have hlt : min s d < max s d := by
      rcases Nat.lt_or_gt_of_ne hsd with h1 | h1
      · rw [Nat.min_eq_left (Nat.le_of_lt h1), Nat.max_eq_right (Nat.le_of_lt h1)]; exact h1
      · rw [Nat.min_eq_right (Nat.le_of_lt h1), Nat.max_eq_left (Nat.le_of_lt h1)]; exact h1
    exact trail_ordered (min s d) (max s d) hlt t h

theorem stepThread_held (ts ts1 : List Thread) (k : Nat) (h : stepThread ts k = some ts1) :
    ∃ t t1, ts[k]? = some t ∧ ts1 = ts.set k t1 ∧
      ∀ j, j ∈ t1.held → j ∈ t.held ∨ lockedBy ts j = false := by
  unfold stepThread at h
  cases hk : ts[k]? with
  | none => rw [hk] at h; cases h
  | some t =>
    rw [hk] at h
    dsimp only at h
    cases hr : t.rest with
    | nil => rw [hr] at h; cases h
    | cons e r =>
      rw [hr] at h
      cases e with
      | acquire i =>
        dsimp only at h
        by_cases hl : lockedBy ts i = true
        · rw [if_pos hl] at h; cases h
        · rw [if_neg hl] at h
          refine ⟨t, { held := i :: t.held, rest := r }, rfl, (Option.some.inj h).symm,
            fun j hj => ?_⟩
          rcases List.mem_cons.1 hj with h1 | h1
          · right; rw [h1]; simpa using hl
          · left; exact h1
      | release i =>
        dsimp only at h
        exact ⟨t, { held := t.held.erase i, rest := r }, rfl, (Option.some.inj h).symm,
          fun j hj => Or.inl (List.mem_of_mem_erase hj)⟩

theorem exclusive_step (ts ts1 : List Thread) (k : Nat) (hx : exclusive ts)
    (h : stepThread ts k = some ts1) : exclusive ts1 := by
  obtain ⟨t, t1, hk, he, hheld⟩ := stepThread_held ts ts1 k h
  have hlt : k < ts.length := (List.getElem?_eq_some.1 hk).1
  have key : ∀ k2 u i, k2 ≠ k → ts[k2]? = some u → i ∈ t1.held → i ∈ u.held → False := by
    intro k2 u i hne hu hi1 hi2
    rcases hheld i hi1 with h1 | h1
    · exact hne (hx k2 k u t i hu hk hi2 h1)
    · exact lockedBy_false ts i h1 u (List.getElem?_mem hu) hi2
  unfold exclusive
  intro k1 k2 u1 u2 i h1 h2 hi1 hi2
  rw [he, List.getElem?_set] at h1 h2
  by_cases e1 : k = k1
  · by_cases e2 : k = k2
    · rw [← e1, ← e2]
    · rw [if_pos e1, if_pos hlt] at h1
      rw [if_neg e2] at h2
      have h1e : t1 = u1 := Option.some.inj h1
      rw [← h1e] at hi1
      exact absurd (key k2 u2 i (fun e => e2 e.symm) h2 hi1 hi2) id
  · rw [if_neg e1] at h1
    by_cases e2 : k = k2
    · rw [if_pos e2, if_pos hlt] at h2
      have h2e : t1 = u2 := Option.some.inj h2
      rw [← h2e] at hi2
      exact absurd (key k1 u1 i (fun e => e1 e.symm) h1 hi2 hi1) id
    · rw [if_neg e2] at h2
      exact hx k1 k2 u1 u2 i h1 h2 hi1 hi2

theorem exclusive_run : ∀ (sch : List Nat) (ts : List Thread), exclusive ts →
    exclusive (runSchedule sch ts) := by
  intro sch
  induction sch with
  | nil => intro ts h; exact h
  | cons k ks ih =>
    intro ts h
    unfold runSchedule
    cases hs : stepThread ts k with
    | none => exact ih ts h
    | some ts1 => exact ih ts1 (exclusive_step ts ts1 k h hs)

theorem exclusive_start (ps : List (List LockEvent)) : exclusive (ps.map Thread.start) := by
  unfold exclusive
  intro k1 k2 t1 t2 i h1 _ hi _
  have hm : t1 ∈ ps.map Thread.start := List.getElem?_mem h1
  obtain ⟨p, _, hp⟩ := List.mem_map.1 hm
  rw [← hp] at hi
  cases hi

theorem trail_child (lo hi : Nat) (hne : lo ≠ hi) (c : Option Nat) (t : Thread)
    (h : t ∈ trail []
      ([.acquire lo, .acquire hi] ++ childLocks c ++ [.release hi, .release lo])) :
    t.held = [] ∨ lo ∈ t.held := by
  have hne1 : hi ≠ lo := fun e => hne e.symm
  cases c with
  | none =>
    simp [trail, LockEvent.apply, childLocks, hne1] at h
    rcases h with h | h | h | h | h <;> subst h <;> simp
  | some c =>
    by_cases h1 : c = hi
    · subst h1
      simp [trail, LockEvent.apply, childLocks, hne1] at h
      rcases h with h | h | h <;> subst h <;> simp
    · by_cases h2 : c = lo
      · subst h2
        simp [trail, LockEvent.apply, childLocks, hne1] at h
        rcases h with h | h | h <;> subst h <;> simp
      · have h1s : hi ≠ c := fun e => h1 e.symm
        have h2s : lo ≠ c := fun e => h2 e.symm
        simp [trail, LockEvent.apply, childLocks, hne1, h1, h2, h1s, h2s] at h
        rcases h with h | h | h | h | h | h | h <;> subst h <;> simp

theorem MemInode.RmdirLocks_shape (fs : MemFS) (inode : MemInode) (name : String) :
    ∃ c, inode.RmdirLocks fs name = childLocks c := by
  unfold MemInode.RmdirLocks
  cases inode.dirents.Get name with
  | none => exact ⟨none, rfl⟩
  | some e =>
    dsimp only
    split
    · exact ⟨none, rfl⟩
    · cases fs.LoadInode e.Ino with
      | none => exact ⟨none, rfl⟩
      | some x => exact ⟨some e.Ino, rfl⟩

theorem MemInode.UnlinkLocks_shape (fs : MemFS) (inode : MemInode) (name : String) :
    ∃ c, inode.UnlinkLocks fs name = childLocks c := by
  unfold MemInode.UnlinkLocks
  cases inode.dirents.Get name with
  | none => exact ⟨none, rfl⟩
  | some e =>
    dsimp only
    cases fs.LoadInode e.Ino with
    | none => exact ⟨none, rfl⟩
    | some x => exact ⟨some e.Ino, rfl⟩

theorem MemFS.RenameInner_shape (fs : MemFS) (sInode : MemInode) (sName : String)
    (dInode : MemInode) (dName : String) :
    ∃ c, fs.RenameInner sInode sName dInode dName = childLocks c := by
  unfold MemFS.RenameInner
  cases sInode.GetDirent sName with
  | error e => exact ⟨none, rfl⟩
  | ok sDirent =>
    dsimp only
    cases dInode.GetDirent dName with
    | error e => exact ⟨none, rfl⟩
    | ok dDirent =>
      dsimp only
      split_ifs
      · exact ⟨none, rfl⟩
      · exact ⟨none, rfl⟩
      · exact ⟨none, rfl⟩
      · exact MemInode.RmdirLocks_shape fs dInode dName
      · exact MemInode.UnlinkLocks_shape fs dInode dName

theorem MemFS.RenameLocks_shape (fs : MemFS) (s d : Nat) (sName dName : String)
    (hs : (fs.itable s).isSome = true) (hd : (fs.itable d).isSome = true) :
    ∃ c, fs.RenameLocks s sName d dName =
      (if s = d then [.acquire s] ++ childLocks c ++ [.release s]
       else [.acquire (min s d), .acquire (max s d)] ++ childLocks c ++
         [.release (max s d), .release (min s d)]) := by
  obtain ⟨x, hx⟩ := Option.isSome_iff_exists.1 hs
  obtain ⟨y, hy⟩ := Option.isSome_iff_exists.1 hd
  obtain ⟨c, hc⟩ := MemFS.RenameInner_shape fs x sName y dName
  refine ⟨c, ?_⟩
  have h1 : fs.RenameLocks s sName d dName = renameProgram s d (childLocks c) := by
    unfold MemFS.RenameLocks MemFS.LoadInode
    rw [hx, hy]
    dsimp only
    rw [hc]
  rw [h1]
  by_cases hsd : s = d
  · rw [if_pos hsd]
    unfold renameProgram
    rw [if_pos hsd]
  · rw [if_neg hsd]
    exact renameProgram_ordered s d _ hsd

theorem MemFS.RenameLocks_absent (fs : MemFS) (s d : Nat) (sName dName : String)
    (h : fs.itable s = none ∨ fs.itable d = none) : fs.RenameLocks s sName d dName = [] := by
  unfold MemFS.RenameLocks MemFS.LoadInode
  rcases h with h | h
  · rw [h]
  · rw [h]
    cases fs.itable s <;> rfl

theorem opposite_renames (a b : Nat) (c1 c2 : Option Nat) (sch : List Nat) (t0 t1 : Thread)
    (hab : a ≠ b)
    (h0 : (runSchedule sch [Thread.start (renameProgram a b (childLocks c1)),
      Thread.start (renameProgram b a (childLocks c2))])[0]? = some t0)
    (h1 : (runSchedule sch [Thread.start (renameProgram a b (childLocks c1)),
      Thread.start (renameProgram b a (childLocks c2))])[1]? = some t1) :
    t0.held = [] ∨ t1.held = [] := by
  have hne : min a b ≠ max a b := by
    rcases Nat.lt_or_gt_of_ne hab with h | h
    · rw [Nat.min_eq_left (Nat.le_of_lt h), Nat.max_eq_right (Nat.le_of_lt h)]; exact hab
    · rw [Nat.min_eq_right (Nat.le_of_lt h), Nat.max_eq_left (Nat.le_of_lt h)]
      exact fun e => hab e.symm
  have hP := runSchedule_inv
    (fun t => ∃ c, t ∈ trail [] ([.acquire (min a b), .acquire (max a b)] ++ childLocks c ++
      [.release (max a b), .release (min a b)]))
    (fun t u ht ha => by
      obtain ⟨c, hc⟩ := ht
      exact ⟨c, trail_closed _ [] t u hc ha⟩)
    sch [Thread.start (renameProgram a b (childLocks c1)),
      Thread.start (renameProgram b a (childLocks c2))]
    (fun t ht => by
      rcases List.mem_cons.1 ht with h | h
      · refine ⟨c1, ?_⟩
        rw [h, renameProgram_ordered a b _ hab]
        exact trail_head [] _
      · have h2 : t = Thread.start (renameProgram b a (childLocks c2)) :=
          List.mem_singleton.1 h
        refine ⟨c2, ?_⟩
        rw [h2, renameProgram_ordered b a _ (fun e => hab e.symm), Nat.min_comm b a,
          Nat.max_comm b a]
        exact trail_head [] _)
  have hx : exclusive (runSchedule sch [Thread.start (renameProgram a b (childLocks c1)),
      Thread.start (renameProgram b a (childLocks c2))]) :=
    exclusive_run sch _
      (exclusive_start [renameProgram a b (childLocks c1), renameProgram b a (childLocks c2)])
  obtain ⟨d0, hd0⟩ := hP t0 (List.getElem?_mem h0)
  obtain ⟨d1, hd1⟩ := hP t1 (List.getElem?_mem h1)
  rcases trail_child _ _ hne d0 t0 hd0 with q0 | q0
  · exact Or.inl q0
  · rcases trail_child _ _ hne d1 t1 hd1 with q1 | q1
    · exact Or.inr q1
    · exact absurd (hx 0 1 t0 t1 _ h0 h1 q0 q1) (by decide)

theorem selfBlocks_renameProgram (s d : Nat) (c : Option Nat) :
    selfBlocks (renameProgram s d (childLocks c)) [] =
      match c with
      | none => false
      | some i => decide (i = s ∨ i = d) := by
  unfold renameProgram
  by_cases hsd : s = d
  · subst hsd
    cases c with
    | none => simp [childLocks, selfBlocks, LockEvent.apply]
    | some i =>
      by_cases hi : i = s
      · simp [childLocks, selfBlocks, LockEvent.apply, hi]
      · simp [childLocks, selfBlocks, LockEvent.apply, hi]
  · have hds : d ≠ s := fun e => hsd e.symm
    by_cases hlt : s < d
    · rw [if_neg hsd, if_pos hlt]
      cases c with
      | none => simp [childLocks, selfBlocks, LockEvent.apply, hsd, hds]
      | some i =>
        by_cases h1 : i = s <;> by_cases h2 : i = d <;>
          simp [childLocks, selfBlocks, LockEvent.apply, hsd, hds, h1, h2]
    · rw [if_neg hsd, if_neg hlt]
      cases c with
      | none => simp [childLocks, selfBlocks, LockEvent.apply, hsd, hds]
      | some i =>
        by_cases h1 : i = s <;> by_cases h2 : i = d <;>
          simp [childLocks, selfBlocks, LockEvent.apply, hsd, hds, h1, h2]

theorem MemInode.Rmdir_deadlock_iff (fs : MemFS) (held : List Nat) (self : Nat)
    (inode : MemInode) (name : String) (now : Time) (e : Dirent)
    (he : inode.dirents.Get name = some e) (ht : IsDir e.Typ = true) :
    inode.Rmdir fs held self name now = .deadlock ↔
      (fs.LoadInode e.Ino).isSome = true ∧ e.Ino ∈ held := by
  unfold MemInode.Rmdir
  rw [he]
  dsimp only
  rw [if_neg (by rw [ht]; decide)]
  cases hc : fs.LoadInode e.Ino with
  | none => simp
  | some c =>
    dsimp only
    by_cases hm : e.Ino ∈ held
    · rw [if_pos hm]; simp [hm]
    · rw [if_neg hm]
      constructor
      · intro h
        split at h <;> cases h
      · intro h
        exact absurd h.2 hm

theorem MemInode.Unlink_deadlock_iff (fs : MemFS) (held : List Nat) (self : Nat)
    (inode : MemInode) (name : String) (now : Time) (e : Dirent)
    (he : inode.dirents.Get name = some e) :
    inode.Unlink fs held self name now = .deadlock ↔
      (fs.LoadInode e.Ino).isSome = true ∧ e.Ino ∈ held := by
  unfold MemInode.Unlink
  rw [he]
  dsimp only
  cases hc : fs.LoadInode e.Ino with
  | none => simp
  | some c =>
    dsimp only
    by_cases hm : e.Ino ∈ held
    · rw [if_pos hm]; simp [hm]
    · rw [if_neg hm]
      constructor
      · intro h
        cases h
      · intro h
        exact absurd h.2 hm

theorem MemFS.Rename_deadlock_aux (fs : MemFS) (s : Nat) (sn : String) (d : Nat)
    (dn : String) (now : Time) (x y dI : MemInode) (hx : fs.itable s = some x)
    (hy : fs.itable d = some y) (hdI : dI.dirents = y.dirents) :
    (match (x.Lock now).GetDirent sn with
      | .error e => Res.ret (.error e) ((fs.StoreInode s (x.Lock now)).StoreInode d dI)
      | .ok sDirent =>
        match dI.GetDirent dn with
        | .error e =>
          if e ≠ .ENOENT then .ret (.error e) ((fs.StoreInode s (x.Lock now)).StoreInode d dI)
          else .ret (.ok ())
            (MemFS.renameMove ((fs.StoreInode s (x.Lock now)).StoreInode d dI) s sn d dn
              sDirent dI (x.Lock now) now)
        | .ok dDirent =>
          if sDirent.Ino = dDirent.Ino then
            .ret (.ok ()) ((fs.StoreInode s (x.Lock now)).StoreInode d dI)
          else if IsDir sDirent.Typ = false ∧ IsDir dDirent.Typ = true then
            .ret (.error .EISDIR) ((fs.StoreInode s (x.Lock now)).StoreInode d dI)
          else if IsDir sDirent.Typ = true ∧ IsDir dDirent.Typ = false then
            .ret (.error .ENOTDIR) ((fs.StoreInode s (x.Lock now)).StoreInode d dI)
          else
            match (if IsDir dDirent.Typ = true then
                dI.Rmdir ((fs.StoreInode s (x.Lock now)).StoreInode d dI) [s, d] d dn now
              else
                dI.Unlink ((fs.StoreInode s (x.Lock now)).StoreInode d dI) [s, d] d dn now) with
            | .ret (.error e) fs1 => .ret (.error e) fs1
            | .ret (.ok d1) fs1 =>
              .ret (.ok ())
                (MemFS.renameMove fs1 s sn d dn sDirent d1
                  (if s = d then d1 else x.Lock now) now)
            | .panic => .panic
            | .deadlock => .deadlock) = (Res.deadlock : Res Unit) ↔
      selfBlocks (renameProgram s d (fs.RenameInner x sn y dn)) [] = true := by
  have hsome : ∀ c, (c = s ∨ c = d) → (fs.LoadInode c).isSome = true := by
    intro c hc
    rcases hc with h | h
    · rw [h]; unfold MemFS.LoadInode; rw [hx]; rfl
    · rw [h]; unfold MemFS.LoadInode; rw [hy]; rfl
  have hsome0 : ∀ c, (c = s ∨ c = d) →
      (((fs.StoreInode s (x.Lock now)).StoreInode d dI).LoadInode c).isSome = true := by
    intro c hc
    unfold MemFS.LoadInode
    rw [MemFS.StoreInode_itable, MemFS.StoreInode_itable]
    rcases hc with h | h
    · rw [h]; split <;> simp
    · rw [h, if_pos rfl]; rfl
  have e1 : (x.Lock now).GetDirent sn = x.GetDirent sn := rfl
  have e2 : dI.GetDirent dn = y.GetDirent dn := by
    unfold MemInode.GetDirent
    rw [hdI]
  have e3 : dI.dirents.Get dn = y.dirents.Get dn := by rw [hdI]
  rw [e1, e2]
  unfold MemFS.RenameInner
  cases hs : x.GetDirent sn with
  | error e =>
    dsimp only
    rw [show ([] : List LockEvent) = childLocks none from rfl, selfBlocks_renameProgram]
    simp
  | ok sDirent =>
    dsimp only
    cases hd : y.GetDirent dn with
    | error e =>
      dsimp only
      rw [show ([] : List LockEvent) = childLocks none from rfl, selfBlocks_renameProgram]
      split <;> simp
    | ok dDirent =>
      dsimp only
      have hde : y.dirents.Get dn = some dDirent := MemInode.GetDirent_ok hd
      by_cases h1 : sDirent.Ino = dDirent.Ino
      · rw [if_pos h1, if_pos h1, show ([] : List LockEvent) = childLocks none from rfl,
          selfBlocks_renameProgram]
        simp
      · rw [if_neg h1, if_neg h1]
        by_cases h2 : IsDir sDirent.Typ = false ∧ IsDir dDirent.Typ = true
        · rw [if_pos h2, if_pos h2, show ([] : List LockEvent) = childLocks none from rfl,
            selfBlocks_renameProgram]
          simp
        · rw [if_neg h2, if_neg h2]
          by_cases h3 : IsDir sDirent.Typ = true ∧ IsDir dDirent.Typ = false
          · rw [if_pos h3, if_pos h3, show ([] : List LockEvent) = childLocks none from rfl,
              selfBlocks_renameProgram]
            simp
          · rw [if_neg h3, if_neg h3]
            by_cases h4 : IsDir dDirent.Typ = true
            · rw [if_pos h4, if_pos h4]
              have hD := MemInode.Rmdir_deadlock_iff
                ((fs.StoreInode s (x.Lock now)).StoreInode d dI) [s, d] d dI dn now dDirent
                (e3.trans hde) h4
              have hL : y.RmdirLocks fs dn =
                  childLocks (if (fs.LoadInode dDirent.Ino).isSome = true then
                    some dDirent.Ino else none) := by
                unfold MemInode.RmdirLocks
                rw [hde]
                dsimp only
                rw [if_neg (by rw [h4]; decide)]
                cases fs.LoadInode dDirent.Ino <;> rfl
              rw [hL, selfBlocks_renameProgram]
              by_cases hm : dDirent.Ino = s ∨ dDirent.Ino = d
              · have hdl := hD.2 ⟨hsome0 _ hm, by simpa using hm⟩
                rw [hdl, if_pos (hsome _ hm)]
                simp [hm]
              · have hnd : ¬ (dI.Rmdir ((fs.StoreInode s (x.Lock now)).StoreInode d dI) [s, d]
                    d dn now = .deadlock) := fun h => hm (by simpa using (hD.1 h).2)
                constructor
                · intro h
                  exfalso
                  apply hnd
                  split at h
                  · cases h
                  · cases h
                  · cases h
                  · assumption
                · intro h
                  exfalso
                  split at h
                  · cases h
                  · rename_i c heq
                    split at heq
                    · cases heq
                      exact hm (by simpa using h)
                    · cases heq
            · rw [if_neg h4, if_neg h4]
              have hD := MemInode.Unlink_deadlock_iff
                ((fs.StoreInode s (x.Lock now)).StoreInode d dI) [s, d] d dI dn now dDirent
                (e3.trans hde)
              have hL : y.UnlinkLocks fs dn =
                  childLocks (if (fs.LoadInode dDirent.Ino).isSome = true then
                    some dDirent.Ino else none) := by
                unfold MemInode.UnlinkLocks
                rw [hde]
                dsimp only
                cases fs.LoadInode dDirent.Ino <;> rfl
              rw [hL, selfBlocks_renameProgram]
              by_cases hm : dDirent.Ino = s ∨ dDirent.Ino = d
              · have hdl := hD.2 ⟨hsome0 _ hm, by simpa using hm⟩
                rw [hdl, if_pos (hsome _ hm)]
                simp [hm]
              · have hnd : ¬ (dI.Unlink ((fs.StoreInode s (x.Lock now)).StoreInode d dI)
                    [s, d] d dn now = .deadlock) := fun h => hm (by simpa using (hD.1 h).2)
                constructor
                · intro h
                  exfalso
                  apply hnd
                  split at h
                  · cases h
                  · cases h
                  · cases h
                  · assumption
                · intro h
                  exfalso
                  split at h
                  · cases h
                  · rename_i c heq
                    split at heq
                    · cases heq
                      exact hm (by simpa using h)
                    · cases heq

theorem MemFS.Rename_deadlock_iff (fs : MemFS) (s : Nat) (sn : String) (d : Nat)
    (dn : String) (now : Time) :
    fs.Rename s sn d dn now = .deadlock ↔
      selfBlocks (fs.RenameLocks s sn d dn) [] = true := by
  unfold MemFS.Rename MemFS.RenameLocks MemFS.LoadInode
  cases hx : fs.itable s with
  | none => simp [selfBlocks]
  | some x =>
    cases hy : fs.itable d with
    | none => simp [selfBlocks]
    | some y =>
      dsimp only
      refine MemFS.Rename_deadlock_aux fs s sn d dn now x y _ hx hy ?_
      by_cases hsd : s = d
      · rw [if_pos hsd]
        rw [hsd, hy] at hx
        rw [← Option.some.inj hx]
        rfl
      · rw [if_neg hsd]
        rfl

theorem MemFS.Rename_absent (fs : MemFS) (s d : Nat) (sName dName : String) (now : Time)
    (h : fs.itable s = none ∨ fs.itable d = none) :
    fs.Rename s sName d dName now = .ret (.error .ENOENT) fs := by
  unfold MemFS.Rename MemFS.LoadInode
  rcases h with h | h
  · rw [h]
  · rw [h]
    cases fs.itable s <;> rfl

theorem runSchedule_stuck (ts : List Thread) (h : ∀ k, stepThread ts k = none) :
    ∀ sch, runSchedule sch ts = ts := by
  intro sch
  induction sch with
  | nil => rfl
  | cons k ks ih =>
    unfold runSchedule
    rw [h k]
    exact ih

theorem runSchedule_append (a b : List Nat) :
    ∀ ts : List Thread, runSchedule (a ++ b) ts = runSchedule b (runSchedule a ts) := by
  induction a with
  | nil => intro ts; rfl
  | cons k ks ih =>
    intro ts
    have e1 : runSchedule ((k :: ks) ++ b) ts =
        (match stepThread ts k with
          | none => runSchedule (ks ++ b) ts
          | some ts1 => runSchedule (ks ++ b) ts1) := rfl
    have e2 : runSchedule (k :: ks) ts =
        (match stepThread ts k with
          | none => runSchedule ks ts
          | some ts1 => runSchedule ks ts1) := rfl
    rw [e1, e2]
    cases stepThread ts k with
    | none => exact ih ts
    | some ts1 => exact ih ts1

theorem stepThread_out_of_range (ts : List Thread) (k : Nat) (h : ts.length ≤ k) :
    stepThread ts k = none := by
  unfold stepThread
  rw [List.getElem?_eq_none h]

/-- C31 (code defect): the lock that Rename takes on a replaced entry breaks
its lock order, and two Renames can wait for each other for ever.  (1) When
both parents are in the table, the mutex calls of Rename are: Lock of the one
parent when the two numbers are equal, otherwise Lock of the parent with the
lower number, then Lock of the one with the higher number; then the calls of
the body (none, or Lock and Unlock of the inode of the entry it replaces);
then the Unlocks in the reverse order of the Locks.  When a parent is missing
Rename returns ENOENT, the store untouched, and touches no mutex.  (2) Rename
blocks on a mutex it holds itself exactly when its mutex calls, run alone, do.
(3) Renames that replace no entry never wait in a circle: whatever their
number, parents and schedule, either all have finished or one can make its
next mutex call.  (4) Rename from a to b and Rename from b to a never hold one
parent each: under every schedule one of the two holds no inode mutex.
(5) On `exLockCycle`, Rename of b/x onto a/y locks 2, 4 and then the replaced
directory 3; Rename of b/w to a/y/w locks 3 and then 4.  Each returns without
error when it runs alone.  After the schedule first, second, first, the first
holds 4 and 2 and waits for 3, the second holds 3 and waits for 4: neither
can make its next call, under no further schedule does the state change, and
neither call has finished. -/
theorem C31_renames_reach_circular_wait :
    (∀ (fs : MemFS) (s d : Nat) (sName dName : String),
      (fs.itable s).isSome = true → (fs.itable d).isSome = true →
      ∃ c, fs.RenameLocks s sName d dName =
        (if s = d then [.acquire s] ++ childLocks c ++ [.release s]
         else [.acquire (min s d), .acquire (max s d)] ++ childLocks c ++
           [.release (max s d), .release (min s d)])) ∧
    (∀ (fs : MemFS) (s d : Nat) (sName dName : String) (now : Time),
      fs.itable s = none ∨ fs.itable d = none →
      fs.RenameLocks s sName d dName = [] ∧
        fs.Rename s sName d dName now = .ret (.error .ENOENT) fs) ∧
    (∀ (fs : MemFS) (s d : Nat) (sName dName : String) (now : Time),
      fs.Rename s sName d dName now = .deadlock ↔
        selfBlocks (fs.RenameLocks s sName d dName) [] = true) ∧
    (∀ (ps : List (Nat × Nat)) (sch : List Nat),
      allDone (runSchedule sch
          (ps.map fun p => Thread.start (renameProgram p.1 p.2 []))) = true ∨
        ∃ k, k < (runSchedule sch
            (ps.map fun p => Thread.start (renameProgram p.1 p.2 []))).length ∧
          (stepThread (runSchedule sch
            (ps.map fun p => Thread.start (renameProgram p.1 p.2 []))) k).isSome = true) ∧
    (∀ (a b : Nat) (c1 c2 : Option Nat) (sch : List Nat) (t0 t1 : Thread), a ≠ b →
      (runSchedule sch [Thread.start (renameProgram a b (childLocks c1)),
        Thread.start (renameProgram b a (childLocks c2))])[0]? = some t0 →
      (runSchedule sch [Thread.start (renameProgram a b (childLocks c1)),
        Thread.start (renameProgram b a (childLocks c2))])[1]? = some t1 →
      (t0.held = [] ∨ t1.held = []) ∧ ¬ (a ∈ t0.held ∧ b ∈ t1.held) ∧
        ¬ (b ∈ t0.held ∧ a ∈ t1.held)) ∧
    ((Call.Rename 4 "x" 2 "y").locks exLockCycle =
        [.acquire 2, .acquire 4, .acquire 3, .release 3, .release 4, .release 2] ∧
      (Call.Rename 4 "w" 3 "w").locks exLockCycle =
        [.acquire 3, .acquire 4, .release 4, .release 3] ∧
      (exLockCycle.Rename 4 "x" 2 "y" 9).outcome.map Prod.fst = some none ∧
      (exLockCycle.Rename 4 "w" 3 "w" 9).outcome.map Prod.fst = some none ∧
      runSchedule [0, 1, 0] exLockCycleThreads =
        [{ held := [4, 2],
           rest := [.acquire 3, .release 3, .release 4, .release 2] },
         { held := [3], rest := [.acquire 4, .release 4, .release 3] }] ∧
      allDone (runSchedule [0, 1, 0] exLockCycleThreads) = false ∧
      (∀ k, stepThread (runSchedule [0, 1, 0] exLockCycleThreads) k = none) ∧
      (∀ sch, runSchedule ([0, 1, 0] ++ sch) exLockCycleThreads =
        runSchedule [0, 1, 0] exLockCycleThreads)) := by
  have hstuck : ∀ k, stepThread (runSchedule [0, 1, 0] exLockCycleThreads) k = none := by
    intro k
    by_cases h0 : k = 0
    · rw [h0]; decide
    · by_cases h1 : k = 1
      · rw [h1]; decide
      · exact stepThread_out_of_range _ k
          (by
            have hl : (runSchedule [0, 1, 0] exLockCycleThreads).length = 2 := by decide
            rw [hl]
            omega)
  refine ⟨MemFS.RenameLocks_shape,
    fun fs s d sName dName now h =>
      ⟨MemFS.RenameLocks_absent fs s d sName dName h, MemFS.Rename_absent fs s d sName dName now h⟩,
    fun fs s d sName dName now => MemFS.Rename_deadlock_iff fs s sName d dName now,
    fun ps sch => ?_,
    fun a b c1 c2 sch t0 t1 hab h0 h1 => ?_,
    by decide, by decide, by decide, by decide, by decide, by decide, hstuck, fun sch => ?_⟩
  · have hP := runSchedule_inv
      (fun t => ∃ s d, t ∈ trail [] (renameProgram s d []))
      (fun t u ht ha => by
        obtain ⟨s, d, hc⟩ := ht
        exact ⟨s, d, trail_closed _ [] t u hc ha⟩)
      sch (ps.map fun p => Thread.start (renameProgram p.1 p.2 []))
      (fun t ht => by
        obtain ⟨p, _, hp⟩ := List.mem_map.1 ht
        exact ⟨p.1, p.2, by rw [← hp]; exact trail_head [] _⟩)
    refine locking_progress _ (fun t ht => ?_) (fun t ht => ?_)
    · obtain ⟨s, d, h⟩ := hP t ht
      exact (trail_parents s d t h).1
    · obtain ⟨s, d, h⟩ := hP t ht
      exact (trail_parents s d t h).2
  · have h := opposite_renames a b c1 c2 sch t0 t1 hab h0 h1
    refine ⟨h, fun hh => ?_, fun hh => ?_⟩
    · rcases h with h | h
      · rw [h] at hh; exact absurd hh.1 (List.not_mem_nil a)
      · rw [h] at hh; exact absurd hh.2 (List.not_mem_nil b)
    · rcases h with h | h
      · rw [h] at hh; exact absurd hh.1 (List.not_mem_nil b)
      · rw [h] at hh; exact absurd hh.2 (List.not_mem_nil a)
  · rw [runSchedule_append]
    exact runSchedule_stuck _ hstuck sch

/-- C31, witness: Rename from 1 to 2 and Rename from 2 to 1 run concurrently;
after the first has locked inode 1 and the second has been given the
processor, the first holds inode 1 and the second holds nothing. -/
theorem C31_renames_reach_circular_wait_witness :
    (runSchedule [0, 1] [Thread.start (renameProgram 1 2 (childLocks none)),
        Thread.start (renameProgram 2 1 (childLocks none))])[0]? =
        some { held := [1], rest := [.acquire 2, .release 2, .release 1] } ∧
      (runSchedule [0, 1] [Thread.start (renameProgram 1 2 (childLocks none)),
        Thread.start (renameProgram 2 1 (childLocks none))])[1]? =
        some { held := [], rest := [.acquire 1, .acquire 2, .release 2, .release 1] } ∧
      ¬ ((2 : Nat) ∈ ({ held := [1], rest := [.acquire 2, .release 2, .release 1] } :
          Thread).held ∧
        (1 : Nat) ∈ ({ held := [], rest := [.acquire 1, .acquire 2, .release 2, .release 1] } :
          Thread).held) :=
  ⟨by decide, by decide,
    (C31_renames_reach_circular_wait.2.2.2.2.1 1 2 none none [0, 1]
      { held := [1], rest := [.acquire 2, .release 2, .release 1] }
      { held := [], rest := [.acquire 1, .acquire 2, .release 2, .release 1] }
      (by decide) (by decide) (by decide)).2.2⟩

end Fused
